import Mathlib

/-!
# Merry-go-round splay trees: B-tree, circular-buffer splay tree, N-ary splay tree

A shallow embedding of `BTree.tpp`, `CircularBufferSplayTree.tpp` and
`NSplayTree.tpp`.

* Keys and values are instantiated at `Int` (`Key() = Value() = 0`).
* A `std::vector` is a `List`; every indexed read, write, insert or erase
  checks its position against the current size and yields `Res.fault`
  when the C++ operation has no defined result.
* Recursive descents and loops take a fuel argument; running out of fuel is
  the separate outcome `Res.outOfFuel`. The public operations compute their
  own fuel from the state.
* B-tree nodes are values (a node owns its children); the `parent`
  back-pointer is represented by the position of the node, a node has a
  parent exactly when it is not the root.
* Splay-tree nodes live in a heap addressed by node ids, since the circular
  buffer, the tree links and the parent links alias the same nodes.
* The operations are modelled as the sequential code between lock and
  unlock; the tree mutex has a section of its own, with the locked entry
  points it is needed for.
-/

/-- Outcome of a modelled call: a result, a fault (out-of-range vector
access, dereference of a null pointer), or exhaustion of the fuel. -/
inductive Res (α : Type) where
  | ok (a : α) : Res α
  | fault : Res α
  | outOfFuel : Res α
deriving DecidableEq, Repr

namespace Res

/-- Sequencing of modelled calls. -/
def bind {α β : Type} (x : Res α) (f : α → Res β) : Res β :=
  match x with
  | .ok a => f a
  | .fault => .fault
  | .outOfFuel => .outOfFuel

instance : Monad Res where
  pure := Res.ok
  bind := Res.bind

/-- The result carried by a call, if it produced one. -/
def toOption {α : Type} : Res α → Option α
  | .ok a => some a
  | _ => none

end Res

/-! ## `std::vector` operations -/

namespace Vec

variable {α : Type}

/-- Read `v[i]`. -/
def read (v : List α) (i : Nat) : Res α :=
  match v[i]? with
  | some x => .ok x
  | none => .fault

/-- Write `v[i] = x`. -/
def set (v : List α) (i : Nat) (x : α) : Res (List α) :=
  if i < v.length then .ok (v.set i x) else .fault

/-- The call `v.insert(v.begin() + i, x)`. -/
def insert (v : List α) (i : Nat) (x : α) : Res (List α) :=
  if i ≤ v.length then .ok (v.take i ++ x :: v.drop i) else .fault

/-- The call `v.erase(v.begin() + i)`. -/
def erase (v : List α) (i : Nat) : Res (List α) :=
  if i < v.length then .ok (v.eraseIdx i) else .fault

/-- The call `v.resize(n)` with `d` the value-initialised element. -/
def resize (v : List α) (n : Nat) (d : α) : List α :=
  v.take n ++ List.replicate (n - v.length) d

/-- The range `[v.begin() + a, v.end())`. -/
def suffix (v : List α) (a : Nat) : Res (List α) :=
  if a ≤ v.length then .ok (v.drop a) else .fault

/-- The element `v[v.size() - 1]`. -/
def last (v : List α) : Res α :=
  match v.getLast? with
  | some x => .ok x
  | none => .fault

/-- The call `v.pop_back()`. -/
def popBack (v : List α) : Res (List α) :=
  if v.length = 0 then .fault else .ok v.dropLast

/-- An `int` used as a vector position. -/
def index (i : Int) : Res Nat :=
  if 0 ≤ i then .ok i.toNat else .fault

end Vec

/-! ## B-tree (`BTree.h`, `BTree.tpp`) -/

namespace BT

/-- A node of `struct BTree::Node`: keys, values, children, leaf flag and access
counter. -/
inductive Node where
  | mk (keys : List Int) (values : List Int) (children : List Node)
      (isLeaf : Bool) (accessCount : Int) : Node
deriving Repr

namespace Node

/-- Field `keys`. -/
def keys : Node → List Int
  | .mk ks _ _ _ _ => ks

/-- Field `values`. -/
def values : Node → List Int
  | .mk _ vs _ _ _ => vs

/-- Field `children`. -/
def children : Node → List Node
  | .mk _ _ cs _ _ => cs

/-- Field `isLeaf`. -/
def isLeaf : Node → Bool
  | .mk _ _ _ l _ => l

/-- Field `accessCount`. -/
def accessCount : Node → Int
  | .mk _ _ _ _ a => a

/-- The constructor `Node(maxKeys, leaf)`. -/
def new (leaf : Bool) : Node := .mk [] [] [] leaf 0

/-- Replace the children of a node. -/
def withChildren (n : Node) (cs : List Node) : Node :=
  .mk n.keys n.values cs n.isLeaf n.accessCount

mutual
/-- Number of node levels below and including a node (fuel for descents). -/
def depth : Node → Nat
  | .mk _ _ cs _ _ => depthList cs + 1
/-- Largest depth among a list of nodes. -/
def depthList : List Node → Nat
  | [] => 0
  | c :: cs => max (depth c) (depthList cs)
end

mutual
/-- The same tree with every access counter reset: keys, values, children
and leaf flags of all nodes. -/
def shape : Node → Node
  | .mk ks vs cs l _ => .mk ks vs (shapeList cs) l 0
/-- Structure of each node of a list. -/
def shapeList : List Node → List Node
  | [] => []
  | c :: cs => shape c :: shapeList cs
end

mutual
/-- Every key held anywhere in the subtree of a node. -/
def allKeys : Node → List Int
  | .mk ks _ cs _ _ => ks ++ allKeysList cs
/-- Every key held in a list of subtrees. -/
def allKeysList : List Node → List Int
  | [] => []
  | c :: cs => allKeys c ++ allKeysList cs
end

end Node

/-- State of `class BTree`. -/
structure BTree where
  minDegree_ : Int
  maxKeys_ : Int
  root_ : Node
deriving Repr

/-- The constructor `BTree(minDegree)`. -/
def BTree.new (minDegree : Int) : BTree :=
  { minDegree_ := minDegree, maxKeys_ := 2 * minDegree - 1, root_ := Node.new true }

/-- The function `findKeyIndex`: number of leading keys smaller than `key`. -/
def findKeyIndex : List Int → Int → Nat
  | [], _ => 0
  | k :: ks, key => if k < key then findKeyIndex ks key + 1 else 0

/-- The functions `splayNode` and `promoteNode`: past ten accesses the counter of
a node that has a parent is reset. -/
def splayNode (node : Node) (hasParent : Bool) : Node :=
  if node.accessCount > 10 ∧ hasParent = true then
    .mk node.keys node.values node.children node.isLeaf 0
  else node

/-- The step `node->accessCount++; splayNode(node);` of `search`. -/
def visit (node : Node) (hasParent : Bool) : Node :=
  splayNode (.mk node.keys node.values node.children node.isLeaf (node.accessCount + 1)) hasParent

/-- The loop of `search`, started at `node`. Returns the value found and the
node with the access counters updated. -/
def searchFrom : Nat → Node → Bool → Int → Res (Option Int × Node)
  | 0, _, _, _ => .outOfFuel
  | fuel + 1, node, hasParent, key =>
    let node1 := visit node hasParent
    let i := findKeyIndex node1.keys key
    if node1.keys[i]? = some key then do
      let v ← Vec.read node1.values i
      pure (some v, node1)
    else if node1.isLeaf then pure (none, node1)
    else do
      let c ← Vec.read node1.children i
      let (r, c1) ← searchFrom fuel c true key
      let cs ← Vec.set node1.children i c1
      pure (r, node1.withChildren cs)

/-- The function `search`. -/
def search (t : BTree) (key : Int) : Res (Option Int × BTree) := do
  let (r, root1) ← searchFrom t.root_.depth t.root_ false key
  pure (r, { t with root_ := root1 })

/-- The function `splitChild`. -/
def splitChild (minDegree : Int) (parent : Node) (index : Nat) : Res Node := do
  let child ← Vec.read parent.children index
  -- Move half of child's keys to new child
  let mid := minDegree - 1
  let start ← Vec.index (mid + 1)
  let newKeys ← Vec.suffix child.keys start
  let newValues ← Vec.suffix child.values start
  let midN ← Vec.index mid
  let childKeys := Vec.resize child.keys midN 0
  let childValues := Vec.resize child.values midN 0
  let (childChildren, newChildren) ←
    if child.isLeaf then (pure (child.children, []) : Res (List Node × List Node))
    else do
      let moved ← Vec.suffix child.children start
      pure (child.children.take (midN + 1), moved)
  -- Move middle key to parent
  let medianKey ← Vec.read childKeys midN
  let parentKeys ← Vec.insert parent.keys index medianKey
  let medianValue ← Vec.read childValues midN
  let parentValues ← Vec.insert parent.values index medianValue
  let childKeys1 ← Vec.erase childKeys midN
  let childValues1 ← Vec.erase childValues midN
  let child1 := Node.mk childKeys1 childValues1 childChildren child.isLeaf child.accessCount
  let newChild := Node.mk newKeys newValues newChildren child.isLeaf 0
  let cs ← Vec.set parent.children index child1
  let cs1 ← Vec.insert cs (index + 1) newChild
  pure (.mk parentKeys parentValues cs1 parent.isLeaf parent.accessCount)

/-- The shifting loop of `insertNonFull` on a leaf; `j` is `i + 1`. Returns the
vectors after the shifts and the final `i + 1`. -/
def shiftLoop (key : Int) : Nat → List Int → List Int → Res (List Int × List Int × Nat)
  | 0, ks, vs => pure (ks, vs, 0)
  | j + 1, ks, vs => do
    let kj ← Vec.read ks j
    if kj > key then do
      let ks1 ← Vec.set ks (j + 1) kj
      let vj ← Vec.read vs j
      let vs1 ← Vec.set vs (j + 1) vj
      shiftLoop key j ks1 vs1
    else pure (ks, vs, j + 1)

/-- The child-selection loop of `insertNonFull` on an internal node, including
the final `i++`; `j` is `i + 1`. -/
def scanLoop (key : Int) (ks : List Int) : Nat → Res Nat
  | 0 => pure 0
  | j + 1 => do
    let kj ← Vec.read ks j
    if kj > key then scanLoop key ks j else pure (j + 1)

/-- The function `insertNonFull`. -/
def insertNonFull (minDegree maxKeys : Int) : Nat → Node → Int → Int → Res Node
  | 0, _, _, _ => .outOfFuel
  | fuel + 1, node, key, value =>
    if node.isLeaf then do
      -- Insert into leaf
      let (ks, vs, pos) ← shiftLoop key node.keys.length (node.keys ++ [0]) (node.values ++ [0])
      let ks1 ← Vec.set ks pos key
      let vs1 ← Vec.set vs pos value
      pure (.mk ks1 vs1 node.children node.isLeaf node.accessCount)
    else do
      -- Find child to insert into
      let i ← scanLoop key node.keys node.keys.length
      let c ← Vec.read node.children i
      -- If child is full, split it
      if (c.keys.length : Int) = maxKeys then do
        let node1 ← splitChild minDegree node i
        let ki ← Vec.read node1.keys i
        let i1 := if ki < key then i + 1 else i
        let c1 ← Vec.read node1.children i1
        let c2 ← insertNonFull minDegree maxKeys fuel c1 key value
        let cs ← Vec.set node1.children i1 c2
        pure (node1.withChildren cs)
      else do
        let c2 ← insertNonFull minDegree maxKeys fuel c key value
        let cs ← Vec.set node.children i c2
        pure (node.withChildren cs)

/-- The function `insert`. -/
def insert (t : BTree) (key value : Int) : Res (Bool × BTree) := do
  -- Check if key already exists
  let (found, t1) ← search t key
  if found.isSome then pure (false, t1)
  else do
    -- If root is full, split it
    let root1 ←
      if (t1.root_.keys.length : Int) = t1.maxKeys_ then
        splitChild t1.minDegree_ (.mk [] [] [t1.root_] false 0) 0
      else pure t1.root_
    let root2 ← insertNonFull t1.minDegree_ t1.maxKeys_ root1.depth root1 key value
    pure (true, { t1 with root_ := root2 })

/-- The function `getPredecessor`, from the child `curr` onwards. -/
def rightmostKey : Nat → Node → Res Int
  | 0, _ => .outOfFuel
  | fuel + 1, curr =>
    if curr.isLeaf then Vec.last curr.keys
    else do
      let c ← Vec.last curr.children
      rightmostKey fuel c

/-- The function `getSuccessor`, from the child `curr` onwards. -/
def leftmostKey : Nat → Node → Res Int
  | 0, _ => .outOfFuel
  | fuel + 1, curr =>
    if curr.isLeaf then Vec.read curr.keys 0
    else do
      let c ← Vec.read curr.children 0
      leftmostKey fuel c

/-- The function `getPredecessor`. -/
def getPredecessor (fuel : Nat) (node : Node) (index : Nat) : Res Int := do
  let curr ← Vec.read node.children index
  rightmostKey fuel curr

/-- The function `getSuccessor`. -/
def getSuccessor (fuel : Nat) (node : Node) (index : Nat) : Res Int := do
  let curr ← Vec.read node.children (index + 1)
  leftmostKey fuel curr

/-- The function `mergeChildren`. -/
def mergeChildren (parent : Node) (index : Nat) : Res Node := do
  let child ← Vec.read parent.children index
  let sibling ← Vec.read parent.children (index + 1)
  -- Move key from parent to child
  let pk ← Vec.read parent.keys index
  let pv ← Vec.read parent.values index
  -- Copy keys and values from sibling
  let ks := child.keys ++ [pk] ++ sibling.keys
  let vs := child.values ++ [pv] ++ sibling.values
  -- Copy children if not leaf
  let cc := if child.isLeaf then child.children else child.children ++ sibling.children
  let child1 := Node.mk ks vs cc child.isLeaf child.accessCount
  -- Remove key and sibling from parent
  let pks ← Vec.erase parent.keys index
  let pvs ← Vec.erase parent.values index
  let cs ← Vec.set parent.children index child1
  let cs1 ← Vec.erase cs (index + 1)
  pure (.mk pks pvs cs1 parent.isLeaf parent.accessCount)

/-- The left-sibling branch of `borrowFromSibling`. -/
def borrowFromLeft (parent node sibling : Node) (index : Nat) : Res Node := do
  let pk ← Vec.read parent.keys (index - 1)
  let pv ← Vec.read parent.values (index - 1)
  let nodeKeys := pk :: node.keys
  let nodeValues := pv :: node.values
  let sk ← Vec.last sibling.keys
  let pks ← Vec.set parent.keys (index - 1) sk
  let sv ← Vec.last sibling.values
  let pvs ← Vec.set parent.values (index - 1) sv
  let sks ← Vec.popBack sibling.keys
  let svs ← Vec.popBack sibling.values
  let (nodeChildren, siblingChildren) ←
    if node.isLeaf then (pure (node.children, sibling.children) : Res (List Node × List Node))
    else do
      let moved ← Vec.last sibling.children
      let rest ← Vec.popBack sibling.children
      pure (moved :: node.children, rest)
  let node1 := Node.mk nodeKeys nodeValues nodeChildren node.isLeaf node.accessCount
  let sibling1 := Node.mk sks svs siblingChildren sibling.isLeaf sibling.accessCount
  let cs ← Vec.set parent.children index node1
  let cs1 ← Vec.set cs (index - 1) sibling1
  pure (.mk pks pvs cs1 parent.isLeaf parent.accessCount)

/-- The right-sibling branch of `borrowFromSibling`. -/
def borrowFromRight (parent node sibling : Node) (index : Nat) : Res Node := do
  let pk ← Vec.read parent.keys index
  let pv ← Vec.read parent.values index
  let nodeKeys := node.keys ++ [pk]
  let nodeValues := node.values ++ [pv]
  let sk ← Vec.read sibling.keys 0
  let pks ← Vec.set parent.keys index sk
  let sv ← Vec.read sibling.values 0
  let pvs ← Vec.set parent.values index sv
  let sks ← Vec.erase sibling.keys 0
  let svs ← Vec.erase sibling.values 0
  let (nodeChildren, siblingChildren) ←
    if node.isLeaf then (pure (node.children, sibling.children) : Res (List Node × List Node))
    else do
      let moved ← Vec.read sibling.children 0
      let rest ← Vec.erase sibling.children 0
      pure (node.children ++ [moved], rest)
  let node1 := Node.mk nodeKeys nodeValues nodeChildren node.isLeaf node.accessCount
  let sibling1 := Node.mk sks svs siblingChildren sibling.isLeaf sibling.accessCount
  let cs ← Vec.set parent.children index node1
  let cs1 ← Vec.set cs (index + 1) sibling1
  pure (.mk pks pvs cs1 parent.isLeaf parent.accessCount)

/-- Test `index != 0 && children[index - 1]->keys.size() >= minDegree_`, giving
the left sibling when it holds. -/
def leftDonor (minDegree : Int) (parent : Node) (index : Nat) : Res (Option Node) :=
  if index = 0 then pure none
  else do
    let s ← Vec.read parent.children (index - 1)
    if minDegree ≤ (s.keys.length : Int) then pure (some s) else pure none

/-- Test `index != children.size() - 1 && children[index + 1]->keys.size() >=
minDegree_`, giving the right sibling when it holds. -/
def rightDonor (minDegree : Int) (parent : Node) (index : Nat) : Res (Option Node) :=
  if index + 1 = parent.children.length then pure none
  else do
    let s ← Vec.read parent.children (index + 1)
    if minDegree ≤ (s.keys.length : Int) then pure (some s) else pure none

/-- The function `borrowFromSibling`. -/
def borrowFromSibling (minDegree : Int) (parent : Node) (index : Nat) : Res Node := do
  let node ← Vec.read parent.children index
  -- Try to borrow from left sibling
  match ← leftDonor minDegree parent index with
  | some sibling => borrowFromLeft parent node sibling index
  | none =>
    -- Try to borrow from right sibling
    match ← rightDonor minDegree parent index with
    | some sibling => borrowFromRight parent node sibling index
    | none =>
      -- Merge with sibling
      if index ≠ 0 then mergeChildren parent (index - 1)
      else mergeChildren parent index

/-- The function `removeFromNode`. -/
def removeFromNode (minDegree : Int) : Nat → Node → Int → Res (Bool × Node)
  | 0, _, _ => .outOfFuel
  | fuel + 1, node, key =>
    let idx := findKeyIndex node.keys key
    if node.keys[idx]? = some key then
      -- Key found in this node
      if node.isLeaf then do
        let ks ← Vec.erase node.keys idx
        let vs ← Vec.erase node.values idx
        pure (true, .mk ks vs node.children node.isLeaf node.accessCount)
      else do
        let left ← Vec.read node.children idx
        if minDegree ≤ (left.keys.length : Int) then do
          -- Replace with predecessor
          let predKey ← getPredecessor fuel node idx
          let ks ← Vec.set node.keys idx predKey
          let (r, c) ← removeFromNode minDegree fuel left predKey
          let cs ← Vec.set node.children idx c
          pure (r, .mk ks node.values cs node.isLeaf node.accessCount)
        else do
          let right ← Vec.read node.children (idx + 1)
          if minDegree ≤ (right.keys.length : Int) then do
            -- Replace with successor
            let succKey ← getSuccessor fuel node idx
            let ks ← Vec.set node.keys idx succKey
            let (r, c) ← removeFromNode minDegree fuel right succKey
            let cs ← Vec.set node.children (idx + 1) c
            pure (r, .mk ks node.values cs node.isLeaf node.accessCount)
          else do
            -- Merge children
            let node1 ← mergeChildren node idx
            let merged ← Vec.read node1.children idx
            let (r, c) ← removeFromNode minDegree fuel merged key
            let cs ← Vec.set node1.children idx c
            pure (r, node1.withChildren cs)
    else
      -- Key not in this node
      if node.isLeaf then pure (false, node)
      else do
        let flag := decide (idx = node.keys.length)
        let target ← Vec.read node.children idx
        let node1 ←
          if (target.keys.length : Int) < minDegree then borrowFromSibling minDegree node idx
          else pure node
        let j := if flag = true ∧ idx > node1.keys.length then idx - 1 else idx
        let next ← Vec.read node1.children j
        let (r, c) ← removeFromNode minDegree fuel next key
        let cs ← Vec.set node1.children j c
        pure (r, node1.withChildren cs)

/-- The function `remove`. -/
def remove (t : BTree) (key : Int) : Res (Bool × BTree) :=
  if t.root_.keys.length = 0 then pure (false, t)
  else do
    let (result, root1) ← removeFromNode t.minDegree_ t.root_.depth t.root_ key
    -- If root becomes empty and has a child, make child the new root
    if root1.keys.length = 0 ∧ root1.isLeaf = false then do
      let c ← Vec.read root1.children 0
      pure (result, { t with root_ := c })
    else pure (result, { t with root_ := root1 })

/-- The `for` loop of `inOrderTraversal` from position `i` on, given the
traversal `walk` of a child. -/
def inOrderKeys (walk : Node → Res (List (Int × Int))) (node : Node) :
    Nat → Nat → Res (List (Int × Int))
  | 0, _ => pure []
  | n + 1, i => do
    let sub ← if node.isLeaf then (pure [] : Res (List (Int × Int)))
      else do
        let c ← Vec.read node.children i
        walk c
    let k ← Vec.read node.keys i
    let v ← Vec.read node.values i
    let rest ← inOrderKeys walk node n (i + 1)
    pure (sub ++ (k, v) :: rest)

/-- The function `inOrderTraversal`, returning the pairs it appends. -/
def inOrderTraversal : Nat → Node → Res (List (Int × Int))
  | 0, _ => .outOfFuel
  | fuel + 1, node => do
    let front ← inOrderKeys (inOrderTraversal fuel) node node.keys.length 0
    if node.isLeaf then pure front
    else do
      let c ← Vec.last node.children
      let back ← inOrderTraversal fuel c
      pure (front ++ back)

/-- The function `sort`. -/
def sort (t : BTree) : Res (List (Int × Int)) :=
  inOrderTraversal t.root_.depth t.root_

mutual
/-- The function `calculateSize`. -/
def calculateSize : Node → Nat
  | .mk ks _ cs l _ => ks.length + (if l then 0 else calculateSizeList cs)
/-- The loop of `calculateSize` over the children. -/
def calculateSizeList : List Node → Nat
  | [] => 0
  | c :: cs => calculateSize c + calculateSizeList cs
end

/-- The function `size`. -/
def size (t : BTree) : Nat := calculateSize t.root_

mutual
/-- The function `calculateHeight`. -/
def calculateHeight : Node → Nat
  | .mk _ _ cs l _ => if l then 1 else 1 + maxChildHeight cs
/-- The loop of `calculateHeight` over the children. -/
def maxChildHeight : List Node → Nat
  | [] => 0
  | c :: cs => max (calculateHeight c) (maxChildHeight cs)
end

/-- The function `height`. -/
def height (t : BTree) : Nat := calculateHeight t.root_

/-- Operations of the public interface that change the tree. -/
inductive Op where
  | insert (key value : Int) : Op
  | remove (key : Int) : Op
deriving DecidableEq, Repr

/-- Apply one operation, keeping the tree it leaves. -/
def applyOp (t : BTree) : Op → Res BTree
  | .insert k v => do
    let (_, t1) ← insert t k v
    pure t1
  | .remove k => do
    let (_, t1) ← remove t k
    pure t1

/-- Apply a sequence of operations in order. -/
def run (t : BTree) : List Op → Res BTree
  | [] => pure t
  | op :: ops => do
    let t1 ← applyOp t op
    run t1 ops

end BT

/-! ## Circular-buffer splay tree (`CircularBufferSplayTree.h`, `.tpp`) -/

namespace CBST

/-- The enumeration `SortMode`. -/
inductive SortMode where
  | LEXICOGRAPHIC : SortMode
  | NUMERIC : SortMode
  | SEMANTIC : SortMode
deriving DecidableEq, Repr

/-- The enumeration `SortOrder`. -/
inductive SortOrder where
  | ASCENDING : SortOrder
  | DESCENDING : SortOrder
deriving DecidableEq, Repr

/-- A `std::shared_ptr<Node>`: `none` is `nullptr`, `some p` the node with id `p`. -/
abbrev Ptr := Option Nat

/-- A node of `struct CircularBufferSplayTree::Node`. -/
structure Node where
  key : Int
  value : Int
  left : Ptr
  right : Ptr
  parent : Ptr
  accessCount : Int
  subtreeSize : Int
  bufferIndex : Nat
deriving DecidableEq, Repr

/-- The constructor `Node(k, v, idx)`. -/
def Node.new (k v : Int) (idx : Nat) : Node :=
  { key := k, value := v, left := none, right := none, parent := none,
    accessCount := 0, subtreeSize := 1, bufferIndex := idx }

/-- State of `class CircularBufferSplayTree`, with the store `heap` of every node
created so far (a node id is its position in `heap`). -/
structure Tree where
  bufferSize_ : Nat
  currentSize_ : Nat
  nextIndex_ : Nat
  circularBuffer_ : List Ptr
  root_ : Ptr
  defaultSortMode_ : SortMode
  lexicographicCmp_ : Int → Int → Bool
  numericCmp_ : Int → Int → Bool
  semanticCmp_ : Int → Int → Bool
  heap : List Node

/-- Width of `size_t`. -/
def sizeModulus : Nat := 2 ^ 64

/-- Decimal digits of a natural number, most significant first, as character
codes. -/
def decimalDigits : Nat → Nat → List Nat → List Nat
  | 0, _, acc => acc
  | fuel + 1, n, acc =>
    if n < 10 then (48 + n) :: acc else decimalDigits fuel (n / 10) ((48 + n % 10) :: acc)

/-- What `ostringstream << a` prints for an integer key, as character codes. -/
def printed (a : Int) : List Nat :=
  if a < 0 then 45 :: decimalDigits (a.natAbs + 1) a.natAbs []
  else decimalDigits (a.natAbs + 1) a.natAbs []

/-- The comparison `std::string::operator<`. -/
def stringLess : List Nat → List Nat → Bool
  | [], [] => false
  | [], _ :: _ => true
  | _ :: _, [] => false
  | a :: as, b :: bs => if a < b then true else if b < a then false else stringLess as bs

/-- The constructor `CircularBufferSplayTree(bufferSize, mode)`. -/
def Tree.new (bufferSize : Nat) (mode : SortMode) : Tree :=
  { bufferSize_ := bufferSize, currentSize_ := 0, nextIndex_ := 0,
    circularBuffer_ := List.replicate bufferSize none, root_ := none,
    defaultSortMode_ := mode,
    lexicographicCmp_ := fun a b => stringLess (printed a) (printed b),
    numericCmp_ := fun a b => decide (a < b),
    semanticCmp_ := fun a b => decide (a < b),
    heap := [] }

/-- Dereference a pointer. -/
def deref (p : Ptr) : Res Nat :=
  match p with
  | some i => .ok i
  | none => .fault

/-- Read the node with id `p`. -/
def Tree.node (t : Tree) (p : Nat) : Res Node := Vec.read t.heap p

/-- Overwrite fields of the node with id `p`. -/
def Tree.update (t : Tree) (p : Nat) (f : Node → Node) : Res Tree := do
  let n ← t.node p
  let h ← Vec.set t.heap p (f n)
  pure { t with heap := h }

/-- The function `deallocateNode` for a non-null node. -/
def deallocateNode (t : Tree) (node : Nat) : Res Tree := do
  let n ← t.node node
  -- Remove from tree structure
  let t1 ←
    match n.parent with
    | none => (pure t : Res Tree)
    | some par => do
      let pn ← t.node par
      if pn.left = some node then t.update par (fun x => { x with left := none })
      else if pn.right = some node then t.update par (fun x => { x with right := none })
      else pure t
  let t2 := if t1.root_ = some node then { t1 with root_ := none } else t1
  -- Clear buffer slot
  let t3 ←
    if n.bufferIndex < t2.circularBuffer_.length then do
      let b ← Vec.set t2.circularBuffer_ n.bufferIndex none
      (pure { t2 with circularBuffer_ := b } : Res Tree)
    else pure t2
  pure { t3 with currentSize_ := (t3.currentSize_ + sizeModulus - 1) % sizeModulus }

/-- The function `allocateNode`; returns the id of the new node. -/
def allocateNode (t : Tree) (key value : Int) : Res (Nat × Tree) := do
  -- Use circular buffer - overwrite oldest if full
  let t1 ←
    if t.currentSize_ ≥ t.bufferSize_ then do
      let slot ← Vec.read t.circularBuffer_ t.nextIndex_
      match slot with
      | some old => deallocateNode t old
      | none => pure t
    else (pure { t with currentSize_ := t.currentSize_ + 1 } : Res Tree)
  let node := t1.heap.length
  let t2 := { t1 with heap := t1.heap ++ [Node.new key value t1.nextIndex_] }
  let b ← Vec.set t2.circularBuffer_ t2.nextIndex_ (some node)
  if t2.bufferSize_ = 0 then .fault
  else pure (node, { t2 with circularBuffer_ := b,
                             nextIndex_ := (t2.nextIndex_ + 1) % t2.bufferSize_ })

/-- The function `compareLess`. -/
def compareLess (t : Tree) (a b : Int) (mode : SortMode) : Bool :=
  match mode with
  | .LEXICOGRAPHIC => t.lexicographicCmp_ a b
  | .NUMERIC => t.numericCmp_ a b
  | .SEMANTIC => t.semanticCmp_ a b

/-- The function `compareEqual`. -/
def compareEqual (t : Tree) (a b : Int) (mode : SortMode) : Bool :=
  !compareLess t a b mode && !compareLess t b a mode

/-- The function `updateSubtreeSize` for a non-null node. -/
def updateSubtreeSize : Nat → Tree → Nat → Res Tree
  | 0, _, _ => .outOfFuel
  | fuel + 1, t, node => do
    let n ← t.node node
    let l ← match n.left with
      | some c => do
        let cn ← t.node c
        (pure cn.subtreeSize : Res Int)
      | none => pure 0
    let r ← match n.right with
      | some c => do
        let cn ← t.node c
        (pure cn.subtreeSize : Res Int)
      | none => pure 0
    let t1 ← t.update node (fun x => { x with subtreeSize := 1 + l + r })
    match n.parent with
    | some par => updateSubtreeSize fuel t1 par
    | none => pure t1

/-- Fuel for the loops and recursions over the nodes of a tree. -/
def Tree.fuel (t : Tree) : Nat := t.heap.length + 1

/-- The function `zig`. -/
def zig (t : Tree) (node : Nat) : Res Tree := do
  let n ← t.node node
  match n.parent with
  | none => pure t
  | some parent => do
    let t1 ← t.update parent (fun x => { x with left := n.right })
    let t2 ← match n.right with
      | some r => t1.update r (fun x => { x with parent := some parent })
      | none => pure t1
    let pn ← t2.node parent
    let t3 ← t2.update node (fun x => { x with parent := pn.parent })
    let t4 ← match pn.parent with
      | some g => do
        let gn ← t3.node g
        if gn.left = some parent then t3.update g (fun x => { x with left := some node })
        else t3.update g (fun x => { x with right := some node })
      | none => pure t3
    let t5 ← t4.update node (fun x => { x with right := some parent })
    let t6 ← t5.update parent (fun x => { x with parent := some node })
    let t7 ← updateSubtreeSize t6.fuel t6 parent
    updateSubtreeSize t7.fuel t7 node

/-- The function `zag`. -/
def zag (t : Tree) (node : Nat) : Res Tree := do
  let n ← t.node node
  match n.parent with
  | none => pure t
  | some parent => do
    let t1 ← t.update parent (fun x => { x with right := n.left })
    let t2 ← match n.left with
      | some l => t1.update l (fun x => { x with parent := some parent })
      | none => pure t1
    let pn ← t2.node parent
    let t3 ← t2.update node (fun x => { x with parent := pn.parent })
    let t4 ← match pn.parent with
      | some g => do
        let gn ← t3.node g
        if gn.left = some parent then t3.update g (fun x => { x with left := some node })
        else t3.update g (fun x => { x with right := some node })
      | none => pure t3
    let t5 ← t4.update node (fun x => { x with left := some parent })
    let t6 ← t5.update parent (fun x => { x with parent := some node })
    let t7 ← updateSubtreeSize t6.fuel t6 parent
    updateSubtreeSize t7.fuel t7 node

/-- The function `zigZig`. -/
def zigZig (t : Tree) (node : Nat) : Res Tree := do
  let n ← t.node node
  let parent ← deref n.parent
  let t1 ← zig t parent
  zig t1 node

/-- The function `zagZag`. -/
def zagZag (t : Tree) (node : Nat) : Res Tree := do
  let n ← t.node node
  let parent ← deref n.parent
  let t1 ← zag t parent
  zag t1 node

/-- The function `zigZag`. -/
def zigZag (t : Tree) (node : Nat) : Res Tree := do
  let t1 ← zig t node
  zag t1 node

/-- The function `zagZig`. -/
def zagZig (t : Tree) (node : Nat) : Res Tree := do
  let t1 ← zag t node
  zig t1 node

/-- The `while` loop of `splay`. -/
def splayLoop : Nat → Tree → Nat → Res Tree
  | 0, _, _ => .outOfFuel
  | fuel + 1, t, node => do
    let n ← t.node node
    match n.parent with
    | none => pure t
    | some parent => do
      let pn ← t.node parent
      match pn.parent with
      | none =>
        -- Zig or Zag
        let t1 ← if pn.left = some node then zig t node else zag t node
        splayLoop fuel t1 node
      | some grandparent => do
        let gn ← t.node grandparent
        let t1 ←
          if pn.left = some node ∧ gn.left = some parent then zigZig t node
          else if pn.right = some node ∧ gn.right = some parent then zagZag t node
          else if pn.left = some node ∧ gn.right = some parent then zigZag t node
          else zagZig t node
        splayLoop fuel t1 node

/-- The function `splay`. -/
def splay (t : Tree) (node : Ptr) : Res Tree :=
  match node with
  | none => pure t
  | some p =>
    if t.root_ = some p then pure t
    else do
      let t1 ← splayLoop t.fuel t p
      pure { t1 with root_ := some p }

/-- The function `findNodeRecursive`. -/
def findNodeRecursive : Nat → Tree → Ptr → Int → Res Ptr
  | 0, _, _, _ => .outOfFuel
  | _ + 1, _, none, _ => pure none
  | fuel + 1, t, some p, key => do
    let n ← t.node p
    if compareEqual t n.key key t.defaultSortMode_ then pure (some p)
    else if compareLess t key n.key t.defaultSortMode_ then findNodeRecursive fuel t n.left key
    else findNodeRecursive fuel t n.right key

/-- The function `findNode`. -/
def findNode (t : Tree) (key : Int) : Res Ptr :=
  findNodeRecursive t.fuel t t.root_ key

/-- The function `insertNode`. -/
def insertNode : Nat → Tree → Nat → Int → Int → Res Tree
  | 0, _, _, _, _ => .outOfFuel
  | fuel + 1, t, node, key, value => do
    let n ← t.node node
    if compareLess t key n.key t.defaultSortMode_ then
      match n.left with
      | none => do
        let (newNode, t1) ← allocateNode t key value
        let t2 ← t1.update newNode (fun x => { x with parent := some node })
        let t3 ← t2.update node (fun x => { x with left := some newNode })
        updateSubtreeSize t3.fuel t3 node
      | some l => insertNode fuel t l key value
    else
      match n.right with
      | none => do
        let (newNode, t1) ← allocateNode t key value
        let t2 ← t1.update newNode (fun x => { x with parent := some node })
        let t3 ← t2.update node (fun x => { x with right := some newNode })
        updateSubtreeSize t3.fuel t3 node
      | some r => insertNode fuel t r key value

/-- The function `insert`. -/
def insert (t : Tree) (key value : Int) : Res (Bool × Tree) :=
  match t.root_ with
  | none => do
    let (node, t1) ← allocateNode t key value
    pure (true, { t1 with root_ := some node })
  | some root => do
    let found ← findNode t key
    let present ← match found with
      | some p => do
        let n ← t.node p
        (pure (compareEqual t n.key key t.defaultSortMode_) : Res Bool)
      | none => pure false
    if present then do
      -- Key exists, update value
      let p ← deref found
      let t1 ← t.update p (fun x => { x with value := value })
      let t2 ← splay t1 (some p)
      pure (false, t2)
    else do
      -- Insert new node
      let start := match found with
        | some p => p
        | none => root
      let t1 ← insertNode t.fuel t start key value
      let newNode ← findNode t1 key
      let t2 ← splay t1 newNode
      pure (true, t2)

/-- The function `search`; returns the value pointed to by the result. -/
def search (t : Tree) (key : Int) : Res (Option Int × Tree) := do
  let found ← findNode t key
  match found with
  | some p => do
    let n ← t.node p
    if compareEqual t n.key key t.defaultSortMode_ then do
      let t1 ← t.update p (fun x => { x with accessCount := x.accessCount + 1 })
      let t2 ← splay t1 (some p)
      let n2 ← t2.node p
      pure (some n2.value, t2)
    else pure (none, t)
  | none => pure (none, t)

/-- The successor walk of `removeNode`: leftmost node from `successor` down. -/
def leftmost : Nat → Tree → Nat → Res Nat
  | 0, _, _ => .outOfFuel
  | fuel + 1, t, successor => do
    let n ← t.node successor
    match n.left with
    | some l => leftmost fuel t l
    | none => pure successor

/-- The splice shared by the leaf and one-child cases of `removeNode`:
`child` takes the place of `node`, then `node` is deallocated. -/
def replaceBy (t : Tree) (node : Nat) (child : Ptr) : Res Tree := do
  let n ← t.node node
  let t1 ←
    match n.parent with
    | some par => do
      let pn ← t.node par
      let t1 ←
        if pn.left = some node then t.update par (fun x => { x with left := child })
        else t.update par (fun x => { x with right := child })
      let t2 ← match child with
        | some c => t1.update c (fun x => { x with parent := some par })
        | none => pure t1
      updateSubtreeSize t2.fuel t2 par
    | none => do
      let t1 := { t with root_ := child }
      match child with
      | some c => t1.update c (fun x => { x with parent := none })
      | none => (pure t1 : Res Tree)
  deallocateNode t1 node

/-- The function `removeNode`. -/
def removeNode : Nat → Tree → Nat → Res Tree
  | 0, _, _ => .outOfFuel
  | fuel + 1, t, node => do
    let n ← t.node node
    match n.left, n.right with
    | none, none => replaceBy t node none
    | none, some r => replaceBy t node (some r)
    | some l, none => replaceBy t node (some l)
    | some _, some r => do
      -- Two children - find successor
      let successor ← leftmost t.fuel t r
      let sn ← t.node successor
      -- Replace node with successor
      let t1 ← t.update node (fun x => { x with key := sn.key, value := sn.value })
      removeNode fuel t1 successor

/-- The function `remove`. -/
def remove (t : Tree) (key : Int) : Res (Bool × Tree) := do
  let found ← findNode t key
  match found with
  | none => pure (false, t)
  | some p => do
    let n ← t.node p
    if compareEqual t n.key key t.defaultSortMode_ then do
      let t1 ← splay t (some p)
      let t2 ← removeNode t1.fuel t1 p
      pure (true, t2)
    else pure (false, t)

/-- The function `inOrderHelper`, returning the pairs it appends. -/
def inOrderHelper : Nat → Tree → Ptr → SortOrder → SortMode → Res (List (Int × Int))
  | 0, _, _, _, _ => .outOfFuel
  | _ + 1, _, none, _, _ => pure []
  | fuel + 1, t, some p, order, mode => do
    let n ← t.node p
    if order = SortOrder.ASCENDING then do
      let a ← inOrderHelper fuel t n.left order mode
      let b ← inOrderHelper fuel t n.right order mode
      pure (a ++ (n.key, n.value) :: b)
    else do
      let a ← inOrderHelper fuel t n.right order mode
      let b ← inOrderHelper fuel t n.left order mode
      pure (a ++ (n.key, n.value) :: b)

/-- The function `sort`. -/
def sort (t : Tree) (order : SortOrder) (mode : SortMode) : Res (List (Int × Int)) :=
  inOrderHelper t.fuel t t.root_ order mode

/-- The function `size`. -/
def size (t : Tree) : Nat := t.currentSize_

/-- The function `getBufferSize`. -/
def getBufferSize (t : Tree) : Nat := t.bufferSize_

/-- Calls of the public interface. -/
inductive Op where
  | insert (key value : Int) : Op
  | remove (key : Int) : Op
  | search (key : Int) : Op
deriving DecidableEq, Repr

/-- Apply one call, keeping the state it leaves. -/
def applyOp (t : Tree) : Op → Res Tree
  | .insert k v => do
    let (_, t1) ← insert t k v
    pure t1
  | .remove k => do
    let (_, t1) ← remove t k
    pure t1
  | .search k => do
    let (_, t1) ← search t k
    pure t1

/-- Apply a sequence of calls in order. -/
def run (t : Tree) : List Op → Res Tree
  | [] => pure t
  | op :: ops => do
    let t1 ← applyOp t op
    run t1 ops

end CBST

/-! ## B-tree invariants (spec §3.1) and reference functions -/

namespace BT

/-- Strictly between the optional bounds `lo` and `hi`. -/
def within (lo hi : Option Int) (k : Int) : Bool :=
  (match lo with
   | some l => decide (l < k)
   | none => true) &&
  (match hi with
   | some h => decide (k < h)
   | none => true)

/-- Keys strictly ascending, all strictly between `lo` and `hi`. -/
def ascending (lo hi : Option Int) : List Int → Bool
  | [] => true
  | k :: ks => within lo hi k && ascending (some k) hi ks

mutual
/-- Node shape: `|values| = |keys|`, a leaf has no children, an internal node
has `|keys| + 1` children, in every node of the subtree. -/
def shaped : Node → Bool
  | .mk ks vs cs leaf _ =>
    decide (vs.length = ks.length) &&
      (if leaf then cs.isEmpty else decide (cs.length = ks.length + 1) && shapedList cs)
/-- Shape of every node of a list. -/
def shapedList : List Node → Bool
  | [] => true
  | c :: cs => shaped c && shapedList cs
end

mutual
/-- Search-tree order: the keys of a node are strictly ascending between `lo`
and `hi`, and child `i` holds keys strictly between key `i - 1` and key `i`. -/
def ordered (lo hi : Option Int) : Node → Bool
  | .mk ks _ cs leaf _ =>
    ascending lo hi ks && (if leaf then true else orderedKids lo hi ks cs)
/-- Order of the children of a node against its keys. -/
def orderedKids (lo hi : Option Int) : List Int → List Node → Bool
  | _, [] => false
  | [], [c] => ordered lo hi c
  | [], _ :: _ :: _ => false
  | k :: ks, c :: cs => ordered lo (some k) c && orderedKids (some k) hi ks cs
end

mutual
/-- Key counts and leaf depth of a non-root node at `h` levels above the
leaves: between `t - 1` and `2t - 1` keys, a leaf exactly when `h = 0`. -/
def balanced (t : Int) (h : Nat) : Node → Bool
  | .mk ks _ cs leaf _ =>
    decide (t - 1 ≤ (ks.length : Int)) && decide ((ks.length : Int) ≤ 2 * t - 1) &&
      (if leaf then decide (h = 0) else decide (0 < h) && balancedList t (h - 1) cs)
/-- Key counts and leaf depth of every node of a list. -/
def balancedList (t : Int) (h : Nat) : List Node → Bool
  | [] => true
  | c :: cs => balanced t h c && balancedList t h cs
end

/-- Key counts and leaf depth at the root: at most `2t - 1` keys, and an
internal root has at least one key and balanced children of equal height. -/
def rootBalanced (t : Int) (root : Node) : Bool :=
  decide ((root.keys.length : Int) ≤ 2 * t - 1) &&
    (if root.isLeaf then true
     else decide (0 < root.keys.length) && balancedList t (root.depth - 2) root.children)

/-- The B-tree invariants of a tree with min degree `t`. -/
def wellFormed (t : BTree) : Bool :=
  decide (t.maxKeys_ = 2 * t.minDegree_ - 1) && shaped t.root_ && ordered none none t.root_ &&
    rootBalanced t.minDegree_ t.root_

/-- Sequences of the children interleaved with the pairs of their parent:
`s₀, kv₀, s₁, kv₁, …, sₙ`. -/
def weave : List (Int × Int) → List (List (Int × Int)) → List (Int × Int)
  | _, [] => []
  | [], s :: _ => s
  | kv :: kvs, s :: ss => s ++ kv :: weave kvs ss

/-- Each child sequence followed by the pair to its right: `s₀, kv₀, s₁, kv₁, …`,
up to the last pair. -/
def lead : List (Int × Int) → List (List (Int × Int)) → List (Int × Int)
  | kv :: kvs, s :: ss => s ++ kv :: lead kvs ss
  | _, _ => []

mutual
/-- In-order sequence of the `(key, value)` pairs of a subtree. -/
def pairs : Node → List (Int × Int)
  | .mk ks vs cs leaf _ => if leaf then ks.zip vs else weave (ks.zip vs) (pairsList cs)
/-- In-order sequences of a list of subtrees. -/
def pairsList : List Node → List (List (Int × Int))
  | [] => []
  | c :: cs => pairs c :: pairsList cs
end

mutual
/-- Reference lookup: the value paired with `key` on the search path. -/
def lookup (key : Int) : Node → Option Int
  | .mk ks vs cs leaf _ =>
    if ks[findKeyIndex ks key]? = some key then vs[findKeyIndex ks key]?
    else if leaf then none
    else lookupAt key cs (findKeyIndex ks key)
/-- Reference lookup in the child at position `i`. -/
def lookupAt (key : Int) : List Node → Nat → Option Int
  | [], _ => none
  | c :: _, 0 => lookup key c
  | _ :: cs, i + 1 => lookupAt key cs i
end

/-- A leaf holding the given keys and values. -/
def leaf (ks vs : List Int) : Node := .mk ks vs [] true 0

/-- Min degree 2: root `[10, 20]` over the leaves `[5]`, `[15]`, `[25]`; the
value of key `k` is `10 * k`. -/
def threeLeaves : BTree :=
  { minDegree_ := 2, maxKeys_ := 3,
    root_ := .mk [10, 20] [100, 200] [leaf [5] [50], leaf [15] [150], leaf [25] [250]] false 0 }

/-- Min degree 2: root `[20]` over the leaves `[10]` and `[30, 40, 50]` (spec
scenario 2); the value of key `k` is `10 * k`. -/
def successorScenario : BTree :=
  { minDegree_ := 2, maxKeys_ := 3,
    root_ := .mk [20] [200] [leaf [10] [100], leaf [30, 40, 50] [300, 400, 500]] false 0 }

end BT

/-! ## N-ary splay tree (`NSplayTree.h`, `NSplayTree.tpp`)

Keys are integers (for `RollingChecksum` keys, the composite `value` that all
its comparison operators compare); the value type is a parameter. Nodes live
in a heap addressed by node ids, as for the circular-buffer splay tree. -/

namespace NST

/-- A `std::shared_ptr<Node>`: `none` is `nullptr`, `some p` the node with id `p`. -/
abbrev Ptr := Option Nat

/-- A node of `struct NSplayTree::Node`. -/
structure Node (V : Type) where
  key : Int
  value : V
  children : List Nat
  parent : Ptr
  accessCount : Int
  subtreeSize : Int
  maxChildren : Int
deriving DecidableEq, Repr

/-- The constructor `Node(k, v, maxChildren)`. -/
def Node.new {V : Type} (k : Int) (v : V) (maxChildren : Int) : Node V :=
  { key := k, value := v, children := [], parent := none, accessCount := 0,
    subtreeSize := 1, maxChildren := maxChildren }

/-- State of `class NSplayTree`, with the store `heap` of every node created so
far (a node id is its position in `heap`). -/
structure Tree (V : Type) where
  initialBranching_ : Int
  maxBranching_ : Int
  root_ : Ptr
  heap : List (Node V)
deriving DecidableEq, Repr

variable {V : Type}

/-- The constructor `NSplayTree(initialBranching, maxBranching)`. -/
def Tree.new (initialBranching maxBranching : Int) : Tree V :=
  { initialBranching_ := initialBranching, maxBranching_ := maxBranching,
    root_ := none, heap := [] }

/-- Read the node with id `p`. -/
def Tree.node (t : Tree V) (p : Nat) : Res (Node V) := Vec.read t.heap p

/-- Overwrite fields of the node with id `p`. -/
def Tree.update (t : Tree V) (p : Nat) (f : Node V → Node V) : Res (Tree V) := do
  let n ← t.node p
  let h ← Vec.set t.heap p (f n)
  pure { t with heap := h }

/-- The call `std::make_shared<Node>(...)`: the id of the new node and the state
holding it. -/
def Tree.alloc (t : Tree V) (n : Node V) : Nat × Tree V :=
  (t.heap.length, { t with heap := t.heap ++ [n] })

/-- Fuel for the walks along parent pointers and child vectors: a walk that
takes more steps than there are nodes has met a node twice and never ends. -/
def Tree.fuel (t : Tree V) : Nat := t.heap.length + 1

/-- The comparison `size > m` of a `size_t` with an `int` (the `int` is converted
to unsigned, so a negative `m` is never exceeded). -/
def sizeGreater (size : Nat) (m : Int) : Bool :=
  decide (0 ≤ m ∧ m < (size : Int))

/-- The keys of the nodes in a children vector. -/
def childKeys (t : Tree V) : List Nat → Res (List Int)
  | [] => pure []
  | c :: cs => do
    let n ← t.node c
    let ks ← childKeys t cs
    pure (n.key :: ks)

/-- The function `updateSubtreeSize` for a non-null node. -/
def updateSubtreeSize : Nat → Tree V → Nat → Res (Tree V)
  | 0, _, _ => .outOfFuel
  | fuel + 1, t, node => do
    let n ← t.node node
    let sizes ← (fun cs => sumSizes t cs) n.children
    let t1 ← t.update node (fun x => { x with subtreeSize := 1 + sizes })
    match n.parent with
    | some par => updateSubtreeSize fuel t1 par
    | none => pure t1
where
  /-- Sum of the `subtreeSize` fields of the children. -/
  sumSizes (t : Tree V) : List Nat → Res Int
    | [] => pure 0
    | c :: cs => do
      let n ← t.node c
      let rest ← sumSizes t cs
      pure (n.subtreeSize + rest)

/-- The scan `while (it != end && (*it)->key < key) ++it` over the keys of a
children vector: the position reached. -/
def lowerPosition (key : Int) : List Int → Nat
  | [] => 0
  | k :: ks => if k < key then lowerPosition key ks + 1 else 0

/-- The loop `for (auto& c : children) c->parent = p`. -/
def setParents (t : Tree V) (p : Nat) : List Nat → Res (Tree V)
  | [] => pure t
  | c :: cs => do
    let t1 ← t.update c (fun x => { x with parent := some p })
    setParents t1 p cs

/-- The function `splitNode`. -/
def splitNode : Nat → Tree V → Nat → Res (Tree V)
  | 0, _, _ => .outOfFuel
  | fuel + 1, t, node => do
    let n ← t.node node
    if !sizeGreater n.children.length n.maxChildren then pure t
    else do
      let mid := n.children.length / 2
      let cmid ← Vec.read n.children mid
      let cm ← t.node cmid
      let (newNode, t1) := t.alloc
        { Node.new cm.key cm.value n.maxChildren with parent := n.parent }
      -- Move half children to new node
      let moved := n.children.drop (mid + 1)
      let t2 ← setParents t1 newNode moved
      let t3 ← t2.update newNode (fun x => { x with children := x.children ++ moved })
      let t4 ← t3.update node (fun x => { x with children := x.children.take (mid + 1) })
      -- Insert new node into parent
      let n4 ← t4.node node
      let t5 ← match n4.parent with
        | some par => do
          let pn ← t4.node par
          let ks ← childKeys t4 pn.children
          let cs ← Vec.insert pn.children (lowerPosition cm.key ks) newNode
          let t5 ← t4.update par (fun x => { x with children := cs })
          let pn5 ← t5.node par
          if sizeGreater pn5.children.length pn5.maxChildren then splitNode fuel t5 par
          else pure t5
        | none => do
          -- Create new root
          let (newRoot, t5) := t4.alloc
            { Node.new n4.key n4.value n4.maxChildren with children := [node, newNode] }
          let t6 ← t5.update node (fun x => { x with parent := some newRoot })
          let t7 ← t6.update newNode (fun x => { x with parent := some newRoot })
          (pure { t7 with root_ := some newRoot } : Res (Tree V))
      let t6 ← updateSubtreeSize t5.fuel t5 node
      updateSubtreeSize t6.fuel t6 newNode

/-- One step of `std::sort` on a children vector by key. The vectors sorted here
are short, and the standard libraries sort a short range by insertion: a child
goes after the children whose key is not greater, so children with equal keys
keep their order. -/
def insertByKey (c : Nat × Int) : List (Nat × Int) → List (Nat × Int)
  | [] => [c]
  | d :: ds => if c.2 < d.2 then c :: d :: ds else d :: insertByKey c ds

/-- The call `std::sort(children.begin(), children.end(), by key)`. -/
def sortByKey (t : Tree V) (cs : List Nat) : Res (List Nat) := do
  let ks ← childKeys t cs
  pure ((List.foldl (fun acc c => insertByKey c acc) [] (cs.zip ks)).map Prod.fst)

/-- The loop of `zig` that moves the other children of the parent to `node`:
each gets `node` as parent and is appended to the children of `node`. -/
def moveChildren (t : Tree V) (node : Nat) : List Nat → Res (Tree V)
  | [] => pure t
  | c :: cs =>
    if c ≠ node then do
      let t1 ← t.update c (fun x => { x with parent := some node })
      let t2 ← t1.update node (fun x => { x with children := x.children ++ [c] })
      moveChildren t2 node cs
    else moveChildren t node cs

/-- The loop of `zig` that replaces the first occurrence of `old` by `new`. -/
def replaceFirst (old new : Nat) : List Nat → List Nat
  | [] => []
  | c :: cs => if c = old then new :: cs else c :: replaceFirst old new cs

/-- The function `zig`. -/
def zig (t : Tree V) (node : Nat) : Res (Tree V) := do
  let n ← t.node node
  match n.parent with
  | none => pure t
  | some parent => do
    -- Remove node from parent's children
    let t1 ← t.update parent (fun x => { x with children := x.children.filter (· ≠ node) })
    -- Make parent a child of node
    let pn ← t1.node parent
    let t2 ← t1.update node (fun x => { x with parent := pn.parent })
    let t3 ← match pn.parent with
      | some g => t2.update g (fun x => { x with children := replaceFirst parent node x.children })
      | none => pure t2
    -- Move parent's other children to node
    let pn3 ← t3.node parent
    let t4 ← moveChildren t3 node pn3.children
    let t5 ← t4.update parent (fun x => { x with parent := some node })
    let t6 ← t5.update node (fun x => { x with children := x.children ++ [parent] })
    -- Sort children by key
    let n6 ← t6.node node
    let sorted ← sortByKey t6 n6.children
    let t7 ← t6.update node (fun x => { x with children := sorted })
    let t8 ← updateSubtreeSize t7.fuel t7 node
    updateSubtreeSize t8.fuel t8 parent

/-- The function `zag`: it delegates to `zig`. -/
def zag (t : Tree V) (node : Nat) : Res (Tree V) := do
  let n ← t.node node
  match n.parent with
  | none => pure t
  | some _ => zig t node

/-- Dereference a pointer. -/
def deref (p : Ptr) : Res Nat :=
  match p with
  | some i => .ok i
  | none => .fault

/-- The function `zigZig`. -/
def zigZig (t : Tree V) (node : Nat) : Res (Tree V) := do
  let n ← t.node node
  let parent ← deref n.parent
  let t1 ← zig t parent
  zig t1 node

/-- The function `zagZag`. -/
def zagZag (t : Tree V) (node : Nat) : Res (Tree V) := do
  let n ← t.node node
  let parent ← deref n.parent
  let t1 ← zag t parent
  zag t1 node

/-- The function `zigZag`. -/
def zigZag (t : Tree V) (node : Nat) : Res (Tree V) := do
  let t1 ← zig t node
  zag t1 node

/-- The function `zagZig`. -/
def zagZig (t : Tree V) (node : Nat) : Res (Tree V) := do
  let t1 ← zag t node
  zig t1 node

/-- The largest `s ≤ r` with `s * s ≤ n`. -/
def sqrtBelow (n : Nat) : Nat → Nat
  | 0 => 0
  | r + 1 => if (r + 1) * (r + 1) ≤ n then r + 1 else sqrtBelow n r

/-- The value of `static_cast<int>(std::sqrt(n))` for an `int` `n`: the square
root rounded down (taken as `0` for a negative `n`). -/
def intSqrt (n : Int) : Int := (sqrtBelow n.toNat n.toNat : Nat)

/-- The function `adjustBranching` for a non-null node. -/
def adjustBranching (t : Tree V) (node : Nat) : Res (Tree V) := do
  let n ← t.node node
  let currentSize := n.subtreeSize
  let optimalBranching := min t.maxBranching_ (max t.initialBranching_ (intSqrt currentSize))
  let t1 ←
    if n.maxChildren ≠ optimalBranching ∧
        sizeGreater n.children.length optimalBranching = false then
      t.update node (fun x => { x with maxChildren := optimalBranching })
    else pure t
  -- If node has too many children, split
  let n1 ← t1.node node
  if sizeGreater n1.children.length n1.maxChildren then splitNode t1.fuel t1 node
  else pure t1

/-- The loops of `splay` that set `nodeIsLeft` and `parentIsLeft`: whether the
first occurrence of `x` in the vector is at position 0. -/
def isFirstChild (x : Nat) (cs : List Nat) : Bool :=
  match cs with
  | [] => false
  | c :: _ => decide (c = x)

/-- The `while` loop of `splay`. -/
def splayLoop : Nat → Tree V → Nat → Res (Tree V)
  | 0, _, _ => .outOfFuel
  | fuel + 1, t, node => do
    let n ← t.node node
    match n.parent with
    | none => pure t
    | some parent => do
      let pn ← t.node parent
      let t1 ← match pn.parent with
        | none =>
          -- Zig or Zag
          if isFirstChild node pn.children then zig t node else zag t node
        | some grandparent => do
          let gn ← t.node grandparent
          let nodeIsLeft := isFirstChild node pn.children
          let parentIsLeft := isFirstChild parent gn.children
          if nodeIsLeft ∧ parentIsLeft then zigZig t node
          else if ¬ nodeIsLeft ∧ ¬ parentIsLeft then zagZag t node
          else if nodeIsLeft ∧ ¬ parentIsLeft then zigZag t node
          else zagZig t node
      let t2 ← adjustBranching t1 node
      splayLoop fuel t2 node

/-- The function `splay`; `fuel` bounds the number of iterations of its `while`
loop, which creates nodes as it runs. -/
def splay (fuel : Nat) (t : Tree V) (node : Ptr) : Res (Tree V) :=
  match node with
  | none => pure t
  | some p =>
    if t.root_ = some p then pure t
    else do
      let t1 ← splayLoop fuel t p
      pure { t1 with root_ := some p }

/-- The child chosen by the `for` loop of `findNodeRecursive` and the test after
it, from position `i` on; `ks` are the keys of the children from `i` on and `k0`
is the key of the first child. -/
def pickChild (key k0 : Int) : Nat → List Int → Option Nat
  | _, [] => if key < k0 then some 0 else none
  | i, [k] => if key ≥ k then some i else if key < k0 then some 0 else none
  | i, k :: k1 :: ks =>
    if key ≥ k ∧ key < k1 then some i else pickChild key k0 (i + 1) (k1 :: ks)

/-- The function `findNodeRecursive`. -/
def findNodeRecursive : Nat → Tree V → Ptr → Int → Res Ptr
  | 0, _, _, _ => .outOfFuel
  | _ + 1, _, none, _ => pure none
  | fuel + 1, t, some p, key => do
    let n ← t.node p
    if n.key = key then pure (some p)
    else if n.children.isEmpty then pure (some p)
    else do
      let ks ← childKeys t n.children
      let k0 ← Vec.read ks 0
      match pickChild key k0 0 ks with
      | some i => do
        let c ← Vec.read n.children i
        findNodeRecursive fuel t (some c) key
      | none => pure (some p)

/-- The function `findNode`. -/
def findNode (t : Tree V) (key : Int) : Res Ptr :=
  findNodeRecursive t.fuel t t.root_ key

/-- The loop of `insertNode` that sets `childIndex`, from position `i` on; `ks`
are the keys of the children from `i` on. -/
def childIndexFrom (key : Int) : Nat → List Int → Nat
  | _, [] => 0
  | i, [_] => i
  | i, _ :: k1 :: ks => if k1 > key then i else childIndexFrom key (i + 1) (k1 :: ks)

/-- The function `insertNode`. -/
def insertNode : Nat → Tree V → Nat → Int → V → Res (Tree V)
  | 0, _, _, _, _ => .outOfFuel
  | fuel + 1, t, node, key, value => do
    let n ← t.node node
    if n.children.isEmpty then do
      -- Leaf node - add as child
      let (newNode, t1) := t.alloc
        { Node.new key value t.initialBranching_ with parent := some node }
      -- Insert in sorted order
      let ks ← childKeys t1 n.children
      let cs ← Vec.insert n.children (lowerPosition key ks) newNode
      let t2 ← t1.update node (fun x => { x with children := cs })
      -- Check if we need to split
      let n2 ← t2.node node
      let t3 ← if sizeGreater n2.children.length n2.maxChildren then splitNode t2.fuel t2 node
        else pure t2
      updateSubtreeSize t3.fuel t3 node
    else do
      -- Find child to insert into
      let ks ← childKeys t n.children
      let childIndex := childIndexFrom key 0 ks
      let t1 ←
        if childIndex < n.children.length then do
          let c ← Vec.read n.children childIndex
          insertNode fuel t c key value
        else do
          -- Insert as new child
          let (newNode, t1) := t.alloc
            { Node.new key value t.initialBranching_ with parent := some node }
          let t2 ← t1.update node (fun x => { x with children := x.children ++ [newNode] })
          let n2 ← t2.node node
          if sizeGreater n2.children.length n2.maxChildren then splitNode t2.fuel t2 node
          else pure t2
      updateSubtreeSize t1.fuel t1 node

/-- The function `insert`; `fuel` is passed to `splay`. -/
def insert (fuel : Nat) (t : Tree V) (key : Int) (value : V) : Res (Bool × Tree V) :=
  match t.root_ with
  | none =>
    let (root, t1) := t.alloc (Node.new key value t.initialBranching_)
    pure (true, { t1 with root_ := some root })
  | some root => do
    -- Search for the key
    let found ← findNode t key
    let present ← match found with
      | some p => do
        let n ← t.node p
        (pure (decide (n.key = key)) : Res Bool)
      | none => pure false
    if present then do
      -- Key exists, update value
      let p ← deref found
      let t1 ← t.update p (fun x => { x with value := value })
      let t2 ← splay fuel t1 (some p)
      pure (false, t2)
    else do
      -- Insert new node
      let start := match found with
        | some p => p
        | none => root
      let t1 ← insertNode t.fuel t start key value
      let newNode ← findNode t1 key
      let t2 ← splay fuel t1 newNode
      pure (true, t2)

/-- The function `search`; returns the value pointed to by the result. `fuel` is
passed to `splay`. -/
def search (fuel : Nat) (t : Tree V) (key : Int) : Res (Option V × Tree V) := do
  let found ← findNode t key
  match found with
  | some p => do
    let n ← t.node p
    if n.key = key then do
      let t1 ← t.update p (fun x => { x with accessCount := x.accessCount + 1 })
      let t2 ← splay fuel t1 (some p)
      let n2 ← t2.node p
      pure (some n2.value, t2)
    else pure (none, t)
  | none => pure (none, t)

/-- The successor walk of `removeNode`: first children down to a childless
node. -/
def firstLeaf : Nat → Tree V → Nat → Res Nat
  | 0, _, _ => .outOfFuel
  | fuel + 1, t, successor => do
    let n ← t.node successor
    match n.children with
    | [] => pure successor
    | c :: _ => firstLeaf fuel t c

/-- The function `removeNode`. -/
def removeNode : Nat → Tree V → Nat → Res (Tree V)
  | 0, _, _ => .outOfFuel
  | fuel + 1, t, node => do
    let n ← t.node node
    match n.children with
    | [] =>
      -- Leaf node - just remove from parent
      match n.parent with
      | some par => do
        let t1 ← t.update par (fun x => { x with children := x.children.filter (· ≠ node) })
        updateSubtreeSize t1.fuel t1 par
      | none => pure { t with root_ := none }
    | c :: _ => do
      -- Find successor and replace
      let successor ← firstLeaf t.fuel t c
      let sn ← t.node successor
      let t1 ← t.update node (fun x => { x with key := sn.key, value := sn.value })
      removeNode fuel t1 successor

/-- The function `remove`; `fuel` is passed to `splay`. -/
def remove (fuel : Nat) (t : Tree V) (key : Int) : Res (Bool × Tree V) := do
  let found ← findNode t key
  match found with
  | none => pure (false, t)
  | some p => do
    let n ← t.node p
    if n.key ≠ key then pure (false, t)
    else do
      let t1 ← splay fuel t (some p)
      let t2 ← removeNode t1.fuel t1 p
      pure (true, t2)

/-- The function `inOrderHelper`, returning the pairs it appends. -/
def inOrderHelper : Nat → Tree V → Ptr → Res (List (Int × V))
  | 0, _, _ => .outOfFuel
  | _ + 1, _, none => pure []
  | fuel + 1, t, some p => do
    let n ← t.node p
    match n.children with
    | [] => pure [(n.key, n.value)]
    | cs => walk (fun c => inOrderHelper fuel t (some c)) (n.key, n.value) cs
where
  /-- The `for` loop over the children: each child is visited, and the pair of the
  node is appended after every child but the last. -/
  walk (visit : Nat → Res (List (Int × V))) (own : Int × V) :
      List Nat → Res (List (Int × V))
    | [] => pure []
    | [c] => visit c
    | c :: d :: cs => do
      let a ← visit c
      let b ← walk visit own (d :: cs)
      pure (a ++ own :: b)

/-- The function `inOrderTraversal`. -/
def inOrderTraversal (t : Tree V) : Res (List (Int × V)) :=
  inOrderHelper t.fuel t t.root_

/-- The function `size`: `calculateSize(root_)`, the `int` counter `subtreeSize` of
the root converted to `size_t`. -/
def size (t : Tree V) : Res Nat :=
  match t.root_ with
  | none => pure 0
  | some root => do
    let n ← t.node root
    pure (n.subtreeSize % (2 : Int) ^ 64).toNat

/-- Calls of the public interface. -/
inductive Op (V : Type) where
  | insert (key : Int) (value : V) : Op V
  | remove (key : Int) : Op V
  | search (key : Int) : Op V
deriving DecidableEq, Repr

/-- Apply one call, keeping the state it leaves. -/
def applyOp (fuel : Nat) (t : Tree V) : Op V → Res (Tree V)
  | .insert k v => do
    let (_, t1) ← insert fuel t k v
    pure t1
  | .remove k => do
    let (_, t1) ← remove fuel t k
    pure t1
  | .search k => do
    let (_, t1) ← search fuel t k
    pure t1

/-- Apply a sequence of calls in order. -/
def run (fuel : Nat) (t : Tree V) : List (Op V) → Res (Tree V)
  | [] => pure t
  | op :: ops => do
    let t1 ← applyOp fuel t op
    run fuel t1 ops

/-- The tree after `insert(2,20)`, `insert(1,10)`, `insert(3,30)`, `insert(4,40)`
into an empty tree with branching 2 to 16: node 0 (key 2) is a child of nodes
1, 2 and 3, and the child links 2 → 0 → 1 → 2 form a cycle. -/
def afterFour : Tree Int :=
  { initialBranching_ := 2, maxBranching_ := 16, root_ := some 3,
    heap := [
      { key := 2, value := 20, children := [1], parent := some 3, accessCount := 0,
        subtreeSize := 2, maxChildren := 2 },
      { key := 1, value := 10, children := [0, 2], parent := some 3, accessCount := 0,
        subtreeSize := 6, maxChildren := 2 },
      { key := 3, value := 30, children := [0], parent := some 3, accessCount := 0,
        subtreeSize := 3, maxChildren := 2 },
      { key := 4, value := 40, children := [1, 0, 2], parent := none, accessCount := 0,
        subtreeSize := 12, maxChildren := 3 }] }

/-- The tree after `insert(1,10)`, `insert(2,20)`, `insert(3,30)` into an empty
tree with branching 2 to 16 and the splay of node 1 (key 2) that `remove(2)`
starts with: the child links 0 → 1 → 0 form a cycle. -/
def splayedTwo : Tree Int :=
  { initialBranching_ := 2, maxBranching_ := 16, root_ := some 1,
    heap := [
      { key := 1, value := 10, children := [1], parent := some 1, accessCount := 0,
        subtreeSize := 2, maxChildren := 2 },
      { key := 2, value := 20, children := [0, 2], parent := none, accessCount := 0,
        subtreeSize := 6, maxChildren := 2 },
      { key := 3, value := 30, children := [0], parent := some 1, accessCount := 0,
        subtreeSize := 3, maxChildren := 2 }] }

end NST

/-! ## Circular-buffer splay tree: observations and representation invariant -/

/-- The result of a computation, if it returns one, satisfies `P`. -/
def Res.All {α : Type} (P : α → Prop) : Res α → Prop
  | .ok a => P a
  | _ => True


namespace CBST

/-- The key of the root node, if there is one. -/
def rootKey (t : Tree) : Option Int :=
  match t.root_ with
  | some r => (t.heap[r]?).map Node.key
  | none => none

/-- A binary tree of node ids: the shape of the structure linked under a
pointer. -/
inductive Shape where
  | nil : Shape
  | node (l : Shape) (id : Nat) (r : Shape) : Shape
deriving DecidableEq, Repr

/-- The pointer to a tree of this shape. -/
def Shape.root : Shape → Ptr
  | .nil => none
  | .node _ i _ => some i

/-- The node ids of a shape, left subtree first, then the node, then the right
subtree. -/
def Shape.ids : Shape → List Nat
  | .nil => []
  | .node l i r => l.ids ++ i :: r.ids

/-- The heap `h` holds a tree of shape `s` below the parent `par`: every node of
the shape exists, its `left` and `right` point to the roots of its subtrees and
its `parent` points back. -/
def rep (h : List Node) : Ptr → Shape → Bool
  | _, .nil => true
  | par, .node l i r =>
    match h[i]? with
    | some n =>
      decide (n.parent = par) && decide (n.left = l.root) && decide (n.right = r.root) &&
        rep h (some i) l && rep h (some i) r
    | none => false

/-- The (key, value) pairs stored in the nodes of a shape, in the order of
`Shape.ids`. -/
def pairsOf (h : List Node) (s : Shape) : List (Int × Int) :=
  s.ids.filterMap (fun i => (h[i]?).map (fun n => (n.key, n.value)))

/-- The keys stored in the nodes of a shape, in the order of `Shape.ids`. -/
def keysOf (h : List Node) (s : Shape) : List Int :=
  (pairsOf h s).map Prod.fst

/-- The search-tree invariant under the comparison `less`: at every node, every
key of the left subtree is less than the key of the node, and every key of the
right subtree is greater. -/
def ordered (less : Int → Int → Bool) (h : List Node) : Shape → Bool
  | .nil => true
  | .node l i r =>
    match h[i]? with
    | some n =>
      (keysOf h l).all (fun k => less k n.key) && (keysOf h r).all (fun k => less n.key k) &&
        ordered less h l && ordered less h r
    | none => false

/-- The comparison of keys under the default sort mode of the tree. -/
def Tree.less (t : Tree) (a b : Int) : Bool :=
  compareLess t a b t.defaultSortMode_

/-- The representation invariant: `root_` points to a tree of shape `s` whose
nodes are pairwise distinct and linked consistently. -/
structure Valid (t : Tree) (s : Shape) : Prop where
  root : t.root_ = s.root
  linked : rep t.heap none s = true
  distinct : s.ids.Nodup

/-- One step of a path from a node up to the root: the parent `id` together with
the subtree on its other side. `left` means the path comes from the left
child. -/
inductive Frame where
  | left (id : Nat) (sib : Shape) : Frame
  | right (id : Nat) (sib : Shape) : Frame

/-- The parent node of a frame. -/
def Frame.id : Frame → Nat
  | .left i _ => i
  | .right i _ => i

/-- The subtree rooted at the parent of a frame, given the subtree the path
comes from. -/
def Frame.fill : Frame → Shape → Shape
  | .left i c, s => .node s i c
  | .right i c, s => .node c i s

/-- The node ids of a frame: the parent and the subtree on the other side. -/
def Frame.ids : Frame → List Nat
  | .left i c => i :: c.ids
  | .right i c => i :: c.ids

/-- The whole tree, given a subtree and the path from it to the root (nearest
frame first). -/
def plug : List Frame → Shape → Shape
  | [], s => s
  | f :: ctx, s => plug ctx (f.fill s)

/-- The parent pointer of the subtree a path starts from. -/
def ctxParent : List Frame → Ptr
  | [] => none
  | f :: _ => some f.id

/-- The node ids on and beside a path. -/
def ctxIds : List Frame → List Nat
  | [] => []
  | f :: ctx => f.ids ++ ctxIds ctx

/-- The heap `h` holds the path `ctx` above the pointer `hole`. -/
def repCtx (h : List Node) : List Frame → Ptr → Prop
  | [], _ => True
  | .left i c :: ctx, hole =>
    (∃ n, h[i]? = some n ∧ n.parent = ctxParent ctx ∧ n.left = hole ∧ n.right = c.root) ∧
      rep h (some i) c = true ∧ repCtx h ctx (some i)
  | .right i c :: ctx, hole =>
    (∃ n, h[i]? = some n ∧ n.parent = ctxParent ctx ∧ n.left = c.root ∧ n.right = hole) ∧
      rep h (some i) c = true ∧ repCtx h ctx (some i)

/-- A node without its links and its subtree size. -/
def Node.content (n : Node) : Node :=
  { n with left := none, right := none, parent := none, subtreeSize := 0 }

/-- What a duplicate-free list `x :: p :: (a ++ b ++ c ++ k)` says about its
parts. -/
structure Apart (x p : Nat) (a b c k : List Nat) : Prop where
  xp : x ≠ p
  xa : x ∉ a
  xb : x ∉ b
  xc : x ∉ c
  xk : x ∉ k
  pa : p ∉ a
  pb : p ∉ b
  pc : p ∉ c
  pk : p ∉ k
  ab : ∀ j ∈ a, j ∉ b
  ac : ∀ j ∈ a, j ∉ c
  ak : ∀ j ∈ a, j ∉ k
  bc : ∀ j ∈ b, j ∉ c
  bk : ∀ j ∈ b, j ∉ k
  ck : ∀ j ∈ c, j ∉ k
  na : a.Nodup
  nb : b.Nodup
  nc : c.Nodup
  nk : k.Nodup

/-- The state with another heap. -/
def Tree.withHeap (t : Tree) (h : List Node) : Tree :=
  { t with heap := h }

/-- The state with another root pointer. -/
def Tree.withRoot (t : Tree) (r : Ptr) : Tree :=
  { t with root_ := r }

/-- The test `node && compareEqual(node->key, key, defaultSortMode_)` that
`insert`, `search` and `remove` apply to the result of `findNode`: the key is
in the tree under the default sort mode. -/
def holds (t : Tree) (key : Int) : Bool :=
  match findNode t key with
  | .ok (some p) =>
    match t.heap[p]? with
    | some n => compareEqual t n.key key t.defaultSortMode_
    | none => false
  | _ => false

/-- The value of a `size_t` counter after `--`: it wraps around at zero. -/
def decremented : Nat → Nat
  | 0 => sizeModulus - 1
  | c + 1 => c % sizeModulus

/-- The state after `deallocateNode` has given up a node: the buffer as left by
the call and the count decremented. -/
def Tree.freed (t : Tree) (buf : List Ptr) : Tree :=
  { t with circularBuffer_ := buf, currentSize_ := decremented t.currentSize_ }

/-- The laws of a strict weak ordering, which `std::map`-style comparators are
required to satisfy. -/
structure StrictWeak (less : Int → Int → Bool) : Prop where
  irrefl : ∀ a, less a a = false
  trans : ∀ a b c, less a b = true → less b c = true → less a c = true
  cotrans : ∀ a b c, less a b = true → less a c = true ∨ less c b = true

/-- Equality of keys as `compareEqual` derives it from a comparison. -/
def equiv (less : Int → Int → Bool) (a b : Int) : Bool :=
  !less a b && !less b a

/-- The part of the state that no call changes: the capacity, the default sort
mode and the comparators. -/
def Tree.config (t : Tree) :
    Nat × SortMode × (Int → Int → Bool) × (Int → Int → Bool) × (Int → Int → Bool) :=
  (t.bufferSize_, t.defaultSortMode_, t.lexicographicCmp_, t.numericCmp_, t.semanticCmp_)

/-- The part of the state that only an allocation changes: the configuration,
the write position, the number of slots and the number of nodes created so
far. -/
def Tree.layout (t : Tree) :
    (Nat × SortMode × (Int → Int → Bool) × (Int → Int → Bool) × (Int → Int → Bool)) ×
      Nat × Nat × Nat :=
  (t.config, t.nextIndex_, t.circularBuffer_.length, t.heap.length)

/-- The state holds a search tree of shape `s` under the default comparator, a
strict weak order, and its bookkeeping agrees with the tree: `size()` counts
its nodes, the buffer has one slot per unit of capacity and the write position
lies inside the buffer. -/
structure Sound (t : Tree) (s : Shape) : Prop where
  valid : Valid t s
  sorted : ordered t.less t.heap s = true
  strict : StrictWeak t.less
  counted : size t = s.ids.length
  slots : t.circularBuffer_.length = t.bufferSize_
  next : 0 < t.bufferSize_ → t.nextIndex_ < t.bufferSize_

/-- The (key, value) pair of the node with id `i`, if there is one. -/
def entryAt (h : List Node) (i : Nat) : Option (Int × Int) :=
  (h[i]?).map (fun n => (n.key, n.value))

/-- The state after `allocateNode` has taken a free slot for a node with the
given key and value: the node is appended to the store, its id is written at
the write position, and the write position and the count advance. -/
def Tree.grown (t : Tree) (k v : Int) : Tree :=
  { t with
    currentSize_ := t.currentSize_ + 1
    heap := t.heap ++ [Node.new k v t.nextIndex_]
    circularBuffer_ := t.circularBuffer_.set t.nextIndex_ (some t.heap.length)
    nextIndex_ := (t.nextIndex_ + 1) % t.bufferSize_ }

/-- A node with the child pointer on the side of the frame's hole replaced. -/
def Frame.attach (f : Frame) (c : Ptr) (x : Node) : Node :=
  match f with
  | .left _ _ => { x with left := c }
  | .right _ _ => { x with right := c }

/-- Whether a call is an `insert`. -/
def Op.isInsert : Op → Bool
  | .insert _ _ => true
  | _ => false

/-- A node without its subtree size. -/
def Node.links (n : Node) : Node :=
  { n with subtreeSize := 0 }

/-- The tree of spec scenario 3: capacity 8, numeric mode, after inserting 5, 2,
8, 1, 9 and searching 1. -/
def scenario3 : Tree :=
  { Tree.new 8 .NUMERIC with
    currentSize_ := 5
    nextIndex_ := 5
    circularBuffer_ := [some 0, some 1, some 2, some 3, some 4, none, none, none]
    root_ := some 3
    heap := [
      { key := 5, value := 50, left := none, right := none, parent := some 1,
        accessCount := 0, subtreeSize := 1, bufferIndex := 0 },
      { key := 2, value := 20, left := none, right := some 0, parent := some 2,
        accessCount := 0, subtreeSize := 2, bufferIndex := 1 },
      { key := 8, value := 80, left := some 1, right := some 4, parent := some 3,
        accessCount := 0, subtreeSize := 4, bufferIndex := 2 },
      { key := 1, value := 10, left := none, right := some 2, parent := none,
        accessCount := 1, subtreeSize := 5, bufferIndex := 3 },
      { key := 9, value := 90, left := none, right := none, parent := some 2,
        accessCount := 0, subtreeSize := 1, bufferIndex := 4 }] }

/-- The shape of `scenario3`: node 3 (key 1) at the root, node 2 (key 8) to its
right, with node 1 (key 2) over node 0 (key 5) on the left and node 4 (key 9)
on the right. -/
def scenario3Shape : Shape :=
  .node .nil 3 (.node (.node .nil 1 (.node .nil 0 .nil)) 2 (.node .nil 4 .nil))

end CBST

/-! ## Rolling checksum and block index (`NSplayTree.h`) -/

namespace NST

/-- The number of values of a `uint32_t`. -/
def wordModulus : Nat := 2 ^ 32

/-- A `struct RollingChecksum`; the three fields are `uint32_t`. -/
structure RollingChecksum where
  a : Nat
  b : Nat
  value : Nat
deriving DecidableEq, Repr

/-- The constructor `RollingChecksum()`. -/
def RollingChecksum.default : RollingChecksum := { a := 1, b := 0, value := 0 }

/-- The constructor `RollingChecksum(a, b)`; the arguments are converted to
`uint32_t`, and `(b << 16) | a` is computed on `uint32_t`. -/
def RollingChecksum.new (a b : Nat) : RollingChecksum :=
  { a := a % wordModulus, b := b % wordModulus,
    value := (((b % wordModulus) <<< 16) % wordModulus) ||| (a % wordModulus) }

/-- The operator `<` of `RollingChecksum`. -/
def RollingChecksum.lt (x y : RollingChecksum) : Bool := decide (x.value < y.value)

/-- The operator `>` of `RollingChecksum`. -/
def RollingChecksum.gt (x y : RollingChecksum) : Bool := decide (x.value > y.value)

/-- The operator `==` of `RollingChecksum`. -/
def RollingChecksum.eq (x y : RollingChecksum) : Bool := decide (x.value = y.value)

/-- The operator `!=` of `RollingChecksum`. -/
def RollingChecksum.ne (x y : RollingChecksum) : Bool := decide (x.value ≠ y.value)

/-- The operator `<=` of `RollingChecksum`. -/
def RollingChecksum.le (x y : RollingChecksum) : Bool := decide (x.value ≤ y.value)

/-- The operator `>=` of `RollingChecksum`. -/
def RollingChecksum.ge (x y : RollingChecksum) : Bool := decide (x.value ≥ y.value)

/-- The composite `(b << 16) | a` of the halves of a checksum, on `uint32_t`. -/
def RollingChecksum.composite (c : RollingChecksum) : Nat :=
  ((c.b <<< 16) % wordModulus) ||| c.a

/-- The key of the tree that stands for a checksum: the field `value`, which is
all that the comparison operators read. -/
def RollingChecksum.key (c : RollingChecksum) : Int := (c.value : Int)

/-- A `struct BlockMetadata`. -/
structure BlockMetadata where
  checksum : RollingChecksum
  strongHash : Nat
  blockIndex : Nat
  blockSize : Nat
  data : List Nat
deriving DecidableEq, Repr

/-- The constructor `BlockMetadata(cs, sh, idx, sz)`. -/
def BlockMetadata.new (cs : RollingChecksum) (sh idx sz : Nat) : BlockMetadata :=
  { checksum := cs, strongHash := sh % wordModulus, blockIndex := idx, blockSize := sz,
    data := [] }

/-- The function `insertBlock`. -/
def insertBlock (fuel : Nat) (t : Tree BlockMetadata) (block : BlockMetadata) :
    Res (Tree BlockMetadata) := do
  let (_, t1) ← insert fuel t block.checksum.key block
  pure t1

/-- The function `findMatchingBlocks`. -/
def findMatchingBlocks (t : Tree BlockMetadata) (checksum : RollingChecksum)
    (strongHash : Nat) : Res (List BlockMetadata) := do
  let node ← findNode t checksum.key
  match node with
  | some p => do
    let n ← t.node p
    if n.key = checksum.key then
      if n.value.strongHash = strongHash then pure [n.value] else pure []
    else pure []
  | none => pure []

/-- The block with checksum `(a, 0)`, strong hash `h` and index `i`. -/
def sampleBlock (a h i : Nat) : BlockMetadata :=
  BlockMetadata.new (RollingChecksum.new a 0) h i 4096

/-- The block index after `insertBlock` of the blocks with checksums `(2, 0)`,
`(1, 0)`, `(3, 0)`, `(4, 0)` into an empty tree with branching 2 to 16: the
links are those of `afterFour`. -/
def blocksFour : Tree BlockMetadata :=
  { initialBranching_ := 2, maxBranching_ := 16, root_ := some 3,
    heap := [
      { key := 2, value := sampleBlock 2 187 0, children := [1], parent := some 3,
        accessCount := 0, subtreeSize := 2, maxChildren := 2 },
      { key := 1, value := sampleBlock 1 170 1, children := [0, 2], parent := some 3,
        accessCount := 0, subtreeSize := 6, maxChildren := 2 },
      { key := 3, value := sampleBlock 3 204 2, children := [0], parent := some 3,
        accessCount := 0, subtreeSize := 3, maxChildren := 2 },
      { key := 4, value := sampleBlock 4 221 3, children := [1, 0, 2], parent := none,
        accessCount := 0, subtreeSize := 12, maxChildren := 3 }] }

/-! ## N-ary splay tree: observations -/

variable {V : Type}

/-- The nodes reachable from the nodes of `todo` along child links, each listed
once, after those of `seen`. Every step takes one node off `todo`, and a node
puts its children on `todo` once, so `fuel` steps are enough when `fuel`
exceeds the length of `todo` plus the number of child links of the store. -/
def reachFrom : Nat → Tree V → List Nat → List Nat → List Nat
  | 0, _, _, seen => seen
  | _ + 1, _, [], seen => seen
  | fuel + 1, t, p :: todo, seen =>
    if seen.contains p then reachFrom fuel t todo seen
    else
      match t.heap[p]? with
      | some n => reachFrom fuel t (n.children ++ todo) (seen ++ [p])
      | none => reachFrom fuel t todo seen

/-- The nodes reachable from the root along child links, each listed once. -/
def reachable (t : Tree V) : List Nat :=
  match t.root_ with
  | some r => reachFrom ((t.heap.map (fun n => n.children.length)).sum + 2) t [r] []
  | none => []

/-- The keys of the nodes with the given ids. -/
def keysAt (t : Tree V) (ps : List Nat) : List Int :=
  ps.filterMap (fun p => (t.heap[p]?).map (fun n => n.key))

/-- A list of keys is strictly ascending. -/
def strictlyAscending : List Int → Bool
  | a :: b :: ks => decide (a < b) && strictlyAscending (b :: ks)
  | _ => true

/-- The key of the root node. -/
def rootKey (t : Tree V) : Option Int :=
  t.root_.bind (fun r => (t.heap[r]?).map (fun n => n.key))

end NST

/-! ## B-tree: key counts and leaf depths -/

namespace BT

mutual
/-- Key counts below the root: between `t - 1` and `2t - 1` keys in every node
of the subtree. -/
def keyCounts (t : Int) : Node → Bool
  | .mk ks _ cs _ _ =>
    decide (t - 1 ≤ (ks.length : Int)) && decide ((ks.length : Int) ≤ 2 * t - 1) &&
      keyCountsList t cs
/-- Key counts of every node of a list of subtrees. -/
def keyCountsList (t : Int) : List Node → Bool
  | [] => true
  | c :: cs => keyCounts t c && keyCountsList t cs
end

mutual
/-- The node counts of the paths from a node down to the leaves below it. -/
def leafDepths : Node → List Nat
  | .mk _ _ cs l _ => if l then [1] else (leafDepthsList cs).map (· + 1)
/-- The node counts of the paths from the nodes of a list down to the leaves. -/
def leafDepthsList : List Node → List Nat
  | [] => []
  | c :: cs => leafDepths c ++ leafDepthsList cs
end

end BT

namespace NST
variable {V : Type}

/-- The branching parameters of the tree are `ib` and `mb`, every node of the
store allows at least one child, and the keys of the store start with `K`. -/
def Tree.Keeps (ib mb : Int) (K : List Int) (t : Tree V) : Prop :=
  t.initialBranching_ = ib ∧ t.maxBranching_ = mb ∧ (∀ n ∈ t.heap, 1 ≤ n.maxChildren) ∧
    K <+: t.heap.map (fun n => n.key)

end NST

namespace NST

end NST

/-! ## The tree mutex

Each container has one `std::mutex treeMutex_`, locked through
`std::lock_guard` at the start of a public function and released when it
returns. The functions below are the public functions with their lock; the
functions of the sections above are their bodies. -/

/-- A `std::mutex`, as the calling thread sees it: whether it holds the lock. -/
structure Mutex where
  held : Bool
deriving DecidableEq, Repr

namespace Mutex

/-- The constructor of `std::lock_guard`, which calls `lock()`. A thread that
owns the mutex and locks it again has no defined behaviour (in practice it
waits for itself for ever): a fault. -/
def lock (m : Mutex) : Res Mutex :=
  if m.held then .fault else .ok { held := true }

/-- The destructor of `std::lock_guard`, which calls `unlock()`. -/
def unlock (_ : Mutex) : Mutex := { held := false }

end Mutex

namespace BT

/-- The function `getMinDegree`. -/
def getMinDegree (t : BTree) : Int := t.minDegree_

/-- The function `setMinDegree` (without its lock). -/
def setMinDegree (t : BTree) (degree : Int) : BTree :=
  let degree1 := if degree < 2 then 2 else degree
  { t with minDegree_ := degree1, maxKeys_ := 2 * degree1 - 1 }

/-- The public function `search`: the lock, then the body. -/
def lockedSearch (m : Mutex) (t : BTree) (key : Int) :
    Res ((Option Int × BTree) × Mutex) := do
  let m1 ← m.lock
  let r ← search t key
  pure (r, m1.unlock)

/-- The public function `insert`: the lock, then the body, which starts with a
call of the public function `search`. -/
def lockedInsert (m : Mutex) (t : BTree) (key value : Int) :
    Res ((Bool × BTree) × Mutex) := do
  let m1 ← m.lock
  -- Check if key already exists
  let ((found, t1), _) ← lockedSearch m1 t key
  if found.isSome then pure ((false, t1), m1.unlock)
  else do
    -- If root is full, split it
    let root1 ←
      if (t1.root_.keys.length : Int) = t1.maxKeys_ then
        splitChild t1.minDegree_ (.mk [] [] [t1.root_] false 0) 0
      else pure t1.root_
    let root2 ← insertNonFull t1.minDegree_ t1.maxKeys_ root1.depth root1 key value
    pure ((true, { t1 with root_ := root2 }), m1.unlock)

end BT

namespace NST

variable {V : Type}

/-- The function `calculateAverageDepth`: the sum of the depths of the nodes
reached from `node`, which is at depth `depth` (the `double` it returns holds
this integer). -/
def calculateAverageDepth : Nat → Tree V → Ptr → Nat → Res Nat
  | 0, _, _, _ => .outOfFuel
  | _ + 1, _, none, _ => pure 0
  | fuel + 1, t, some p, depth => do
    let n ← t.node p
    let below ← sumDepths (fun c => calculateAverageDepth fuel t (some c) (depth + 1)) n.children
    pure (depth + below)
where
  /-- The `for` loop over the children. -/
  sumDepths (visit : Nat → Res Nat) : List Nat → Res Nat
    | [] => pure 0
    | c :: cs => do
      let a ← visit c
      let b ← sumDepths visit cs
      pure (a + b)

/-- The public function `size`: the lock, then the body. -/
def lockedSize (m : Mutex) (t : Tree V) : Res (Nat × Mutex) := do
  let m1 ← m.lock
  let s ← size t
  pure (s, m1.unlock)

/-- The public function `averageDepth`: the lock, then the body, which starts
with a call of the public function `size`. `fuel` bounds the depth of the
recursion of `calculateAverageDepth`. -/
def lockedAverageDepth (fuel : Nat) (m : Mutex) (t : Tree V) : Res (ℚ × Mutex) := do
  let m1 ← m.lock
  let (treeSize, _) ← lockedSize m1 t
  if treeSize = 0 then pure (0, m1.unlock)
  else do
    let total ← calculateAverageDepth fuel t t.root_ 0
    pure ((total : ℚ) / (treeSize : ℚ), m1.unlock)

end NST

/-! ## B-tree snapshot (`BTree::getSnapshot`) -/

namespace BT

/-- An entry `TreeSnapshot::NodeInfo`. -/
structure NodeInfo where
  keys : List Int
  values : List Int
  childIndices : List Nat
  isLeaf : Bool
  accessCount : Int
deriving DecidableEq, Repr

/-- A `struct TreeSnapshot`. -/
structure TreeSnapshot where
  nodes : List NodeInfo
  edges : List (Nat × Nat)
deriving DecidableEq, Repr

mutual
/-- The lambda `assignIndices` of `getSnapshot`: the entries it appends to
`snapshot.nodes`, in the order of its visits. The index it records for a node
in `nodeToIndex` is the number of entries appended before that of the node. -/
def assignIndices : Node → List NodeInfo
  | .mk ks vs cs l a =>
    { keys := ks, values := vs, childIndices := [], isLeaf := l, accessCount := a } ::
      (if l then [] else assignIndicesList cs)
/-- The `for` loop of `assignIndices` over the children. -/
def assignIndicesList : List Node → List NodeInfo
  | [] => []
  | c :: cs => assignIndices c ++ assignIndicesList cs
end

/-- The statement `snapshot.nodes[i].childIndices.push_back(c)`. -/
def pushChildIndex (s : TreeSnapshot) (i c : Nat) : Res TreeSnapshot := do
  let info ← Vec.read s.nodes i
  let nodes ← Vec.set s.nodes i { info with childIndices := info.childIndices ++ [c] }
  pure { s with nodes := nodes }

mutual
/-- The lambda `buildEdges` of `getSnapshot`, on the snapshot built so far;
`index` is `nodeToIndex[node]`. -/
def buildEdges (index : Nat) (parentIndex : Option Nat) : Node → TreeSnapshot → Res TreeSnapshot
  | .mk _ _ cs l _, s =>
    let s1 :=
      match parentIndex with
      | some p => { s with edges := s.edges ++ [(p, index)] }
      | none => s
    if l then pure s1 else buildEdgesList index (index + 1) cs s1
/-- The `for` loop of `buildEdges` over the children, from the child whose index
in `nodeToIndex` is `childIndex`; the next child has the index after the
entries that `assignIndices` appended for this one. -/
def buildEdgesList (index childIndex : Nat) : List Node → TreeSnapshot → Res TreeSnapshot
  | [], s => pure s
  | c :: cs, s => do
    let s1 ← pushChildIndex s index childIndex
    let s2 ← buildEdges childIndex (some index) c s1
    buildEdgesList index (childIndex + (assignIndices c).length) cs s2
end

/-- The function `getSnapshot` (without its lock). -/
def getSnapshot (t : BTree) : Res TreeSnapshot :=
  buildEdges 0 none t.root_ { nodes := assignIndices t.root_, edges := [] }

mutual
/-- The number of nodes of a subtree. -/
def nodeCount : Node → Nat
  | .mk _ _ cs _ _ => 1 + nodeCountList cs
/-- The number of nodes of a list of subtrees. -/
def nodeCountList : List Node → Nat
  | [] => 0
  | c :: cs => nodeCount c + nodeCountList cs
end

/-- The preorder indices of the children of a node, the first of which has the
index `start`: each child comes after the whole subtree of the one before. -/
def childStarts (start : Nat) : List Node → List Nat
  | [] => []
  | c :: cs => start :: childStarts (start + nodeCount c) cs

mutual
/-- Reference snapshot of a subtree whose root has the preorder index `index`:
the nodes in depth-first preorder, children left to right, each with its own
keys and values and with the preorder indices of its children in child
order. -/
def preorderInfos (index : Nat) : Node → List NodeInfo
  | .mk ks vs cs l a =>
    { keys := ks, values := vs, childIndices := childStarts (index + 1) cs, isLeaf := l,
      accessCount := a } :: preorderInfosList (index + 1) cs
/-- Reference snapshot of a list of subtrees, the first at index `start`. -/
def preorderInfosList (start : Nat) : List Node → List NodeInfo
  | [] => []
  | c :: cs => preorderInfos start c ++ preorderInfosList (start + nodeCount c) cs
end

mutual
/-- The pairs (parent index, child index) of a subtree whose root has the
preorder index `index`, in depth-first order. -/
def links (index : Nat) : Node → List (Nat × Nat)
  | .mk _ _ cs _ _ => linksList index (index + 1) cs
/-- The pairs of the children `cs` of the node `index` and of their subtrees. -/
def linksList (index start : Nat) : List Node → List (Nat × Nat)
  | [] => []
  | c :: cs => (index, start) :: (links start c ++ linksList index (start + nodeCount c) cs)
end

/-- An entry as `assignIndices` appends it: without child indices. -/
def NodeInfo.raw (i : NodeInfo) : NodeInfo := { i with childIndices := [] }

end BT

/-! ## Circular-buffer splay tree: eviction -/

namespace CBST

/-- The shape without the node `x` and the nodes below it. -/
def Shape.prune (x : Nat) : Shape → Shape
  | .nil => .nil
  | .node l i r => if i = x then .nil else .node (l.prune x) i (r.prune x)

/-- The write of `deallocateNode` to the parent of `node`: the child pointer
that points to `node` is reset. -/
def Node.unlink (node : Nat) (m : Node) : Node :=
  if m.left = some node then { m with left := none }
  else if m.right = some node then { m with right := none }
  else m

end CBST

/-! ## Lemmas -/

@[simp]
theorem Res.pure_eq {α : Type} (a : α) : (pure a : Res α) = Res.ok a := rfl
@[simp]
theorem Res.ok_bind {α β : Type} (a : α) (f : α → Res β) : (Res.ok a >>= f) = f a := rfl
@[simp]
theorem Res.fault_bind {α β : Type} (f : α → Res β) : ((Res.fault : Res α) >>= f) = Res.fault := rfl
@[simp]
theorem Res.outOfFuel_bind {α β : Type} (f : α → Res β) :
    ((Res.outOfFuel : Res α) >>= f) = Res.outOfFuel := rfl

theorem Vec.read_eq_ok {α : Type} {v : List α} {i : Nat} {x : α} (h : v[i]? = some x) :
    Vec.read v i = .ok x := by
  simp [Vec.read, h]

theorem Vec.set_eq_ok {α : Type} {v : List α} {i : Nat} (x : α) (h : i < v.length) :
    Vec.set v i x = .ok (v.set i x) := by
  simp [Vec.set, h]

theorem Vec.erase_eq_ok {α : Type} {v : List α} {i : Nat} (h : i < v.length) :
    Vec.erase v i = .ok (v.eraseIdx i) := by
  simp [Vec.erase, h]

namespace BT

@[simp]
theorem Node.keys_mk (ks vs : List Int) (cs : List Node) (l : Bool) (a : Int) :
    (Node.mk ks vs cs l a).keys = ks := rfl
@[simp]
theorem Node.values_mk (ks vs : List Int) (cs : List Node) (l : Bool) (a : Int) :
    (Node.mk ks vs cs l a).values = vs := rfl
@[simp]
theorem Node.children_mk (ks vs : List Int) (cs : List Node) (l : Bool) (a : Int) :
    (Node.mk ks vs cs l a).children = cs := rfl
@[simp]
theorem Node.isLeaf_mk (ks vs : List Int) (cs : List Node) (l : Bool) (a : Int) :
    (Node.mk ks vs cs l a).isLeaf = l := rfl
@[simp]
theorem Node.accessCount_mk (ks vs : List Int) (cs : List Node) (l : Bool) (a : Int) :
    (Node.mk ks vs cs l a).accessCount = a := rfl

/-- A visit changes the access counter only. -/
theorem visit_eq (n : Node) (hp : Bool) :
    ∃ a, visit n hp = .mk n.keys n.values n.children n.isLeaf a := by
  unfold visit splayNode
  split
  · exact ⟨0, rfl⟩
  · exact ⟨_, rfl⟩

@[simp]
theorem visit_keys (n : Node) (hp : Bool) : (visit n hp).keys = n.keys := by
  obtain ⟨a, h⟩ := visit_eq n hp; rw [h]; rfl
@[simp]
theorem visit_values (n : Node) (hp : Bool) : (visit n hp).values = n.values := by
  obtain ⟨a, h⟩ := visit_eq n hp; rw [h]; rfl
@[simp]
theorem visit_children (n : Node) (hp : Bool) : (visit n hp).children = n.children := by
  obtain ⟨a, h⟩ := visit_eq n hp; rw [h]; rfl
@[simp]
theorem visit_isLeaf (n : Node) (hp : Bool) : (visit n hp).isLeaf = n.isLeaf := by
  obtain ⟨a, h⟩ := visit_eq n hp; rw [h]; rfl

theorem findKeyIndex_le (ks : List Int) (key : Int) : findKeyIndex ks key ≤ ks.length := by
  induction ks with
  | nil => simp [findKeyIndex]
  | cons k ks ih =>
    simp only [findKeyIndex]
    split
    · simp; omega
    · simp

/-- In a strictly ascending list, `findKeyIndex` lands on `key` when it occurs. -/
theorem getElem?_findKeyIndex_of_mem {ks : List Int} {key : Int} (hs : ks.Pairwise (· < ·))
    (hk : key ∈ ks) : ks[findKeyIndex ks key]? = some key := by
  induction ks with
  | nil => simp at hk
  | cons k ks ih =>
    simp only [findKeyIndex]
    rw [List.pairwise_cons] at hs
    rcases List.mem_cons.1 hk with rfl | hmem
    · simp
    · have : k < key := hs.1 key hmem
      simp [this, ih hs.2 hmem]

end BT

theorem List.getElem?_append_cons_length {α : Type} (l r : List α) (a : α) :
    (l ++ a :: r)[l.length]? = some a := by
  induction l with
  | nil => simp
  | cons x l ih => simpa using ih

theorem List.set_append_cons_length {α : Type} (l r : List α) (a b : α) :
    (l ++ a :: r).set l.length b = l ++ b :: r := by
  induction l with
  | nil => simp
  | cons x l ih => simp [ih]

theorem List.eraseIdx_append_cons_length {α : Type} (l r : List α) (a : α) :
    (l ++ a :: r).eraseIdx l.length = l ++ r := by
  induction l with
  | nil => simp
  | cons x l ih => simpa using ih

theorem List.getElem?_append_cons_at {α : Type} {l : List α} {i : Nat} (r : List α) (a : α)
    (h : l.length = i) : (l ++ a :: r)[i]? = some a := by
  subst h; exact List.getElem?_append_cons_length l r a

theorem List.set_append_cons_at {α : Type} {l : List α} {i : Nat} (r : List α) (a b : α)
    (h : l.length = i) : (l ++ a :: r).set i b = l ++ b :: r := by
  subst h; exact List.set_append_cons_length l r a b

theorem List.eraseIdx_append_cons_at {α : Type} {l : List α} {i : Nat} (r : List α) (a : α)
    (h : l.length = i) : (l ++ a :: r).eraseIdx i = l ++ r := by
  subst h; exact List.eraseIdx_append_cons_length l r a

namespace BT

end BT

theorem Vec.length_resize {α : Type} (v : List α) (n : Nat) (d : α) :
    (Vec.resize v n d).length = n := by
  simp [Vec.resize]
  omega

theorem Vec.read_length_fault {α : Type} (v : List α) (n : Nat) (h : v.length = n) :
    Vec.read v n = .fault := by
  have : v[n]? = none := by
    rw [List.getElem?_eq_none_iff]; omega
  simp [Vec.read, this]

theorem Vec.read_cases {α : Type} (v : List α) (i : Nat) :
    (∃ x, Vec.read v i = .ok x) ∨ Vec.read v i = .fault := by
  unfold Vec.read
  split
  · exact Or.inl ⟨_, rfl⟩
  · exact Or.inr rfl

theorem Vec.index_cases (i : Int) : (∃ n, Vec.index i = .ok n) ∨ Vec.index i = .fault := by
  unfold Vec.index
  split
  · exact Or.inl ⟨_, rfl⟩
  · exact Or.inr rfl

theorem Vec.suffix_cases {α : Type} (v : List α) (a : Nat) :
    (∃ x, Vec.suffix v a = .ok x) ∨ Vec.suffix v a = .fault := by
  unfold Vec.suffix
  split
  · exact Or.inl ⟨_, rfl⟩
  · exact Or.inr rfl

namespace BT

/-- The median read of `splitChild` is always past the end of the truncated
vector, so `splitChild` never produces a result. -/
theorem splitChild_fault (md : Int) (parent : Node) (index : Nat) :
    splitChild md parent index = .fault := by
  unfold splitChild
  rcases Vec.read_cases parent.children index with ⟨child, h⟩ | h <;>
    simp only [h, Res.ok_bind, Res.fault_bind]
  rcases Vec.index_cases (md - 1 + 1) with ⟨start, h⟩ | h <;>
    simp only [h, Res.ok_bind, Res.fault_bind]
  rcases Vec.suffix_cases child.keys start with ⟨nk, h⟩ | h <;>
    simp only [h, Res.ok_bind, Res.fault_bind]
  rcases Vec.suffix_cases child.values start with ⟨nv, h⟩ | h <;>
    simp only [h, Res.ok_bind, Res.fault_bind]
  rcases Vec.index_cases (md - 1) with ⟨midN, h⟩ | h <;>
    simp only [h, Res.ok_bind, Res.fault_bind]
  have hread : Vec.read (Vec.resize child.keys midN 0) midN = .fault :=
    Vec.read_length_fault _ _ (Vec.length_resize _ _ _)
  split
  · simp only [Res.pure_eq, Res.ok_bind, hread, Res.fault_bind]
  · rcases Vec.suffix_cases child.children start with ⟨mv, h⟩ | h <;>
      simp only [h, Res.ok_bind, Res.fault_bind, Res.pure_eq, hread]

end BT

namespace BT

theorem inOrderKeys_leaf (walk : Node → Res (List (Int × Int))) (n : Node)
    (hleaf : n.isLeaf = true) (hlen : n.values.length = n.keys.length) :
    ∀ (m i : Nat), m + i = n.keys.length →
      inOrderKeys walk n m i = .ok ((n.keys.drop i).zip (n.values.drop i)) := by
  intro m
  induction m with
  | zero =>
    intro i hi
    have h1 : n.keys.drop i = [] := List.drop_of_length_le (by omega)
    simp [inOrderKeys, h1]
  | succ m ih =>
    intro i hi
    have hk : i < n.keys.length := by omega
    have hv : i < n.values.length := by omega
    simp only [inOrderKeys, hleaf, if_true, Res.pure_eq, Res.ok_bind,
      Vec.read_eq_ok (List.getElem?_eq_getElem hk), Vec.read_eq_ok (List.getElem?_eq_getElem hv),
      ih (i + 1) (by omega), List.nil_append]
    rw [List.drop_eq_getElem_cons hk, List.drop_eq_getElem_cons hv]
    rfl

end BT

namespace BT

@[simp]
theorem shape_keys (n : Node) : n.shape.keys = n.keys := by
  cases n; simp [Node.shape]
@[simp]
theorem shape_values (n : Node) : n.shape.values = n.values := by
  cases n; simp [Node.shape]
@[simp]
theorem shape_isLeaf (n : Node) : n.shape.isLeaf = n.isLeaf := by
  cases n; simp [Node.shape]

theorem shapeList_eq_map (cs : List Node) : Node.shapeList cs = cs.map Node.shape := by
  induction cs with
  | nil => simp [Node.shapeList]
  | cons c cs ih => simp [Node.shapeList, ih]

@[simp]
theorem shape_children (n : Node) : n.shape.children = n.children.map Node.shape := by
  cases n; simp [Node.shape, shapeList_eq_map]

theorem shape_mk (ks vs : List Int) (cs : List Node) (l : Bool) (a : Int) :
    (Node.mk ks vs cs l a).shape = .mk ks vs (cs.map Node.shape) l 0 := by
  simp [Node.shape, shapeList_eq_map]

theorem shape_eq (n : Node) :
    n.shape = .mk n.keys n.values (n.children.map Node.shape) n.isLeaf 0 := by
  cases n; simp [shape_mk]

theorem shape_visit (n : Node) (hp : Bool) : (visit n hp).shape = n.shape := by
  obtain ⟨a, h⟩ := visit_eq n hp
  rw [h, shape_mk, shape_eq n]

mutual
theorem depth_shape : ∀ n : Node, (Node.shape n).depth = n.depth
  | .mk ks vs cs l a => by
    simp only [Node.shape, Node.depth, depthList_shape cs]
theorem depthList_shape : ∀ cs : List Node, Node.depthList (Node.shapeList cs) = Node.depthList cs
  | [] => rfl
  | c :: cs => by
    simp only [Node.shapeList, Node.depthList, depth_shape c, depthList_shape cs]
end

mutual
theorem shaped_shape : ∀ n : Node, shaped (Node.shape n) = shaped n
  | .mk ks vs cs l a => by
    have h1 : (Node.shapeList cs).isEmpty = cs.isEmpty := by
      cases cs <;> simp [Node.shapeList]
    have h2 : (Node.shapeList cs).length = cs.length := by
      simp [shapeList_eq_map]
    simp only [Node.shape, shaped, shapedList_shape cs, h1, h2]
theorem shapedList_shape : ∀ cs : List Node, shapedList (Node.shapeList cs) = shapedList cs
  | [] => rfl
  | c :: cs => by
    simp only [Node.shapeList, shapedList, shaped_shape c, shapedList_shape cs]
end

mutual
theorem calculateSize_shape : ∀ n : Node, calculateSize (Node.shape n) = calculateSize n
  | .mk ks vs cs l a => by
    simp only [Node.shape, calculateSize, calculateSizeList_shape cs]
theorem calculateSizeList_shape :
    ∀ cs : List Node, calculateSizeList (Node.shapeList cs) = calculateSizeList cs
  | [] => rfl
  | c :: cs => by
    simp only [Node.shapeList, calculateSizeList, calculateSize_shape c,
      calculateSizeList_shape cs]
end

mutual
theorem lookup_shape (key : Int) : ∀ n : Node, lookup key (Node.shape n) = lookup key n
  | .mk ks vs cs l a => by
    simp only [Node.shape, lookup, lookupAt_shape key cs]
theorem lookupAt_shape (key : Int) :
    ∀ (cs : List Node) (i : Nat), lookupAt key (Node.shapeList cs) i = lookupAt key cs i
  | [], _ => rfl
  | c :: cs, 0 => by simp only [Node.shapeList, lookupAt, lookup_shape key c]
  | c :: cs, i + 1 => by simp only [Node.shapeList, lookupAt, lookupAt_shape key cs i]
end

theorem lookupAt_eq (key : Int) : ∀ (cs : List Node) (i : Nat) (c : Node),
    cs[i]? = some c → lookupAt key cs i = lookup key c := by
  intro cs
  induction cs with
  | nil => intro i c h; simp at h
  | cons d cs ih =>
    intro i c h
    cases i with
    | zero =>
      simp only [List.getElem?_cons_zero, Option.some.injEq] at h
      subst h
      simp [lookupAt]
    | succ i =>
      simp only [List.getElem?_cons_succ] at h
      simp [lookupAt, ih i c h]

theorem depth_le_depthList {c : Node} {cs : List Node} (h : c ∈ cs) :
    c.depth ≤ Node.depthList cs := by
  induction cs with
  | nil => simp at h
  | cons d cs ih =>
    simp only [Node.depthList]
    rcases List.mem_cons.1 h with rfl | h
    · exact le_max_left _ _
    · exact le_trans (ih h) (le_max_right _ _)

theorem depth_child_lt {n c : Node} (h : c ∈ n.children) : c.depth < n.depth := by
  cases n with
  | mk ks vs cs l a =>
    simp only [Node.children_mk] at h
    simp only [Node.depth]
    exact Nat.lt_succ_of_le (depth_le_depthList h)

theorem shapedList_iff (cs : List Node) : shapedList cs = true ↔ ∀ c ∈ cs, shaped c = true := by
  induction cs with
  | nil => simp [shapedList]
  | cons c cs ih => simp [shapedList, ih]

theorem shaped_iff (n : Node) : shaped n = true ↔
    n.values.length = n.keys.length ∧
      (if n.isLeaf = true then n.children = []
       else n.children.length = n.keys.length + 1 ∧ ∀ c ∈ n.children, shaped c = true) := by
  cases n with
  | mk ks vs cs l a =>
    cases l <;> simp [shaped, shapedList_iff]

end BT

namespace BT

theorem lookup_eq (key : Int) (n : Node) :
    lookup key n =
      if n.keys[findKeyIndex n.keys key]? = some key then n.values[findKeyIndex n.keys key]?
      else if n.isLeaf = true then none
      else lookupAt key n.children (findKeyIndex n.keys key) := by
  cases n; simp [lookup]

theorem withChildren_shape (n : Node) (cs : List Node)
    (h : cs.map Node.shape = n.children.map Node.shape) :
    (n.withChildren cs).shape = n.shape := by
  rw [shape_eq n, Node.withChildren, shape_mk, h]

/-- With fuel for the depth of a well-shaped subtree, `searchFrom` returns the
reference lookup and changes access counters only. -/
theorem searchFrom_eq_lookup (key : Int) : ∀ (fuel : Nat) (n : Node) (hp : Bool),
    n.depth ≤ fuel → shaped n = true →
    ∃ n1, searchFrom fuel n hp key = .ok (lookup key n, n1) ∧ n1.shape = n.shape := by
  intro fuel
  induction fuel with
  | zero =>
    intro n hp hd
    cases n
    simp [Node.depth] at hd
  | succ fuel ih =>
    intro n hp hd hsh
    obtain ⟨hlen, hkids⟩ := (shaped_iff n).1 hsh
    simp only [searchFrom, visit_keys, visit_values, visit_isLeaf, visit_children]
    rw [lookup_eq]
    by_cases hfound : n.keys[findKeyIndex n.keys key]? = some key
    · have hlt : findKeyIndex n.keys key < n.values.length := by
        rw [hlen]
        exact (List.getElem?_eq_some_iff.1 hfound).1
      refine ⟨visit n hp, ?_, shape_visit n hp⟩
      simp [hfound, Vec.read, List.getElem?_eq_getElem hlt]
    · by_cases hleaf : n.isLeaf = true
      · exact ⟨visit n hp, by simp [hfound, hleaf], shape_visit n hp⟩
      · simp only [hleaf, if_false] at hkids
        obtain ⟨hcl, hcs⟩ := hkids
        have hi : findKeyIndex n.keys key < n.children.length := by
          have := findKeyIndex_le n.keys key
          omega
        have hc : n.children[findKeyIndex n.keys key]? =
            some (n.children[findKeyIndex n.keys key]) := List.getElem?_eq_getElem hi
        have hmem : n.children[findKeyIndex n.keys key] ∈ n.children := List.getElem_mem hi
        obtain ⟨c1, hrun, hshape⟩ := ih (n.children[findKeyIndex n.keys key]) true
          (by have := depth_child_lt hmem; omega) (hcs _ hmem)
        refine ⟨(visit n hp).withChildren (n.children.set (findKeyIndex n.keys key) c1), ?_, ?_⟩
        · simp only [hfound, hleaf, if_false, Vec.read_eq_ok hc, Res.ok_bind, hrun,
            Vec.set_eq_ok c1 hi, Res.pure_eq, lookupAt_eq key _ _ _ hc, Bool.false_eq_true]
        · rw [withChildren_shape, shape_visit]
          rw [visit_children, List.map_set, hshape]
          apply List.ext_getElem?
          intro j
          by_cases hj : j = findKeyIndex n.keys key
          · subst hj
            simp [List.getElem?_set, hi, hc]
          · simp [List.getElem?_set, Ne.symm hj]

theorem within_of_lower {lo hi : Option Int} {k x : Int}
    (hk : within lo hi k = true) (hx : within (some k) hi x = true) :
    within lo hi x = true := by
  cases lo <;> cases hi <;> simp [within] at * <;> omega

theorem within_of_upper {lo hi : Option Int} {k x : Int}
    (hk : within lo hi k = true) (hx : within lo (some k) x = true) :
    within lo hi x = true := by
  cases lo <;> cases hi <;> simp [within] at * <;> omega

theorem ascending_within {lo hi : Option Int} : ∀ {ks : List Int},
    ascending lo hi ks = true → ∀ x ∈ ks, within lo hi x = true := by
  intro ks
  induction ks generalizing lo with
  | nil => intro _ x hx; simp at hx
  | cons k ks ih =>
    intro h x hx
    simp only [ascending, Bool.and_eq_true] at h
    rcases List.mem_cons.1 hx with rfl | hx
    · exact h.1
    · exact within_of_lower h.1 (ih h.2 x hx)

theorem ascending_pairwise {lo hi : Option Int} : ∀ {ks : List Int},
    ascending lo hi ks = true → ks.Pairwise (· < ·) := by
  intro ks
  induction ks generalizing lo with
  | nil => intro _; exact List.Pairwise.nil
  | cons k ks ih =>
    intro h
    simp only [ascending, Bool.and_eq_true] at h
    rw [List.pairwise_cons]
    refine ⟨?_, ih h.2⟩
    intro x hx
    have := ascending_within h.2 x hx
    simp [within] at this
    exact this.1

mutual
/-- Every key of an ordered, well-shaped subtree lies strictly between its
bounds. -/
theorem ordered_bounds : ∀ (n : Node) (lo hi : Option Int),
    ordered lo hi n = true → shaped n = true → ∀ x ∈ n.allKeys, within lo hi x = true
  | .mk ks vs cs l a, lo, hi, ho, hs, x, hx => by
    simp only [ordered, Bool.and_eq_true] at ho
    simp only [shaped, Bool.and_eq_true, decide_eq_true_eq] at hs
    simp only [Node.allKeys, List.mem_append] at hx
    cases l with
    | true =>
      simp only [if_true, List.isEmpty_iff] at hs
      rcases hx with hx | hx
      · exact ascending_within ho.1 x hx
      · rw [hs.2] at hx
        simp [Node.allKeysList] at hx
    | false =>
      simp only [Bool.false_eq_true, if_false, Bool.and_eq_true, decide_eq_true_eq] at hs ho
      rcases hx with hx | hx
      · exact ascending_within ho.1 x hx
      · exact orderedKids_bounds cs ks lo hi ho.2 ho.1 hs.2.2 x hx
theorem orderedKids_bounds : ∀ (cs : List Node) (ks : List Int) (lo hi : Option Int),
    orderedKids lo hi ks cs = true → ascending lo hi ks = true → shapedList cs = true →
    ∀ x ∈ Node.allKeysList cs, within lo hi x = true
  | [], _, _, _, ho, _, _, _, _ => by simp [orderedKids] at ho
  | [c], [], lo, hi, ho, _, hs, x, hx => by
    simp only [orderedKids] at ho
    simp only [shapedList, Bool.and_eq_true] at hs
    simp only [Node.allKeysList, List.append_nil] at hx
    exact ordered_bounds c lo hi ho hs.1 x hx
  | _ :: _ :: _, [], _, _, ho, _, _, _, _ => by simp [orderedKids] at ho
  | c :: cs, k :: ks, lo, hi, ho, ha, hs, x, hx => by
    simp only [orderedKids, Bool.and_eq_true] at ho
    simp only [shapedList, Bool.and_eq_true] at hs
    simp only [ascending, Bool.and_eq_true] at ha
    simp only [Node.allKeysList, List.mem_append] at hx
    rcases hx with hx | hx
    · exact within_of_upper ha.1 (ordered_bounds c lo (some k) ho.1 hs.1 x hx)
    · exact within_of_lower ha.1 (orderedKids_bounds cs ks (some k) hi ho.2 ha.2 hs.2 x hx)
end

end BT

namespace BT

theorem within_some_left {hi : Option Int} {k x : Int} (h : within (some k) hi x = true) :
    k < x := by
  simp [within] at h
  exact h.1

theorem within_some_right {lo : Option Int} {k x : Int} (h : within lo (some k) x = true) :
    x < k := by
  simp [within] at h
  exact h.2

mutual
/-- In an ordered, well-shaped subtree the reference lookup finds every key
that occurs in it. -/
theorem lookup_isSome (key : Int) : ∀ (n : Node) (lo hi : Option Int),
    ordered lo hi n = true → shaped n = true → key ∈ n.allKeys →
    (lookup key n).isSome = true
  | .mk ks vs cs l a, lo, hi, ho, hs, hx => by
    simp only [ordered, Bool.and_eq_true] at ho
    simp only [shaped, Bool.and_eq_true, decide_eq_true_eq] at hs
    simp only [Node.allKeys, List.mem_append] at hx
    simp only [lookup]
    by_cases hfound : ks[findKeyIndex ks key]? = some key
    · have hlt : findKeyIndex ks key < vs.length := by
        rw [hs.1]
        exact (List.getElem?_eq_some_iff.1 hfound).1
      simp [hfound, List.getElem?_eq_getElem hlt]
    · have hnot : key ∉ ks := fun hm =>
        hfound (getElem?_findKeyIndex_of_mem (ascending_pairwise ho.1) hm)
      cases l with
      | true =>
        simp only [if_true, List.isEmpty_iff] at hs
        rcases hx with hx | hx
        · exact absurd hx hnot
        · rw [hs.2] at hx
          simp [Node.allKeysList] at hx
      | false =>
        simp only [Bool.false_eq_true, if_false, Bool.and_eq_true, decide_eq_true_eq] at hs ho
        rcases hx with hx | hx
        · exact absurd hx hnot
        · simp only [hfound, if_false, Bool.false_eq_true]
          exact lookupAt_isSome key cs ks lo hi ho.2 ho.1 hs.2.2 hx hnot
theorem lookupAt_isSome (key : Int) : ∀ (cs : List Node) (ks : List Int) (lo hi : Option Int),
    orderedKids lo hi ks cs = true → ascending lo hi ks = true → shapedList cs = true →
    key ∈ Node.allKeysList cs → key ∉ ks →
    (lookupAt key cs (findKeyIndex ks key)).isSome = true
  | [], _, _, _, ho, _, _, _, _ => by simp [orderedKids] at ho
  | [c], [], lo, hi, ho, _, hs, hx, _ => by
    simp only [orderedKids] at ho
    simp only [shapedList, Bool.and_eq_true] at hs
    simp only [Node.allKeysList, List.append_nil] at hx
    simp only [findKeyIndex, lookupAt]
    exact lookup_isSome key c lo hi ho hs.1 hx
  | _ :: _ :: _, [], _, _, ho, _, _, _, _ => by simp [orderedKids] at ho
  | c :: cs, k :: ks, lo, hi, ho, ha, hs, hx, hnot => by
    simp only [orderedKids, Bool.and_eq_true] at ho
    simp only [shapedList, Bool.and_eq_true] at hs
    simp only [ascending, Bool.and_eq_true] at ha
    simp only [Node.allKeysList, List.mem_append] at hx
    simp only [List.mem_cons, not_or] at hnot
    simp only [findKeyIndex]
    by_cases hlt : k < key
    · simp only [hlt, if_true, lookupAt]
      rcases hx with hx | hx
      · have := within_some_right (ordered_bounds c lo (some k) ho.1 hs.1 key hx)
        omega
      · exact lookupAt_isSome key cs ks (some k) hi ho.2 ha.2 hs.2 hx hnot.2
    · simp only [hlt, if_false, lookupAt]
      rcases hx with hx | hx
      · exact lookup_isSome key c lo (some k) ho.1 hs.1 hx
      · have := within_some_left (orderedKids_bounds cs ks (some k) hi ho.2 ha.2 hs.2 key hx)
        have := hnot.1
        omega
end

theorem inOrderKeys_shape (walk1 walk2 : Node → Res (List (Int × Int))) (n : Node)
    (hw : ∀ c, walk1 c.shape = walk2 c) :
    ∀ (m i : Nat), inOrderKeys walk1 n.shape m i = inOrderKeys walk2 n m i := by
  intro m
  induction m with
  | zero => intro i; simp [inOrderKeys]
  | succ m ih =>
    intro i
    simp only [inOrderKeys, shape_isLeaf, shape_keys, shape_values, shape_children, ih (i + 1)]
    by_cases hleaf : n.isLeaf = true
    · simp [hleaf]
    · simp only [hleaf, if_false, Bool.false_eq_true]
      cases hc : n.children[i]? with
      | none => simp [Vec.read, hc]
      | some c => simp [Vec.read, hc, hw c]

theorem inOrderTraversal_shape : ∀ (fuel : Nat) (n : Node),
    inOrderTraversal fuel n.shape = inOrderTraversal fuel n := by
  intro fuel
  induction fuel with
  | zero => intro n; simp [inOrderTraversal]
  | succ fuel ih =>
    intro n
    simp only [inOrderTraversal, shape_isLeaf, shape_keys, shape_children,
      inOrderKeys_shape _ _ n ih]
    by_cases hleaf : n.isLeaf = true
    · simp [hleaf]
    · simp only [hleaf, if_false, Bool.false_eq_true]
      cases hc : n.children.getLast? with
      | none => simp [Vec.last, hc, List.getLast?_map]
      | some c => simp [Vec.last, hc, List.getLast?_map, ih c]

theorem sort_eq_of_shape {t t1 : BTree} (h : t1.root_.shape = t.root_.shape) :
    sort t1 = sort t := by
  unfold sort
  rw [← inOrderTraversal_shape _ t1.root_, ← inOrderTraversal_shape _ t.root_,
    ← depth_shape t1.root_, ← depth_shape t.root_, h]

theorem size_eq_of_shape {t t1 : BTree} (h : t1.root_.shape = t.root_.shape) :
    size t1 = size t := by
  unfold size
  rw [← calculateSize_shape t1.root_, ← calculateSize_shape t.root_, h]

/-- On a well-shaped tree `search` returns the reference lookup and changes
access counters only. -/
theorem search_eq_lookup (t : BTree) (key : Int) (hs : shaped t.root_ = true) :
    ∃ t1, search t key = .ok (lookup key t.root_, t1) ∧ t1.root_.shape = t.root_.shape ∧
      t1.minDegree_ = t.minDegree_ ∧ t1.maxKeys_ = t.maxKeys_ := by
  obtain ⟨n1, hrun, hshape⟩ := searchFrom_eq_lookup key t.root_.depth t.root_ false (le_refl _) hs
  exact ⟨{ t with root_ := n1 }, by simp [search, hrun], hshape, rfl, rfl⟩

end BT

namespace BT

theorem pairsList_eq_map (cs : List Node) : pairsList cs = cs.map pairs := by
  induction cs with
  | nil => simp [pairsList]
  | cons c cs ih => simp [pairsList, ih]

theorem pairs_eq (n : Node) :
    pairs n = if n.isLeaf = true then n.keys.zip n.values
      else weave (n.keys.zip n.values) (n.children.map pairs) := by
  cases n; simp [pairs, pairsList_eq_map]

theorem weave_append : ∀ (kpre : List (Int × Int)) (pre : List (List (Int × Int)))
    (kvs : List (Int × Int)) (ss : List (List (Int × Int))), pre.length = kpre.length →
    weave (kpre ++ kvs) (pre ++ ss) = lead kpre pre ++ weave kvs ss := by
  intro kpre
  induction kpre with
  | nil =>
    intro pre kvs ss h
    have : pre = [] := List.length_eq_zero.1 (by simpa using h)
    subst this
    cases kvs <;> simp [lead]
  | cons kv kpre ih =>
    intro pre kvs ss h
    cases pre with
    | nil => simp at h
    | cons s pre =>
      simp only [List.length_cons, Nat.add_right_cancel_iff] at h
      simp [weave, lead, ih pre kvs ss h]

theorem lead_append : ∀ (kpre : List (Int × Int)) (pre : List (List (Int × Int)))
    (kvs : List (Int × Int)) (ss : List (List (Int × Int))), pre.length = kpre.length →
    lead (kpre ++ kvs) (pre ++ ss) = lead kpre pre ++ lead kvs ss := by
  intro kpre
  induction kpre with
  | nil =>
    intro pre kvs ss h
    have : pre = [] := List.length_eq_zero.1 (by simpa using h)
    subst this
    cases kvs <;> simp [lead]
  | cons kv kpre ih =>
    intro pre kvs ss h
    cases pre with
    | nil => simp at h
    | cons s pre =>
      simp only [List.length_cons, Nat.add_right_cancel_iff] at h
      simp [lead, ih pre kvs ss h]

theorem weave_cons_append (kvs : List (Int × Int)) (x s : List (Int × Int))
    (ss : List (List (Int × Int))) :
    weave kvs ((x ++ s) :: ss) = x ++ weave kvs (s :: ss) := by
  cases kvs <;> simp [weave]

theorem weave_cons_cons (kvs : List (Int × Int)) (x : Int × Int) (s : List (Int × Int))
    (ss : List (List (Int × Int))) :
    weave kvs ((x :: s) :: ss) = x :: weave kvs (s :: ss) := by
  cases kvs <;> simp [weave]

theorem weave_concat (kvs : List (Int × Int)) (ss : List (List (Int × Int)))
    (l : List (Int × Int)) (h : ss.length = kvs.length) :
    weave kvs (ss ++ [l]) = lead kvs ss ++ l := by
  have := weave_append kvs ss [] [l] h
  simpa [weave] using this

theorem lead_extra (kvs : List (Int × Int)) (ss extra : List (List (Int × Int)))
    (h : ss.length = kvs.length) : lead kvs (ss ++ extra) = lead kvs ss := by
  have := lead_append kvs ss [] extra h
  simpa [lead] using this

theorem weave_middle : ∀ (kvs1 : List (Int × Int)) (ss1 : List (List (Int × Int)))
    (kv : Int × Int) (kvs2 : List (Int × Int)) (ss2 : List (List (Int × Int))),
    ss1.length = kvs1.length + 1 →
    weave (kvs1 ++ kv :: kvs2) (ss1 ++ ss2) = weave kvs1 ss1 ++ kv :: weave kvs2 ss2 := by
  intro kvs1
  induction kvs1 with
  | nil =>
    intro ss1 kv kvs2 ss2 h
    obtain ⟨s, rfl⟩ : ∃ s, ss1 = [s] := List.length_eq_one.1 (by simpa using h)
    simp [weave]
  | cons a kvs1 ih =>
    intro ss1 kv kvs2 ss2 h
    cases ss1 with
    | nil => simp at h
    | cons s ss1 =>
      simp only [List.length_cons, Nat.add_right_cancel_iff] at h
      simp [weave, ih ss1 kv kvs2 ss2 h]

theorem inOrderKeys_internal (walk : Node → Res (List (Int × Int))) (n : Node)
    (hleaf : n.isLeaf = false) (hlen : n.values.length = n.keys.length)
    (hcl : n.children.length = n.keys.length + 1)
    (hw : ∀ c ∈ n.children, walk c = .ok (pairs c)) :
    ∀ (m i : Nat), m + i = n.keys.length →
      inOrderKeys walk n m i =
        .ok (lead ((n.keys.zip n.values).drop i) ((n.children.map pairs).drop i)) := by
  intro m
  induction m with
  | zero =>
    intro i hi
    have h1 : (n.keys.zip n.values).drop i = [] :=
      List.drop_of_length_le (by simp; omega)
    simp [inOrderKeys, h1, lead]
  | succ m ih =>
    intro i hi
    have hk : i < n.keys.length := by omega
    have hv : i < n.values.length := by omega
    have hc : i < n.children.length := by omega
    have hz : i < (n.keys.zip n.values).length := by simp; omega
    have hm : i < (n.children.map pairs).length := by simp; omega
    simp only [inOrderKeys, hleaf, Bool.false_eq_true, if_false, Res.pure_eq, Res.ok_bind,
      Vec.read_eq_ok (List.getElem?_eq_getElem hk), Vec.read_eq_ok (List.getElem?_eq_getElem hv),
      Vec.read_eq_ok (List.getElem?_eq_getElem hc), hw _ (List.getElem_mem hc),
      ih (i + 1) (by omega)]
    rw [List.drop_eq_getElem_cons hz, List.drop_eq_getElem_cons hm]
    simp [lead]

theorem depth_pos (n : Node) : 0 < n.depth := by
  cases n; simp [Node.depth]

/-- With fuel for its depth, the traversal of a well-shaped subtree yields its
in-order sequence. -/
theorem inOrderTraversal_eq_pairs : ∀ (fuel : Nat) (n : Node),
    n.depth ≤ fuel → shaped n = true → inOrderTraversal fuel n = .ok (pairs n) := by
  intro fuel
  induction fuel with
  | zero =>
    intro n hd
    have := depth_pos n
    omega
  | succ fuel ih =>
    intro n hd hsh
    obtain ⟨hlen, hkids⟩ := (shaped_iff n).1 hsh
    rw [pairs_eq]
    by_cases hleaf : n.isLeaf = true
    · have hk := inOrderKeys_leaf (inOrderTraversal fuel) n hleaf hlen n.keys.length 0 rfl
      simp only [inOrderTraversal, hk, Res.ok_bind, hleaf, if_true, Res.pure_eq, List.drop_zero]
    · simp only [hleaf, if_false, Bool.false_eq_true] at hkids ⊢
      obtain ⟨hcl, hcs⟩ := hkids
      have hw : ∀ c ∈ n.children, inOrderTraversal fuel c = .ok (pairs c) := fun c hc =>
        ih c (by have := depth_child_lt hc; omega) (hcs c hc)
      have hk := inOrderKeys_internal (inOrderTraversal fuel) n (by simpa using hleaf) hlen hcl hw
        n.keys.length 0 rfl
      obtain ⟨init, last, hsplit⟩ : ∃ init last, n.children = init ++ [last] := by
        rcases List.eq_nil_or_concat n.children with h | ⟨l, b, h⟩
        · rw [h] at hcl; simp at hcl
        · exact ⟨l, b, by simpa using h⟩
      have hil : init.length = n.keys.length := by
        rw [hsplit] at hcl; simpa using hcl
      have hlast : Vec.last n.children = .ok last := by
        simp [Vec.last, hsplit]
      have hz : (init.map pairs).length = (n.keys.zip n.values).length := by
        simp; omega
      simp only [inOrderTraversal, hk, Res.ok_bind, hleaf, if_false, Bool.false_eq_true, hlast,
        hw last (by rw [hsplit]; simp), Res.pure_eq, List.drop_zero]
      rw [hsplit, List.map_append, List.map_singleton, weave_concat _ _ _ hz,
        lead_extra _ _ _ hz]

theorem sort_eq_pairs (t : BTree) (hs : shaped t.root_ = true) :
    sort t = .ok (pairs t.root_) :=
  inOrderTraversal_eq_pairs t.root_.depth t.root_ (le_refl _) hs

end BT

theorem List.exists_split_at {α : Type} {l : List α} {i : Nat} (h : i < l.length) :
    ∃ pre a post, l = pre ++ a :: post ∧ pre.length = i :=
  ⟨l.take i, l[i], l.drop (i + 1), by
    rw [← List.drop_eq_getElem_cons h, List.take_append_drop], by
    simp; omega⟩

theorem List.exists_split_two_at {α : Type} {l : List α} {i : Nat} (h : i + 1 < l.length) :
    ∃ pre a b post, l = pre ++ a :: b :: post ∧ pre.length = i := by
  obtain ⟨pre, a, post, hl, hp⟩ := List.exists_split_at (show i < l.length by omega)
  cases post with
  | nil => subst hl; simp at h; omega
  | cons b post => exact ⟨pre, a, b, post, hl, hp⟩

namespace BT

theorem balancedList_iff (t : Int) (h : Nat) (cs : List Node) :
    balancedList t h cs = true ↔ ∀ c ∈ cs, balanced t h c = true := by
  induction cs with
  | nil => simp [balancedList]
  | cons c cs ih => simp [balancedList, ih]

theorem balanced_iff (t : Int) (h : Nat) (n : Node) : balanced t h n = true ↔
    t - 1 ≤ (n.keys.length : Int) ∧ (n.keys.length : Int) ≤ 2 * t - 1 ∧
      (if n.isLeaf = true then h = 0
       else 0 < h ∧ ∀ c ∈ n.children, balanced t (h - 1) c = true) := by
  cases n with
  | mk ks vs cs l a =>
    cases l <;> simp [balanced, balancedList_iff, and_assoc]

/-- The node that `mergeChildren` builds from `child`, the parent pair and
`sibling`. -/
theorem pairs_merged (child sibling : Node) (k v : Int) (a : Int)
    (hc : shaped child = true) (hs : shaped sibling = true)
    (hl : sibling.isLeaf = child.isLeaf) :
    pairs (.mk (child.keys ++ [k] ++ sibling.keys) (child.values ++ [v] ++ sibling.values)
        (if child.isLeaf = true then child.children else child.children ++ sibling.children)
        child.isLeaf a) =
      pairs child ++ (k, v) :: pairs sibling := by
  obtain ⟨hclen, hckids⟩ := (shaped_iff child).1 hc
  obtain ⟨hslen, hskids⟩ := (shaped_iff sibling).1 hs
  rw [pairs_eq, pairs_eq child, pairs_eq sibling, hl]
  simp only [Node.keys_mk, Node.values_mk, Node.isLeaf_mk, Node.children_mk]
  have hz : (child.keys ++ [k] ++ sibling.keys).zip (child.values ++ [v] ++ sibling.values) =
      child.keys.zip child.values ++ (k, v) :: sibling.keys.zip sibling.values := by
    rw [List.append_assoc, List.append_assoc, List.zip_append hclen.symm]
    simp
  rw [hz]
  by_cases hleaf : child.isLeaf = true
  · simp [hleaf]
  · simp only [hleaf, if_false, Bool.false_eq_true] at hckids ⊢
    rw [List.map_append, weave_middle]
    simp [hckids.1, hclen]

theorem mergeChildren_spec (t : Int) (h : Nat) (parent : Node) (idx : Nat)
    (ht : 1 ≤ t) (hleaf : parent.isLeaf = false) (hsh : shaped parent = true)
    (hidx : idx < parent.keys.length)
    (hbal : ∀ c ∈ parent.children, balanced t h c = true)
    (hc : ∀ c, parent.children[idx]? = some c → (c.keys.length : Int) = t - 1)
    (hs : ∀ c, parent.children[idx + 1]? = some c → (c.keys.length : Int) = t - 1) :
    ∃ p1, mergeChildren parent idx = .ok p1 ∧ shaped p1 = true ∧ p1.isLeaf = false ∧
      pairs p1 = pairs parent ∧ (∀ c ∈ p1.children, balanced t h c = true) ∧
      p1.keys.length + 1 = parent.keys.length := by
  obtain ⟨ks, vs, cs, l, a⟩ := parent
  simp only [Node.isLeaf_mk] at hleaf
  subst hleaf
  simp only [Node.keys_mk, Node.children_mk] at hidx hbal hc hs
  obtain ⟨hlen, hkids⟩ := (shaped_iff _).1 hsh
  simp only [Node.keys_mk, Node.values_mk, Node.children_mk, Node.isLeaf_mk,
    Bool.false_eq_true, if_false] at hlen hkids
  obtain ⟨hcl, hcsh⟩ := hkids
  obtain ⟨kpre, k, kpost, rfl, hkp⟩ := List.exists_split_at hidx
  obtain ⟨vpre, v, vpost, rfl, hvp⟩ := List.exists_split_at (show idx < vs.length by omega)
  obtain ⟨pre, child, sibling, post, rfl, hpp⟩ :=
    List.exists_split_two_at (show idx + 1 < cs.length by omega)
  have hchild : (pre ++ child :: sibling :: post)[idx]? = some child :=
    List.getElem?_append_cons_at _ _ hpp
  have hsib : (pre ++ child :: sibling :: post)[idx + 1]? = some sibling := by
    have : pre ++ child :: sibling :: post = (pre ++ [child]) ++ sibling :: post := by simp
    rw [this]
    exact List.getElem?_append_cons_at _ _ (by simp [hpp])
  have hck := hc child hchild
  have hsk := hs sibling hsib
  have hcb := (balanced_iff t h child).1 (hbal child (by simp))
  have hsb := (balanced_iff t h sibling).1 (hbal sibling (by simp))
  have hcs := hcsh child (by simp)
  have hss := hcsh sibling (by simp)
  have hsameLeaf : sibling.isLeaf = child.isLeaf := by
    by_cases h1 : child.isLeaf = true <;> by_cases h2 : sibling.isLeaf = true <;>
      simp [h1, h2] at hcb hsb ⊢ <;> omega
  refine ⟨.mk (kpre ++ kpost) (vpre ++ vpost)
    (pre ++ (.mk (child.keys ++ [k] ++ sibling.keys) (child.values ++ [v] ++ sibling.values)
      (if child.isLeaf = true then child.children else child.children ++ sibling.children)
      child.isLeaf child.accessCount) :: post) false a, ?_, ?_, rfl, ?_, ?_, ?_⟩
  · have hset : ∀ m : Node, (pre ++ child :: sibling :: post).set idx m =
        pre ++ m :: sibling :: post := fun m => List.set_append_cons_at _ _ _ hpp
    have herase : ∀ m : Node, (pre ++ m :: sibling :: post).eraseIdx (idx + 1) =
        pre ++ m :: post := by
      intro m
      have : pre ++ m :: sibling :: post = (pre ++ [m]) ++ sibling :: post := by simp
      rw [this, List.eraseIdx_append_cons_at _ _ (by simp [hpp])]
      simp
    simp only [mergeChildren, Node.children_mk, Node.keys_mk, Node.values_mk, Node.isLeaf_mk,
      Node.accessCount_mk, Vec.read_eq_ok hchild, Vec.read_eq_ok hsib, Res.ok_bind,
      Vec.read_eq_ok (List.getElem?_append_cons_at kpost k hkp),
      Vec.read_eq_ok (List.getElem?_append_cons_at vpost v hvp),
      Vec.erase_eq_ok hidx, Vec.erase_eq_ok (show idx < (vpre ++ v :: vpost).length by omega),
      List.eraseIdx_append_cons_at kpost k hkp, List.eraseIdx_append_cons_at vpost v hvp,
      Vec.set_eq_ok _ (show idx < (pre ++ child :: sibling :: post).length by omega), hset,
      Vec.erase_eq_ok (show idx + 1 < (pre ++ _ :: sibling :: post).length by simp; omega),
      herase, Res.pure_eq]
  · rw [shaped_iff]
    simp only [Node.keys_mk, Node.values_mk, Node.children_mk, Node.isLeaf_mk,
      Bool.false_eq_true, if_false, List.length_append, List.length_cons] at hlen hcl ⊢
    refine ⟨by omega, by omega, ?_⟩
    intro c hmem
    rcases List.mem_append.1 hmem with hm | hm
    · exact hcsh c (by simp [hm])
    · rcases List.mem_cons.1 hm with rfl | hm
      · obtain ⟨hclen, hckids⟩ := (shaped_iff child).1 hcs
        obtain ⟨hslen, hskids⟩ := (shaped_iff sibling).1 hss
        rw [shaped_iff]
        simp only [Node.keys_mk, Node.values_mk, Node.children_mk, Node.isLeaf_mk,
          List.length_append, List.length_cons, List.length_nil]
        refine ⟨by omega, ?_⟩
        by_cases hl : child.isLeaf = true
        · simpa [hl] using hckids
        · rw [hsameLeaf] at hskids
          simp only [hl, if_false, Bool.false_eq_true] at hckids hskids ⊢
          refine ⟨by simp; omega, ?_⟩
          intro d hd
          rcases List.mem_append.1 hd with hd | hd
          · exact hckids.2 d hd
          · exact hskids.2 d hd
      · exact hcsh c (by simp [hm])
  · rw [pairs_eq, pairs_eq (.mk _ _ (pre ++ child :: sibling :: post) false a)]
    simp only [Node.keys_mk, Node.values_mk, Node.children_mk, Node.isLeaf_mk,
      Bool.false_eq_true, if_false, List.map_append, List.map_cons]
    have hkv : kpre.length = vpre.length := by omega
    rw [List.zip_append hkv, List.zip_append hkv, List.zip_cons_cons,
      pairs_merged child sibling k v _ hcs hss hsameLeaf]
    have hpl : (pre.map pairs).length = (kpre.zip vpre).length := by simp; omega
    rw [weave_append _ _ _ _ hpl, weave_append _ _ _ _ hpl, weave_cons_append]
    have : (k, v) :: pairs sibling = [(k, v)] ++ pairs sibling := rfl
    rw [this, weave_cons_append]
    simp [weave]
  · intro c hmem
    simp only [Node.children_mk] at hmem
    rcases List.mem_append.1 hmem with hm | hm
    · exact hbal c (by simp [hm])
    · rcases List.mem_cons.1 hm with rfl | hm
      · rw [balanced_iff]
        simp only [Node.keys_mk, Node.children_mk, Node.isLeaf_mk, List.length_append,
          List.length_cons, List.length_nil, Nat.cast_add, Nat.cast_one]
        refine ⟨by omega, by omega, ?_⟩
        by_cases hl : child.isLeaf = true
        · simpa [hl] using hcb.2.2
        · rw [hsameLeaf] at hsb
          simp only [hl, if_false, Bool.false_eq_true] at hcb hsb ⊢
          refine ⟨hcb.2.2.1, ?_⟩
          intro d hd
          rcases List.mem_append.1 hd with hd | hd
          · exact hcb.2.2.2 d hd
          · exact hsb.2.2.2 d hd
      · exact hbal c (by simp [hm])
  · simp
    omega

end BT

theorem Vec.last_concat {α : Type} (l : List α) (a : α) : Vec.last (l ++ [a]) = .ok a := by
  simp [Vec.last]

theorem Vec.popBack_concat {α : Type} (l : List α) (a : α) : Vec.popBack (l ++ [a]) = .ok l := by
  simp [Vec.popBack]

theorem List.exists_concat_of_length_pos {α : Type} {l : List α} (h : 0 < l.length) :
    ∃ init last, l = init ++ [last] := by
  rcases List.eq_nil_or_concat l with h1 | ⟨i, b, h1⟩
  · subst h1; simp at h
  · exact ⟨i, b, by simpa using h1⟩

namespace BT

theorem same_leaf_of_balanced {t : Int} {h : Nat} {a b : Node}
    (ha : balanced t h a = true) (hb : balanced t h b = true) : b.isLeaf = a.isLeaf := by
  have h1 := (balanced_iff t h a).1 ha
  have h2 := (balanced_iff t h b).1 hb
  by_cases h3 : a.isLeaf = true <;> by_cases h4 : b.isLeaf = true <;>
    simp [h3, h4] at h1 h2 ⊢ <;> omega

theorem borrowFromLeft_spec (t : Int) (h : Nat) (parent node sibling : Node) (index : Nat)
    (ht : 1 ≤ t) (hleaf : parent.isLeaf = false) (hsh : shaped parent = true)
    (hpos : 0 < index) (hidx : index ≤ parent.keys.length)
    (hbal : ∀ c ∈ parent.children, balanced t h c = true)
    (hn : parent.children[index]? = some node)
    (hsib : parent.children[index - 1]? = some sibling)
    (hnk : (node.keys.length : Int) = t - 1) (hsk : t ≤ (sibling.keys.length : Int)) :
    ∃ p1, borrowFromLeft parent node sibling index = .ok p1 ∧ shaped p1 = true ∧
      p1.isLeaf = false ∧ pairs p1 = pairs parent ∧
      (∀ c ∈ p1.children, balanced t h c = true) ∧
      p1.keys.length = parent.keys.length := by
  obtain ⟨i, rfl⟩ : ∃ i, index = i + 1 := ⟨index - 1, by omega⟩
  simp only [Nat.add_sub_cancel] at hsib ⊢
  obtain ⟨ks, vs, cs, l, a⟩ := parent
  simp only [Node.isLeaf_mk] at hleaf
  subst hleaf
  simp only [Node.keys_mk, Node.children_mk] at hidx hbal hn hsib
  obtain ⟨hlen, hkids⟩ := (shaped_iff _).1 hsh
  simp only [Node.keys_mk, Node.values_mk, Node.children_mk, Node.isLeaf_mk,
    Bool.false_eq_true, if_false] at hlen hkids
  obtain ⟨hcl, hcsh⟩ := hkids
  obtain ⟨kpre, k, kpost, rfl, hkp⟩ := List.exists_split_at (show i < ks.length by omega)
  obtain ⟨vpre, v, vpost, rfl, hvp⟩ := List.exists_split_at (show i < vs.length by omega)
  obtain ⟨pre, sib0, node0, post, rfl, hpp⟩ :=
    List.exists_split_two_at (show i + 1 < cs.length by omega)
  have hsib0 : (pre ++ sib0 :: node0 :: post)[i]? = some sib0 :=
    List.getElem?_append_cons_at _ _ hpp
  have hnode0 : (pre ++ sib0 :: node0 :: post)[i + 1]? = some node0 := by
    have : pre ++ sib0 :: node0 :: post = (pre ++ [sib0]) ++ node0 :: post := by simp
    rw [this]
    exact List.getElem?_append_cons_at _ _ (by simp [hpp])
  obtain rfl : sib0 = sibling := by rw [hsib0] at hsib; exact Option.some.inj hsib
  obtain rfl : node0 = node := by rw [hnode0] at hn; exact Option.some.inj hn
  have hsbal := hbal sib0 (by simp)
  have hnbal := hbal node0 (by simp)
  have hsame := same_leaf_of_balanced hnbal hsbal
  have hssh := hcsh sib0 (by simp)
  have hnsh := hcsh node0 (by simp)
  obtain ⟨sks, svs, scs, sl, sa⟩ := sib0
  obtain ⟨nks, nvs, ncs, nl, na⟩ := node0
  simp only [Node.isLeaf_mk] at hsame
  subst hsame
  simp only [Node.keys_mk] at hnk hsk
  rw [shaped_iff] at hssh hnsh
  rw [balanced_iff] at hsbal hnbal
  simp only [Node.keys_mk, Node.values_mk, Node.children_mk, Node.isLeaf_mk] at hssh hnsh hsbal hnbal
  obtain ⟨sk1, skl, rfl⟩ := List.exists_concat_of_length_pos (show 0 < sks.length by omega)
  obtain ⟨sv1, svl, rfl⟩ := List.exists_concat_of_length_pos (show 0 < svs.length by omega)
  have hset1 : ∀ m : Node, (pre ++ (Node.mk (sk1 ++ [skl]) (sv1 ++ [svl]) scs sl sa) ::
      (Node.mk nks nvs ncs sl na) :: post).set (i + 1) m =
      pre ++ (Node.mk (sk1 ++ [skl]) (sv1 ++ [svl]) scs sl sa) :: m :: post := by
    intro m
    have : ∀ x : Node, pre ++ (Node.mk (sk1 ++ [skl]) (sv1 ++ [svl]) scs sl sa) :: x :: post =
        (pre ++ [Node.mk (sk1 ++ [skl]) (sv1 ++ [svl]) scs sl sa]) ++ x :: post := by simp
    rw [this, List.set_append_cons_at _ _ _ (by simp [hpp]), ← this]
  have hset2 : ∀ x m y : Node, (pre ++ x :: y :: post).set i m = pre ++ m :: y :: post :=
    fun x m y => List.set_append_cons_at _ _ _ hpp
  have hkv : kpre.length = vpre.length := by omega
  have hpl : (pre.map pairs).length = (kpre.zip vpre).length := by simp; omega
  simp only [List.length_append, List.length_cons, List.length_nil] at hssh hsbal hsk
  cases sl with
  | true =>
    simp only [if_true] at hssh hnsh hsbal hnbal
    refine ⟨.mk (kpre ++ skl :: kpost) (vpre ++ svl :: vpost)
      (pre ++ (.mk sk1 sv1 scs true sa) :: (.mk (k :: nks) (v :: nvs) ncs true na) :: post)
      false a, ?_, ?_, rfl, ?_, ?_, ?_⟩
    · simp only [borrowFromLeft, Node.children_mk, Node.keys_mk, Node.values_mk,
        Node.isLeaf_mk, Node.accessCount_mk, Nat.add_sub_cancel,
        Vec.read_eq_ok (List.getElem?_append_cons_at kpost k hkp),
        Vec.read_eq_ok (List.getElem?_append_cons_at vpost v hvp), Res.ok_bind,
        Vec.last_concat, Vec.popBack_concat, if_true, Res.pure_eq,
        Vec.set_eq_ok _ (show i < (kpre ++ k :: kpost).length by simp; omega),
        Vec.set_eq_ok _ (show i < (vpre ++ v :: vpost).length by simp; omega),
        List.set_append_cons_at kpost k _ hkp, List.set_append_cons_at vpost v _ hvp,
        Vec.set_eq_ok _ (show i + 1 < (pre ++ _ :: _ :: post).length by simp; omega),
        hset1, Vec.set_eq_ok _ (show i < (pre ++ _ :: _ :: post).length by simp; omega), hset2]
    · rw [shaped_iff]
      simp only [Node.keys_mk, Node.values_mk, Node.children_mk, Node.isLeaf_mk,
        Bool.false_eq_true, if_false, List.length_append, List.length_cons] at hlen hcl ⊢
      refine ⟨by omega, by omega, ?_⟩
      intro c hmem
      rcases List.mem_append.1 hmem with hm | hm
      · exact hcsh c (by simp [hm])
      · rcases List.mem_cons.1 hm with rfl | hm
        · rw [shaped_iff]; simp; exact ⟨by omega, hssh.2⟩
        · rcases List.mem_cons.1 hm with rfl | hm
          · rw [shaped_iff]; simp; exact ⟨by omega, hnsh.2⟩
          · exact hcsh c (by simp [hm])
    · rw [pairs_eq, pairs_eq (.mk (kpre ++ k :: kpost) _ _ false a)]
      simp only [Node.keys_mk, Node.values_mk, Node.children_mk, Node.isLeaf_mk,
        Bool.false_eq_true, if_false, List.map_append, List.map_cons]
      rw [List.zip_append hkv, List.zip_append hkv, List.zip_cons_cons, List.zip_cons_cons,
        weave_append _ _ _ _ hpl, weave_append _ _ _ _ hpl]
      have hN1 : pairs (.mk (k :: nks) (v :: nvs) ncs true na) =
          [(k, v)] ++ pairs (.mk nks nvs ncs true na) := by simp [pairs]
      have hS : pairs (.mk (sk1 ++ [skl]) (sv1 ++ [svl]) scs true sa) =
          pairs (.mk sk1 sv1 scs true sa) ++ [(skl, svl)] := by
        simp only [pairs, if_true]
        rw [List.zip_append (by omega)]
        simp
      simp only [weave, hN1, hS, weave_cons_append, weave_cons_cons, List.append_assoc,
        List.singleton_append, List.cons_append, List.nil_append]
    · intro c hmem
      simp only [Node.children_mk] at hmem
      rcases List.mem_append.1 hmem with hm | hm
      · exact hbal c (by simp [hm])
      · rcases List.mem_cons.1 hm with rfl | hm
        · rw [balanced_iff]; simp; exact ⟨by omega, by omega, hsbal.2.2⟩
        · rcases List.mem_cons.1 hm with rfl | hm
          · rw [balanced_iff]; simp; exact ⟨by omega, by omega, hnbal.2.2⟩
          · exact hbal c (by simp [hm])
    · simp
  | false =>
    simp only [Bool.false_eq_true, if_false] at hssh hnsh hsbal hnbal
    obtain ⟨sc1, moved, rfl⟩ := List.exists_concat_of_length_pos (show 0 < scs.length by omega)
    simp only [List.length_append, List.length_cons, List.length_nil] at hssh
    refine ⟨.mk (kpre ++ skl :: kpost) (vpre ++ svl :: vpost)
      (pre ++ (.mk sk1 sv1 sc1 false sa) ::
        (.mk (k :: nks) (v :: nvs) (moved :: ncs) false na) :: post)
      false a, ?_, ?_, rfl, ?_, ?_, ?_⟩
    · simp only [borrowFromLeft, Node.children_mk, Node.keys_mk, Node.values_mk,
        Node.isLeaf_mk, Node.accessCount_mk, Nat.add_sub_cancel,
        Vec.read_eq_ok (List.getElem?_append_cons_at kpost k hkp),
        Vec.read_eq_ok (List.getElem?_append_cons_at vpost v hvp), Res.ok_bind,
        Vec.last_concat, Vec.popBack_concat, Bool.false_eq_true, if_false, Res.pure_eq,
        Vec.set_eq_ok _ (show i < (kpre ++ k :: kpost).length by simp; omega),
        Vec.set_eq_ok _ (show i < (vpre ++ v :: vpost).length by simp; omega),
        List.set_append_cons_at kpost k _ hkp, List.set_append_cons_at vpost v _ hvp,
        Vec.set_eq_ok _ (show i + 1 < (pre ++ _ :: _ :: post).length by simp; omega),
        hset1, Vec.set_eq_ok _ (show i < (pre ++ _ :: _ :: post).length by simp; omega), hset2]
    · rw [shaped_iff]
      simp only [Node.keys_mk, Node.values_mk, Node.children_mk, Node.isLeaf_mk,
        Bool.false_eq_true, if_false, List.length_append, List.length_cons] at hlen hcl ⊢
      refine ⟨by omega, by omega, ?_⟩
      intro c hmem
      rcases List.mem_append.1 hmem with hm | hm
      · exact hcsh c (by simp [hm])
      · rcases List.mem_cons.1 hm with rfl | hm
        · rw [shaped_iff]
          simp only [Node.keys_mk, Node.values_mk, Node.children_mk, Node.isLeaf_mk,
            Bool.false_eq_true, if_false]
          exact ⟨by omega, by omega, fun d hd => hssh.2.2 d (by simp [hd])⟩
        · rcases List.mem_cons.1 hm with rfl | hm
          · rw [shaped_iff]
            simp only [Node.keys_mk, Node.values_mk, Node.children_mk, Node.isLeaf_mk,
              Bool.false_eq_true, if_false, List.length_cons]
            refine ⟨by omega, by omega, ?_⟩
            intro d hd
            rcases List.mem_cons.1 hd with rfl | hd
            · exact hssh.2.2 d (by simp)
            · exact hnsh.2.2 d hd
          · exact hcsh c (by simp [hm])
    · rw [pairs_eq, pairs_eq (.mk (kpre ++ k :: kpost) _ _ false a)]
      simp only [Node.keys_mk, Node.values_mk, Node.children_mk, Node.isLeaf_mk,
        Bool.false_eq_true, if_false, List.map_append, List.map_cons]
      rw [List.zip_append hkv, List.zip_append hkv, List.zip_cons_cons, List.zip_cons_cons,
        weave_append _ _ _ _ hpl, weave_append _ _ _ _ hpl]
      have hN1 : pairs (.mk (k :: nks) (v :: nvs) (moved :: ncs) false na) =
          pairs moved ++ ([(k, v)] ++ pairs (.mk nks nvs ncs false na)) := by
        simp only [pairs, pairsList, Bool.false_eq_true, if_false, List.singleton_append]
        rfl
      have hS : pairs (.mk (sk1 ++ [skl]) (sv1 ++ [svl]) (sc1 ++ [moved]) false sa) =
          pairs (.mk sk1 sv1 sc1 false sa) ++ (skl, svl) :: pairs moved := by
        simp only [pairs, pairsList_eq_map, Bool.false_eq_true, if_false, List.map_append,
          List.map_cons, List.map_nil]
        rw [List.zip_append (by omega), List.zip_cons_cons, List.zip_nil_right,
          weave_middle _ _ _ _ _ (by simp; omega)]
        simp [weave]
      simp only [weave, hN1, hS, weave_cons_append, weave_cons_cons, List.append_assoc,
        List.singleton_append, List.cons_append, List.nil_append]
    · intro c hmem
      simp only [Node.children_mk] at hmem
      rcases List.mem_append.1 hmem with hm | hm
      · exact hbal c (by simp [hm])
      · rcases List.mem_cons.1 hm with rfl | hm
        · rw [balanced_iff]
          simp only [Node.keys_mk, Node.children_mk, Node.isLeaf_mk, Bool.false_eq_true,
            if_false]
          exact ⟨by omega, by omega, hsbal.2.2.1, fun d hd => hsbal.2.2.2 d (by simp [hd])⟩
        · rcases List.mem_cons.1 hm with rfl | hm
          · rw [balanced_iff]
            simp only [Node.keys_mk, Node.children_mk, Node.isLeaf_mk, Bool.false_eq_true,
              if_false, List.length_cons, Nat.cast_add, Nat.cast_one]
            refine ⟨by omega, by omega, hnbal.2.2.1, ?_⟩
            intro d hd
            rcases List.mem_cons.1 hd with rfl | hd
            · exact hsbal.2.2.2 d (by simp)
            · exact hnbal.2.2.2 d hd
          · exact hbal c (by simp [hm])
    · simp

end BT

namespace BT

theorem borrowFromRight_spec (t : Int) (h : Nat) (parent node sibling : Node) (index : Nat)
    (ht : 1 ≤ t) (hleaf : parent.isLeaf = false) (hsh : shaped parent = true)
    (hidx : index < parent.keys.length)
    (hbal : ∀ c ∈ parent.children, balanced t h c = true)
    (hn : parent.children[index]? = some node)
    (hsib : parent.children[index + 1]? = some sibling)
    (hnk : (node.keys.length : Int) = t - 1) (hsk : t ≤ (sibling.keys.length : Int)) :
    ∃ p1, borrowFromRight parent node sibling index = .ok p1 ∧ shaped p1 = true ∧
      p1.isLeaf = false ∧ pairs p1 = pairs parent ∧
      (∀ c ∈ p1.children, balanced t h c = true) ∧
      p1.keys.length = parent.keys.length := by
  obtain ⟨ks, vs, cs, l, a⟩ := parent
  simp only [Node.isLeaf_mk] at hleaf
  subst hleaf
  simp only [Node.keys_mk, Node.children_mk] at hidx hbal hn hsib
  obtain ⟨hlen, hkids⟩ := (shaped_iff _).1 hsh
  simp only [Node.keys_mk, Node.values_mk, Node.children_mk, Node.isLeaf_mk,
    Bool.false_eq_true, if_false] at hlen hkids
  obtain ⟨hcl, hcsh⟩ := hkids
  obtain ⟨kpre, k, kpost, rfl, hkp⟩ := List.exists_split_at hidx
  obtain ⟨vpre, v, vpost, rfl, hvp⟩ := List.exists_split_at (show index < vs.length by omega)
  obtain ⟨pre, node0, sib0, post, rfl, hpp⟩ :=
    List.exists_split_two_at (show index + 1 < cs.length by omega)
  have hnode0 : (pre ++ node0 :: sib0 :: post)[index]? = some node0 :=
    List.getElem?_append_cons_at _ _ hpp
  have hsib0 : (pre ++ node0 :: sib0 :: post)[index + 1]? = some sib0 := by
    have : pre ++ node0 :: sib0 :: post = (pre ++ [node0]) ++ sib0 :: post := by simp
    rw [this]
    exact List.getElem?_append_cons_at _ _ (by simp [hpp])
  obtain rfl : sib0 = sibling := by rw [hsib0] at hsib; exact Option.some.inj hsib
  obtain rfl : node0 = node := by rw [hnode0] at hn; exact Option.some.inj hn
  have hsbal := hbal sib0 (by simp)
  have hnbal := hbal node0 (by simp)
  have hsame := same_leaf_of_balanced hnbal hsbal
  have hssh := hcsh sib0 (by simp)
  have hnsh := hcsh node0 (by simp)
  obtain ⟨sks, svs, scs, sl, sa⟩ := sib0
  obtain ⟨nks, nvs, ncs, nl, na⟩ := node0
  simp only [Node.isLeaf_mk] at hsame
  subst hsame
  simp only [Node.keys_mk] at hnk hsk
  rw [shaped_iff] at hssh hnsh
  rw [balanced_iff] at hsbal hnbal
  simp only [Node.keys_mk, Node.values_mk, Node.children_mk, Node.isLeaf_mk] at hssh hnsh hsbal hnbal
  obtain ⟨skf, sk1, rfl⟩ : ∃ x xs, sks = x :: xs := by
    cases sks with
    | nil => simp at hsk; omega
    | cons x xs => exact ⟨x, xs, rfl⟩
  obtain ⟨svf, sv1, rfl⟩ : ∃ x xs, svs = x :: xs := by
    cases svs with
    | nil => simp at hssh
    | cons x xs => exact ⟨x, xs, rfl⟩
  have hset1 : ∀ x m y : Node, (pre ++ x :: y :: post).set index m = pre ++ m :: y :: post :=
    fun x m y => List.set_append_cons_at _ _ _ hpp
  have hset2 : ∀ x m y : Node, (pre ++ x :: y :: post).set (index + 1) m =
      pre ++ x :: m :: post := by
    intro x m y
    have : ∀ z : Node, pre ++ x :: z :: post = (pre ++ [x]) ++ z :: post := by simp
    rw [this, List.set_append_cons_at _ _ _ (by simp [hpp]), ← this]
  have hkv : kpre.length = vpre.length := by omega
  have hpl : (pre.map pairs).length = (kpre.zip vpre).length := by simp; omega
  simp only [List.length_cons] at hssh hsbal hsk
  cases sl with
  | true =>
    simp only [if_true] at hssh hnsh hsbal hnbal
    refine ⟨.mk (kpre ++ skf :: kpost) (vpre ++ svf :: vpost)
      (pre ++ (.mk (nks ++ [k]) (nvs ++ [v]) ncs true na) :: (.mk sk1 sv1 scs true sa) :: post)
      false a, ?_, ?_, rfl, ?_, ?_, ?_⟩
    · simp only [borrowFromRight, Node.children_mk, Node.keys_mk, Node.values_mk,
        Node.isLeaf_mk, Node.accessCount_mk,
        Vec.read_eq_ok (List.getElem?_append_cons_at kpost k hkp),
        Vec.read_eq_ok (List.getElem?_append_cons_at vpost v hvp), Res.ok_bind,
        Vec.read_eq_ok (List.getElem?_cons_zero), Vec.erase_eq_ok (List.length_pos.2 (List.cons_ne_nil _ _)),
        List.eraseIdx_cons_zero, if_true, Res.pure_eq,
        Vec.set_eq_ok _ (show index < (kpre ++ k :: kpost).length by simp; omega),
        Vec.set_eq_ok _ (show index < (vpre ++ v :: vpost).length by simp; omega),
        List.set_append_cons_at kpost k _ hkp, List.set_append_cons_at vpost v _ hvp,
        Vec.set_eq_ok _ (show index < (pre ++ _ :: _ :: post).length by simp; omega),
        hset1, Vec.set_eq_ok _ (show index + 1 < (pre ++ _ :: _ :: post).length by simp; omega),
        hset2]
    · rw [shaped_iff]
      simp only [Node.keys_mk, Node.values_mk, Node.children_mk, Node.isLeaf_mk,
        Bool.false_eq_true, if_false, List.length_append, List.length_cons] at hlen hcl ⊢
      refine ⟨by omega, by omega, ?_⟩
      intro c hmem
      rcases List.mem_append.1 hmem with hm | hm
      · exact hcsh c (by simp [hm])
      · rcases List.mem_cons.1 hm with rfl | hm
        · rw [shaped_iff]; simp; exact ⟨by omega, hnsh.2⟩
        · rcases List.mem_cons.1 hm with rfl | hm
          · rw [shaped_iff]; simp; exact ⟨by omega, hssh.2⟩
          · exact hcsh c (by simp [hm])
    · rw [pairs_eq, pairs_eq (.mk (kpre ++ k :: kpost) _ _ false a)]
      simp only [Node.keys_mk, Node.values_mk, Node.children_mk, Node.isLeaf_mk,
        Bool.false_eq_true, if_false, List.map_append, List.map_cons]
      rw [List.zip_append hkv, List.zip_append hkv, List.zip_cons_cons, List.zip_cons_cons,
        weave_append _ _ _ _ hpl, weave_append _ _ _ _ hpl]
      have hN1 : pairs (.mk (nks ++ [k]) (nvs ++ [v]) ncs true na) =
          pairs (.mk nks nvs ncs true na) ++ [(k, v)] := by
        simp only [pairs, if_true]
        rw [List.zip_append (by omega)]
        simp
      have hS : pairs (.mk (skf :: sk1) (svf :: sv1) scs true sa) =
          (skf, svf) :: pairs (.mk sk1 sv1 scs true sa) := by simp [pairs]
      simp only [weave, hN1, hS, weave_cons_append, weave_cons_cons, List.append_assoc,
        List.singleton_append, List.cons_append, List.nil_append]
    · intro c hmem
      simp only [Node.children_mk] at hmem
      rcases List.mem_append.1 hmem with hm | hm
      · exact hbal c (by simp [hm])
      · rcases List.mem_cons.1 hm with rfl | hm
        · rw [balanced_iff]; simp; exact ⟨by omega, by omega, hnbal.2.2⟩
        · rcases List.mem_cons.1 hm with rfl | hm
          · rw [balanced_iff]; simp; exact ⟨by omega, by omega, hsbal.2.2⟩
          · exact hbal c (by simp [hm])
    · simp
  | false =>
    simp only [Bool.false_eq_true, if_false] at hssh hnsh hsbal hnbal
    obtain ⟨moved, sc1, rfl⟩ : ∃ x xs, scs = x :: xs := by
      cases scs with
      | nil => simp at hssh
      | cons x xs => exact ⟨x, xs, rfl⟩
    simp only [List.length_cons] at hssh
    refine ⟨.mk (kpre ++ skf :: kpost) (vpre ++ svf :: vpost)
      (pre ++ (.mk (nks ++ [k]) (nvs ++ [v]) (ncs ++ [moved]) false na) ::
        (.mk sk1 sv1 sc1 false sa) :: post)
      false a, ?_, ?_, rfl, ?_, ?_, ?_⟩
    · simp only [borrowFromRight, Node.children_mk, Node.keys_mk, Node.values_mk,
        Node.isLeaf_mk, Node.accessCount_mk,
        Vec.read_eq_ok (List.getElem?_append_cons_at kpost k hkp),
        Vec.read_eq_ok (List.getElem?_append_cons_at vpost v hvp), Res.ok_bind,
        Vec.read_eq_ok (List.getElem?_cons_zero), Vec.erase_eq_ok (List.length_pos.2 (List.cons_ne_nil _ _)),
        List.eraseIdx_cons_zero, Bool.false_eq_true, if_false, Res.pure_eq,
        Vec.set_eq_ok _ (show index < (kpre ++ k :: kpost).length by simp; omega),
        Vec.set_eq_ok _ (show index < (vpre ++ v :: vpost).length by simp; omega),
        List.set_append_cons_at kpost k _ hkp, List.set_append_cons_at vpost v _ hvp,
        Vec.set_eq_ok _ (show index < (pre ++ _ :: _ :: post).length by simp; omega),
        hset1, Vec.set_eq_ok _ (show index + 1 < (pre ++ _ :: _ :: post).length by simp; omega),
        hset2]
    · rw [shaped_iff]
      simp only [Node.keys_mk, Node.values_mk, Node.children_mk, Node.isLeaf_mk,
        Bool.false_eq_true, if_false, List.length_append, List.length_cons] at hlen hcl ⊢
      refine ⟨by omega, by omega, ?_⟩
      intro c hmem
      rcases List.mem_append.1 hmem with hm | hm
      · exact hcsh c (by simp [hm])
      · rcases List.mem_cons.1 hm with rfl | hm
        · rw [shaped_iff]
          simp only [Node.keys_mk, Node.values_mk, Node.children_mk, Node.isLeaf_mk,
            Bool.false_eq_true, if_false, List.length_append, List.length_cons,
            List.length_nil]
          refine ⟨by omega, by omega, ?_⟩
          intro d hd
          rcases List.mem_append.1 hd with hd | hd
          · exact hnsh.2.2 d hd
          · simp only [List.mem_singleton] at hd
            subst hd
            exact hssh.2.2 d (by simp)
        · rcases List.mem_cons.1 hm with rfl | hm
          · rw [shaped_iff]
            simp only [Node.keys_mk, Node.values_mk, Node.children_mk, Node.isLeaf_mk,
              Bool.false_eq_true, if_false]
            exact ⟨by omega, by omega, fun d hd => hssh.2.2 d (by simp [hd])⟩
          · exact hcsh c (by simp [hm])
    · rw [pairs_eq, pairs_eq (.mk (kpre ++ k :: kpost) _ _ false a)]
      simp only [Node.keys_mk, Node.values_mk, Node.children_mk, Node.isLeaf_mk,
        Bool.false_eq_true, if_false, List.map_append, List.map_cons]
      rw [List.zip_append hkv, List.zip_append hkv, List.zip_cons_cons, List.zip_cons_cons,
        weave_append _ _ _ _ hpl, weave_append _ _ _ _ hpl]
      have hN1 : pairs (.mk (nks ++ [k]) (nvs ++ [v]) (ncs ++ [moved]) false na) =
          pairs (.mk nks nvs ncs false na) ++ (k, v) :: pairs moved := by
        simp only [pairs, pairsList_eq_map, Bool.false_eq_true, if_false, List.map_append,
          List.map_cons, List.map_nil]
        rw [List.zip_append (by omega), List.zip_cons_cons, List.zip_nil_right,
          weave_middle _ _ _ _ _ (by simp; omega)]
        simp [weave]
      have hS : pairs (.mk (skf :: sk1) (svf :: sv1) (moved :: sc1) false sa) =
          pairs moved ++ ((skf, svf) :: pairs (.mk sk1 sv1 sc1 false sa)) := by
        simp only [pairs, pairsList, Bool.false_eq_true, if_false]
        rfl
      simp only [weave, hN1, hS, weave_cons_append, weave_cons_cons, List.append_assoc,
        List.singleton_append, List.cons_append, List.nil_append]
    · intro c hmem
      simp only [Node.children_mk] at hmem
      rcases List.mem_append.1 hmem with hm | hm
      · exact hbal c (by simp [hm])
      · rcases List.mem_cons.1 hm with rfl | hm
        · rw [balanced_iff]
          simp only [Node.keys_mk, Node.children_mk, Node.isLeaf_mk, Bool.false_eq_true,
            if_false, List.length_append, List.length_cons, List.length_nil, Nat.cast_add,
            Nat.cast_one]
          refine ⟨by omega, by omega, hnbal.2.2.1, ?_⟩
          intro d hd
          rcases List.mem_append.1 hd with hd | hd
          · exact hnbal.2.2.2 d hd
          · simp only [List.mem_singleton] at hd
            subst hd
            exact hsbal.2.2.2 d (by simp)
        · rcases List.mem_cons.1 hm with rfl | hm
          · rw [balanced_iff]
            simp only [Node.keys_mk, Node.children_mk, Node.isLeaf_mk, Bool.false_eq_true,
              if_false]
            exact ⟨by omega, by omega, hsbal.2.2.1, fun d hd => hsbal.2.2.2 d (by simp [hd])⟩
          · exact hbal c (by simp [hm])
    · simp

end BT

namespace BT

theorem keys_eq_of_balanced_lt {t : Int} {h : Nat} {c : Node} (hb : balanced t h c = true)
    (hlt : (c.keys.length : Int) < t) : (c.keys.length : Int) = t - 1 := by
  have := ((balanced_iff t h c).1 hb).1
  omega

theorem borrowFromSibling_spec (t : Int) (h : Nat) (parent : Node) (index : Nat)
    (ht : 1 ≤ t) (hleaf : parent.isLeaf = false) (hsh : shaped parent = true)
    (hkeys : 0 < parent.keys.length) (hidx : index ≤ parent.keys.length)
    (hbal : ∀ c ∈ parent.children, balanced t h c = true)
    (htarget : ∀ c, parent.children[index]? = some c → (c.keys.length : Int) < t) :
    ∃ p1, borrowFromSibling t parent index = .ok p1 ∧ shaped p1 = true ∧
      p1.isLeaf = false ∧ pairs p1 = pairs parent ∧
      (∀ c ∈ p1.children, balanced t h c = true) ∧
      (p1.keys.length = parent.keys.length ∨ p1.keys.length + 1 = parent.keys.length) := by
  obtain ⟨hlen, hkids⟩ := (shaped_iff parent).1 hsh
  simp only [hleaf, Bool.false_eq_true, if_false] at hkids
  obtain ⟨hcl, hcsh⟩ := hkids
  have hi : index < parent.children.length := by omega
  have hnode : parent.children[index]? = some parent.children[index] :=
    List.getElem?_eq_getElem hi
  have hnmem : parent.children[index] ∈ parent.children := List.getElem_mem hi
  have hnk := keys_eq_of_balanced_lt (hbal _ hnmem) (htarget _ hnode)
  have key_of : ∀ j (hj : j < parent.children.length),
      ¬ t ≤ (parent.children[j].keys.length : Int) →
      ∀ c, parent.children[j]? = some c → (c.keys.length : Int) = t - 1 := by
    intro j hj hnot c hc
    rw [List.getElem?_eq_getElem hj] at hc
    obtain rfl := Option.some.inj hc
    exact keys_eq_of_balanced_lt (hbal _ (List.getElem_mem hj)) (by omega)
  have hnode_keys : ∀ c, parent.children[index]? = some c → (c.keys.length : Int) = t - 1 := by
    intro c hc
    rw [hnode] at hc
    obtain rfl := Option.some.inj hc
    exact hnk
  unfold borrowFromSibling
  simp only [Vec.read_eq_ok hnode, Res.ok_bind]
  by_cases h0 : index = 0
  · -- no left sibling
    subst h0
    have hleft : leftDonor t parent 0 = .ok none := by simp [leftDonor]
    simp only [hleft, Res.ok_bind]
    have h1 : 1 < parent.children.length := by omega
    have hs1 : parent.children[0 + 1]? = some parent.children[1] :=
      List.getElem?_eq_getElem h1
    by_cases hdon : t ≤ (parent.children[1].keys.length : Int)
    · have hright : rightDonor t parent 0 = .ok (some parent.children[1]) := by
        have hne : ¬ (0 + 1 = parent.children.length) := by omega
        simp only [rightDonor, hne, if_false, Vec.read_eq_ok hs1, Res.ok_bind, hdon, if_true,
          Res.pure_eq]
      simp only [hright, Res.ok_bind]
      obtain ⟨p1, hp, h2, h3, h4, h5, h6⟩ := borrowFromRight_spec t h parent _ _ 0 ht hleaf hsh
        hkeys hbal hnode hs1 hnk hdon
      exact ⟨p1, hp, h2, h3, h4, h5, Or.inl h6⟩
    · have hright : rightDonor t parent 0 = .ok none := by
        have hne : ¬ (0 + 1 = parent.children.length) := by omega
        simp only [rightDonor, hne, if_false, Vec.read_eq_ok hs1, Res.ok_bind, hdon, if_false,
          Res.pure_eq]
      simp only [hright, Res.ok_bind, ne_eq, not_true_eq_false, if_false]
      obtain ⟨p1, hp, h2, h3, h4, h5, h6⟩ := mergeChildren_spec t h parent 0 ht hleaf hsh
        hkeys hbal hnode_keys (key_of 1 h1 hdon)
      exact ⟨p1, hp, h2, h3, h4, h5, Or.inr h6⟩
  · have hpos : 0 < index := Nat.pos_of_ne_zero h0
    have hl : index - 1 < parent.children.length := by omega
    have hsl : parent.children[index - 1]? = some parent.children[index - 1] :=
      List.getElem?_eq_getElem hl
    by_cases hdon : t ≤ (parent.children[index - 1].keys.length : Int)
    · have hleft : leftDonor t parent index = .ok (some parent.children[index - 1]) := by
        simp only [leftDonor, h0, if_false, Vec.read_eq_ok hsl, Res.ok_bind, hdon, if_true,
          Res.pure_eq]
      simp only [hleft, Res.ok_bind]
      obtain ⟨p1, hp, h2, h3, h4, h5, h6⟩ := borrowFromLeft_spec t h parent _ _ index ht hleaf
        hsh hpos hidx hbal hnode hsl hnk hdon
      exact ⟨p1, hp, h2, h3, h4, h5, Or.inl h6⟩
    · have hleft : leftDonor t parent index = .ok none := by
        simp only [leftDonor, h0, if_false, Vec.read_eq_ok hsl, Res.ok_bind, hdon, if_false,
          Res.pure_eq]
      simp only [hleft, Res.ok_bind]
      have hmerge : ∃ p1, mergeChildren parent (index - 1) = .ok p1 ∧ shaped p1 = true ∧
          p1.isLeaf = false ∧ pairs p1 = pairs parent ∧
          (∀ c ∈ p1.children, balanced t h c = true) ∧
          p1.keys.length + 1 = parent.keys.length := by
        refine mergeChildren_spec t h parent (index - 1) ht hleaf hsh (by omega) hbal
          (key_of _ hl hdon) ?_
        have : index - 1 + 1 = index := by omega
        rw [this]
        exact hnode_keys
      by_cases hlast : index + 1 = parent.children.length
      · have hright : rightDonor t parent index = .ok none := by
          simp only [rightDonor, hlast, if_true, Res.pure_eq]
        simp only [hright, Res.ok_bind, ne_eq, h0, not_false_eq_true, if_true]
        obtain ⟨p1, hp, h2, h3, h4, h5, h6⟩ := hmerge
        exact ⟨p1, hp, h2, h3, h4, h5, Or.inr h6⟩
      · have hr : index + 1 < parent.children.length := by omega
        have hsr : parent.children[index + 1]? = some parent.children[index + 1] :=
          List.getElem?_eq_getElem hr
        by_cases hdonr : t ≤ (parent.children[index + 1].keys.length : Int)
        · have hright : rightDonor t parent index = .ok (some parent.children[index + 1]) := by
            simp only [rightDonor, hlast, if_false, Vec.read_eq_ok hsr, Res.ok_bind, hdonr,
              if_true, Res.pure_eq]
          simp only [hright, Res.ok_bind]
          obtain ⟨p1, hp, h2, h3, h4, h5, h6⟩ := borrowFromRight_spec t h parent _ _ index ht
            hleaf hsh (by omega) hbal hnode hsr hnk hdonr
          exact ⟨p1, hp, h2, h3, h4, h5, Or.inl h6⟩
        · have hright : rightDonor t parent index = .ok none := by
            simp only [rightDonor, hlast, if_false, Vec.read_eq_ok hsr, Res.ok_bind, hdonr,
              if_false, Res.pure_eq]
          simp only [hright, Res.ok_bind, ne_eq, h0, not_false_eq_true, if_true]
          obtain ⟨p1, hp, h2, h3, h4, h5, h6⟩ := hmerge
          exact ⟨p1, hp, h2, h3, h4, h5, Or.inr h6⟩

end BT

namespace BT

theorem mem_weave_of_mem_child : ∀ (kvs : List (Int × Int)) (ss : List (List (Int × Int))),
    ss.length = kvs.length + 1 → ∀ s ∈ ss, ∀ x ∈ s, x ∈ weave kvs ss := by
  intro kvs
  induction kvs with
  | nil =>
    intro ss h s hs x hx
    obtain ⟨s0, rfl⟩ : ∃ s0, ss = [s0] := List.length_eq_one.1 (by simpa using h)
    simp only [List.mem_singleton] at hs
    subst hs
    simpa [weave] using hx
  | cons kv kvs ih =>
    intro ss h s hs x hx
    cases ss with
    | nil => simp at h
    | cons s0 ss =>
      simp only [List.length_cons, Nat.add_right_cancel_iff] at h
      simp only [weave, List.mem_append, List.mem_cons]
      rcases List.mem_cons.1 hs with rfl | hs
      · exact Or.inl hx
      · exact Or.inr (Or.inr (ih ss h s hs x hx))

theorem mem_weave_of_mem_pairs : ∀ (kvs : List (Int × Int)) (ss : List (List (Int × Int))),
    ss.length = kvs.length + 1 → ∀ x ∈ kvs, x ∈ weave kvs ss := by
  intro kvs
  induction kvs with
  | nil => intro ss _ x hx; simp at hx
  | cons kv kvs ih =>
    intro ss h x hx
    cases ss with
    | nil => simp at h
    | cons s0 ss =>
      simp only [List.length_cons, Nat.add_right_cancel_iff] at h
      simp only [weave, List.mem_append, List.mem_cons]
      rcases List.mem_cons.1 hx with rfl | hx
      · exact Or.inr (Or.inl rfl)
      · exact Or.inr (Or.inr (ih ss h x hx))

theorem mem_weave : ∀ (kvs : List (Int × Int)) (ss : List (List (Int × Int))) (x : Int × Int),
    x ∈ weave kvs ss → x ∈ kvs ∨ ∃ s ∈ ss, x ∈ s := by
  intro kvs
  induction kvs with
  | nil =>
    intro ss x hx
    cases ss with
    | nil => simp [weave] at hx
    | cons s ss =>
      simp only [weave] at hx
      exact Or.inr ⟨s, by simp, hx⟩
  | cons kv kvs ih =>
    intro ss x hx
    cases ss with
    | nil => simp [weave] at hx
    | cons s ss =>
      simp only [weave, List.mem_append, List.mem_cons] at hx
      rcases hx with hx | rfl | hx
      · exact Or.inr ⟨s, by simp, hx⟩
      · exact Or.inl (by simp)
      · rcases ih ss x hx with h | ⟨s1, hs1, hx1⟩
        · exact Or.inl (by simp [h])
        · exact Or.inr ⟨s1, by simp [hs1], hx1⟩

theorem key_mem_pairs {n : Node} (hs : shaped n = true) {k : Int} (hk : k ∈ n.keys) :
    k ∈ (pairs n).map Prod.fst := by
  obtain ⟨hlen, hkids⟩ := (shaped_iff n).1 hs
  have hz : k ∈ (n.keys.zip n.values).map Prod.fst := by
    rw [List.map_fst_zip _ _ (by omega)]
    exact hk
  obtain ⟨kv, hkv, rfl⟩ := List.mem_map.1 hz
  rw [pairs_eq]
  by_cases hleaf : n.isLeaf = true
  · simp only [hleaf, if_true]
    exact List.mem_map.2 ⟨kv, hkv, rfl⟩
  · simp only [hleaf, if_false, Bool.false_eq_true] at hkids ⊢
    exact List.mem_map.2 ⟨kv, mem_weave_of_mem_pairs _ _ (by simp; omega) kv hkv, rfl⟩

theorem child_pairs_subset {n c : Node} (hs : shaped n = true) (hleaf : n.isLeaf = false)
    (hc : c ∈ n.children) {k : Int} (hk : k ∈ (pairs c).map Prod.fst) :
    k ∈ (pairs n).map Prod.fst := by
  obtain ⟨hlen, hkids⟩ := (shaped_iff n).1 hs
  simp only [hleaf, Bool.false_eq_true, if_false] at hkids
  obtain ⟨kv, hkv, rfl⟩ := List.mem_map.1 hk
  rw [pairs_eq]
  simp only [hleaf, Bool.false_eq_true, if_false]
  exact List.mem_map.2 ⟨kv, mem_weave_of_mem_child _ _ (by simp; omega) (pairs c)
    (List.mem_map.2 ⟨c, hc, rfl⟩) kv hkv, rfl⟩

mutual
theorem pairs_fst_mem_allKeys : ∀ (n : Node) (x : Int × Int), x ∈ pairs n → x.1 ∈ n.allKeys
  | .mk ks vs cs l a, x, hx => by
    simp only [pairs] at hx
    simp only [Node.allKeys, List.mem_append]
    cases l with
    | true =>
      simp only [if_true] at hx
      exact Or.inl (List.of_mem_zip hx).1
    | false =>
      simp only [Bool.false_eq_true, if_false] at hx
      rcases mem_weave _ _ x hx with h | ⟨s, hs, hxs⟩
      · exact Or.inl (List.of_mem_zip h).1
      · exact Or.inr (pairsList_fst_mem_allKeys cs s hs x hxs)
theorem pairsList_fst_mem_allKeys : ∀ (cs : List Node) (s : List (Int × Int)),
    s ∈ pairsList cs → ∀ x ∈ s, x.1 ∈ Node.allKeysList cs
  | [], s, hs, _, _ => by simp [pairsList] at hs
  | c :: cs, s, hs, x, hx => by
    simp only [pairsList, List.mem_cons] at hs
    simp only [Node.allKeysList, List.mem_append]
    rcases hs with rfl | hs
    · exact Or.inl (pairs_fst_mem_allKeys c x hx)
    · exact Or.inr (pairsList_fst_mem_allKeys cs s hs x hx)
end

theorem withChildren_set_spec (n c c1 : Node) (j : Nat) (hleaf : n.isLeaf = false)
    (hs : shaped n = true) (hc : n.children[j]? = some c) (hc1 : shaped c1 = true)
    (hp : pairs c1 = pairs c) :
    shaped (n.withChildren (n.children.set j c1)) = true ∧
      pairs (n.withChildren (n.children.set j c1)) = pairs n := by
  obtain ⟨hlen, hkids⟩ := (shaped_iff n).1 hs
  simp only [hleaf, Bool.false_eq_true, if_false] at hkids
  constructor
  · rw [shaped_iff]
    simp only [Node.withChildren, Node.keys_mk, Node.values_mk, Node.children_mk,
      Node.isLeaf_mk, hleaf, Bool.false_eq_true, if_false, List.length_set]
    refine ⟨hlen, hkids.1, ?_⟩
    intro d hd
    rcases List.mem_or_eq_of_mem_set hd with h | h
    · exact hkids.2 d h
    · exact h ▸ hc1
  · rw [pairs_eq, pairs_eq n]
    simp only [Node.withChildren, Node.keys_mk, Node.values_mk, Node.children_mk,
      Node.isLeaf_mk, hleaf, Bool.false_eq_true, if_false]
    congr 1
    rw [List.map_set, hp]
    apply List.ext_getElem?
    intro i
    by_cases hi : i = j
    · subst hi
      obtain ⟨hlt, hget⟩ := List.getElem?_eq_some_iff.1 hc
      simp [List.getElem?_set, hlt, hget]
    · simp [List.getElem?_set, Ne.symm hi]

/-- Removing a key that does not occur below a node returns false and keeps
the in-order sequence of the subtree, whatever borrows and merges are made on
the way down. -/
theorem removeFromNode_missing (t : Int) (key : Int) (ht : 2 ≤ t) :
    ∀ (fuel h : Nat) (n : Node), h < fuel → shaped n = true → 0 < n.keys.length →
      (n.isLeaf = true ∨ (0 < h ∧ ∀ c ∈ n.children, balanced t (h - 1) c = true)) →
      key ∉ (pairs n).map Prod.fst →
      ∃ n1, removeFromNode t fuel n key = .ok (false, n1) ∧ shaped n1 = true ∧
        pairs n1 = pairs n := by
  intro fuel
  induction fuel with
  | zero => intro h n hf; omega
  | succ fuel ih =>
    intro h n hf hsh hkeys hbal hk
    have hnotkey : ¬ n.keys[findKeyIndex n.keys key]? = some key := by
      intro hfound
      exact hk (key_mem_pairs hsh (List.getElem?_mem hfound))
    simp only [removeFromNode, hnotkey, if_false]
    by_cases hleaf : n.isLeaf = true
    · exact ⟨n, by simp [hleaf], hsh, rfl⟩
    · have hleaf' : n.isLeaf = false := by simpa using hleaf
      simp only [hleaf, if_false, Bool.false_eq_true]
      rcases hbal with hb | ⟨hh, hbal⟩
      · exact absurd hb hleaf
      obtain ⟨hlen, hkids⟩ := (shaped_iff n).1 hsh
      simp only [hleaf, Bool.false_eq_true, if_false] at hkids
      obtain ⟨hcl, hcsh⟩ := hkids
      have hidx := findKeyIndex_le n.keys key
      have hi : findKeyIndex n.keys key < n.children.length := by omega
      have htarget : n.children[findKeyIndex n.keys key]? =
          some n.children[findKeyIndex n.keys key] := List.getElem?_eq_getElem hi
      simp only [Vec.read_eq_ok htarget, Res.ok_bind]
      -- the descent that follows the optional rebalancing step
      have hcont : ∀ p1 : Node, shaped p1 = true → p1.isLeaf = false → pairs p1 = pairs n →
          (∀ c ∈ p1.children, balanced t (h - 1) c = true) →
          (p1.keys.length = n.keys.length ∨ p1.keys.length + 1 = n.keys.length) →
          ∃ n1, (do
              let next ← Vec.read p1.children
                (if decide (findKeyIndex n.keys key = n.keys.length) = true ∧
                    findKeyIndex n.keys key > p1.keys.length then findKeyIndex n.keys key - 1
                  else findKeyIndex n.keys key)
              let r ← removeFromNode t fuel next key
              let cs ← Vec.set p1.children
                (if decide (findKeyIndex n.keys key = n.keys.length) = true ∧
                    findKeyIndex n.keys key > p1.keys.length then findKeyIndex n.keys key - 1
                  else findKeyIndex n.keys key) r.2
              pure (r.1, p1.withChildren cs)) = .ok (false, n1) ∧
            shaped n1 = true ∧ pairs n1 = pairs n := by
        intro p1 hsh1 hleaf1 hpairs1 hbal1 hcount
        obtain ⟨hlen1, hkids1⟩ := (shaped_iff p1).1 hsh1
        simp only [hleaf1, Bool.false_eq_true, if_false] at hkids1
        obtain ⟨hcl1, hcsh1⟩ := hkids1
        generalize hj : (if decide (findKeyIndex n.keys key = n.keys.length) = true ∧
            findKeyIndex n.keys key > p1.keys.length then findKeyIndex n.keys key - 1
            else findKeyIndex n.keys key) = j
        have hjlt : j < p1.children.length := by
          rw [← hj]
          split
          · omega
          · rename_i hcond
            simp only [decide_eq_true_eq, gt_iff_lt, not_and, not_lt] at hcond
            by_cases hflag : findKeyIndex n.keys key = n.keys.length
            · have := hcond hflag
              omega
            · omega
        have hnext : p1.children[j]? = some p1.children[j] := List.getElem?_eq_getElem hjlt
        have hmem : p1.children[j] ∈ p1.children := List.getElem_mem hjlt
        have hcb := (balanced_iff t (h - 1) _).1 (hbal1 _ hmem)
        obtain ⟨c1, hrun, hshc, hpc⟩ := ih (h - 1) p1.children[j] (by omega) (hcsh1 _ hmem)
          (by have := hcb.1; omega)
          (by
            by_cases hl : p1.children[j].isLeaf = true
            · exact Or.inl hl
            · have := hcb.2.2
              simp only [hl, if_false, Bool.false_eq_true] at this
              exact Or.inr this)
          (fun hin => hk (hpairs1 ▸ child_pairs_subset hsh1 hleaf1 hmem hin))
        obtain ⟨hs2, hp2⟩ := withChildren_set_spec p1 _ c1 j hleaf1 hsh1 hnext hshc hpc
        refine ⟨p1.withChildren (p1.children.set j c1), ?_, hs2, hp2.trans hpairs1⟩
        simp only [Vec.read_eq_ok hnext, Res.ok_bind, hrun, Vec.set_eq_ok c1 hjlt, Res.pure_eq]
      by_cases hlt : (n.children[findKeyIndex n.keys key].keys.length : Int) < t
      · obtain ⟨p1, hp1, hsh1, hleaf1, hpairs1, hbal1, hcount⟩ :=
          borrowFromSibling_spec t (h - 1) n _ (by omega) hleaf' hsh hkeys hidx hbal (by
            intro c hc
            rw [htarget] at hc
            obtain rfl := Option.some.inj hc
            exact hlt)
        simp only [hlt, if_true, hp1, Res.ok_bind]
        exact hcont p1 hsh1 hleaf1 hpairs1 hbal1 hcount
      · simp only [hlt, if_false, Res.pure_eq, Res.ok_bind]
        exact hcont n hsh hleaf' rfl hbal (Or.inl rfl)

end BT

namespace BT

theorem depth_ge_two_of_child {n c : Node} (h : c ∈ n.children) : 2 ≤ n.depth := by
  have h1 := depth_child_lt h
  have h2 := depth_pos c
  omega

end BT

namespace CBST

theorem rep_node_iff (h : List Node) (par : Ptr) (l r : Shape) (i : Nat) :
    rep h par (.node l i r) = true ↔
      ∃ n, h[i]? = some n ∧ n.parent = par ∧ n.left = l.root ∧ n.right = r.root ∧
        rep h (some i) l = true ∧ rep h (some i) r = true := by
  simp only [rep]
  cases hi : h[i]? with
  | none => simp
  | some n => simp [and_assoc]

theorem rep_congr {h h' : List Node} (s : Shape) (par : Ptr)
    (hh : ∀ j ∈ s.ids, h'[j]? = h[j]?) : rep h' par s = rep h par s := by
  induction s generalizing par with
  | nil => rfl
  | node l i r ihl ihr =>
    have hi : h'[i]? = h[i]? := hh i (by simp [Shape.ids])
    have hl := fun p => ihl p (fun j hj => hh j (by simp [Shape.ids, hj]))
    have hr := fun p => ihr p (fun j hj => hh j (by simp [Shape.ids, hj]))
    simp only [rep]
    rw [hi, hl, hr]

theorem rep_links {h h' : List Node} (hh : h'.map Node.links = h.map Node.links) (s : Shape)
    (par : Ptr) : rep h' par s = rep h par s := by
  have hget : ∀ j : Nat, (h'[j]?).map Node.links = (h[j]?).map Node.links := by
    intro j
    have h1 : (h'.map Node.links)[j]? = (h.map Node.links)[j]? := by rw [hh]
    simpa using h1
  induction s generalizing par with
  | nil => rfl
  | node l i r ihl ihr =>
    simp only [rep]
    have hi := hget i
    rw [ihl, ihr]
    cases h1 : h'[i]? with
    | none =>
      cases h2 : h[i]? with
      | none => rfl
      | some n => simp [h1, h2] at hi
    | some n' =>
      cases h2 : h[i]? with
      | none => simp [h1, h2] at hi
      | some n =>
        simp only [h1, h2, Option.map_some', Option.some.injEq, Node.links] at hi
        have e1 : n'.parent = n.parent := by simpa using congrArg Node.parent hi
        have e2 : n'.left = n.left := by simpa using congrArg Node.left hi
        have e3 : n'.right = n.right := by simpa using congrArg Node.right hi
        simp only [e1, e2, e3]

theorem rep_lt {h : List Node} {s : Shape} {par : Ptr} (hr : rep h par s = true) :
    ∀ j ∈ s.ids, j < h.length := by
  induction s generalizing par with
  | nil => intro j hj; simp [Shape.ids] at hj
  | node l i r ihl ihr =>
    obtain ⟨n, hn, -, -, -, h1, h2⟩ := (rep_node_iff ..).1 hr
    intro j hj
    simp only [Shape.ids, List.mem_append, List.mem_cons] at hj
    rcases hj with hj | rfl | hj
    · exact ihl h1 j hj
    · exact (List.getElem?_eq_some_iff.1 hn).1
    · exact ihr h2 j hj

theorem rep_root {h : List Node} {s : Shape} {par : Ptr} (hr : rep h par s = true) {c : Nat}
    (hc : s.root = some c) : ∃ n, h[c]? = some n ∧ n.parent = par := by
  cases s with
  | nil => simp [Shape.root] at hc
  | node l i r =>
    obtain ⟨n, hn, hp, -⟩ := (rep_node_iff ..).1 hr
    simp only [Shape.root, Option.some.injEq] at hc
    subst hc
    exact ⟨n, hn, hp⟩

theorem root_mem_ids {s : Shape} {c : Nat} (hc : s.root = some c) : c ∈ s.ids := by
  cases s with
  | nil => simp [Shape.root] at hc
  | node l i r =>
    simp only [Shape.root, Option.some.injEq] at hc
    subst hc
    simp [Shape.ids]

theorem length_le_of_nodup_lt {l : List Nat} {n : Nat} (hd : l.Nodup) (hl : ∀ j ∈ l, j < n) :
    l.length ≤ n := by
  have hs : l ⊆ List.range n := fun j hj => List.mem_range.2 (hl j hj)
  simpa using (hd.subperm hs).length_le


theorem plug_append (c1 c2 : List Frame) (s : Shape) :
    plug (c1 ++ c2) s = plug c2 (plug c1 s) := by
  induction c1 generalizing s with
  | nil => rfl
  | cons f c1 ih => simp [plug, ih]

theorem fill_ids_perm (f : Frame) (s : Shape) : (f.fill s).ids.Perm (s.ids ++ f.ids) := by
  cases f with
  | left i c => simp [Frame.fill, Frame.ids, Shape.ids]
  | right i c =>
    simp only [Frame.fill, Frame.ids, Shape.ids]
    exact List.perm_append_comm.trans List.perm_middle.symm

theorem plug_ids_perm (ctx : List Frame) (s : Shape) :
    (plug ctx s).ids.Perm (s.ids ++ ctxIds ctx) := by
  induction ctx generalizing s with
  | nil => simp [plug, ctxIds]
  | cons f ctx ih =>
    simp only [plug, ctxIds]
    refine (ih (f.fill s)).trans ?_
    rw [← List.append_assoc]
    exact (fill_ids_perm f s).append_right _

theorem plug_ids_congr (ctx : List Frame) (s s' : Shape) (hs : s.ids = s'.ids) :
    (plug ctx s).ids = (plug ctx s').ids := by
  induction ctx generalizing s s' with
  | nil => simpa [plug] using hs
  | cons f ctx ih =>
    simp only [plug]
    apply ih
    cases f <;> simp [Frame.fill, Shape.ids, hs]

theorem fill_root (f : Frame) (s : Shape) : (f.fill s).root = some f.id := by
  cases f <;> rfl

theorem rep_plug (h : List Node) (ctx : List Frame) (s : Shape) :
    rep h none (plug ctx s) = true ↔ repCtx h ctx s.root ∧ rep h (ctxParent ctx) s = true := by
  induction ctx generalizing s with
  | nil => simp [plug, repCtx, ctxParent]
  | cons f ctx ih =>
    rw [plug, ih, fill_root]
    cases f with
    | left i c =>
      simp only [Frame.fill, rep_node_iff, repCtx, Frame.id, ctxParent]
      constructor
      · rintro ⟨h0, n, h1, h2, h3, h4, h5, h6⟩
        exact ⟨⟨⟨n, h1, h2, h3, h4⟩, h6, h0⟩, h5⟩
      · rintro ⟨⟨⟨n, h1, h2, h3, h4⟩, h6, h0⟩, h5⟩
        exact ⟨h0, n, h1, h2, h3, h4, h5, h6⟩
    | right i c =>
      simp only [Frame.fill, rep_node_iff, repCtx, Frame.id, ctxParent]
      constructor
      · rintro ⟨h0, n, h1, h2, h3, h4, h5, h6⟩
        exact ⟨⟨⟨n, h1, h2, h3, h4⟩, h5, h0⟩, h6⟩
      · rintro ⟨⟨⟨n, h1, h2, h3, h4⟩, h5, h0⟩, h6⟩
        exact ⟨h0, n, h1, h2, h3, h4, h5, h6⟩

theorem exists_plug_of_mem {s : Shape} {p : Nat} (hp : p ∈ s.ids) :
    ∃ ctx a b, s = plug ctx (.node a p b) := by
  induction s with
  | nil => simp [Shape.ids] at hp
  | node l i r ihl ihr =>
    simp only [Shape.ids, List.mem_append, List.mem_cons] at hp
    rcases hp with hp | rfl | hp
    · obtain ⟨ctx, a, b, rfl⟩ := ihl hp
      exact ⟨ctx ++ [.left i r], a, b, by rw [plug_append]; rfl⟩
    · exact ⟨[], l, r, rfl⟩
    · obtain ⟨ctx, a, b, rfl⟩ := ihr hp
      exact ⟨ctx ++ [.right i l], a, b, by rw [plug_append]; rfl⟩

theorem repCtx_congr {h h' : List Node} (ctx : List Frame) (hole : Ptr)
    (hh : ∀ j ∈ ctxIds ctx, h'[j]? = h[j]?) (hr : repCtx h ctx hole) : repCtx h' ctx hole := by
  induction ctx generalizing hole with
  | nil => trivial
  | cons f ctx ih =>
    have hrest : ∀ j ∈ ctxIds ctx, h'[j]? = h[j]? := fun j hj => hh j (by simp [ctxIds, hj])
    cases f with
    | left i c =>
      obtain ⟨⟨n, h1, h2⟩, h3, h4⟩ := hr
      have hi : h'[i]? = h[i]? := hh i (by simp [ctxIds, Frame.ids])
      have hc : rep h' (some i) c = rep h (some i) c :=
        rep_congr c _ (fun j hj => hh j (by simp [ctxIds, Frame.ids, hj]))
      exact ⟨⟨n, hi.trans h1, h2⟩, hc.trans h3, ih _ hrest h4⟩
    | right i c =>
      obtain ⟨⟨n, h1, h2⟩, h3, h4⟩ := hr
      have hi : h'[i]? = h[i]? := hh i (by simp [ctxIds, Frame.ids])
      have hc : rep h' (some i) c = rep h (some i) c :=
        rep_congr c _ (fun j hj => hh j (by simp [ctxIds, Frame.ids, hj]))
      exact ⟨⟨n, hi.trans h1, h2⟩, hc.trans h3, ih _ hrest h4⟩

theorem ctx_length_le (ctx : List Frame) : ctx.length ≤ (ctxIds ctx).length := by
  induction ctx with
  | nil => simp [ctxIds]
  | cons f ctx ih =>
    cases f <;> simp [ctxIds, Frame.ids] <;> omega

theorem node_ok {t : Tree} {p : Nat} {n : Node} (h : t.heap[p]? = some n) :
    t.node p = .ok n := by
  simp [Tree.node, Vec.read, h]

@[simp]
theorem withHeap_heap (t : Tree) (h : List Node) : (t.withHeap h).heap = h := rfl

@[simp]
theorem withHeap_withHeap (t : Tree) (h h' : List Node) :
    (t.withHeap h).withHeap h' = t.withHeap h' := rfl

@[simp]
theorem withHeap_self (t : Tree) : t.withHeap t.heap = t := rfl

theorem update_ok {t : Tree} {p : Nat} {n : Node} (f : Node → Node) (h : t.heap[p]? = some n) :
    t.update p f = .ok (t.withHeap (t.heap.set p (f n))) := by
  have hl : p < t.heap.length := (List.getElem?_eq_some_iff.1 h).1
  simp [Tree.update, node_ok h, Vec.set, hl, Tree.withHeap]

theorem map_set_eq_of {f : Node → Node} {h : List Node} {y : Nat} {n n' : Node}
    (hn : h[y]? = some n) (he : f n' = f n) : (h.set y n').map f = h.map f := by
  rw [List.map_set]
  apply List.ext_getElem?
  intro j
  rw [List.getElem?_set]
  split
  · next hj =>
    subst hj
    have hl : y < h.length := (List.getElem?_eq_some_iff.1 hn).1
    have h1 : (h.map f)[y]? = some (f n) := by simp [hn]
    rw [h1, if_pos (by simpa using hl), he]
  · rfl

theorem ctx_length_lt_fuel (t : Tree) (ctx : List Frame) (s : Shape)
    (hr : rep t.heap none (plug ctx s) = true) (hd : (plug ctx s).ids.Nodup) :
    ctx.length + s.ids.length ≤ t.heap.length := by
  have h1 := length_le_of_nodup_lt hd (rep_lt hr)
  have h2 := (plug_ids_perm ctx s).length_eq
  have h3 := ctx_length_le ctx
  simp only [List.length_append] at h2
  omega


theorem updateSubtreeSize_step (fuel : Nat) (t : Tree) (y : Nat) (n : Node)
    (hn : t.heap[y]? = some n)
    (hl : ∀ c, n.left = some c → ∃ cn, t.heap[c]? = some cn)
    (hr : ∀ c, n.right = some c → ∃ cn, t.heap[c]? = some cn) :
    ∃ n' : Node, updateSubtreeSize (fuel + 1) t y =
      (match n.parent with
      | some par => updateSubtreeSize fuel (t.withHeap (t.heap.set y n')) par
      | none => .ok (t.withHeap (t.heap.set y n'))) ∧ n'.links = n.links := by
  rw [updateSubtreeSize]
  simp only [node_ok hn, Res.ok_bind]
  rcases hl' : n.left with _ | c
  · rcases hr' : n.right with _ | d
    · simp only [Res.pure_eq, Res.ok_bind, update_ok _ hn]
      exact ⟨{ n with subtreeSize := _ }, rfl, rfl⟩
    · obtain ⟨dn, hd⟩ := hr d hr'
      simp only [Res.pure_eq, Res.ok_bind, update_ok _ hn, node_ok hd]
      exact ⟨{ n with subtreeSize := _ }, rfl, rfl⟩
  · obtain ⟨cn, hc⟩ := hl c hl'
    rcases hr' : n.right with _ | d
    · simp only [Res.pure_eq, Res.ok_bind, update_ok _ hn, node_ok hc]
      exact ⟨{ n with subtreeSize := _ }, rfl, rfl⟩
    · obtain ⟨dn, hd⟩ := hr d hr'
      simp only [Res.pure_eq, Res.ok_bind, update_ok _ hn, node_ok hd, node_ok hc]
      exact ⟨{ n with subtreeSize := _ }, rfl, rfl⟩

theorem updateSubtreeSize_spec (fuel : Nat) (t : Tree) (ctx : List Frame) (a b : Shape) (y : Nat)
    (hr : rep t.heap none (plug ctx (.node a y b)) = true) (hf : ctx.length < fuel) :
    ∃ h', updateSubtreeSize fuel t y = .ok (t.withHeap h') ∧
      h'.map Node.links = t.heap.map Node.links := by
  induction fuel generalizing t ctx a b y with
  | zero => omega
  | succ fuel ih =>
    obtain ⟨hctx, hsub⟩ := (rep_plug ..).1 hr
    obtain ⟨n, hn, hpar, hleft, hright, ha, hb⟩ := (rep_node_iff ..).1 hsub
    obtain ⟨n', hv, hn'⟩ := updateSubtreeSize_step fuel t y n hn
      (fun c hc => (rep_root ha (hleft ▸ hc)).imp fun _ h => h.1)
      (fun c hc => (rep_root hb (hright ▸ hc)).imp fun _ h => h.1)
    have hlinks := map_set_eq_of hn hn'
    rw [hv, hpar]
    cases ctx with
    | nil => exact ⟨_, rfl, hlinks⟩
    | cons f ctx =>
      simp only [ctxParent]
      have hr1 : rep (t.withHeap (t.heap.set y n')).heap none
          (plug ctx (f.fill (.node a y b))) = true := by
        rw [withHeap_heap, rep_links hlinks]
        exact hr
      have hf1 : ctx.length < fuel := by simpa using hf
      cases f with
      | left i c =>
        obtain ⟨h', h1, h2⟩ := ih _ ctx (.node a y b) c i hr1 hf1
        exact ⟨h', h1, h2.trans hlinks⟩
      | right i c =>
        obtain ⟨h', h1, h2⟩ := ih _ ctx c (.node a y b) i hr1 hf1
        exact ⟨h', h1, h2.trans hlinks⟩


theorem getElem?_set_ite {h : List Node} {p : Nat} (hp : p < h.length) (n : Node) (j : Nat) :
    (h.set p n)[j]? = if j = p then some n else h[j]? := by
  rw [List.getElem?_set]
  by_cases hj : p = j
  · subst hj; simp [hp]
  · have : ¬ j = p := fun e => hj e.symm
    simp [hj, this]

theorem lt_of_getElem? {h : List Node} {p : Nat} {n : Node} (hn : h[p]? = some n) :
    p < h.length := (List.getElem?_eq_some_iff.1 hn).1

theorem node_eq (t : Tree) (p : Nat) :
    t.node p = match t.heap[p]? with
      | some n => .ok n
      | none => .fault := by
  cases h : t.heap[p]? <;> simp [Tree.node, Vec.read, h]

theorem update_eq (t : Tree) (p : Nat) (f : Node → Node) :
    t.update p f = match t.heap[p]? with
      | some n => .ok (t.withHeap (t.heap.set p (f n)))
      | none => .fault := by
  cases h : t.heap[p]? with
  | none => simp [Tree.update, Tree.node, Vec.read, h]
  | some n => simp [update_ok f h]

theorem map_content_eq {h h' : List Node}
    (hh : ∀ j : Nat, (h'[j]?).map Node.content = (h[j]?).map Node.content) :
    h'.map Node.content = h.map Node.content := by
  apply List.ext_getElem?
  intro j
  simpa using hh j

theorem content_getElem? {h h' : List Node} (hh : h'.map Node.content = h.map Node.content)
    (j : Nat) : (h'[j]?).map Node.content = (h[j]?).map Node.content := by
  have h1 : (h'.map Node.content)[j]? = (h.map Node.content)[j]? := by rw [hh]
  simpa using h1


theorem zig_links (t : Tree) (x p : Nat) (nx np : Node)
    (hnx : t.heap[x]? = some nx) (hnp : t.heap[p]? = some np)
    (hxp : nx.parent = some p) (hne : x ≠ p)
    (hr : ∀ r, nx.right = some r → r ≠ x ∧ r ≠ p ∧ ∃ n, t.heap[r]? = some n)
    (hg : ∀ g, np.parent = some g → g ≠ x ∧ g ≠ p ∧ nx.right ≠ some g ∧ ∃ n, t.heap[g]? = some n) :
    ∃ h6, zig t x = (do
        let t7 ← updateSubtreeSize (t.withHeap h6).fuel (t.withHeap h6) p
        updateSubtreeSize t7.fuel t7 x) ∧
      h6.length = t.heap.length ∧
      ∀ j, h6[j]? =
        if j = p then some { np with left := nx.right, parent := some x }
        else if j = x then some { nx with parent := np.parent, right := some p }
        else if np.parent = some j then (t.heap[j]?).map (fun n =>
          if n.left = some p then { n with left := some x } else { n with right := some x })
        else if nx.right = some j then (t.heap[j]?).map (fun n => { n with parent := some p })
        else t.heap[j]? := by
  have hxl := lt_of_getElem? hnx
  have hpl := lt_of_getElem? hnp
  have hne' : p ≠ x := fun e => hne e.symm
  have hx' := (List.getElem?_eq_some_iff.1 hnx).2
  obtain ⟨kx, vx, lx, rx, px, ax, sx, bx⟩ := nx
  obtain ⟨kp, vp, lp, rp, pp, ap, sp, bp⟩ := np
  simp only at hxp hr hg
  subst hxp
  rw [zig]
  rcases rx with _ | r
  · rcases pp with _ | g
    · simp [node_eq, update_eq, getElem?_set_ite, hnx, hnp, hxl, hpl, hne, hne']
      refine ⟨_, rfl, by simp, fun j => ?_⟩
      by_cases h1 : j = p
      · simp [h1, getElem?_set_ite, List.getElem_set, hxl, hpl, hx', hne, hne']
      by_cases h2 : j = x
      · simp [h2, getElem?_set_ite, List.getElem_set, hxl, hpl, hx', hne, hne']
      simp [getElem?_set_ite, List.getElem_set, hxl, hpl, hx', hne, hne', h1, h2]
    · obtain ⟨hgx, hgp, -, ng, hng⟩ := hg g rfl
      have hxg : x ≠ g := fun e => hgx e.symm
      have hpg : p ≠ g := fun e => hgp e.symm
      have hgl := lt_of_getElem? hng
      have hg' := (List.getElem?_eq_some_iff.1 hng).2
      by_cases hc : ng.left = some p
      · simp [node_eq, update_eq, getElem?_set_ite, hnx, hnp, hxl, hpl, hne, hne', hgx, hgp, hng, hgl, hc, hxg, hpg]
        refine ⟨_, rfl, by simp, fun j => ?_⟩
        by_cases h1 : j = p
        · simp [h1, getElem?_set_ite, List.getElem_set, hxl, hpl, hx', hne, hne', hgl, hg', hgx, hgp, hxg, hpg]
        by_cases h2 : j = x
        · simp [h2, getElem?_set_ite, List.getElem_set, hxl, hpl, hx', hne, hne', hgl, hg', hgx, hgp, hxg, hpg]
        by_cases h3 : j = g
        · simp [h3, getElem?_set_ite, List.getElem_set, hxl, hpl, hx', hne, hne', hgl, hg', hgx, hgp, hxg, hpg, hng, hc]
        have h3' : g ≠ j := fun e => h3 e.symm
        simp [getElem?_set_ite, List.getElem_set, hxl, hpl, hx', hne, hne', hgl, hg', hgx, hgp, hxg, hpg, h1, h2, h3, h3']
      · simp [node_eq, update_eq, getElem?_set_ite, hnx, hnp, hxl, hpl, hne, hne', hgx, hgp, hng, hgl, hc, hxg, hpg]
        refine ⟨_, rfl, by simp, fun j => ?_⟩
        by_cases h1 : j = p
        · simp [h1, getElem?_set_ite, List.getElem_set, hxl, hpl, hx', hne, hne', hgl, hg', hgx, hgp, hxg, hpg]
        by_cases h2 : j = x
        · simp [h2, getElem?_set_ite, List.getElem_set, hxl, hpl, hx', hne, hne', hgl, hg', hgx, hgp, hxg, hpg]
        by_cases h3 : j = g
        · simp [h3, getElem?_set_ite, List.getElem_set, hxl, hpl, hx', hne, hne', hgl, hg', hgx, hgp, hxg, hpg, hng, hc]
        have h3' : g ≠ j := fun e => h3 e.symm
        simp [getElem?_set_ite, List.getElem_set, hxl, hpl, hx', hne, hne', hgl, hg', hgx, hgp, hxg, hpg, h1, h2, h3, h3']
  · obtain ⟨hrx, hrp, nr, hnr⟩ := hr r rfl
    have hxr : x ≠ r := fun e => hrx e.symm
    have hpr : p ≠ r := fun e => hrp e.symm
    have hrl := lt_of_getElem? hnr
    have hr' := (List.getElem?_eq_some_iff.1 hnr).2
    rcases pp with _ | g
    · simp [node_eq, update_eq, getElem?_set_ite, hnx, hnp, hxl, hpl, hne, hne', hrx, hrp, hnr, hrl, hxr, hpr]
      refine ⟨_, rfl, by simp, fun j => ?_⟩
      by_cases h1 : j = p
      · simp [h1, getElem?_set_ite, List.getElem_set, hxl, hpl, hx', hne, hne', hrl, hr', hrx, hrp, hxr, hpr]
      by_cases h2 : j = x
      · simp [h2, getElem?_set_ite, List.getElem_set, hxl, hpl, hx', hne, hne', hrl, hr', hrx, hrp, hxr, hpr]
      by_cases h4 : j = r
      · simp [h4, getElem?_set_ite, List.getElem_set, hxl, hpl, hx', hne, hne', hrl, hr', hrx, hrp, hxr, hpr, hnr]
      have h4' : r ≠ j := fun e => h4 e.symm
      simp [getElem?_set_ite, List.getElem_set, hxl, hpl, hx', hne, hne', hrl, hr', hrx, hrp, hxr, hpr, h1, h2, h4, h4']
    · obtain ⟨hgx, hgp, hgr, ng, hng⟩ := hg g rfl
      have hxg : x ≠ g := fun e => hgx e.symm
      have hpg : p ≠ g := fun e => hgp e.symm
      have hgr' : g ≠ r := fun e => hgr (by rw [e])
      have hrg' : r ≠ g := fun e => hgr' e.symm
      have hgl := lt_of_getElem? hng
      have hg' := (List.getElem?_eq_some_iff.1 hng).2
      by_cases hc : ng.left = some p
      · simp [node_eq, update_eq, getElem?_set_ite, hnx, hnp, hxl, hpl, hne, hne', hgx, hgp, hng, hgl, hc, hxg, hpg, hrx, hrp, hnr, hrl, hxr, hpr, hgr', hrg']
        refine ⟨_, rfl, by simp, fun j => ?_⟩
        by_cases h1 : j = p
        · simp [h1, getElem?_set_ite, List.getElem_set, hxl, hpl, hx', hne, hne', hgl, hg', hgx, hgp, hxg, hpg, hrl, hr', hrx, hrp, hxr, hpr, hgr', hrg']
        by_cases h2 : j = x
        · simp [h2, getElem?_set_ite, List.getElem_set, hxl, hpl, hx', hne, hne', hgl, hg', hgx, hgp, hxg, hpg, hrl, hr', hrx, hrp, hxr, hpr, hgr', hrg']
        by_cases h3 : j = g
        · simp [h3, getElem?_set_ite, List.getElem_set, hxl, hpl, hx', hne, hne', hgl, hg', hgx, hgp, hxg, hpg, hrl, hr', hrx, hrp, hxr, hpr, hgr', hrg', hng, hc]
        have h3' : g ≠ j := fun e => h3 e.symm
        by_cases h4 : j = r
        · simp [h4, getElem?_set_ite, List.getElem_set, hxl, hpl, hx', hne, hne', hgl, hg', hgx, hgp, hxg, hpg, hrl, hr', hrx, hrp, hxr, hpr, hgr', hrg', hnr]
        have h4' : r ≠ j := fun e => h4 e.symm
        simp [getElem?_set_ite, List.getElem_set, hxl, hpl, hx', hne, hne', hgl, hg', hgx, hgp, hxg, hpg, hrl, hr', hrx, hrp, hxr, hpr, hgr', hrg', h1, h2, h3, h3', h4, h4']
      · simp [node_eq, update_eq, getElem?_set_ite, hnx, hnp, hxl, hpl, hne, hne', hgx, hgp, hng, hgl, hc, hxg, hpg, hrx, hrp, hnr, hrl, hxr, hpr, hgr', hrg']
        refine ⟨_, rfl, by simp, fun j => ?_⟩
        by_cases h1 : j = p
        · simp [h1, getElem?_set_ite, List.getElem_set, hxl, hpl, hx', hne, hne', hgl, hg', hgx, hgp, hxg, hpg, hrl, hr', hrx, hrp, hxr, hpr, hgr', hrg']
        by_cases h2 : j = x
        · simp [h2, getElem?_set_ite, List.getElem_set, hxl, hpl, hx', hne, hne', hgl, hg', hgx, hgp, hxg, hpg, hrl, hr', hrx, hrp, hxr, hpr, hgr', hrg']
        by_cases h3 : j = g
        · simp [h3, getElem?_set_ite, List.getElem_set, hxl, hpl, hx', hne, hne', hgl, hg', hgx, hgp, hxg, hpg, hrl, hr', hrx, hrp, hxr, hpr, hgr', hrg', hng, hc]
        have h3' : g ≠ j := fun e => h3 e.symm
        by_cases h4 : j = r
        · simp [h4, getElem?_set_ite, List.getElem_set, hxl, hpl, hx', hne, hne', hgl, hg', hgx, hgp, hxg, hpg, hrl, hr', hrx, hrp, hxr, hpr, hgr', hrg', hnr]
        have h4' : r ≠ j := fun e => h4 e.symm
        simp [getElem?_set_ite, List.getElem_set, hxl, hpl, hx', hne, hne', hgl, hg', hgx, hgp, hxg, hpg, hrl, hr', hrx, hrp, hxr, hpr, hgr', hrg', h1, h2, h3, h3', h4, h4']

theorem zag_links (t : Tree) (x p : Nat) (nx np : Node)
    (hnx : t.heap[x]? = some nx) (hnp : t.heap[p]? = some np)
    (hxp : nx.parent = some p) (hne : x ≠ p)
    (hr : ∀ r, nx.left = some r → r ≠ x ∧ r ≠ p ∧ ∃ n, t.heap[r]? = some n)
    (hg : ∀ g, np.parent = some g → g ≠ x ∧ g ≠ p ∧ nx.left ≠ some g ∧ ∃ n, t.heap[g]? = some n) :
    ∃ h6, zag t x = (do
        let t7 ← updateSubtreeSize (t.withHeap h6).fuel (t.withHeap h6) p
        updateSubtreeSize t7.fuel t7 x) ∧
      h6.length = t.heap.length ∧
      ∀ j, h6[j]? =
        if j = p then some { np with right := nx.left, parent := some x }
        else if j = x then some { nx with parent := np.parent, left := some p }
        else if np.parent = some j then (t.heap[j]?).map (fun n =>
          if n.left = some p then { n with left := some x } else { n with right := some x })
        else if nx.left = some j then (t.heap[j]?).map (fun n => { n with parent := some p })
        else t.heap[j]? := by
  have hxl := lt_of_getElem? hnx
  have hpl := lt_of_getElem? hnp
  have hne' : p ≠ x := fun e => hne e.symm
  have hx' := (List.getElem?_eq_some_iff.1 hnx).2
  obtain ⟨kx, vx, lx, rx, px, ax, sx, bx⟩ := nx
  obtain ⟨kp, vp, lp, rp, pp, ap, sp, bp⟩ := np
  simp only at hxp hr hg
  subst hxp
  rw [zag]
  rcases lx with _ | r
  · rcases pp with _ | g
    · simp [node_eq, update_eq, getElem?_set_ite, hnx, hnp, hxl, hpl, hne, hne']
      refine ⟨_, rfl, by simp, fun j => ?_⟩
      by_cases h1 : j = p
      · simp [h1, getElem?_set_ite, List.getElem_set, hxl, hpl, hx', hne, hne']
      by_cases h2 : j = x
      · simp [h2, getElem?_set_ite, List.getElem_set, hxl, hpl, hx', hne, hne']
      simp [getElem?_set_ite, List.getElem_set, hxl, hpl, hx', hne, hne', h1, h2]
    · obtain ⟨hgx, hgp, -, ng, hng⟩ := hg g rfl
      have hxg : x ≠ g := fun e => hgx e.symm
      have hpg : p ≠ g := fun e => hgp e.symm
      have hgl := lt_of_getElem? hng
      have hg' := (List.getElem?_eq_some_iff.1 hng).2
      by_cases hc : ng.left = some p
      · simp [node_eq, update_eq, getElem?_set_ite, hnx, hnp, hxl, hpl, hne, hne', hgx, hgp, hng, hgl, hc, hxg, hpg]
        refine ⟨_, rfl, by simp, fun j => ?_⟩
        by_cases h1 : j = p
        · simp [h1, getElem?_set_ite, List.getElem_set, hxl, hpl, hx', hne, hne', hgl, hg', hgx, hgp, hxg, hpg]
        by_cases h2 : j = x
        · simp [h2, getElem?_set_ite, List.getElem_set, hxl, hpl, hx', hne, hne', hgl, hg', hgx, hgp, hxg, hpg]
        by_cases h3 : j = g
        · simp [h3, getElem?_set_ite, List.getElem_set, hxl, hpl, hx', hne, hne', hgl, hg', hgx, hgp, hxg, hpg, hng, hc]
        have h3' : g ≠ j := fun e => h3 e.symm
        simp [getElem?_set_ite, List.getElem_set, hxl, hpl, hx', hne, hne', hgl, hg', hgx, hgp, hxg, hpg, h1, h2, h3, h3']
      · simp [node_eq, update_eq, getElem?_set_ite, hnx, hnp, hxl, hpl, hne, hne', hgx, hgp, hng, hgl, hc, hxg, hpg]
        refine ⟨_, rfl, by simp, fun j => ?_⟩
        by_cases h1 : j = p
        · simp [h1, getElem?_set_ite, List.getElem_set, hxl, hpl, hx', hne, hne', hgl, hg', hgx, hgp, hxg, hpg]
        by_cases h2 : j = x
        · simp [h2, getElem?_set_ite, List.getElem_set, hxl, hpl, hx', hne, hne', hgl, hg', hgx, hgp, hxg, hpg]
        by_cases h3 : j = g
        · simp [h3, getElem?_set_ite, List.getElem_set, hxl, hpl, hx', hne, hne', hgl, hg', hgx, hgp, hxg, hpg, hng, hc]
        have h3' : g ≠ j := fun e => h3 e.symm
        simp [getElem?_set_ite, List.getElem_set, hxl, hpl, hx', hne, hne', hgl, hg', hgx, hgp, hxg, hpg, h1, h2, h3, h3']
  · obtain ⟨hrx, hrp, nr, hnr⟩ := hr r rfl
    have hxr : x ≠ r := fun e => hrx e.symm
    have hpr : p ≠ r := fun e => hrp e.symm
    have hrl := lt_of_getElem? hnr
    have hr' := (List.getElem?_eq_some_iff.1 hnr).2
    rcases pp with _ | g
    · simp [node_eq, update_eq, getElem?_set_ite, hnx, hnp, hxl, hpl, hne, hne', hrx, hrp, hnr, hrl, hxr, hpr]
      refine ⟨_, rfl, by simp, fun j => ?_⟩
      by_cases h1 : j = p
      · simp [h1, getElem?_set_ite, List.getElem_set, hxl, hpl, hx', hne, hne', hrl, hr', hrx, hrp, hxr, hpr]
      by_cases h2 : j = x
      · simp [h2, getElem?_set_ite, List.getElem_set, hxl, hpl, hx', hne, hne', hrl, hr', hrx, hrp, hxr, hpr]
      by_cases h4 : j = r
      · simp [h4, getElem?_set_ite, List.getElem_set, hxl, hpl, hx', hne, hne', hrl, hr', hrx, hrp, hxr, hpr, hnr]
      have h4' : r ≠ j := fun e => h4 e.symm
      simp [getElem?_set_ite, List.getElem_set, hxl, hpl, hx', hne, hne', hrl, hr', hrx, hrp, hxr, hpr, h1, h2, h4, h4']
    · obtain ⟨hgx, hgp, hgr, ng, hng⟩ := hg g rfl
      have hxg : x ≠ g := fun e => hgx e.symm
      have hpg : p ≠ g := fun e => hgp e.symm
      have hgr' : g ≠ r := fun e => hgr (by rw [e])
      have hrg' : r ≠ g := fun e => hgr' e.symm
      have hgl := lt_of_getElem? hng
      have hg' := (List.getElem?_eq_some_iff.1 hng).2
      by_cases hc : ng.left = some p
      · simp [node_eq, update_eq, getElem?_set_ite, hnx, hnp, hxl, hpl, hne, hne', hgx, hgp, hng, hgl, hc, hxg, hpg, hrx, hrp, hnr, hrl, hxr, hpr, hgr', hrg']
        refine ⟨_, rfl, by simp, fun j => ?_⟩
        by_cases h1 : j = p
        · simp [h1, getElem?_set_ite, List.getElem_set, hxl, hpl, hx', hne, hne', hgl, hg', hgx, hgp, hxg, hpg, hrl, hr', hrx, hrp, hxr, hpr, hgr', hrg']
        by_cases h2 : j = x
        · simp [h2, getElem?_set_ite, List.getElem_set, hxl, hpl, hx', hne, hne', hgl, hg', hgx, hgp, hxg, hpg, hrl, hr', hrx, hrp, hxr, hpr, hgr', hrg']
        by_cases h3 : j = g
        · simp [h3, getElem?_set_ite, List.getElem_set, hxl, hpl, hx', hne, hne', hgl, hg', hgx, hgp, hxg, hpg, hrl, hr', hrx, hrp, hxr, hpr, hgr', hrg', hng, hc]
        have h3' : g ≠ j := fun e => h3 e.symm
        by_cases h4 : j = r
        · simp [h4, getElem?_set_ite, List.getElem_set, hxl, hpl, hx', hne, hne', hgl, hg', hgx, hgp, hxg, hpg, hrl, hr', hrx, hrp, hxr, hpr, hgr', hrg', hnr]
        have h4' : r ≠ j := fun e => h4 e.symm
        simp [getElem?_set_ite, List.getElem_set, hxl, hpl, hx', hne, hne', hgl, hg', hgx, hgp, hxg, hpg, hrl, hr', hrx, hrp, hxr, hpr, hgr', hrg', h1, h2, h3, h3', h4, h4']
      · simp [node_eq, update_eq, getElem?_set_ite, hnx, hnp, hxl, hpl, hne, hne', hgx, hgp, hng, hgl, hc, hxg, hpg, hrx, hrp, hnr, hrl, hxr, hpr, hgr', hrg']
        refine ⟨_, rfl, by simp, fun j => ?_⟩
        by_cases h1 : j = p
        · simp [h1, getElem?_set_ite, List.getElem_set, hxl, hpl, hx', hne, hne', hgl, hg', hgx, hgp, hxg, hpg, hrl, hr', hrx, hrp, hxr, hpr, hgr', hrg']
        by_cases h2 : j = x
        · simp [h2, getElem?_set_ite, List.getElem_set, hxl, hpl, hx', hne, hne', hgl, hg', hgx, hgp, hxg, hpg, hrl, hr', hrx, hrp, hxr, hpr, hgr', hrg']
        by_cases h3 : j = g
        · simp [h3, getElem?_set_ite, List.getElem_set, hxl, hpl, hx', hne, hne', hgl, hg', hgx, hgp, hxg, hpg, hrl, hr', hrx, hrp, hxr, hpr, hgr', hrg', hng, hc]
        have h3' : g ≠ j := fun e => h3 e.symm
        by_cases h4 : j = r
        · simp [h4, getElem?_set_ite, List.getElem_set, hxl, hpl, hx', hne, hne', hgl, hg', hgx, hgp, hxg, hpg, hrl, hr', hrx, hrp, hxr, hpr, hgr', hrg', hnr]
        have h4' : r ≠ j := fun e => h4 e.symm
        simp [getElem?_set_ite, List.getElem_set, hxl, hpl, hx', hne, hne', hgl, hg', hgx, hgp, hxg, hpg, hrl, hr', hrx, hrp, hxr, hpr, hgr', hrg', h1, h2, h3, h3', h4, h4']


theorem rep_reparent {h h' : List Node} {s : Shape} {par par' : Ptr} (hr : rep h par s = true)
    (hsame : ∀ j ∈ s.ids, s.root ≠ some j → h'[j]? = h[j]?)
    (hroot : ∀ r, s.root = some r →
      h'[r]? = (h[r]?).map (fun n => { n with parent := par' }))
    (hd : s.ids.Nodup) : rep h' par' s = true := by
  cases s with
  | nil => rfl
  | node l i r =>
    obtain ⟨n, hn, -, hl, hr', h1, h2⟩ := (rep_node_iff ..).1 hr
    simp only [Shape.ids] at hd
    have hil : i ∉ l.ids := fun hi => by
      have := List.nodup_append.1 hd
      exact this.2.2 hi (by simp)
    have hir : i ∉ r.ids := fun hi => by
      have := (List.nodup_append.1 hd).2.1
      exact (List.nodup_cons.1 this).1 hi
    refine (rep_node_iff ..).2 ⟨{ n with parent := par' }, ?_, rfl, hl, hr', ?_, ?_⟩
    · rw [hroot i rfl, hn]; rfl
    · rw [rep_congr l _ (fun j hj => hsame j (by simp [Shape.ids, hj]) ?_)]
      · exact h1
      · simp only [Shape.root, ne_eq, Option.some.injEq]
        rintro rfl
        exact hil hj
    · rw [rep_congr r _ (fun j hj => hsame j (by simp [Shape.ids, hj]) ?_)]
      · exact h2
      · simp only [Shape.root, ne_eq, Option.some.injEq]
        rintro rfl
        exact hir hj

theorem ctxParent_mem {ctx : List Frame} {g : Nat} (hg : ctxParent ctx = some g) :
    g ∈ ctxIds ctx := by
  cases ctx with
  | nil => simp [ctxParent] at hg
  | cons f ctx =>
    simp only [ctxParent, Option.some.injEq] at hg
    subst hg
    cases f <;> simp [ctxIds, Frame.ids, Frame.id]

theorem repCtx_parent {h : List Node} {ctx : List Frame} {hole : Ptr} (hr : repCtx h ctx hole)
    {g : Nat} (hg : ctxParent ctx = some g) : ∃ n, h[g]? = some n := by
  cases ctx with
  | nil => simp [ctxParent] at hg
  | cons f ctx =>
    simp only [ctxParent, Option.some.injEq] at hg
    subst hg
    cases f with
    | left i c => exact hr.1.imp fun _ h => h.1
    | right i c => exact hr.1.imp fun _ h => h.1

theorem repCtx_rehole {h h' : List Node} {ctx : List Frame} {p : Nat} (hole' : Ptr)
    (hr : repCtx h ctx (some p))
    (hsame : ∀ j ∈ ctxIds ctx, ctxParent ctx ≠ some j → h'[j]? = h[j]?)
    (hpar : ∀ g, ctxParent ctx = some g → h'[g]? = (h[g]?).map (fun n =>
      if n.left = some p then { n with left := hole' } else { n with right := hole' }))
    (hp : p ∉ ctxIds ctx) (hd : (ctxIds ctx).Nodup) : repCtx h' ctx hole' := by
  cases ctx with
  | nil => trivial
  | cons f ctx =>
    cases f with
    | left i c =>
      obtain ⟨⟨n, h1, h2, h3, h4⟩, h5, h6⟩ := hr
      simp only [ctxIds, Frame.ids, List.cons_append, List.nodup_cons, List.mem_append,
        not_or] at hd
      have hne : ∀ j, j ∈ c.ids ∨ j ∈ ctxIds ctx → ctxParent (Frame.left i c :: ctx) ≠ some j := by
        intro j hj
        simp only [ctxParent, Frame.id, ne_eq, Option.some.injEq]
        rintro rfl
        rcases hj with hj | hj
        · exact hd.1.1 hj
        · exact hd.1.2 hj
      refine ⟨⟨{ n with left := hole' }, ?_, h2, rfl, h4⟩, ?_, ?_⟩
      · rw [hpar i rfl, h1]
        simp [h3]
      · rw [rep_congr c _ (fun j hj => hsame j (by simp [ctxIds, Frame.ids, hj]) (hne j (.inl hj)))]
        exact h5
      · exact repCtx_congr ctx _
          (fun j hj => hsame j (by simp [ctxIds, Frame.ids, hj]) (hne j (.inr hj))) h6
    | right i c =>
      obtain ⟨⟨n, h1, h2, h3, h4⟩, h5, h6⟩ := hr
      have hpc : c.root ≠ some p := fun e =>
        hp (by simp [ctxIds, Frame.ids, root_mem_ids e])
      simp only [ctxIds, Frame.ids, List.cons_append, List.nodup_cons, List.mem_append,
        not_or] at hd
      have hne : ∀ j, j ∈ c.ids ∨ j ∈ ctxIds ctx → ctxParent (Frame.right i c :: ctx) ≠ some j := by
        intro j hj
        simp only [ctxParent, Frame.id, ne_eq, Option.some.injEq]
        rintro rfl
        rcases hj with hj | hj
        · exact hd.1.1 hj
        · exact hd.1.2 hj
      refine ⟨⟨{ n with right := hole' }, ?_, h2, h3, rfl⟩, ?_, ?_⟩
      · rw [hpar i rfl, h1]
        simp [h3, hpc]
      · rw [rep_congr c _ (fun j hj => hsame j (by simp [ctxIds, Frame.ids, hj]) (hne j (.inl hj)))]
        exact h5
      · exact repCtx_congr ctx _
          (fun j hj => hsame j (by simp [ctxIds, Frame.ids, hj]) (hne j (.inr hj))) h6

theorem content_of_links {h h' : List Node} (hh : h'.map Node.links = h.map Node.links) :
    h'.map Node.content = h.map Node.content := by
  have : Node.content = Node.content ∘ Node.links := rfl
  rw [this, ← List.map_map, ← List.map_map, hh]

theorem length_of_links {h h' : List Node} (hh : h'.map Node.links = h.map Node.links) :
    h'.length = h.length := by
  simpa using congrArg List.length hh

theorem length_of_content {h h' : List Node} (hh : h'.map Node.content = h.map Node.content) :
    h'.length = h.length := by
  simpa using congrArg List.length hh


theorem apart_of_nodup {x p : Nat} {a b c k : List Nat}
    (hd : (x :: p :: (a ++ b ++ c ++ k)).Nodup) : Apart x p a b c k := by
  simp only [List.nodup_append, List.nodup_cons, List.disjoint_left, List.mem_append,
    List.mem_cons, not_or] at hd
  obtain ⟨⟨hxp, ⟨⟨hxa, hxb⟩, hxc⟩, hxk⟩, ⟨⟨⟨hpa, hpb⟩, hpc⟩, hpk⟩, ⟨⟨na, nb, hab⟩, nc, habc⟩, nk,
    hall⟩ := hd
  exact ⟨hxp, hxa, hxb, hxc, hxk, hpa, hpb, hpc, hpk, fun j hj => hab hj,
    fun j hj => habc (.inl hj), fun j hj => hall (.inl (.inl hj)), fun j hj => habc (.inr hj),
    fun j hj => hall (.inl (.inr hj)), fun j hj => hall (.inr hj), na, nb, nc, nk⟩

theorem apart_zig {ctx : List Frame} {a b c : Shape} {x p : Nat}
    (hd : (plug ctx (.node (.node a x b) p c)).ids.Nodup) :
    Apart x p a.ids b.ids c.ids (ctxIds ctx) := by
  apply apart_of_nodup
  refine (List.Perm.nodup_iff ?_).1 hd
  refine (plug_ids_perm ctx _).trans ?_
  apply List.perm_iff_count.2
  intro j
  simp only [Shape.ids, List.count_append, List.count_cons]
  split_ifs <;> omega

theorem apart_zag {ctx : List Frame} {a b c : Shape} {x p : Nat}
    (hd : (plug ctx (.node c p (.node a x b))).ids.Nodup) :
    Apart x p a.ids b.ids c.ids (ctxIds ctx) := by
  apply apart_of_nodup
  refine (List.Perm.nodup_iff ?_).1 hd
  refine (plug_ids_perm ctx _).trans ?_
  apply List.perm_iff_count.2
  intro j
  simp only [Shape.ids, List.count_append, List.count_cons]
  split_ifs <;> omega


theorem zig_spec (t : Tree) (ctx : List Frame) (a b c : Shape) (x p : Nat)
    (hr : rep t.heap none (plug ctx (.node (.node a x b) p c)) = true)
    (hd : (plug ctx (.node (.node a x b) p c)).ids.Nodup) :
    ∃ h', zig t x = .ok (t.withHeap h') ∧
      rep h' none (plug ctx (.node a x (.node b p c))) = true ∧
      h'.map Node.content = t.heap.map Node.content := by
  obtain ⟨hctx, hsub⟩ := (rep_plug ..).1 hr
  obtain ⟨np, hnp, hpp, hpl, hpr, hxs, hc⟩ := (rep_node_iff ..).1 hsub
  obtain ⟨nx, hnx, hxp, hxl, hxr, ha, hb⟩ := (rep_node_iff ..).1 hxs
  have A := apart_zig hd
  have hd2 : (plug ctx (.node a x (.node b p c))).ids.Nodup := by
    rw [plug_ids_congr ctx _ (.node (.node a x b) p c)]
    · exact hd
    · simp [Shape.ids]
  -- the links after the six assignments
  obtain ⟨h6, e6, l6, g6⟩ := zig_links t x p nx np hnx hnp hxp A.xp
    (fun r hr' => by
      have hm := root_mem_ids (hxr ▸ hr')
      exact ⟨fun e => A.xb (e ▸ hm), fun e => A.pb (e ▸ hm),
        (rep_root hb (hxr ▸ hr')).imp fun _ h => h.1⟩)
    (fun g hg' => by
      have hm := ctxParent_mem (hpp ▸ hg')
      refine ⟨fun e => A.xk (e ▸ hm), fun e => A.pk (e ▸ hm), fun e => ?_,
        repCtx_parent hctx (hpp ▸ hg')⟩
      exact A.bk g (root_mem_ids (hxr ▸ e)) hm)
  have hlook : ∀ j, j ≠ p → j ≠ x → h6[j]? =
      if np.parent = some j then (t.heap[j]?).map (fun n =>
          if n.left = some p then { n with left := some x } else { n with right := some x })
        else if nx.right = some j then (t.heap[j]?).map (fun n => { n with parent := some p })
        else t.heap[j]? := by
    intro j h1 h2
    rw [g6, if_neg h1, if_neg h2]
  have hnb : ∀ j, j ∉ b.ids → nx.right ≠ some j := by
    intro j hj e
    exact hj (root_mem_ids (hxr ▸ e))
  have hnk : ∀ j, j ∉ ctxIds ctx → np.parent ≠ some j := by
    intro j hj e
    exact hj (ctxParent_mem (hpp ▸ e))
  have hside : ∀ j, j ≠ x → j ≠ p → j ∉ b.ids → j ∉ ctxIds ctx → h6[j]? = t.heap[j]? := by
    intro j h1 h2 h3 h4
    rw [hlook j h2 h1, if_neg (hnk j h4), if_neg (hnb j h3)]
  have hrep6 : rep h6 none (plug ctx (.node a x (.node b p c))) = true := by
    refine (rep_plug ..).2 ⟨?_, (rep_node_iff ..).2
      ⟨{ nx with parent := np.parent, right := some p }, ?_, hpp, hxl, rfl, ?_,
      (rep_node_iff ..).2 ⟨{ np with left := nx.right, parent := some x }, ?_, rfl, hxr, hpr, ?_, ?_⟩⟩⟩
    · -- the path above
      refine repCtx_rehole (some x) hctx (fun j hj hne => ?_) (fun g hg => ?_) A.pk A.nk
      · have h1 : j ≠ p := fun e => A.pk (e ▸ hj)
        have h2 : j ≠ x := fun e => A.xk (e ▸ hj)
        rw [hlook j h1 h2, if_neg (hpp ▸ hne), if_neg (hnb j (fun e => A.bk j e hj))]
      · have hm := ctxParent_mem hg
        have h1 : g ≠ p := fun e => A.pk (e ▸ hm)
        have h2 : g ≠ x := fun e => A.xk (e ▸ hm)
        rw [hlook g h1 h2, if_pos (hpp ▸ hg)]
    · rw [g6, if_neg A.xp, if_pos rfl]
    · rw [rep_congr a _ (fun j hj => hside j (fun e => A.xa (e ▸ hj)) (fun e => A.pa (e ▸ hj))
        (A.ab j hj) (A.ak j hj))]
      exact ha
    · rw [g6, if_pos rfl]
    · refine rep_reparent hb (fun j hj hne => ?_) (fun r hr' => ?_) A.nb
      · have h1 : j ≠ p := fun e => A.pb (e ▸ hj)
        have h2 : j ≠ x := fun e => A.xb (e ▸ hj)
        rw [hlook j h1 h2, if_neg (hnk j (A.bk j hj)), if_neg (hxr ▸ hne)]
      · have hm := root_mem_ids hr'
        have h1 : r ≠ p := fun e => A.pb (e ▸ hm)
        have h2 : r ≠ x := fun e => A.xb (e ▸ hm)
        rw [hlook r h1 h2, if_neg (hnk r (A.bk r hm)), if_pos (hxr ▸ hr')]
    · rw [rep_congr c _ (fun j hj => hside j (fun e => A.xc (e ▸ hj)) (fun e => A.pc (e ▸ hj))
        (fun e => A.bc j e hj) (A.ck j hj))]
      exact hc
  have hcont6 : h6.map Node.content = t.heap.map Node.content := by
    apply map_content_eq
    intro j
    rw [g6]
    by_cases h1 : j = p
    · simp [h1, hnp, Node.content]
    by_cases h2 : j = x
    · simp [h2, A.xp, hnx, Node.content]
    rw [if_neg h1, if_neg h2]
    split_ifs
    · cases t.heap[j]? with
      | none => rfl
      | some n => simp only [Option.map_some']; split_ifs <;> rfl
    · cases t.heap[j]? with
      | none => rfl
      | some n => rfl
    · rfl
  -- the two refreshes of the subtree sizes
  have hlen := ctx_length_lt_fuel (t.withHeap h6) (.right x a :: ctx) (.node b p c)
    hrep6 hd2
  obtain ⟨h7, e7, k7⟩ := updateSubtreeSize_spec (t.withHeap h6).fuel (t.withHeap h6)
    (.right x a :: ctx) b c p hrep6 (by
      simp only [Tree.fuel, withHeap_heap, Shape.ids, List.length_cons, List.length_append] at hlen ⊢
      omega)
  simp only [withHeap_heap, withHeap_withHeap] at k7 e7
  have hrep7 : rep h7 none (plug ctx (.node a x (.node b p c))) = true := by
    rw [rep_links k7]; exact hrep6
  obtain ⟨h8, e8, k8⟩ := updateSubtreeSize_spec (t.withHeap h7).fuel (t.withHeap h7)
    ctx a (.node b p c) x hrep7 (by
      have := length_of_links k7
      simp only [Tree.fuel, withHeap_heap, Shape.ids, List.length_cons, List.length_append] at hlen ⊢
      omega)
  simp only [withHeap_heap, withHeap_withHeap] at k8 e8
  refine ⟨h8, ?_, ?_, ?_⟩
  · rw [e6, e7]
    simp only [Res.ok_bind]
    exact e8
  · rw [rep_links k8]; exact hrep7
  · rw [content_of_links k8, content_of_links k7, hcont6]


theorem zag_spec (t : Tree) (ctx : List Frame) (a b c : Shape) (x p : Nat)
    (hr : rep t.heap none (plug ctx (.node c p (.node a x b))) = true)
    (hd : (plug ctx (.node c p (.node a x b))).ids.Nodup) :
    ∃ h', zag t x = .ok (t.withHeap h') ∧
      rep h' none (plug ctx (.node (.node c p a) x b)) = true ∧
      h'.map Node.content = t.heap.map Node.content := by
  obtain ⟨hctx, hsub⟩ := (rep_plug ..).1 hr
  obtain ⟨np, hnp, hpp, hpl, hpr, hc, hxs⟩ := (rep_node_iff ..).1 hsub
  obtain ⟨nx, hnx, hxp, hxl, hxr, ha, hb⟩ := (rep_node_iff ..).1 hxs
  have A := apart_zag hd
  have hd2 : (plug ctx (.node (.node c p a) x b)).ids.Nodup := by
    rw [plug_ids_congr ctx _ (.node c p (.node a x b))]
    · exact hd
    · simp [Shape.ids]
  -- the links after the six assignments
  obtain ⟨h6, e6, l6, g6⟩ := zag_links t x p nx np hnx hnp hxp A.xp
    (fun r hr' => by
      have hm := root_mem_ids (hxl ▸ hr')
      exact ⟨fun e => A.xa (e ▸ hm), fun e => A.pa (e ▸ hm),
        (rep_root ha (hxl ▸ hr')).imp fun _ h => h.1⟩)
    (fun g hg' => by
      have hm := ctxParent_mem (hpp ▸ hg')
      refine ⟨fun e => A.xk (e ▸ hm), fun e => A.pk (e ▸ hm), fun e => ?_,
        repCtx_parent hctx (hpp ▸ hg')⟩
      exact A.ak g (root_mem_ids (hxl ▸ e)) hm)
  have hlook : ∀ j, j ≠ p → j ≠ x → h6[j]? =
      if np.parent = some j then (t.heap[j]?).map (fun n =>
          if n.left = some p then { n with left := some x } else { n with right := some x })
        else if nx.left = some j then (t.heap[j]?).map (fun n => { n with parent := some p })
        else t.heap[j]? := by
    intro j h1 h2
    rw [g6, if_neg h1, if_neg h2]
  have hna : ∀ j, j ∉ a.ids → nx.left ≠ some j := by
    intro j hj e
    exact hj (root_mem_ids (hxl ▸ e))
  have hnk : ∀ j, j ∉ ctxIds ctx → np.parent ≠ some j := by
    intro j hj e
    exact hj (ctxParent_mem (hpp ▸ e))
  have hside : ∀ j, j ≠ x → j ≠ p → j ∉ a.ids → j ∉ ctxIds ctx → h6[j]? = t.heap[j]? := by
    intro j h1 h2 h3 h4
    rw [hlook j h2 h1, if_neg (hnk j h4), if_neg (hna j h3)]
  have hrep6 : rep h6 none (plug ctx (.node (.node c p a) x b)) = true := by
    refine (rep_plug ..).2 ⟨?_, (rep_node_iff ..).2
      ⟨{ nx with parent := np.parent, left := some p }, ?_, hpp, rfl, hxr,
      (rep_node_iff ..).2 ⟨{ np with right := nx.left, parent := some x }, ?_, rfl, hpl, hxl, ?_, ?_⟩,
      ?_⟩⟩
    · -- the path above
      refine repCtx_rehole (some x) hctx (fun j hj hne => ?_) (fun g hg => ?_) A.pk A.nk
      · have h1 : j ≠ p := fun e => A.pk (e ▸ hj)
        have h2 : j ≠ x := fun e => A.xk (e ▸ hj)
        rw [hlook j h1 h2, if_neg (hpp ▸ hne), if_neg (hna j (fun e => A.ak j e hj))]
      · have hm := ctxParent_mem hg
        have h1 : g ≠ p := fun e => A.pk (e ▸ hm)
        have h2 : g ≠ x := fun e => A.xk (e ▸ hm)
        rw [hlook g h1 h2, if_pos (hpp ▸ hg)]
    · rw [g6, if_neg A.xp, if_pos rfl]
    · rw [g6, if_pos rfl]
    · rw [rep_congr c _ (fun j hj => hside j (fun e => A.xc (e ▸ hj)) (fun e => A.pc (e ▸ hj))
        (fun e => A.ac j e hj) (A.ck j hj))]
      exact hc
    · refine rep_reparent ha (fun j hj hne => ?_) (fun r hr' => ?_) A.na
      · have h1 : j ≠ p := fun e => A.pa (e ▸ hj)
        have h2 : j ≠ x := fun e => A.xa (e ▸ hj)
        rw [hlook j h1 h2, if_neg (hnk j (A.ak j hj)), if_neg (hxl ▸ hne)]
      · have hm := root_mem_ids hr'
        have h1 : r ≠ p := fun e => A.pa (e ▸ hm)
        have h2 : r ≠ x := fun e => A.xa (e ▸ hm)
        rw [hlook r h1 h2, if_neg (hnk r (A.ak r hm)), if_pos (hxl ▸ hr')]
    · rw [rep_congr b _ (fun j hj => hside j (fun e => A.xb (e ▸ hj)) (fun e => A.pb (e ▸ hj))
        (fun e => A.ab j e hj) (A.bk j hj))]
      exact hb
  have hcont6 : h6.map Node.content = t.heap.map Node.content := by
    apply map_content_eq
    intro j
    rw [g6]
    by_cases h1 : j = p
    · simp [h1, hnp, Node.content]
    by_cases h2 : j = x
    · simp [h2, A.xp, hnx, Node.content]
    rw [if_neg h1, if_neg h2]
    split_ifs
    · cases t.heap[j]? with
      | none => rfl
      | some n => simp only [Option.map_some']; split_ifs <;> rfl
    · cases t.heap[j]? with
      | none => rfl
      | some n => rfl
    · rfl
  -- the two refreshes of the subtree sizes
  have hlen := ctx_length_lt_fuel (t.withHeap h6) (.left x b :: ctx) (.node c p a)
    hrep6 hd2
  obtain ⟨h7, e7, k7⟩ := updateSubtreeSize_spec (t.withHeap h6).fuel (t.withHeap h6)
    (.left x b :: ctx) c a p hrep6 (by
      simp only [Tree.fuel, withHeap_heap, Shape.ids, List.length_cons, List.length_append] at hlen ⊢
      omega)
  simp only [withHeap_heap, withHeap_withHeap] at k7 e7
  have hrep7 : rep h7 none (plug ctx (.node (.node c p a) x b)) = true := by
    rw [rep_links k7]; exact hrep6
  obtain ⟨h8, e8, k8⟩ := updateSubtreeSize_spec (t.withHeap h7).fuel (t.withHeap h7)
    ctx (.node c p a) b x hrep7 (by
      have := length_of_links k7
      simp only [Tree.fuel, withHeap_heap, Shape.ids, List.length_cons, List.length_append] at hlen ⊢
      omega)
  simp only [withHeap_heap, withHeap_withHeap] at k8 e8
  refine ⟨h8, ?_, ?_, ?_⟩
  · rw [e6, e7]
    simp only [Res.ok_bind]
    exact e8
  · rw [rep_links k8]; exact hrep7
  · rw [content_of_links k8, content_of_links k7, hcont6]


@[simp]
theorem root_node (l r : Shape) (i : Nat) : (Shape.node l i r).root = some i := rfl

theorem notMem_ctx_of_nodup {ctx : List Frame} {s : Shape} (hd : (plug ctx s).ids.Nodup) :
    (∀ j ∈ s.ids, j ∉ ctxIds ctx) ∧ (ctxIds ctx).Nodup ∧ s.ids.Nodup := by
  have h := (plug_ids_perm ctx s).nodup_iff.1 hd
  rw [List.nodup_append] at h
  exact ⟨fun j hj => h.2.2 hj, h.2.1, h.1⟩

theorem splayLoop_spec (fuel : Nat) (t : Tree) (ctx : List Frame) (a b : Shape) (x : Nat)
    (hr : rep t.heap none (plug ctx (.node a x b)) = true)
    (hd : (plug ctx (.node a x b)).ids.Nodup) (hf : ctx.length < fuel) :
    ∃ h' a' b', splayLoop fuel t x = .ok (t.withHeap h') ∧
      rep h' none (.node a' x b') = true ∧
      (Shape.node a' x b').ids = (plug ctx (.node a x b)).ids ∧
      h'.map Node.content = t.heap.map Node.content := by
  induction fuel generalizing t ctx a b with
  | zero => omega
  | succ fuel ih =>
    obtain ⟨hctx, hsub⟩ := (rep_plug ..).1 hr
    obtain ⟨nx, hnx, hxp, hxl, hxr, ha, hb⟩ := (rep_node_iff ..).1 hsub
    obtain ⟨hxk, hdk, -⟩ := notMem_ctx_of_nodup hd
    have hxk : x ∉ ctxIds ctx := hxk x (by simp [Shape.ids])
    rw [splayLoop]
    simp only [node_ok hnx, Res.ok_bind, hxp]
    match ctx, hr, hd, hf, hctx, hxk, hdk with
    | [], hr, hd, hf, hctx, hxk, hdk =>
      exact ⟨t.heap, a, b, rfl, hr, rfl, rfl⟩
    | [.left p c], hr, hd, hf, hctx, hxk, hdk =>
      obtain ⟨⟨np, hnp, hpp, hpl, hpr⟩, hc, -⟩ := hctx
      simp only [ctxParent, Frame.id, node_ok hnp, Res.ok_bind, hpp, hpl, root_node, if_true]
      obtain ⟨h1, e1, r1, c1⟩ := zig_spec t [] a b c x p hr hd
      have hd1 : (plug [] (.node a x (.node b p c))).ids.Nodup := by
        rw [plug_ids_congr [] _ (.node (.node a x b) p c)]
        · exact hd
        · simp [Shape.ids]
      obtain ⟨h', a', b', e2, r2, i2, c2⟩ := ih (t.withHeap h1) [] a (.node b p c) r1 hd1
        (by simp at hf ⊢; omega)
      refine ⟨h', a', b', ?_, r2, ?_, ?_⟩
      · rw [e1]; exact e2
      · rw [i2]; simp [plug, Frame.fill, Shape.ids]
      · rw [c2]; exact c1
    | [.right p c], hr, hd, hf, hctx, hxk, hdk =>
      obtain ⟨⟨np, hnp, hpp, hpl, hpr⟩, hc, -⟩ := hctx
      have hcx : c.root ≠ some x := fun e => hxk (by simp [ctxIds, Frame.ids, root_mem_ids e])
      simp only [ctxParent, Frame.id, node_ok hnp, Res.ok_bind, hpp, hpl, hcx, if_false]
      obtain ⟨h1, e1, r1, c1⟩ := zag_spec t [] a b c x p hr hd
      have hd1 : (plug [] (.node (.node c p a) x b)).ids.Nodup := by
        rw [plug_ids_congr [] _ (.node c p (.node a x b))]
        · exact hd
        · simp [Shape.ids]
      obtain ⟨h', a', b', e2, r2, i2, c2⟩ := ih (t.withHeap h1) [] (.node c p a) b r1 hd1
        (by simp at hf ⊢; omega)
      refine ⟨h', a', b', ?_, r2, ?_, ?_⟩
      · rw [e1]; exact e2
      · rw [i2]; simp [plug, Frame.fill, Shape.ids]
      · rw [c2]; exact c1
    | .left p c :: .left g d :: rest, hr, hd, hf, hctx, hxk, hdk =>
      obtain ⟨⟨np, hnp, hpp, hpl, hpr⟩, hc, ⟨ng, hng, hgp, hgl, hgr⟩, hd', hrest⟩ := hctx
      simp only [ctxParent, Frame.id, node_ok hnp, Res.ok_bind, hpp, hpl, node_ok hng, hgl,
        root_node, and_self, and_true, true_and, if_true, zigZig, node_ok hnx, hxp, deref]
      obtain ⟨h1, e1, r1, c1⟩ := zig_spec t rest (.node a x b) c d p g hr hd
      have hd1 : (plug rest (.node (.node a x b) p (.node c g d))).ids.Nodup := by
        rw [plug_ids_congr rest _ (.node (.node (.node a x b) p c) g d)]
        · exact hd
        · simp [Shape.ids]
      obtain ⟨h2, e2, r2, c2⟩ := zig_spec (t.withHeap h1) rest a b (.node c g d) x p r1 hd1
      have hd2 : (plug rest (.node a x (.node b p (.node c g d)))).ids.Nodup := by
        rw [plug_ids_congr rest _ (.node (.node (.node a x b) p c) g d)]
        · exact hd
        · simp [Shape.ids]
      simp only [withHeap_heap, withHeap_withHeap] at e2 c2
      obtain ⟨h', a', b', e3, r3, i3, c3⟩ := ih (t.withHeap h2) rest a
        (.node b p (.node c g d)) r2 hd2 (by simp at hf ⊢; omega)
      simp only [withHeap_heap, withHeap_withHeap] at e3 c3
      refine ⟨h', a', b', ?_, r3, ?_, ?_⟩
      · rw [e1]; simp only [Res.ok_bind]; rw [e2]; exact e3
      · rw [i3]
        exact plug_ids_congr rest _ _ (by simp [Shape.ids])
      · rw [c3, c2]; exact c1
    | .right p c :: .right g d :: rest, hr, hd, hf, hctx, hxk, hdk =>
      obtain ⟨⟨np, hnp, hpp, hpl, hpr⟩, hc, ⟨ng, hng, hgp, hgl, hgr⟩, hd', hrest⟩ := hctx
      have hcx : c.root ≠ some x := fun e => hxk (by simp [ctxIds, Frame.ids, root_mem_ids e])
      simp only [ctxParent, Frame.id, node_ok hnp, Res.ok_bind, hpp, hpl, hpr, node_ok hng, hgl,
        hgr, hcx, root_node, false_and, and_self, and_true, true_and, if_true, if_false, zagZag,
        node_ok hnx, hxp, deref]
      obtain ⟨h1, e1, r1, c1⟩ := zag_spec t rest c (.node a x b) d p g hr hd
      have hd1 : (plug rest (.node (.node d g c) p (.node a x b))).ids.Nodup := by
        rw [plug_ids_congr rest _ (.node d g (.node c p (.node a x b)))]
        · exact hd
        · simp [Shape.ids]
      obtain ⟨h2, e2, r2, c2⟩ := zag_spec (t.withHeap h1) rest a b (.node d g c) x p r1 hd1
      have hd2 : (plug rest (.node (.node (.node d g c) p a) x b)).ids.Nodup := by
        rw [plug_ids_congr rest _ (.node d g (.node c p (.node a x b)))]
        · exact hd
        · simp [Shape.ids]
      simp only [withHeap_heap, withHeap_withHeap] at e2 c2
      obtain ⟨h', a', b', e3, r3, i3, c3⟩ := ih (t.withHeap h2) rest
        (.node (.node d g c) p a) b r2 hd2 (by simp at hf ⊢; omega)
      simp only [withHeap_heap, withHeap_withHeap] at e3 c3
      refine ⟨h', a', b', ?_, r3, ?_, ?_⟩
      · rw [e1]; simp only [Res.ok_bind]; rw [e2]; exact e3
      · rw [i3]
        exact plug_ids_congr rest _ _ (by simp [Shape.ids])
      · rw [c3, c2]; exact c1
    | .left p c :: .right g d :: rest, hr, hd, hf, hctx, hxk, hdk =>
      obtain ⟨⟨np, hnp, hpp, hpl, hpr⟩, hc, ⟨ng, hng, hgp, hgl, hgr⟩, hd', hrest⟩ := hctx
      have hcx : c.root ≠ some x := fun e => hxk (by simp [ctxIds, Frame.ids, root_mem_ids e])
      have hdp : d.root ≠ some p := fun e => by
        have := root_mem_ids e
        simp only [ctxIds, Frame.ids, List.cons_append, List.nodup_cons, List.mem_append,
          List.mem_cons] at hdk
        exact hdk.1 (.inr (.inr (.inl this)))
      simp only [ctxParent, Frame.id, node_ok hnp, Res.ok_bind, hpp, hpl, hpr, node_ok hng, hgl,
        hgr, hcx, hdp, root_node, false_and, and_false, and_self, and_true, true_and, if_true,
        if_false, zigZag]
      obtain ⟨h1, e1, r1, c1⟩ := zig_spec t (.right g d :: rest) a b c x p hr hd
      have hd1 : (plug rest (.node d g (.node a x (.node b p c)))).ids.Nodup := by
        rw [plug_ids_congr rest _ (.node d g (.node (.node a x b) p c))]
        · exact hd
        · simp [Shape.ids]
      obtain ⟨h2, e2, r2, c2⟩ := zag_spec (t.withHeap h1) rest a (.node b p c) d x g r1 hd1
      have hd2 : (plug rest (.node (.node d g a) x (.node b p c))).ids.Nodup := by
        rw [plug_ids_congr rest _ (.node d g (.node (.node a x b) p c))]
        · exact hd
        · simp [Shape.ids]
      simp only [withHeap_heap, withHeap_withHeap] at e2 c2
      obtain ⟨h', a', b', e3, r3, i3, c3⟩ := ih (t.withHeap h2) rest
        (.node d g a) (.node b p c) r2 hd2 (by simp at hf ⊢; omega)
      simp only [withHeap_heap, withHeap_withHeap] at e3 c3
      refine ⟨h', a', b', ?_, r3, ?_, ?_⟩
      · rw [e1]; simp only [Res.ok_bind]; rw [e2]; exact e3
      · rw [i3]
        exact plug_ids_congr rest _ _ (by simp [Shape.ids])
      · rw [c3, c2]; exact c1
    | .right p c :: .left g d :: rest, hr, hd, hf, hctx, hxk, hdk =>
      obtain ⟨⟨np, hnp, hpp, hpl, hpr⟩, hc, ⟨ng, hng, hgp, hgl, hgr⟩, hd', hrest⟩ := hctx
      have hcx : c.root ≠ some x := fun e => hxk (by simp [ctxIds, Frame.ids, root_mem_ids e])
      have hdp : d.root ≠ some p := fun e => by
        have := root_mem_ids e
        simp only [ctxIds, Frame.ids, List.cons_append, List.nodup_cons, List.mem_append,
          List.mem_cons] at hdk
        exact hdk.1 (.inr (.inr (.inl this)))
      simp only [ctxParent, Frame.id, node_ok hnp, Res.ok_bind, hpp, hpl, hpr, node_ok hng, hgl,
        hgr, hcx, hdp, root_node, false_and, and_false, and_self, and_true, true_and, if_true,
        if_false, zagZig]
      obtain ⟨h1, e1, r1, c1⟩ := zag_spec t (.left g d :: rest) a b c x p hr hd
      have hd1 : (plug rest (.node (.node (.node c p a) x b) g d)).ids.Nodup := by
        rw [plug_ids_congr rest _ (.node (.node c p (.node a x b)) g d)]
        · exact hd
        · simp [Shape.ids]
      obtain ⟨h2, e2, r2, c2⟩ := zig_spec (t.withHeap h1) rest (.node c p a) b d x g r1 hd1
      have hd2 : (plug rest (.node (.node c p a) x (.node b g d))).ids.Nodup := by
        rw [plug_ids_congr rest _ (.node (.node c p (.node a x b)) g d)]
        · exact hd
        · simp [Shape.ids]
      simp only [withHeap_heap, withHeap_withHeap] at e2 c2
      obtain ⟨h', a', b', e3, r3, i3, c3⟩ := ih (t.withHeap h2) rest
        (.node c p a) (.node b g d) r2 hd2 (by simp at hf ⊢; omega)
      simp only [withHeap_heap, withHeap_withHeap] at e3 c3
      refine ⟨h', a', b', ?_, r3, ?_, ?_⟩
      · rw [e1]; simp only [Res.ok_bind]; rw [e2]; exact e3
      · rw [i3]
        exact plug_ids_congr rest _ _ (by simp [Shape.ids])
      · rw [c3, c2]; exact c1


theorem rep_of_ptrs {h h' : List Node}
    (hh : ∀ j : Nat, (h'[j]?).map (fun n => (n.left, n.right, n.parent)) =
      (h[j]?).map (fun n => (n.left, n.right, n.parent)))
    (s : Shape) (par : Ptr) : rep h' par s = rep h par s := by
  induction s generalizing par with
  | nil => rfl
  | node l i r ihl ihr =>
    simp only [rep]
    have hi := hh i
    rw [ihl, ihr]
    cases h1 : h'[i]? with
    | none =>
      cases h2 : h[i]? with
      | none => rfl
      | some n => simp [h1, h2] at hi
    | some n' =>
      cases h2 : h[i]? with
      | none => simp [h1, h2] at hi
      | some n =>
        simp only [h1, h2, Option.map_some', Option.some.injEq, Prod.mk.injEq] at hi
        simp only [hi.1, hi.2.1, hi.2.2]

theorem pairsOf_node {h : List Node} {i : Nat} {n : Node} (hn : h[i]? = some n) (l r : Shape) :
    pairsOf h (.node l i r) = pairsOf h l ++ (n.key, n.value) :: pairsOf h r := by
  simp [pairsOf, Shape.ids, List.filterMap_append, hn]

theorem pairsOf_congr {h h' : List Node} {s s' : Shape} (hs : s'.ids = s.ids)
    (hh : h'.map Node.content = h.map Node.content) : pairsOf h' s' = pairsOf h s := by
  unfold pairsOf
  rw [hs]
  apply List.filterMap_congr
  intro j _
  have hj := content_getElem? hh j
  cases h1 : h'[j]? with
  | none =>
    cases h2 : h[j]? with
    | none => rfl
    | some n => simp [h1, h2] at hj
  | some n' =>
    cases h2 : h[j]? with
    | none => simp [h1, h2] at hj
    | some n =>
      simp only [h1, h2, Option.map_some', Option.some.injEq, Node.content] at hj
      have e1 : n'.key = n.key := by simpa using congrArg Node.key hj
      have e2 : n'.value = n.value := by simpa using congrArg Node.value hj
      simp [e1, e2]

theorem inOrderHelper_asc (fuel : Nat) (t : Tree) (s : Shape) (par : Ptr) (mode : SortMode)
    (hr : rep t.heap par s = true) (hf : s.ids.length < fuel) :
    inOrderHelper fuel t s.root .ASCENDING mode = .ok (pairsOf t.heap s) := by
  induction fuel generalizing s par with
  | zero => omega
  | succ fuel ih =>
    cases s with
    | nil => rfl
    | node l i r =>
      obtain ⟨n, hn, -, hl, hr', h1, h2⟩ := (rep_node_iff ..).1 hr
      simp only [Shape.ids, List.length_append, List.length_cons] at hf
      rw [root_node, inOrderHelper]
      simp only [node_ok hn, Res.ok_bind, if_true, hl, hr', ih l _ h1 (by omega),
        ih r _ h2 (by omega), Res.pure_eq, pairsOf_node hn]

theorem ids_length_lt_fuel {t : Tree} {s : Shape} (hv : Valid t s) : s.ids.length < t.fuel := by
  have := length_le_of_nodup_lt hv.distinct (rep_lt hv.linked)
  simp only [Tree.fuel]
  omega

theorem sort_asc {t : Tree} {s : Shape} (hv : Valid t s) (mode : SortMode) :
    sort t .ASCENDING mode = .ok (pairsOf t.heap s) := by
  rw [sort, hv.root]
  exact inOrderHelper_asc _ t s none mode hv.linked (ids_length_lt_fuel hv)

theorem findNodeRecursive_mem (fuel : Nat) (t : Tree) (s : Shape) (par : Ptr) (k : Int) (p : Nat)
    (hr : rep t.heap par s = true) (hf : findNodeRecursive fuel t s.root k = .ok (some p)) :
    p ∈ s.ids := by
  induction fuel generalizing s par with
  | zero => simp [findNodeRecursive] at hf
  | succ fuel ih =>
    cases s with
    | nil => simp [Shape.root, findNodeRecursive] at hf
    | node l i r =>
      obtain ⟨n, hn, -, hl, hr', h1, h2⟩ := (rep_node_iff ..).1 hr
      rw [root_node, findNodeRecursive] at hf
      simp only [node_ok hn, Res.ok_bind] at hf
      simp only [Shape.ids, List.mem_append, List.mem_cons]
      split at hf
      · simp only [Res.pure_eq, Res.ok.injEq, Option.some.injEq] at hf
        exact .inr (.inl hf.symm)
      · split at hf
        · exact .inl (ih l _ h1 (hl ▸ hf))
        · exact .inr (.inr (ih r _ h2 (hr' ▸ hf)))


@[simp]
theorem withRoot_heap (t : Tree) (r : Ptr) : (t.withRoot r).heap = t.heap := rfl

@[simp]
theorem withRoot_root (t : Tree) (r : Ptr) : (t.withRoot r).root_ = r := rfl

@[simp]
theorem withHeap_root (t : Tree) (h : List Node) : (t.withHeap h).root_ = t.root_ := rfl

theorem withRoot_self (t : Tree) {r : Ptr} (h : t.root_ = r) : t.withRoot r = t := by
  subst h; rfl

theorem splay_spec {t : Tree} {s : Shape} (hv : Valid t s) {p : Nat} (hp : p ∈ s.ids) :
    ∃ h' a' b', splay t (some p) = .ok ((t.withHeap h').withRoot (some p)) ∧
      Valid ((t.withHeap h').withRoot (some p)) (.node a' p b') ∧
      (Shape.node a' p b').ids = s.ids ∧
      h'.map Node.content = t.heap.map Node.content := by
  rw [splay]
  by_cases hroot : t.root_ = some p
  · rw [if_pos hroot]
    cases s with
    | nil => simp [Shape.ids] at hp
    | node l i r =>
      have hi : i = p := by
        have := hv.root
        rw [hroot, root_node] at this
        exact (Option.some.inj this).symm
      subst hi
      refine ⟨t.heap, l, r, ?_, ?_, rfl, rfl⟩
      · rw [withHeap_self, withRoot_self t hroot]; rfl
      · rw [withHeap_self, withRoot_self t hroot]; exact hv
  · rw [if_neg hroot]
    obtain ⟨ctx, a, b, rfl⟩ := exists_plug_of_mem hp
    have hlen := ctx_length_lt_fuel _ _ _ hv.linked hv.distinct
    obtain ⟨h', a', b', e, r, i, c⟩ := splayLoop_spec t.fuel t ctx a b p hv.linked hv.distinct
      (by simp only [Tree.fuel]; omega)
    refine ⟨h', a', b', ?_, ⟨rfl, r, ?_⟩, i, c⟩
    · rw [e]; rfl
    · rw [i]; exact hv.distinct


theorem holds_iff {t : Tree} {k : Int} :
    holds t k = true ↔ ∃ p n, findNode t k = .ok (some p) ∧ t.heap[p]? = some n ∧
      compareEqual t n.key k t.defaultSortMode_ = true := by
  unfold holds
  constructor
  · intro h
    split at h
    · next p hf =>
      split at h
      · next n hn => exact ⟨p, n, hf, hn, h⟩
      · simp at h
    · simp at h
  · rintro ⟨p, n, hf, hn, h⟩
    simp [hf, hn, h]

theorem valid_set_value {t : Tree} {s : Shape} (hv : Valid t s) {p : Nat} {n : Node}
    (hn : t.heap[p]? = some n) (v : Int) :
    Valid (t.withHeap (t.heap.set p { n with value := v })) s := by
  refine ⟨hv.root, ?_, hv.distinct⟩
  rw [withHeap_heap, rep_of_ptrs (h := t.heap)]
  · exact hv.linked
  · intro j
    rw [getElem?_set_ite (lt_of_getElem? hn)]
    by_cases hj : j = p
    · subst hj; simp [hn]
    · simp [hj]

theorem keysOf_set_value {h : List Node} {p : Nat} {n : Node} (hn : h[p]? = some n) (v : Int)
    (s : Shape) : keysOf (h.set p { n with value := v }) s = keysOf h s := by
  unfold keysOf pairsOf
  rw [List.map_filterMap, List.map_filterMap]
  apply List.filterMap_congr
  intro j _
  rw [getElem?_set_ite (lt_of_getElem? hn)]
  by_cases hj : j = p
  · subst hj; simp [hn]
  · simp [hj]

theorem insert_overwrite_spec (t : Tree) (s : Shape) (k v : Int) (hv : Valid t s)
    (hk : holds t k = true) :
    ∃ t' s', insert t k v = .ok (false, t') ∧ Valid t' s' ∧
      t'.heap.length = t.heap.length ∧ t'.circularBuffer_ = t.circularBuffer_ ∧
      t'.nextIndex_ = t.nextIndex_ ∧ size t' = size t ∧
      keysOf t'.heap s' = keysOf t.heap s ∧
      (search t' k).toOption.map Prod.fst = some (some v) := by
  obtain ⟨p, n, hf, hn, heq⟩ := holds_iff.1 hk
  have hp : p ∈ s.ids := by
    rw [findNode, hv.root] at hf
    exact findNodeRecursive_mem _ t s none k p hv.linked hf
  obtain ⟨root, hroot⟩ : ∃ root, t.root_ = some root := by
    rw [hv.root]
    cases s with
    | nil => simp [Shape.ids] at hp
    | node l i r => exact ⟨i, rfl⟩
  have hv1 := valid_set_value hv hn v
  obtain ⟨h2, a', b', e2, hv2, i2, c2⟩ := splay_spec hv1 hp
  simp only [withHeap_heap, withHeap_withHeap] at e2 hv2 c2
  have hl2 := length_of_content c2
  -- the node after the call
  have hn2 : ∃ n2, h2[p]? = some n2 ∧ n2.key = n.key ∧ n2.value = v := by
    have hc := content_getElem? c2 p
    rw [getElem?_set_ite (lt_of_getElem? hn), if_pos rfl] at hc
    cases h1 : h2[p]? with
    | none => simp [h1] at hc
    | some n2 =>
      simp only [h1, Option.map_some', Option.some.injEq, Node.content] at hc
      exact ⟨n2, rfl, by simpa using congrArg Node.key hc, by simpa using congrArg Node.value hc⟩
  obtain ⟨n2, hn2, hk2, hv2'⟩ := hn2
  refine ⟨(t.withHeap h2).withRoot (some p), .node a' p b', ?_, hv2, ?_, rfl, rfl, rfl, ?_, ?_⟩
  · rw [insert, hroot]
    simp only [hf, Res.ok_bind, node_ok hn, Res.pure_eq, heq, if_true, deref, update_ok _ hn, e2]
  · simpa using hl2
  · have h1 : keysOf h2 (.node a' p b') = keysOf (t.heap.set p { n with value := v }) s := by
      unfold keysOf
      rw [pairsOf_congr i2 c2]
    rw [withRoot_heap, withHeap_heap, h1, keysOf_set_value hn]
  · have hf2 : findNode ((t.withHeap h2).withRoot (some p)) k = .ok (some p) := by
      rw [findNode, Tree.fuel, withRoot_root, findNodeRecursive]
      have : compareEqual ((t.withHeap h2).withRoot (some p)) n2.key k
          ((t.withHeap h2).withRoot (some p)).defaultSortMode_ = true := by
        rw [hk2]; exact heq
      simp only [node_ok (t := (t.withHeap h2).withRoot (some p)) hn2, Res.ok_bind, this, if_true,
        Res.pure_eq]
    have hceq : compareEqual ((t.withHeap h2).withRoot (some p)) n2.key k
        ((t.withHeap h2).withRoot (some p)).defaultSortMode_ = true := by
      rw [hk2]; exact heq
    rw [search]
    simp only [hf2, Res.ok_bind, node_ok (t := (t.withHeap h2).withRoot (some p)) hn2, hceq, if_true,
      update_ok (t := (t.withHeap h2).withRoot (some p)) _ hn2, splay]
    simp [Tree.withHeap, Tree.withRoot, Tree.node, Vec.read, Res.toOption, hv2',
      lt_of_getElem? hn2]


theorem keysOf_node {h : List Node} {i : Nat} {n : Node} (hn : h[i]? = some n) (l r : Shape) :
    keysOf h (.node l i r) = keysOf h l ++ n.key :: keysOf h r := by
  simp [keysOf, pairsOf_node hn]

theorem ordered_node_iff {less : Int → Int → Bool} {h : List Node} {i : Nat} {n : Node}
    (hn : h[i]? = some n) (l r : Shape) :
    ordered less h (.node l i r) = true ↔
      (∀ k ∈ keysOf h l, less k n.key = true) ∧ (∀ k ∈ keysOf h r, less n.key k = true) ∧
        ordered less h l = true ∧ ordered less h r = true := by
  simp only [ordered, hn, Bool.and_eq_true, List.all_eq_true, and_assoc]

theorem pairwise_of_ordered {less : Int → Int → Bool}
    (htrans : ∀ a b c, less a b = true → less b c = true → less a c = true)
    {h : List Node} {s : Shape} {par : Ptr} (hr : rep h par s = true)
    (ho : ordered less h s = true) : (keysOf h s).Pairwise (fun a b => less a b = true) := by
  induction s generalizing par with
  | nil => simp [keysOf, pairsOf, Shape.ids]
  | node l i r ihl ihr =>
    obtain ⟨n, hn, -, -, -, h1, h2⟩ := (rep_node_iff ..).1 hr
    obtain ⟨o1, o2, o3, o4⟩ := (ordered_node_iff hn l r).1 ho
    rw [keysOf_node hn, List.pairwise_append]
    refine ⟨ihl h1 o3, List.pairwise_cons.2 ⟨o2, ihr h2 o4⟩, ?_⟩
    intro a ha b hb
    rcases List.mem_cons.1 hb with rfl | hb
    · exact o1 a ha
    · exact htrans _ _ _ (o1 a ha) (o2 b hb)

theorem ordered_of_pairwise {less : Int → Int → Bool} {h : List Node} {s : Shape} {par : Ptr}
    (hr : rep h par s = true) (hp : (keysOf h s).Pairwise (fun a b => less a b = true)) :
    ordered less h s = true := by
  induction s generalizing par with
  | nil => rfl
  | node l i r ihl ihr =>
    obtain ⟨n, hn, -, -, -, h1, h2⟩ := (rep_node_iff ..).1 hr
    rw [keysOf_node hn, List.pairwise_append, List.pairwise_cons] at hp
    obtain ⟨p1, ⟨p2, p3⟩, p4⟩ := hp
    exact (ordered_node_iff hn l r).2
      ⟨fun k hk => p4 k hk _ (by simp), p2, ihl h1 p1, ihr h2 p3⟩


theorem compareEqual_eq (t : Tree) (a b : Int) :
    compareEqual t a b t.defaultSortMode_ = equiv t.less a b := rfl

theorem equiv_unique {less : Int → Int → Bool} (hw : StrictWeak less) {l : List (Int × Int)}
    (hp : (l.map Prod.fst).Pairwise (fun a b => less a b = true)) {e1 e2 : Int × Int}
    (h1 : e1 ∈ l) (h2 : e2 ∈ l) {k : Int} (q1 : equiv less e1.1 k = true)
    (q2 : equiv less e2.1 k = true) : e1 = e2 := by
  by_contra hne
  rw [List.pairwise_map] at hp
  have hsym : l.Pairwise (fun a b => less a.1 b.1 = true ∨ less b.1 a.1 = true) :=
    hp.imp (fun h => Or.inl h)
  have := hsym.forall (fun _ _ h => h.symm) h1 h2 hne
  simp only [equiv, Bool.and_eq_true, Bool.not_eq_true'] at q1 q2
  rcases this with h | h
  · rcases hw.cotrans _ _ k h with h' | h'
    · rw [q1.1] at h'; exact Bool.noConfusion h'
    · rw [q2.2] at h'; exact Bool.noConfusion h'
  · rcases hw.cotrans _ _ k h with h' | h'
    · rw [q2.1] at h'; exact Bool.noConfusion h'
    · rw [q1.2] at h'; exact Bool.noConfusion h'

theorem mem_pairsOf {h : List Node} {s : Shape} {p : Nat} {n : Node} (hp : p ∈ s.ids)
    (hn : h[p]? = some n) : (n.key, n.value) ∈ pairsOf h s := by
  unfold pairsOf
  rw [List.mem_filterMap]
  exact ⟨p, hp, by simp [hn]⟩

theorem mem_keysOf_of_mem_pairsOf {h : List Node} {s : Shape} {kv : Int × Int}
    (hkv : kv ∈ pairsOf h s) : kv.1 ∈ keysOf h s := by
  unfold keysOf
  exact List.mem_map_of_mem _ hkv

/-- The walk of `findNodeRecursive` in a tree that satisfies the search-tree
invariant: it returns, and it returns a node whose key is equal to the key
looked up exactly when the tree has one. -/
theorem findNodeRecursive_spec (fuel : Nat) (t : Tree) (s : Shape) (par : Ptr) (k : Int)
    (hw : StrictWeak t.less) (hr : rep t.heap par s = true)
    (ho : ordered t.less t.heap s = true) (hf : s.ids.length < fuel) :
    ∃ r, findNodeRecursive fuel t s.root k = .ok r ∧
      (r = none → ∀ kv ∈ pairsOf t.heap s, equiv t.less kv.1 k = false) ∧
      (∀ p, r = some p → p ∈ s.ids ∧ ∃ n, t.heap[p]? = some n ∧ equiv t.less n.key k = true) := by
  induction fuel generalizing s par with
  | zero => omega
  | succ fuel ih =>
    cases s with
    | nil =>
      refine ⟨none, rfl, fun _ kv hkv => ?_, fun p hp => by simp at hp⟩
      simp [pairsOf, Shape.ids] at hkv
    | node l i r =>
      obtain ⟨n, hn, -, hl, hr', h1, h2⟩ := (rep_node_iff ..).1 hr
      obtain ⟨o1, o2, o3, o4⟩ := (ordered_node_iff hn l r).1 ho
      simp only [Shape.ids, List.length_append, List.length_cons] at hf
      rw [root_node, findNodeRecursive]
      simp only [node_ok hn, Res.ok_bind, compareEqual_eq]
      by_cases he : equiv t.less n.key k = true
      · rw [if_pos he]
        refine ⟨some i, rfl, fun h => by simp at h, fun p hp => ?_⟩
        simp only [Option.some.injEq] at hp
        subst hp
        exact ⟨by simp [Shape.ids], n, hn, he⟩
      · rw [if_neg he]
        have he' : equiv t.less n.key k = false := by simpa using he
        by_cases hlt : compareLess t k n.key t.defaultSortMode_ = true
        · rw [if_pos hlt, hl]
          obtain ⟨res, e, hnone, hsome⟩ := ih l _ h1 o3 (by omega)
          refine ⟨res, e, fun h kv hkv => ?_, fun p hp => ?_⟩
          · rw [pairsOf_node hn, List.mem_append, List.mem_cons] at hkv
            rcases hkv with hkv | rfl | hkv
            · exact hnone h kv hkv
            · exact he'
            · have h3 := o2 kv.1 (mem_keysOf_of_mem_pairsOf hkv)
              have h4 : t.less k kv.1 = true := hw.trans _ _ _ hlt h3
              simp [equiv, h4]
          · obtain ⟨hm, hx⟩ := hsome p hp
            exact ⟨by simp [Shape.ids, hm], hx⟩
        · rw [if_neg hlt, hr']
          have hgt : t.less n.key k = true := by
            have hlt' : t.less k n.key = false := by simpa [Tree.less] using hlt
            simp only [equiv, hlt', Bool.not_false, Bool.and_true, Bool.not_eq_false'] at he'
            exact he'
          obtain ⟨res, e, hnone, hsome⟩ := ih r _ h2 o4 (by omega)
          refine ⟨res, e, fun h kv hkv => ?_, fun p hp => ?_⟩
          · rw [pairsOf_node hn, List.mem_append, List.mem_cons] at hkv
            rcases hkv with hkv | rfl | hkv
            · have h3 := o1 kv.1 (mem_keysOf_of_mem_pairsOf hkv)
              have h4 : t.less kv.1 k = true := hw.trans _ _ _ h3 hgt
              simp [equiv, h4]
            · exact he'
            · exact hnone h kv hkv
          · obtain ⟨hm, hx⟩ := hsome p hp
            exact ⟨by simp [Shape.ids, hm], hx⟩


theorem rep_set_same_ptrs {h : List Node} {p : Nat} {n n' : Node} (hn : h[p]? = some n)
    (e1 : n'.left = n.left) (e2 : n'.right = n.right) (e3 : n'.parent = n.parent)
    (s : Shape) (par : Ptr) : rep (h.set p n') par s = rep h par s := by
  apply rep_of_ptrs
  intro j
  rw [getElem?_set_ite (lt_of_getElem? hn)]
  by_cases hj : j = p
  · subst hj; simp [hn, e1, e2, e3]
  · simp [hj]

theorem valid_set_same_ptrs {t : Tree} {s : Shape} (hv : Valid t s) {p : Nat} {n : Node}
    (hn : t.heap[p]? = some n) (n' : Node) (e1 : n'.left = n.left) (e2 : n'.right = n.right)
    (e3 : n'.parent = n.parent) : Valid (t.withHeap (t.heap.set p n')) s :=
  ⟨hv.root, by rw [withHeap_heap, rep_set_same_ptrs hn e1 e2 e3]; exact hv.linked, hv.distinct⟩

/-- The call `search` when `findNode` ends at a node with an equal key: the
value of that node is returned and the tree stays valid. -/
theorem search_found {t : Tree} {s : Shape} (hv : Valid t s) {k : Int} {p : Nat} {n : Node}
    (hf : findNode t k = .ok (some p)) (hn : t.heap[p]? = some n)
    (he : compareEqual t n.key k t.defaultSortMode_ = true) :
    ∃ t' s', search t k = .ok (some n.value, t') ∧ Valid t' s' ∧ s'.ids = s.ids := by
  have hp : p ∈ s.ids := by
    rw [findNode, hv.root] at hf
    exact findNodeRecursive_mem _ t s none k p hv.linked hf
  have hv1 := valid_set_same_ptrs hv hn { n with accessCount := n.accessCount + 1 }
    rfl rfl rfl
  obtain ⟨h2, a', b', e2, hv2, i2, c2⟩ := splay_spec hv1 hp
  simp only [withHeap_heap, withHeap_withHeap] at e2 hv2 c2
  have hn2 : ∃ n2, h2[p]? = some n2 ∧ n2.value = n.value := by
    have hc := content_getElem? c2 p
    rw [getElem?_set_ite (lt_of_getElem? hn), if_pos rfl] at hc
    cases h1 : h2[p]? with
    | none => simp [h1] at hc
    | some n2 =>
      simp only [h1, Option.map_some', Option.some.injEq, Node.content] at hc
      exact ⟨n2, rfl, by simpa using congrArg Node.value hc⟩
  obtain ⟨n2, hn2, hv2'⟩ := hn2
  refine ⟨(t.withHeap h2).withRoot (some p), .node a' p b', ?_, hv2, i2⟩
  rw [search]
  simp only [hf, Res.ok_bind, node_ok hn, he, if_true, update_ok _ hn, e2,
    node_ok (t := (t.withHeap h2).withRoot (some p)) hn2, Res.pure_eq, hv2']

theorem search_missing {t : Tree} {k : Int} (hf : findNode t k = .ok none) :
    search t k = .ok (none, t) := by
  rw [search]
  simp only [hf, Res.ok_bind, Res.pure_eq]


theorem sizeModulus_pos : 0 < sizeModulus := by
  unfold sizeModulus
  exact Nat.pow_pos (by decide)

theorem decremented_eq (c : Nat) : (c + sizeModulus - 1) % sizeModulus = decremented c := by
  have hpos := sizeModulus_pos
  cases c with
  | zero =>
    show (0 + sizeModulus - 1) % sizeModulus = sizeModulus - 1
    generalize sizeModulus = M at *
    rw [Nat.zero_add, Nat.mod_eq_of_lt (by omega)]
  | succ c =>
    show (c + 1 + sizeModulus - 1) % sizeModulus = c % sizeModulus
    generalize sizeModulus = M at *
    have : c + 1 + M - 1 = c + M := by omega
    rw [this, Nat.add_mod_right]

theorem decremented_succ (c : Nat) (h0 : 0 < c) (h1 : c < sizeModulus) :
    decremented c + 1 = c := by
  cases c with
  | zero => omega
  | succ c =>
    show c % sizeModulus + 1 = c + 1
    generalize sizeModulus = M at *
    rw [Nat.mod_eq_of_lt (by omega)]

@[simp]
theorem freed_heap (t : Tree) (buf : List Ptr) : (t.freed buf).heap = t.heap := rfl

@[simp]
theorem freed_root (t : Tree) (buf : List Ptr) : (t.freed buf).root_ = t.root_ := rfl

@[simp]
theorem freed_less (t : Tree) (buf : List Ptr) : (t.freed buf).less = t.less := rfl

@[simp]
theorem withHeap_less (t : Tree) (h : List Node) : (t.withHeap h).less = t.less := rfl

@[simp]
theorem withRoot_less (t : Tree) (r : Ptr) : (t.withRoot r).less = t.less := rfl

theorem freed_size (t : Tree) (buf : List Ptr) (h0 : 0 < size t) (h1 : size t < sizeModulus) :
    size (t.freed buf) + 1 = size t :=
  decremented_succ t.currentSize_ h0 h1

/-- The call `deallocateNode` on a node that is not the root and that its
parent, if it has one, no longer points to. -/
theorem deallocateNode_spec (t : Tree) (x : Nat) (n : Node) (hn : t.heap[x]? = some n)
    (hpar : ∀ q, n.parent = some q →
      ∃ pn, t.heap[q]? = some pn ∧ pn.left ≠ some x ∧ pn.right ≠ some x)
    (hroot : t.root_ ≠ some x) :
    ∃ buf, deallocateNode t x = .ok (t.freed buf) ∧
      buf.length = t.circularBuffer_.length := by
  rw [deallocateNode]
  simp only [node_ok hn, Res.ok_bind]
  rcases hp : n.parent with _ | q
  · simp only [Res.pure_eq, Res.ok_bind, if_neg hroot]
    by_cases hb : n.bufferIndex < t.circularBuffer_.length
    · simp only [if_pos hb, Vec.set, Res.ok_bind, Res.pure_eq, decremented_eq]
      exact ⟨t.circularBuffer_.set n.bufferIndex none, rfl, by simp⟩
    · simp only [if_neg hb, Res.ok_bind, Res.pure_eq, decremented_eq]
      exact ⟨t.circularBuffer_, rfl, rfl⟩
  · obtain ⟨pn, hq, h1, h2⟩ := hpar q hp
    simp only [node_ok hq, Res.pure_eq, Res.ok_bind, if_neg h1, if_neg h2, if_neg hroot]
    by_cases hb : n.bufferIndex < t.circularBuffer_.length
    · simp only [if_pos hb, Vec.set, Res.ok_bind, Res.pure_eq, decremented_eq]
      exact ⟨t.circularBuffer_.set n.bufferIndex none, rfl, by simp⟩
    · simp only [if_neg hb, Res.ok_bind, Res.pure_eq, decremented_eq]
      exact ⟨t.circularBuffer_, rfl, rfl⟩


theorem links_getElem? {h h' : List Node} (hh : h'.map Node.links = h.map Node.links) {j : Nat}
    {n : Node} (hn : h[j]? = some n) :
    ∃ n', h'[j]? = some n' ∧ n'.left = n.left ∧ n'.right = n.right ∧ n'.parent = n.parent := by
  have h1 : (h'.map Node.links)[j]? = (h.map Node.links)[j]? := by rw [hh]
  simp only [List.getElem?_map, hn, Option.map_some'] at h1
  cases h2 : h'[j]? with
  | none => simp [h2] at h1
  | some n' =>
    simp only [h2, Option.map_some', Option.some.injEq, Node.links] at h1
    exact ⟨n', rfl, by simpa using congrArg Node.left h1, by simpa using congrArg Node.right h1,
      by simpa using congrArg Node.parent h1⟩

/-- The links after the splice of `replaceBy` below a parent `q`. -/
theorem replaceBy_links (t : Tree) (y q : Nat) (ny nq : Node) (child : Ptr)
    (hny : t.heap[y]? = some ny) (hnq : t.heap[q]? = some nq) (hyq : ny.parent = some q)
    (hc : ∀ ci, child = some ci → ci ≠ q ∧ ∃ n, t.heap[ci]? = some n) :
    ∃ h2, replaceBy t y child = (do
        let t3 ← updateSubtreeSize (t.withHeap h2).fuel (t.withHeap h2) q
        deallocateNode t3 y) ∧
      h2.length = t.heap.length ∧
      ∀ j, h2[j]? =
        if child = some j then (t.heap[j]?).map (fun n => { n with parent := some q })
        else if j = q then some (if nq.left = some y then { nq with left := child }
          else { nq with right := child })
        else t.heap[j]? := by
  have hql := lt_of_getElem? hnq
  have hq' := (List.getElem?_eq_some_iff.1 hnq).2
  rw [replaceBy]
  simp only [node_ok hny, Res.ok_bind, hyq, node_ok hnq]
  rcases child with _ | ci
  · by_cases hl : nq.left = some y
    · simp only [if_pos hl, update_ok _ hnq, Res.ok_bind, Res.pure_eq]
      refine ⟨_, rfl, by simp, fun j => ?_⟩
      rw [getElem?_set_ite hql]
      simp
    · simp only [if_neg hl, update_ok _ hnq, Res.ok_bind, Res.pure_eq]
      refine ⟨_, rfl, by simp, fun j => ?_⟩
      rw [getElem?_set_ite hql]
      simp
  · obtain ⟨hcq, nc, hnc⟩ := hc ci rfl
    have hqc : q ≠ ci := fun e => hcq e.symm
    have hcl := lt_of_getElem? hnc
    by_cases hl : nq.left = some y
    · have h1 : (t.withHeap (t.heap.set q { nq with left := some ci })).heap[ci]? = some nc := by
        rw [withHeap_heap, getElem?_set_ite hql, if_neg hcq]; exact hnc
      simp only [if_pos hl, update_ok _ hnq, Res.ok_bind, update_ok _ h1, withHeap_heap,
        withHeap_withHeap]
      refine ⟨_, rfl, by simp, fun j => ?_⟩
      rw [getElem?_set_ite (by simpa using hcl), getElem?_set_ite hql]
      by_cases hj : j = ci
      · subst hj; simp [hnc]
      · have : ¬ ci = j := fun e => hj e.symm
        simp [hj, this]
    · have h1 : (t.withHeap (t.heap.set q { nq with right := some ci })).heap[ci]? = some nc := by
        rw [withHeap_heap, getElem?_set_ite hql, if_neg hcq]; exact hnc
      simp only [if_neg hl, update_ok _ hnq, Res.ok_bind, update_ok _ h1, withHeap_heap,
        withHeap_withHeap]
      refine ⟨_, rfl, by simp, fun j => ?_⟩
      rw [getElem?_set_ite (by simpa using hcl), getElem?_set_ite hql]
      by_cases hj : j = ci
      · subst hj; simp [hnc]
      · have : ¬ ci = j := fun e => hj e.symm
        simp [hj, this]

/-- The links after the splice of `replaceBy` at the root. -/
theorem replaceBy_links_root (t : Tree) (y : Nat) (ny : Node) (child : Ptr)
    (hny : t.heap[y]? = some ny) (hyq : ny.parent = none)
    (hc : ∀ ci, child = some ci → ∃ n, t.heap[ci]? = some n) :
    ∃ h2, replaceBy t y child = deallocateNode ((t.withHeap h2).withRoot child) y ∧
      h2.length = t.heap.length ∧
      ∀ j, h2[j]? =
        if child = some j then (t.heap[j]?).map (fun n => { n with parent := none })
        else t.heap[j]? := by
  rw [replaceBy]
  simp only [node_ok hny, Res.ok_bind, hyq]
  rcases child with _ | ci
  · exact ⟨t.heap, rfl, rfl, fun j => by simp⟩
  · obtain ⟨nc, hnc⟩ := hc ci rfl
    have hcl := lt_of_getElem? hnc
    have h1 : ({ t with root_ := some ci } : Tree).heap[ci]? = some nc := hnc
    simp only [update_ok _ h1, Res.ok_bind]
    refine ⟨_, rfl, by simp, fun j => ?_⟩
    rw [getElem?_set_ite hcl]
    by_cases hj : j = ci
    · subst hj; simp [hnc]
    · have : ¬ ci = j := fun e => hj e.symm
      simp [hj, this]


theorem child_facts {h : List Node} {a b c : Shape} {y : Nat}
    (hc : (a = c ∧ b = .nil) ∨ (a = .nil ∧ b = c))
    (ha : rep h (some y) a = true) (hb : rep h (some y) b = true)
    (hd : (Shape.node a y b).ids.Nodup) :
    rep h (some y) c = true ∧ y ∉ c.ids ∧ c.ids.Nodup ∧ (∀ j ∈ c.ids, j ∈ (Shape.node a y b).ids) ∧
      pairsOf h a ++ pairsOf h b = pairsOf h c := by
  rcases hc with ⟨rfl, rfl⟩ | ⟨rfl, rfl⟩
  · simp only [Shape.ids, List.append_nil] at hd
    have := List.nodup_append.1 hd
    exact ⟨ha, fun hy => this.2.2 hy (by simp), this.1, fun j hj => by simp [Shape.ids, hj],
      by simp [pairsOf, Shape.ids]⟩
  · simp only [Shape.ids, List.nil_append, List.nodup_cons] at hd
    exact ⟨hb, hd.1, hd.2, fun j hj => by simp [Shape.ids, hj], by simp [pairsOf, Shape.ids]⟩

theorem content_of_lookup {h h' : List Node}
    (hh : ∀ j : Nat, h'[j]? = h[j]? ∨ ∃ n n', h[j]? = some n ∧ h'[j]? = some n' ∧
      n'.content = n.content) : h'.map Node.content = h.map Node.content := by
  apply map_content_eq
  intro j
  rcases hh j with e | ⟨n, n', e1, e2, e3⟩
  · rw [e]
  · rw [e1, e2]; simp [e3]

/-- The call `replaceBy` at the root of the tree: the only child, if there is
one, becomes the root. -/
theorem replaceBy_root (t : Tree) (a b c : Shape) (y : Nat)
    (hr : rep t.heap none (.node a y b) = true) (hd : (Shape.node a y b).ids.Nodup)
    (hc : (a = c ∧ b = .nil) ∨ (a = .nil ∧ b = c)) :
    ∃ h' buf, replaceBy t y c.root = .ok (((t.withHeap h').withRoot c.root).freed buf) ∧
      rep h' none c = true ∧ h'.map Node.content = t.heap.map Node.content ∧
      buf.length = t.circularBuffer_.length := by
  obtain ⟨ny, hny, hyp, hyl, hyr, ha, hb⟩ := (rep_node_iff ..).1 hr
  obtain ⟨hcy, hyc, hcd, hsub, -⟩ := child_facts hc ha hb hd
  have hcroot : c.root ≠ some y := fun e => hyc (root_mem_ids e)
  obtain ⟨h2, e2, l2, g2⟩ := replaceBy_links_root t y ny c.root hny hyp
    (fun ci hci => (rep_root hcy hci).imp fun _ h => h.1)
  have hrep : rep h2 none c = true := by
    refine rep_reparent hcy (fun j hj hne => ?_) (fun r hr' => ?_) hcd
    · rw [g2, if_neg hne]
    · rw [g2, if_pos hr']
  have hcont : h2.map Node.content = t.heap.map Node.content := by
    apply content_of_lookup
    intro j
    rw [g2]
    by_cases hj : c.root = some j
    · obtain ⟨n, hn, -⟩ := rep_root hcy hj
      exact .inr ⟨n, { n with parent := none }, hn, by rw [if_pos hj, hn]; rfl, rfl⟩
    · exact .inl (by rw [if_neg hj])
  have hy2 : ((t.withHeap h2).withRoot c.root).heap[y]? = some ny := by
    rw [withRoot_heap, withHeap_heap, g2, if_neg hcroot]; exact hny
  obtain ⟨buf, e3, lb⟩ := deallocateNode_spec ((t.withHeap h2).withRoot c.root) y ny hy2
    (fun q hq => by rw [hyp] at hq; exact Option.noConfusion hq) (by simpa using hcroot)
  exact ⟨h2, buf, by rw [e2, e3], hrep, hcont, lb⟩

theorem rep_frame_node {h : List Node} {f : Frame} {ctx : List Frame} {hole : Ptr}
    (hr : repCtx h (f :: ctx) hole) :
    ∃ nq, h[f.id]? = some nq ∧
      ((∃ d, f = .left f.id d ∧ nq.left = hole ∧ nq.right = d.root) ∨
        (∃ d, f = .right f.id d ∧ nq.left = d.root ∧ nq.right = hole)) := by
  cases f with
  | left q d =>
    obtain ⟨⟨nq, h1, -, h3, h4⟩, -, -⟩ := hr
    exact ⟨nq, h1, .inl ⟨d, rfl, h3, h4⟩⟩
  | right q d =>
    obtain ⟨⟨nq, h1, -, h3, h4⟩, -, -⟩ := hr
    exact ⟨nq, h1, .inr ⟨d, rfl, h3, h4⟩⟩


theorem frame_id_mem (f : Frame) (ctx : List Frame) : f.id ∈ ctxIds (f :: ctx) := by
  cases f <;> simp [ctxIds, Frame.ids, Frame.id]

/-- The call `replaceBy` below a parent: the only child, if there is one,
takes the place of the node. -/
theorem replaceBy_inner (t : Tree) (f : Frame) (ctx : List Frame) (a b c : Shape) (y : Nat)
    (hroot : t.root_ ≠ some y)
    (hr : rep t.heap none (plug (f :: ctx) (.node a y b)) = true)
    (hd : (plug (f :: ctx) (.node a y b)).ids.Nodup)
    (hc : (a = c ∧ b = .nil) ∨ (a = .nil ∧ b = c)) :
    ∃ h' buf, replaceBy t y c.root = .ok ((t.withHeap h').freed buf) ∧
      rep h' none (plug (f :: ctx) c) = true ∧
      h'.map Node.content = t.heap.map Node.content ∧
      buf.length = t.circularBuffer_.length := by
  obtain ⟨hctx, hsub⟩ := (rep_plug ..).1 hr
  obtain ⟨hsc, hcd, hsd⟩ := notMem_ctx_of_nodup hd
  obtain ⟨ny, hny, hyp, hyl, hyr, ha, hb⟩ := (rep_node_iff ..).1 hsub
  obtain ⟨hcy, hyc, hcn, hcsub, -⟩ := child_facts hc ha hb hsd
  have hcroot : c.root ≠ some y := fun e => hyc (root_mem_ids e)
  have hyctx : y ∉ ctxIds (f :: ctx) := hsc y (by simp [Shape.ids])
  have hqm := frame_id_mem f ctx
  have hyq : y ≠ f.id := fun e => hyctx (e ▸ hqm)
  have hcctx : ∀ j, c.root = some j → j ∉ ctxIds (f :: ctx) := fun j hj =>
    hsc j (hcsub j (root_mem_ids hj))
  obtain ⟨nq, hnq, hside⟩ := rep_frame_node hctx
  obtain ⟨h2, e2, l2, g2⟩ := replaceBy_links t y f.id ny nq c.root hny hnq hyp
    (fun ci hci => ⟨fun e => hcctx ci hci (e ▸ hqm), (rep_root hcy hci).imp fun _ h => h.1⟩)
  -- the spliced heap holds the new shape
  have hrep2 : rep h2 none (plug (f :: ctx) c) = true := by
    rw [rep_plug]
    constructor
    · refine repCtx_rehole c.root hctx (fun j hj hne => ?_) (fun g hg => ?_) hyctx hcd
      · rw [g2, if_neg (fun e => hcctx j e hj), if_neg (fun e => hne (by rw [e]; rfl))]
      · have : g = f.id := by simpa [ctxParent] using hg.symm
        subst this
        rw [g2, if_neg (fun e => hcctx _ e hqm), if_pos rfl, hnq]
        simp only [Option.map_some']
    · refine rep_reparent hcy (fun j hj hne => ?_) (fun r hr' => ?_) hcn
      · rw [g2, if_neg hne, if_neg (fun e : j = f.id => hsc j (hcsub j hj) (by rw [e]; exact hqm))]
      · rw [g2, if_pos hr']; rfl
  have hcont2 : h2.map Node.content = t.heap.map Node.content := by
    apply content_of_lookup
    intro j
    rw [g2]
    by_cases hj : c.root = some j
    · obtain ⟨n, hn, -⟩ := rep_root hcy hj
      exact .inr ⟨n, { n with parent := some f.id }, hn, by rw [if_pos hj, hn]; rfl, rfl⟩
    · rw [if_neg hj]
      by_cases hq : j = f.id
      · subst hq
        rw [if_pos rfl]
        refine .inr ⟨nq, _, hnq, rfl, ?_⟩
        split_ifs <;> rfl
      · exact .inl (by rw [if_neg hq])
  -- the subtree sizes above are refreshed
  have hlen := ctx_length_lt_fuel t (f :: ctx) _ hr hd
  have huss : ∃ h3, updateSubtreeSize (t.withHeap h2).fuel (t.withHeap h2) f.id =
      .ok ((t.withHeap h2).withHeap h3) ∧ h3.map Node.links = h2.map Node.links := by
    have hfuel : ctx.length < (t.withHeap h2).fuel := by
      simp only [Tree.fuel, withHeap_heap, l2, List.length_cons] at hlen ⊢
      omega
    rcases hside with ⟨d, hf, -, -⟩ | ⟨d, hf, -, -⟩
    · rw [hf] at hrep2
      exact updateSubtreeSize_spec _ (t.withHeap h2) ctx c d f.id hrep2 hfuel
    · rw [hf] at hrep2
      exact updateSubtreeSize_spec _ (t.withHeap h2) ctx d c f.id hrep2 hfuel
  obtain ⟨h3, e3, hl3⟩ := huss
  -- the node is released
  have hy2 : h2[y]? = some ny := by rw [g2, if_neg hcroot, if_neg hyq]; exact hny
  obtain ⟨ny3, hny3, -, -, hp3⟩ := links_getElem? hl3 hy2
  have hq2 : ∃ nq2, h2[f.id]? = some nq2 ∧ nq2.left ≠ some y ∧ nq2.right ≠ some y := by
    refine ⟨_, by rw [g2, if_neg (fun e => hcctx _ e hqm), if_pos rfl], ?_⟩
    have hdy : ∀ d : Shape, (f = .left f.id d ∨ f = .right f.id d) → d.root ≠ some y := by
      intro d hf e
      refine hyctx ?_
      have : y ∈ d.ids := root_mem_ids e
      rcases hf with hf | hf <;> rw [hf] <;> simp [ctxIds, Frame.ids, this]
    rcases hside with ⟨d, hf, h1, h2'⟩ | ⟨d, hf, h1, h2'⟩
    · have h1' : nq.left = some y := h1
      rw [if_pos h1']
      exact ⟨hcroot, by rw [h2']; exact hdy d (.inl hf)⟩
    · have hl : nq.left ≠ some y := by rw [h1]; exact hdy d (.inr hf)
      rw [if_neg hl]
      exact ⟨hl, hcroot⟩
  obtain ⟨nq2, hnq2, hql, hqr⟩ := hq2
  obtain ⟨nq3, hnq3, hl3', hr3', -⟩ := links_getElem? hl3 hnq2
  obtain ⟨buf, e4, lb⟩ := deallocateNode_spec ((t.withHeap h2).withHeap h3) y ny3
    (by simpa using hny3)
    (fun q hq => by
      have : q = f.id := by rw [hp3, hyp] at hq; simpa [ctxParent] using hq.symm
      subst this
      refine ⟨nq3, by simpa using hnq3, ?_, ?_⟩
      · rw [hl3']; exact hql
      · rw [hr3']; exact hqr)
    (by simpa using hroot)
  refine ⟨h3, buf, ?_, ?_, ?_, lb⟩
  · rw [e2, e3, Res.ok_bind, e4, withHeap_withHeap]
  · rw [rep_links hl3]; exact hrep2
  · rw [content_of_links hl3, hcont2]


theorem replaceBy_below (t : Tree) (ctx : List Frame) (a b c : Shape) (y : Nat)
    (hne : ctx ≠ []) (hroot : t.root_ ≠ some y)
    (hr : rep t.heap none (plug ctx (.node a y b)) = true)
    (hd : (plug ctx (.node a y b)).ids.Nodup)
    (hc : (a = c ∧ b = .nil) ∨ (a = .nil ∧ b = c)) :
    ∃ h' buf, replaceBy t y c.root = .ok ((t.withHeap h').freed buf) ∧
      rep h' none (plug ctx c) = true ∧
      h'.map Node.content = t.heap.map Node.content ∧
      buf.length = t.circularBuffer_.length := by
  cases ctx with
  | nil => exact absurd rfl hne
  | cons f ctx => exact replaceBy_inner t f ctx a b c y hroot hr hd hc

theorem root_eq_none {s : Shape} (h : s.root = none) : s = .nil := by
  cases s with
  | nil => rfl
  | node l i r => simp [Shape.root] at h

theorem ctxIds_append (c1 c2 : List Frame) : ctxIds (c1 ++ c2) = ctxIds c1 ++ ctxIds c2 := by
  induction c1 with
  | nil => rfl
  | cons f c1 ih => simp [ctxIds, ih]

/-- The successor walk `leftmost` ends at the node of the subtree that has no
left child; the path to it goes through left children only. -/
theorem leftmost_spec (fuel : Nat) (t : Tree) (b : Shape) (par : Ptr) (i0 : Nat)
    (hr : rep t.heap par b = true) (hb : b.root = some i0) (hf : b.ids.length ≤ fuel) :
    ∃ ctx m sr, b = plug ctx (.node .nil m sr) ∧ leftmost fuel t i0 = .ok m ∧
      ∀ s, (plug ctx s).ids = s.ids ++ ctxIds ctx := by
  induction b generalizing fuel par i0 with
  | nil => simp [Shape.root] at hb
  | node l i r ihl _ =>
    obtain ⟨n, hn, -, hl, -, h1, -⟩ := (rep_node_iff ..).1 hr
    simp only [Shape.root, Option.some.injEq] at hb
    subst hb
    cases fuel with
    | zero => simp [Shape.ids] at hf
    | succ fuel =>
      rw [leftmost]
      simp only [node_ok hn, Res.ok_bind, hl]
      rcases hlr : l.root with _ | li
      · have := root_eq_none hlr
        subst this
        exact ⟨[], i, r, rfl, rfl, fun s => by simp [plug, ctxIds]⟩
      · simp only [Shape.ids, List.length_append, List.length_cons] at hf
        obtain ⟨ctx, m, sr, e1, e2, e3⟩ := ihl fuel (some i) li h1 hlr (by omega)
        refine ⟨ctx ++ [.left i r], m, sr, ?_, e2, fun s => ?_⟩
        · rw [plug_append, ← e1]; rfl
        · rw [plug_append, ctxIds_append]
          simp [plug, Frame.fill, Shape.ids, e3, ctxIds, Frame.ids]

theorem removeNode_no_left {t : Tree} {m : Nat} {nm : Node} (fuel : Nat)
    (hnm : t.heap[m]? = some nm) (hl : nm.left = none) :
    removeNode (fuel + 1) t m = replaceBy t m nm.right := by
  rw [removeNode]
  simp only [node_ok hnm, Res.ok_bind, hl]
  cases nm.right <;> rfl

theorem removeNode_no_right {t : Tree} {m : Nat} {nm : Node} (fuel : Nat)
    (hnm : t.heap[m]? = some nm) (hr : nm.right = none) :
    removeNode (fuel + 1) t m = replaceBy t m nm.left := by
  rw [removeNode]
  simp only [node_ok hnm, Res.ok_bind, hr]
  cases nm.left <;> rfl

theorem removeNode_two {t : Tree} {x l r : Nat} {n : Node} (fuel : Nat)
    (hn : t.heap[x]? = some n) (hl : n.left = some l) (hr : n.right = some r) :
    removeNode (fuel + 1) t x = (do
      let successor ← leftmost t.fuel t r
      let sn ← t.node successor
      let t1 ← t.update x (fun y => { y with key := sn.key, value := sn.value })
      removeNode fuel t1 successor) := by
  rw [removeNode]
  simp only [node_ok hn, Res.ok_bind, hl, hr]

theorem pairs_set_of_notMem {h : List Node} {x : Nat} (n' : Node) {l : List Nat} (hx : x ∉ l) :
    l.filterMap (fun i => ((h.set x n')[i]?).map (fun n => (n.key, n.value))) =
      l.filterMap (fun i => (h[i]?).map (fun n => (n.key, n.value))) := by
  apply List.filterMap_congr
  intro j hj
  have : x ≠ j := fun e => hx (e ▸ hj)
  rw [List.getElem?_set_ne this]


theorem valid_freed {t : Tree} {s : Shape} (buf : List Ptr) (hv : Valid t s) :
    Valid (t.freed buf) s :=
  ⟨hv.root, hv.linked, hv.distinct⟩

theorem freed_size_eq (t : Tree) (buf : List Ptr) :
    size (t.freed buf) = decremented (size t) := rfl

theorem layout_freed (t : Tree) (h' : List Node) (r : Ptr) (buf : List Ptr)
    (hl : h'.length = t.heap.length) (hb : buf.length = t.circularBuffer_.length) :
    (((t.withHeap h').withRoot r).freed buf).layout = t.layout := by
  simp only [Tree.layout, Tree.config, Tree.freed, Tree.withRoot, Tree.withHeap, hl, hb]

theorem less_of_layout {t t' : Tree} (h : t'.layout = t.layout) : t'.less = t.less := by
  simp only [Tree.layout, Tree.config, Prod.mk.injEq] at h
  obtain ⟨⟨-, h2, h3, h4, h5⟩, -⟩ := h
  funext a b
  simp only [Tree.less, compareLess, h2, h3, h4, h5]

/-- The call `removeNode` on the root of a valid tree: the result is a valid
tree that holds the pairs of the two subtrees, in the same order. -/
theorem removeNode_spec (t : Tree) (a b : Shape) (x : Nat) (hv : Valid t (.node a x b)) :
    ∃ t' s', removeNode t.fuel t x = .ok t' ∧ Valid t' s' ∧
      pairsOf t'.heap s' = pairsOf t.heap a ++ pairsOf t.heap b ∧
      s'.ids.length + 1 = (Shape.node a x b).ids.length ∧
      size t' = decremented (size t) ∧ t'.layout = t.layout := by
  have hr := hv.linked
  have hd := hv.distinct
  have hroot : t.root_ = some x := hv.root
  obtain ⟨n, hn, hp, hl, hr', ha, hb⟩ := (rep_node_iff ..).1 hr
  rcases hbr : b.root with _ | bi
  · -- no right child
    have hb0 := root_eq_none hbr
    subst hb0
    obtain ⟨h', buf, e1, e2, e3, lb⟩ := replaceBy_root t a .nil a x hr hd (.inl ⟨rfl, rfl⟩)
    obtain ⟨-, -, hcn, -, hpairs⟩ := child_facts (c := a) (.inl ⟨rfl, rfl⟩) ha hb hd
    refine ⟨((t.withHeap h').withRoot a.root).freed buf, a, ?_, valid_freed buf ⟨rfl, e2, hcn⟩,
      ?_, ?_, rfl, layout_freed _ _ _ _ (length_of_content e3) lb⟩
    · rw [Tree.fuel, removeNode_no_right _ hn hr', hl]; exact e1
    · show pairsOf h' a = _
      rw [pairsOf_congr rfl e3]; simp [pairsOf, Shape.ids]
    · simp [Shape.ids]
  · rcases har : a.root with _ | ai
    · -- no left child
      have ha0 := root_eq_none har
      subst ha0
      obtain ⟨h', buf, e1, e2, e3, lb⟩ := replaceBy_root t .nil b b x hr hd (.inr ⟨rfl, rfl⟩)
      obtain ⟨-, -, hcn, -, hpairs⟩ := child_facts (c := b) (.inr ⟨rfl, rfl⟩) ha hb hd
      refine ⟨((t.withHeap h').withRoot b.root).freed buf, b, ?_,
        valid_freed buf ⟨rfl, e2, hcn⟩, ?_, ?_, rfl,
        layout_freed _ _ _ _ (length_of_content e3) lb⟩
      · rw [Tree.fuel, removeNode_no_left _ hn hl, hr']; exact e1
      · show pairsOf h' b = _
        rw [pairsOf_congr rfl e3]; simp [pairsOf, Shape.ids]
      · simp [Shape.ids]
    · -- two children: the successor takes the place of the node
      have hlen := ids_length_lt_fuel hv
      simp only [Shape.ids, List.length_append, List.length_cons] at hlen
      obtain ⟨ctx, m, sr, hbeq, hlm, hids⟩ :=
        leftmost_spec t.fuel t b (some x) bi hb hbr (by omega)
      have hwhole : Shape.node a x b = plug (ctx ++ [.right x a]) (.node .nil m sr) := by
        rw [plug_append, ← hbeq]; rfl
      have hr2 := hr
      have hd2 := hd
      rw [hwhole] at hr2 hd2
      obtain ⟨hctx, hsub⟩ := (rep_plug ..).1 hr2
      obtain ⟨hsc, -, -⟩ := notMem_ctx_of_nodup hd2
      obtain ⟨nm, hnm, -, hml, hmr, -, -⟩ := (rep_node_iff ..).1 hsub
      have hxm : x ≠ m := by
        intro e
        refine hsc m (by simp [Shape.ids]) ?_
        rw [ctxIds_append, ← e]
        simp [ctxIds, Frame.ids]
      obtain ⟨k, hk⟩ : ∃ k, t.heap.length = k + 1 :=
        ⟨t.heap.length - 1, by have := lt_of_getElem? hn; omega⟩
      -- the state after the copy of the successor's key and value
      have hrep1 : rep (t.heap.set x { n with key := nm.key, value := nm.value }) none
          (plug (ctx ++ [.right x a]) (.node .nil m sr)) = true := by
        rw [@rep_set_same_ptrs t.heap x n { n with key := nm.key, value := nm.value } hn rfl rfl rfl]
        exact hr2
      have hnm1 : (t.heap.set x { n with key := nm.key, value := nm.value })[m]? = some nm := by
        rw [List.getElem?_set_ne hxm]; exact hnm
      obtain ⟨h', buf, e1, e2, e3, lb⟩ := replaceBy_below
        (t.withHeap (t.heap.set x { n with key := nm.key, value := nm.value }))
        (ctx ++ [Frame.right x a]) .nil sr sr m (by simp)
        (by rw [withHeap_root, hroot]; exact fun e => hxm (Option.some.inj e))
        hrep1 hd2 (.inr ⟨rfl, rfl⟩)
      have hshape : plug (ctx ++ [.right x a]) sr = .node a x (plug ctx sr) := by
        rw [plug_append]; rfl
      rw [hshape] at e2
      have hsub' : (Shape.node a x (plug ctx sr)).ids.Sublist (Shape.node a x b).ids := by
        rw [hbeq]
        simp only [Shape.ids, hids, List.nil_append]
        refine List.Sublist.append (List.Sublist.refl _) (List.Sublist.cons₂ _ ?_)
        exact List.Sublist.cons _ (List.Sublist.refl _)
      refine ⟨(t.withHeap h').freed buf, .node a x (plug ctx sr), ?_,
        valid_freed buf ⟨hroot, e2, hsub'.nodup hd⟩, ?_, ?_, rfl, ?_⟩
      · have hfu : t.fuel = k + 1 + 1 := by rw [Tree.fuel, hk]
        rw [hfu, removeNode_two _ hn (hl.trans har) (hr'.trans hbr), hlm]
        simp only [Res.ok_bind, node_ok hnm, update_ok _ hn]
        rw [removeNode_no_left _ (by simpa using hnm1) hml, hmr]
        rw [withHeap_withHeap] at e1
        exact e1
      · show pairsOf h' _ = _
        rw [pairsOf_congr rfl e3, hbeq]
        have hxa : x ∉ a.ids := by
          simp only [Shape.ids] at hd
          exact fun hx => (List.nodup_append.1 hd).2.2 hx (by simp)
        have hxr : x ∉ sr.ids ++ ctxIds ctx := by
          have hd3 := hd
          rw [hbeq] at hd3
          simp only [Shape.ids, hids, List.nil_append] at hd3
          have h4 := (List.nodup_append.1 hd3).2.1
          rw [List.nodup_cons] at h4
          exact fun hx => h4.1 (by simp at hx ⊢; tauto)
        have hxs : x ∉ sr.ids := fun hx => hxr (List.mem_append_left _ hx)
        have hxc : x ∉ ctxIds ctx := fun hx => hxr (List.mem_append_right _ hx)
        simp only [pairsOf, Shape.ids, hids, List.nil_append, withHeap_heap, List.filterMap_append,
          List.filterMap_cons, List.cons_append, pairs_set_of_notMem _ hxa,
          pairs_set_of_notMem _ hxs, pairs_set_of_notMem _ hxc,
          List.getElem?_set_self (lt_of_getElem? hn), hnm, Option.map_some']
      · rw [hbeq]
        simp [Shape.ids, hids]
        omega
      · have hl := length_of_content e3
        simp only [withHeap_heap, List.length_set] at hl
        rw [← withRoot_self (t.withHeap h') (r := t.root_) rfl]
        exact layout_freed _ _ _ _ hl lb


/-- The numeric comparison of keys is a strict weak order. -/
theorem strictWeak_lt : StrictWeak (fun a b : Int => decide (a < b)) :=
  ⟨fun a => by simp, fun a b c h1 h2 => by simp at *; omega,
    fun a b c h => by simp at *; omega⟩

theorem equiv_self {less : Int → Int → Bool} (hw : StrictWeak less) (a : Int) :
    equiv less a a = true := by
  simp [equiv, hw.irrefl]

theorem pairwise_pairs {t : Tree} {s : Shape} (hw : StrictWeak t.less) (hv : Valid t s)
    (ho : ordered t.less t.heap s = true) :
    ((pairsOf t.heap s).map Prod.fst).Pairwise (fun a b => t.less a b = true) :=
  pairwise_of_ordered hw.trans hv.linked ho

/-- The walk of `findNode` in a valid search tree. -/
theorem findNode_spec {t : Tree} {s : Shape} (hw : StrictWeak t.less) (hv : Valid t s)
    (ho : ordered t.less t.heap s = true) (k : Int) :
    (findNode t k = .ok none ∧ ∀ kv ∈ pairsOf t.heap s, equiv t.less kv.1 k = false) ∨
      ∃ p n, findNode t k = .ok (some p) ∧ p ∈ s.ids ∧ t.heap[p]? = some n ∧
        equiv t.less n.key k = true := by
  obtain ⟨r, h1, h2, h3⟩ := findNodeRecursive_spec t.fuel t s none k hw hv.linked ho
    (ids_length_lt_fuel hv)
  rw [← hv.root] at h1
  rcases r with _ | p
  · exact .inl ⟨h1, h2 rfl⟩
  · obtain ⟨hp, n, hn, he⟩ := h3 p rfl
    exact .inr ⟨p, n, h1, hp, hn, he⟩

/-- The call `search` in a valid search tree, by the pairs the tree holds. -/
theorem search_spec {t : Tree} {s : Shape} (hw : StrictWeak t.less) (hv : Valid t s)
    (ho : ordered t.less t.heap s = true) (k : Int) :
    ((∀ kv ∈ pairsOf t.heap s, equiv t.less kv.1 k = false) → search t k = .ok (none, t)) ∧
      ∀ kv ∈ pairsOf t.heap s, equiv t.less kv.1 k = true →
        ∃ t', search t k = .ok (some kv.2, t') := by
  rcases findNode_spec hw hv ho k with ⟨hf, -⟩ | ⟨p, n, hf, hp, hn, he⟩
  · refine ⟨fun _ => search_missing hf, fun kv hkv he => ?_⟩
    rcases findNode_spec hw hv ho k with ⟨-, hnone⟩ | ⟨p, n, hf', -⟩
    · rw [hnone kv hkv] at he; exact Bool.noConfusion he
    · rw [hf] at hf'; exact Res.noConfusion hf' (fun e => Option.noConfusion e)
  · have hmem := mem_pairsOf hp hn
    refine ⟨fun habs => ?_, fun kv hkv hek => ?_⟩
    · have := habs _ hmem
      rw [he] at this; exact Bool.noConfusion this
    · have e := equiv_unique hw (pairwise_pairs hw hv ho) hmem hkv he hek
      obtain ⟨t', -, h1, -, -⟩ := search_found hv hf hn he
      exact ⟨t', by rw [h1, ← e]⟩


/-- A list that is strictly ascending around an element holds no other element
equivalent to it. -/
theorem no_equiv_around {less : Int → Int → Bool} (hw : StrictWeak less)
    {A B : List (Int × Int)} {e : Int × Int} {k : Int}
    (hp : ((A ++ e :: B).map Prod.fst).Pairwise (fun a b => less a b = true))
    (he : equiv less e.1 k = true) : ∀ kv ∈ A ++ B, equiv less kv.1 k = false := by
  intro kv hkv
  by_contra hne
  have hkq : equiv less kv.1 k = true := by simpa using hne
  have hmem : kv ∈ A ++ e :: B := by
    rcases List.mem_append.1 hkv with h | h
    · exact List.mem_append_left _ h
    · exact List.mem_append_right _ (List.mem_cons_of_mem _ h)
  have heq := equiv_unique hw hp hmem (List.mem_append_right _ (List.mem_cons_self _ _)) hkq he
  subst heq
  rw [List.map_append, List.map_cons, List.pairwise_append, List.pairwise_cons] at hp
  obtain ⟨-, ⟨h2, -⟩, h3⟩ := hp
  rcases List.mem_append.1 hkv with h | h
  · have := h3 kv.1 (List.mem_map_of_mem _ h) kv.1 (List.mem_cons_self _ _)
    rw [hw.irrefl] at this; exact Bool.noConfusion this
  · have := h2 kv.1 (List.mem_map_of_mem _ h)
    rw [hw.irrefl] at this; exact Bool.noConfusion this

/-- The call `remove` in a valid search tree. -/
theorem remove_spec {t : Tree} {s : Shape} (hw : StrictWeak t.less) (hv : Valid t s)
    (ho : ordered t.less t.heap s = true) (hsz : size t = s.ids.length)
    (hlt : size t < sizeModulus) (k : Int) :
    ((∀ kv ∈ pairsOf t.heap s, equiv t.less kv.1 k = false) → remove t k = .ok (false, t)) ∧
      ((∃ kv ∈ pairsOf t.heap s, equiv t.less kv.1 k = true) →
        ∃ t' s', remove t k = .ok (true, t') ∧ Valid t' s' ∧ t'.layout = t.layout ∧
          ordered t'.less t'.heap s' = true ∧ size t' = s'.ids.length ∧ size t' + 1 = size t ∧
          (∀ kv ∈ pairsOf t'.heap s', equiv t.less kv.1 k = false) ∧
          ∀ kv ∈ pairsOf t.heap s, equiv t.less kv.1 k = false → kv ∈ pairsOf t'.heap s') := by
  rcases findNode_spec hw hv ho k with ⟨hf, hnone⟩ | ⟨p, n, hf, hp, hn, he⟩
  · refine ⟨fun _ => ?_, fun ⟨kv, hkv, hek⟩ => ?_⟩
    · rw [remove]
      simp only [hf, Res.ok_bind, Res.pure_eq]
    · rw [hnone kv hkv] at hek; exact Bool.noConfusion hek
  · refine ⟨fun habs => ?_, fun _ => ?_⟩
    · have := habs _ (mem_pairsOf hp hn)
      rw [he] at this; exact Bool.noConfusion this
    · obtain ⟨h1, a, b, e1, hv1, hids, hcont⟩ := splay_spec hv hp
      obtain ⟨t', s', e2, hv2, hpairs, hlen, hsize, hlay⟩ := removeNode_spec _ a b p hv1
      -- the pairs before the removal, around the node found
      obtain ⟨n1, hn1, -⟩ := rep_root hv1.linked (c := p) rfl
      have hn1' : h1[p]? = some n1 := by simpa using hn1
      have hkey : n1.key = n.key ∧ n1.value = n.value := by
        have := content_getElem? hcont p
        rw [hn1', hn] at this
        simp only [Option.map_some', Option.some.injEq, Node.content] at this
        exact ⟨by simpa using congrArg Node.key this, by simpa using congrArg Node.value this⟩
      have hP : pairsOf t.heap s =
          pairsOf h1 a ++ (n.key, n.value) :: pairsOf h1 b := by
        rw [← pairsOf_congr hids hcont, pairsOf_node hn1', hkey.1, hkey.2]
      have hpw := pairwise_pairs hw hv ho
      rw [hP] at hpw
      have hpairs' : pairsOf t'.heap s' = pairsOf h1 a ++ pairsOf h1 b := by
        simpa using hpairs
      have hlay' : t'.layout = t.layout := by
        rw [hlay]
        simp only [Tree.layout, Tree.config, Tree.withRoot, Tree.withHeap, length_of_content hcont]
      have hless' : t'.less = t.less := less_of_layout hlay'
      have hnoeq := no_equiv_around hw hpw he
      have hpw' : ((pairsOf t'.heap s').map Prod.fst).Pairwise (fun a b => t.less a b = true) := by
        rw [hpairs']
        refine hpw.sublist ?_
        exact ((List.Sublist.refl _).append ((List.Sublist.refl _).cons _)).map _
      have hcount : s.ids.length = (Shape.node a p b).ids.length := by rw [hids]
      have hsize1 : size t' = decremented (size t) := by rw [hsize]; rfl
      have hpos : 0 < size t := by
        rw [hsz, hcount]; simp [Shape.ids]
      have hdec := decremented_succ (size t) hpos hlt
      refine ⟨t', s', ?_, hv2, hlay', ?_, by omega, by omega, ?_, ?_⟩
      · rw [remove]
        simp only [hf, Res.ok_bind, node_ok hn, compareEqual_eq, he, if_true, e1]
        rw [e2]; rfl
      · rw [hless']
        exact ordered_of_pairwise hv2.linked hpw'
      · rw [hpairs']; exact hnoeq
      · intro kv hkv hek
        rw [hP] at hkv
        rw [hpairs']
        rcases List.mem_append.1 hkv with h | h
        · exact List.mem_append_left _ h
        · rcases List.mem_cons.1 h with h | h
          · subst h
            rw [he] at hek; exact Bool.noConfusion hek
          · exact List.mem_append_right _ h


@[simp]
theorem grown_heap (t : Tree) (k v : Int) :
    (t.grown k v).heap = t.heap ++ [Node.new k v t.nextIndex_] := rfl

@[simp]
theorem grown_root (t : Tree) (k v : Int) : (t.grown k v).root_ = t.root_ := rfl

@[simp]
theorem grown_less (t : Tree) (k v : Int) : (t.grown k v).less = t.less := rfl

@[simp]
theorem grown_config (t : Tree) (k v : Int) : (t.grown k v).config = t.config := rfl

theorem grown_size (t : Tree) (k v : Int) : size (t.grown k v) = size t + 1 := rfl

/-- The call `allocateNode` while the count is below the capacity: no node is
evicted. -/
theorem allocateNode_spec (t : Tree) (k v : Int) (h1 : t.currentSize_ < t.bufferSize_)
    (h2 : t.nextIndex_ < t.circularBuffer_.length) :
    allocateNode t k v = .ok (t.heap.length, t.grown k v) := by
  have h3 : ¬ t.currentSize_ ≥ t.bufferSize_ := by omega
  have h4 : ¬ t.bufferSize_ = 0 := by omega
  rw [allocateNode]
  simp only [if_neg h3, Res.pure_eq, Res.ok_bind, Vec.set, if_pos h2, if_neg h4]
  rfl

/-- The store after a new leaf has been linked below the node of a frame, read
node by node. -/
theorem attach_lookup (h : List Node) (N : Node) (f : Frame) (ny : Node) (par : Ptr)
    (hy : h[f.id]? = some ny) (j : Nat) :
    (((h ++ [N]).set h.length { N with parent := par }).set f.id
        (f.attach (some h.length) ny))[j]? =
      if j = f.id then some (f.attach (some h.length) ny)
      else if j = h.length then some { N with parent := par }
      else h[j]? := by
  have hlt := lt_of_getElem? hy
  rw [getElem?_set_ite (by simp; omega), getElem?_set_ite (by simp)]
  by_cases h1 : j = f.id
  · simp [h1]
  · rw [if_neg h1, if_neg h1]
    by_cases h2 : j = h.length
    · simp [h2]
    · rw [if_neg h2, if_neg h2]
      rcases Nat.lt_or_gt_of_ne h2 with h3 | h3
      · rw [List.getElem?_append_left h3]
      · rw [List.getElem?_eq_none (by simp; omega), List.getElem?_eq_none (by omega)]


theorem content_attach (f : Frame) (c : Ptr) (x : Node) : (f.attach c x).content = x.content := by
  cases f <;> rfl

theorem attach_steps (t : Tree) (new y : Nat) (N ny : Node) (g1 g2 : Node → Node)
    (hN : t.heap[new]? = some N) (hy : t.heap[y]? = some ny) (hne : y ≠ new) :
    (do
      let t2 ← t.update new g1
      let t3 ← t2.update y g2
      updateSubtreeSize t3.fuel t3 y) =
    updateSubtreeSize (((t.heap.set new (g1 N)).set y (g2 ny)).length + 1)
      (t.withHeap ((t.heap.set new (g1 N)).set y (g2 ny))) y := by
  have h2 : (t.withHeap (t.heap.set new (g1 N))).heap[y]? = some ny := by
    rw [withHeap_heap, getElem?_set_ite (lt_of_getElem? hN), if_neg hne]; exact hy
  rw [update_ok g1 hN]
  simp only [Res.ok_bind]
  rw [update_ok g2 h2]
  simp only [Res.ok_bind, withHeap_withHeap, withHeap_heap, Tree.fuel]

/-- The leaf case of `insertNode`: a new node is allocated and linked below the
node of the frame, on the side of the hole. -/
theorem attach_spec (t : Tree) (f : Frame) (ctx : List Frame) (k v : Int)
    (hr : rep t.heap none (plug (f :: ctx) .nil) = true)
    (hd : (plug (f :: ctx) .nil).ids.Nodup)
    (h1 : t.currentSize_ < t.bufferSize_) (h2 : t.nextIndex_ < t.circularBuffer_.length) :
    ∃ h', (do
        let (newNode, t1) ← allocateNode t k v
        let t2 ← t1.update newNode (fun x => { x with parent := some f.id })
        let t3 ← t2.update f.id (f.attach (some newNode))
        updateSubtreeSize t3.fuel t3 f.id) = .ok ((t.grown k v).withHeap h') ∧
      rep h' none (plug (f :: ctx) (.node .nil t.heap.length .nil)) = true ∧
      (∀ j, j ≠ t.heap.length → (h'[j]?).map Node.content = (t.heap[j]?).map Node.content) ∧
      (h'[t.heap.length]?).map Node.content = some (Node.new k v t.nextIndex_).content ∧
      h'.length = t.heap.length + 1 := by
  obtain ⟨hctx, -⟩ := (rep_plug ..).1 hr
  obtain ⟨hsc, hcd, -⟩ := notMem_ctx_of_nodup hd
  obtain ⟨ny, hny, hside⟩ := rep_frame_node hctx
  have hylt := lt_of_getElem? hny
  have hlt : ∀ j ∈ ctxIds (f :: ctx), j < t.heap.length := fun j hj =>
    rep_lt hr j ((plug_ids_perm _ _).mem_iff.2 (List.mem_append_right _ hj))
  have hlen := ctx_length_lt_fuel t (f :: ctx) _ hr hd
  -- the three writes
  have e1 : (t.grown k v).heap[t.heap.length]? = some (Node.new k v t.nextIndex_) := by simp
  have e2 : (t.grown k v).heap[f.id]? = some ny := by
    rw [grown_heap, List.getElem?_append_left hylt]
    exact hny
  have hlook := attach_lookup t.heap (Node.new k v t.nextIndex_) f ny (some f.id) hny
  generalize hh3 : ((t.heap ++ [Node.new k v t.nextIndex_]).set t.heap.length
      { Node.new k v t.nextIndex_ with parent := some f.id }).set f.id
        (f.attach (some t.heap.length) ny) = h3 at hlook
  have hl3 : h3.length = t.heap.length + 1 := by rw [← hh3]; simp
  have hsame : ∀ j ∈ ctxIds (f :: ctx), j ≠ f.id → h3[j]? = t.heap[j]? := fun j hj hne => by
    rw [hlook, if_neg hne, if_neg (by have := hlt j hj; omega)]
  -- the new store holds the tree with the new leaf
  have hrep3 : rep h3 none (plug (f :: ctx) (.node .nil t.heap.length .nil)) = true := by
    rw [rep_plug]
    constructor
    · have hfy : h3[f.id]? = some (f.attach (some t.heap.length) ny) := by
        rw [hlook, if_pos rfl]
      cases f with
      | left i c =>
        obtain ⟨⟨n, g1, g2, g3, g4⟩, g5, g6⟩ := hctx
        simp only [ctxIds, Frame.ids, List.cons_append, List.nodup_cons, List.mem_append,
          not_or, List.nodup_append] at hcd
        have hn : n = ny := by
          have := g1.symm.trans hny; simpa using this
        subst hn
        refine ⟨⟨_, hfy, g2, rfl, g4⟩, ?_, ?_⟩
        · rw [rep_congr c _ (fun j hj => hsame j (by simp [ctxIds, Frame.ids, hj])
            (fun e => hcd.1.1 (by have e' : j = i := e; exact e' ▸ hj)))]
          exact g5
        · exact repCtx_congr ctx _ (fun j hj => hsame j (by simp [ctxIds, hj])
            (fun e => hcd.1.2 (by have e' : j = i := e; exact e' ▸ hj))) g6
      | right i c =>
        obtain ⟨⟨n, g1, g2, g3, g4⟩, g5, g6⟩ := hctx
        simp only [ctxIds, Frame.ids, List.cons_append, List.nodup_cons, List.mem_append,
          not_or, List.nodup_append] at hcd
        have hn : n = ny := by
          have := g1.symm.trans hny; simpa using this
        subst hn
        refine ⟨⟨_, hfy, g2, g3, rfl⟩, ?_, ?_⟩
        · rw [rep_congr c _ (fun j hj => hsame j (by simp [ctxIds, Frame.ids, hj])
            (fun e => hcd.1.1 (by have e' : j = i := e; exact e' ▸ hj)))]
          exact g5
        · exact repCtx_congr ctx _ (fun j hj => hsame j (by simp [ctxIds, hj])
            (fun e => hcd.1.2 (by have e' : j = i := e; exact e' ▸ hj))) g6
    · rw [rep_node_iff]
      refine ⟨{ Node.new k v t.nextIndex_ with parent := some f.id }, ?_, rfl, rfl, rfl, rfl, rfl⟩
      rw [hlook, if_neg (by omega), if_pos rfl]
  -- the subtree sizes above are refreshed
  have huss : ∃ h', updateSubtreeSize (h3.length + 1) ((t.grown k v).withHeap h3) f.id =
      .ok (((t.grown k v).withHeap h3).withHeap h') ∧ h'.map Node.links = h3.map Node.links := by
    have hfuel : ctx.length < h3.length + 1 := by
      simp only [List.length_cons] at hlen; omega
    rcases hside with ⟨d, hf, -, -⟩ | ⟨d, hf, -, -⟩
    · rw [hf] at hrep3
      exact updateSubtreeSize_spec _ ((t.grown k v).withHeap h3) ctx _ d f.id hrep3 hfuel
    · rw [hf] at hrep3
      exact updateSubtreeSize_spec _ ((t.grown k v).withHeap h3) ctx d _ f.id hrep3 hfuel
  obtain ⟨h', e3, hl'⟩ := huss
  have hcont := content_getElem? (content_of_links hl')
  refine ⟨h', ?_, ?_, fun j hj => ?_, ?_, ?_⟩
  · subst hh3
    rw [allocateNode_spec t k v h1 h2]
    simp only [Res.ok_bind]
    rw [attach_steps (t.grown k v) t.heap.length f.id _ ny _ _ e1 e2 (by omega)]
    rw [withHeap_withHeap] at e3
    exact e3
  · rw [rep_links hl']; exact hrep3
  · rw [hcont, hlook]
    by_cases hjy : j = f.id
    · rw [if_pos hjy, hjy, hny]
      simp [content_attach]
    · rw [if_neg hjy, if_neg hj]
  · rw [hcont, hlook, if_neg (by omega), if_pos rfl]
    rfl
  · rw [length_of_links hl', hl3]


theorem plug_root_congr (ctx : List Frame) {s s' : Shape} (h : s.root = s'.root) :
    (plug ctx s).root = (plug ctx s').root := by
  induction ctx generalizing s s' with
  | nil => exact h
  | cons f ctx ih => exact ih (by rw [fill_root, fill_root])

theorem pairsOf_eq_entries (h : List Node) (s : Shape) :
    pairsOf h s = s.ids.filterMap (entryAt h) := rfl

theorem entryAt_of_getElem? {h : List Node} {i : Nat} {n : Node} (hn : h[i]? = some n) :
    entryAt h i = some (n.key, n.value) := by
  simp [entryAt, hn]

theorem less_of_not_equiv {less : Int → Int → Bool} {a b : Int} (he : equiv less a b = false)
    (hn : ¬ less b a = true) : less a b = true := by
  simp only [equiv, Bool.and_eq_false_iff, Bool.not_eq_false', Bool.not_eq_eq_eq_not,
    Bool.not_true] at he
  rcases he with he | he
  · exact he
  · exact absurd he hn

/-- The keys of a sublist of ids, taken from an ascending list. -/
theorem keys_after {less : Int → Int → Bool} {h : List Node} {l : List Nat} {y : Nat}
    {r : List Nat} {ny : Node} (hy : h[y]? = some ny)
    (hpw : ((l.filterMap (entryAt h)).map Prod.fst).Pairwise (fun x z => less x z = true))
    (hs : (y :: r).Sublist l) :
    ∀ kv ∈ r.filterMap (entryAt h), less ny.key kv.1 = true := by
  have h1 := hpw.sublist ((hs.filterMap (entryAt h)).map Prod.fst)
  rw [List.filterMap_cons, entryAt_of_getElem? hy, List.map_cons, List.pairwise_cons] at h1
  exact fun kv hkv => h1.1 kv.1 (List.mem_map_of_mem _ hkv)

theorem keys_before {less : Int → Int → Bool} {h : List Node} {l : List Nat} {y : Nat}
    {r : List Nat} {ny : Node} (hy : h[y]? = some ny)
    (hpw : ((l.filterMap (entryAt h)).map Prod.fst).Pairwise (fun x z => less x z = true))
    (hs : (r ++ [y]).Sublist l) :
    ∀ kv ∈ r.filterMap (entryAt h), less kv.1 ny.key = true := by
  have h1 := hpw.sublist ((hs.filterMap (entryAt h)).map Prod.fst)
  rw [List.filterMap_append, List.filterMap_cons, entryAt_of_getElem? hy, List.map_append,
    List.pairwise_append] at h1
  exact fun kv hkv => h1.2.2 kv.1 (List.mem_map_of_mem _ hkv) ny.key (by simp)


/-- The walk of `insertNode` for a key that the subtree below `y` does not
hold: a new leaf is linked where the walk ends, between the keys less than the
new key and the keys greater than it. -/
theorem insertNode_spec (fuel : Nat) (t : Tree) (ctx : List Frame) (a b : Shape) (y : Nat)
    (k v : Int) (hw : StrictWeak t.less)
    (hr : rep t.heap none (plug ctx (.node a y b)) = true)
    (hd : (plug ctx (.node a y b)).ids.Nodup)
    (h1 : t.currentSize_ < t.bufferSize_) (h2 : t.nextIndex_ < t.circularBuffer_.length)
    (hf : (Shape.node a y b).ids.length ≤ fuel)
    (L R : List Nat) (hLR : ∀ s, (plug ctx s).ids = L ++ s.ids ++ R)
    (hpw : (((L ++ (Shape.node a y b).ids ++ R).filterMap (entryAt t.heap)).map
      Prod.fst).Pairwise (fun x z => t.less x z = true))
    (hL : ∀ kv ∈ L.filterMap (entryAt t.heap), t.less kv.1 k = true)
    (hR : ∀ kv ∈ R.filterMap (entryAt t.heap), t.less k kv.1 = true)
    (habs : ∀ kv ∈ (Shape.node a y b).ids.filterMap (entryAt t.heap),
      equiv t.less kv.1 k = false) :
    ∃ h' s' L' R', insertNode fuel t y k v = .ok ((t.grown k v).withHeap h') ∧
      rep h' none s' = true ∧ s'.root = (plug ctx (.node a y b)).root ∧
      s'.ids = L' ++ t.heap.length :: R' ∧ (plug ctx (.node a y b)).ids = L' ++ R' ∧
      (∀ kv ∈ L'.filterMap (entryAt t.heap), t.less kv.1 k = true) ∧
      (∀ kv ∈ R'.filterMap (entryAt t.heap), t.less k kv.1 = true) ∧
      (∀ j, j ≠ t.heap.length → (h'[j]?).map Node.content = (t.heap[j]?).map Node.content) ∧
      (h'[t.heap.length]?).map Node.content = some (Node.new k v t.nextIndex_).content ∧
      h'.length = t.heap.length + 1 := by
  induction fuel generalizing ctx a b y L R with
  | zero => simp [Shape.ids] at hf
  | succ fuel ih =>
    obtain ⟨hctx, hsub⟩ := (rep_plug ..).1 hr
    obtain ⟨ny, hny, hyp, hyl, hyr, ha, hb⟩ := (rep_node_iff ..).1 hsub
    have hey := entryAt_of_getElem? hny
    simp only [Shape.ids, List.length_append, List.length_cons] at hf
    rw [insertNode]
    simp only [node_ok hny, Res.ok_bind]
    by_cases hlt : compareLess t k ny.key t.defaultSortMode_ = true
    · -- the key goes to the left of `y`
      have hRy : ∀ kv ∈ (y :: b.ids ++ R).filterMap (entryAt t.heap), t.less k kv.1 = true := by
        intro kv hkv
        rw [List.cons_append, List.filterMap_cons, hey, List.filterMap_append] at hkv
        rcases List.mem_cons.1 hkv with e | hkv
        · rw [e]; exact hlt
        · rcases List.mem_append.1 hkv with hkv | hkv
          · refine hw.trans _ _ _ hlt (keys_after hny hpw ?_ kv hkv)
            simp only [Shape.ids]
            exact List.sublist_append_of_sublist_left (List.sublist_append_of_sublist_right
              (List.sublist_append_right _ _))
          · exact hR kv hkv
      rw [if_pos hlt, hyl]
      cases a with
      | nil =>
        obtain ⟨h', e, g1, g2, g3, g4⟩ := attach_spec t (.left y b) ctx k v hr hd h1 h2
        refine ⟨h', plug (.left y b :: ctx) (.node .nil t.heap.length .nil), L,
          y :: b.ids ++ R, e, g1, plug_root_congr ctx rfl, ?_, ?_, hL, hRy, g2, g3, g4⟩
        · simp [plug, Frame.fill, hLR, Shape.ids]
        · simp [hLR, Shape.ids]
      | node al ai ar =>
        simp only [Shape.root]
        refine ih (.left y b :: ctx) al ar ai hr hd (by simp [Shape.ids] at hf ⊢; omega) L
          (y :: b.ids ++ R) (fun s => by simp [plug, Frame.fill, hLR, Shape.ids]) ?_ hL hRy
          (fun kv hkv => habs kv ?_)
        · simpa [Shape.ids, List.append_assoc] using hpw
        · simp only [Shape.ids, List.filterMap_append, List.mem_append] at hkv ⊢
          exact .inl hkv
    · -- the key goes to the right of `y`
      have hyk : t.less ny.key k = true :=
        less_of_not_equiv (habs (ny.key, ny.value)
          (List.mem_filterMap.2 ⟨y, by simp [Shape.ids], hey⟩)) hlt
      have hLy : ∀ kv ∈ (L ++ a.ids ++ [y]).filterMap (entryAt t.heap),
          t.less kv.1 k = true := by
        intro kv hkv
        rw [List.filterMap_append, List.filterMap_append, List.filterMap_cons, hey] at hkv
        rcases List.mem_append.1 hkv with hkv | hkv
        · rcases List.mem_append.1 hkv with hkv | hkv
          · exact hL kv hkv
          · refine hw.trans _ _ _ (keys_before hny hpw ?_ kv hkv) hyk
            simp only [Shape.ids]
            refine List.sublist_append_of_sublist_left (List.sublist_append_of_sublist_right
              ?_)
            exact (List.Sublist.refl _).append (List.Sublist.cons₂ _ (List.nil_sublist _))
        · have : kv = (ny.key, ny.value) := by simpa using hkv
          rw [this]; exact hyk
      rw [if_neg hlt, hyr]
      cases b with
      | nil =>
        obtain ⟨h', e, g1, g2, g3, g4⟩ := attach_spec t (.right y a) ctx k v hr hd h1 h2
        refine ⟨h', plug (.right y a :: ctx) (.node .nil t.heap.length .nil), L ++ a.ids ++ [y],
          R, e, g1, plug_root_congr ctx rfl, ?_, ?_, hLy, hR, g2, g3, g4⟩
        · simp [plug, Frame.fill, hLR, Shape.ids]
        · simp [hLR, Shape.ids]
      | node bl bi br =>
        simp only [Shape.root]
        refine ih (.right y a :: ctx) bl br bi hr hd (by simp [Shape.ids] at hf ⊢; omega)
          (L ++ a.ids ++ [y]) R (fun s => by simp [plug, Frame.fill, hLR, Shape.ids]) ?_ hLy hR
          (fun kv hkv => habs kv ?_)
        · simpa [Shape.ids, List.append_assoc] using hpw
        · obtain ⟨j, hj, e⟩ := List.mem_filterMap.1 hkv
          exact List.mem_filterMap.2 ⟨j, by simp [Shape.ids] at hj ⊢; tauto, e⟩


theorem config_of_layout {t t' : Tree} (h : t'.layout = t.layout) : t'.config = t.config := by
  simp only [Tree.layout, Prod.mk.injEq] at h
  exact h.1

theorem less_of_config {t t' : Tree} (h : t'.config = t.config) : t'.less = t.less := by
  simp only [Tree.config, Prod.mk.injEq] at h
  obtain ⟨-, h2, h3, h4, h5⟩ := h
  funext a b
  simp only [Tree.less, compareLess, h2, h3, h4, h5]

theorem keysOf_set_key {h : List Node} {p : Nat} {n : Node} (hn : h[p]? = some n) (n' : Node)
    (hk : n'.key = n.key) (s : Shape) : keysOf (h.set p n') s = keysOf h s := by
  unfold keysOf pairsOf
  rw [List.map_filterMap, List.map_filterMap]
  apply List.filterMap_congr
  intro j _
  rw [getElem?_set_ite (lt_of_getElem? hn)]
  by_cases hj : j = p
  · subst hj; simp [hn, hk]
  · simp [hj]

/-- A node of a sound tree is rewritten without a change of its key or its
links and then splayed: the result is a sound tree on the same nodes. -/
theorem touch_splay {t : Tree} {s : Shape} (hs : Sound t s) {p : Nat} {n : Node}
    (hp : p ∈ s.ids) (hn : t.heap[p]? = some n) (n' : Node) (e1 : n'.left = n.left)
    (e2 : n'.right = n.right) (e3 : n'.parent = n.parent) (ek : n'.key = n.key) :
    ∃ h2 a' b' n2, splay (t.withHeap (t.heap.set p n')) (some p) =
        .ok ((t.withHeap h2).withRoot (some p)) ∧
      Sound ((t.withHeap h2).withRoot (some p)) (.node a' p b') ∧
      h2.length = t.heap.length ∧ h2[p]? = some n2 ∧ n2.value = n'.value := by
  have hv1 := valid_set_same_ptrs hs.valid hn n' e1 e2 e3
  obtain ⟨h2, a', b', g2, hv2, i2, c2⟩ := splay_spec hv1 hp
  simp only [withHeap_heap, withHeap_withHeap] at g2 hv2 c2
  have hl2 : h2.length = t.heap.length := by simpa using length_of_content c2
  have hn2 : ∃ n2, h2[p]? = some n2 ∧ n2.value = n'.value := by
    have hc := content_getElem? c2 p
    rw [getElem?_set_ite (lt_of_getElem? hn), if_pos rfl] at hc
    cases h1 : h2[p]? with
    | none => simp [h1] at hc
    | some n2 =>
      simp only [h1, Option.map_some', Option.some.injEq, Node.content] at hc
      exact ⟨n2, rfl, by simpa using congrArg Node.value hc⟩
  obtain ⟨n2, hn2, hv2'⟩ := hn2
  have hkeys : keysOf h2 (.node a' p b') = keysOf t.heap s := by
    have h1 : keysOf h2 (.node a' p b') = keysOf (t.heap.set p n') s := by
      unfold keysOf
      rw [pairsOf_congr i2 c2]
    rw [h1, keysOf_set_key hn n' ek]
  have hpw := pairwise_of_ordered hs.strict.trans hs.valid.linked hs.sorted
  rw [← hkeys] at hpw
  refine ⟨h2, a', b', n2, g2, ⟨hv2, ordered_of_pairwise hv2.linked hpw, hs.strict, ?_,
    hs.slots, hs.next⟩, hl2, hn2, hv2'⟩
  have := hs.counted
  rw [i2]
  exact this

/-- The call `search` keeps a sound tree sound. -/
theorem search_sound {t : Tree} {s : Shape} (hs : Sound t s) (k : Int) :
    ∃ r t' s', search t k = .ok (r, t') ∧ Sound t' s' ∧ t'.layout = t.layout := by
  rcases findNode_spec hs.strict hs.valid hs.sorted k with ⟨hf, -⟩ | ⟨p, n, hf, hp, hn, he⟩
  · exact ⟨none, t, s, search_missing hf, hs, rfl⟩
  · obtain ⟨h2, a', b', n2, g2, hs2, hl2, hn2, -⟩ :=
      touch_splay hs hp hn { n with accessCount := n.accessCount + 1 } rfl rfl rfl rfl
    refine ⟨some n2.value, _, _, ?_, hs2, ?_⟩
    · rw [search]
      simp only [hf, Res.ok_bind, node_ok hn, compareEqual_eq, he, if_true, update_ok _ hn, g2,
        node_ok (t := (t.withHeap h2).withRoot (some p)) hn2, Res.pure_eq]
    · simp only [Tree.layout, Tree.config, Tree.withRoot, Tree.withHeap, hl2]

/-- The call `insert` with a key that the tree holds keeps a sound tree
sound. -/
theorem insert_present_sound {t : Tree} {s : Shape} (hs : Sound t s) (k v : Int)
    (hk : ∃ kv ∈ pairsOf t.heap s, equiv t.less kv.1 k = true) :
    ∃ t' s', insert t k v = .ok (false, t') ∧ Sound t' s' ∧ t'.layout = t.layout := by
  rcases findNode_spec hs.strict hs.valid hs.sorted k with ⟨-, hnone⟩ | ⟨p, n, hf, hp, hn, he⟩
  · obtain ⟨kv, hkv, he⟩ := hk
    rw [hnone kv hkv] at he; exact Bool.noConfusion he
  · obtain ⟨root, hroot⟩ : ∃ root, t.root_ = some root := by
      rw [hs.valid.root]
      cases s with
      | nil => simp [Shape.ids] at hp
      | node l i r => exact ⟨i, rfl⟩
    obtain ⟨h2, a', b', n2, g2, hs2, hl2, -, -⟩ :=
      touch_splay hs hp hn { n with value := v } rfl rfl rfl rfl
    refine ⟨_, _, ?_, hs2, ?_⟩
    · rw [insert, hroot]
      simp only [hf, Res.ok_bind, node_ok hn, Res.pure_eq, compareEqual_eq, he, if_true, deref,
        update_ok _ hn, g2]
    · simp only [Tree.layout, Tree.config, Tree.withRoot, Tree.withHeap, hl2]

/-- The call `remove` keeps a sound tree sound. -/
theorem remove_sound {t : Tree} {s : Shape} (hs : Sound t s) (hlt : size t < sizeModulus)
    (k : Int) :
    ∃ r t' s', remove t k = .ok (r, t') ∧ Sound t' s' ∧ t'.layout = t.layout := by
  obtain ⟨h1, h2⟩ := remove_spec hs.strict hs.valid hs.sorted hs.counted hlt k
  by_cases hk : ∃ kv ∈ pairsOf t.heap s, equiv t.less kv.1 k = true
  · obtain ⟨t', s', e, hv', hlay, ho', hsz', -⟩ := h2 hk
    have hlay' := hlay
    simp only [Tree.layout, Prod.mk.injEq] at hlay'
    have hcfg := hlay'.1
    simp only [Tree.config, Prod.mk.injEq] at hcfg
    refine ⟨true, t', s', e, ⟨hv', ho', ?_, hsz', ?_, ?_⟩, hlay⟩
    · rw [less_of_layout hlay]; exact hs.strict
    · rw [hlay'.2.2.1, hcfg.1]; exact hs.slots
    · rw [hlay'.2.1, hcfg.1]; exact hs.next
  · refine ⟨false, t, s, h1 (fun kv hkv => ?_), hs, rfl⟩
    by_contra hne
    exact hk ⟨kv, hkv, by simpa using hne⟩


theorem entryAt_of_content {h h' : List Node} {j : Nat}
    (hc : (h'[j]?).map Node.content = (h[j]?).map Node.content) : entryAt h' j = entryAt h j := by
  unfold entryAt
  cases h1 : h'[j]? with
  | none =>
    cases h2 : h[j]? with
    | none => rfl
    | some n => simp [h1, h2] at hc
  | some n' =>
    cases h2 : h[j]? with
    | none => simp [h1, h2] at hc
    | some n =>
      simp only [h1, h2, Option.map_some', Option.some.injEq, Node.content] at hc
      have e1 : n'.key = n.key := by simpa using congrArg Node.key hc
      have e2 : n'.value = n.value := by simpa using congrArg Node.value hc
      simp [e1, e2]

theorem size_le_heap {t : Tree} {s : Shape} (hs : Sound t s) : t.currentSize_ ≤ t.heap.length := by
  have h1 := length_le_of_nodup_lt hs.valid.distinct (rep_lt hs.valid.linked)
  have h2 : t.currentSize_ = s.ids.length := hs.counted
  omega

/-- The call `insert` with a key that the tree does not hold, while fewer nodes
have been allocated than the capacity: the key is added and the tree stays
sound. -/
theorem insert_new_sound {t : Tree} {s : Shape} (hs : Sound t s) (k v : Int)
    (hk : ∀ kv ∈ pairsOf t.heap s, equiv t.less kv.1 k = false)
    (hroom : t.heap.length < t.bufferSize_) :
    ∃ t' s', insert t k v = .ok (true, t') ∧ Sound t' s' ∧ t'.config = t.config ∧
      t'.heap.length = t.heap.length + 1 := by
  have hw := hs.strict
  have hv := hs.valid
  have h1 : t.currentSize_ < t.bufferSize_ := by have := size_le_heap hs; omega
  have h2 : t.nextIndex_ < t.circularBuffer_.length := by
    rw [hs.slots]; exact hs.next (by omega)
  cases s with
  | nil =>
    -- the first node
    have hroot : t.root_ = none := hv.root
    have hN : (t.heap ++ [Node.new k v t.nextIndex_])[t.heap.length]? =
        some (Node.new k v t.nextIndex_) := by simp
    refine ⟨(t.grown k v).withRoot (some t.heap.length), .node .nil t.heap.length .nil, ?_,
      ⟨⟨rfl, ?_, by simp [Shape.ids]⟩, ?_, hw, ?_, ?_, fun h0 => Nat.mod_lt _ h0⟩, rfl, ?_⟩
    · rw [insert, hroot]
      simp only [allocateNode_spec t k v h1 h2, Res.ok_bind, Res.pure_eq]
      rfl
    · rw [withRoot_heap, grown_heap, rep_node_iff]
      exact ⟨_, hN, rfl, rfl, rfl, rfl, rfl⟩
    · rw [withRoot_heap, grown_heap, ordered_node_iff hN]
      simp [keysOf, pairsOf, Shape.ids, ordered]
    · have := hs.counted
      simp only [size, Shape.ids, List.length_nil] at this
      simp [size, Tree.withRoot, Tree.grown, this, Shape.ids]
    · have := hs.slots
      simpa [Tree.withRoot, Tree.grown] using this
    · simp [Tree.withRoot, Tree.grown]
  | node a y b =>
    have hroot : t.root_ = some y := hv.root
    have hfind : findNode t k = .ok none := by
      rcases findNode_spec hw hv hs.sorted k with ⟨hf, -⟩ | ⟨p, n, -, hp, hn, he⟩
      · exact hf
      · rw [hk _ (mem_pairsOf hp hn)] at he; exact Bool.noConfusion he
    have hfuel := ids_length_lt_fuel hv
    obtain ⟨h', s', L', R', e, hrep, hr', hids', hids, hL, hR, hcont, hnew, hlen⟩ :=
      insertNode_spec t.fuel t [] a b y k v hw hv.linked hv.distinct h1 h2 (by omega) [] []
        (fun s => by simp [plug]) (by simpa [pairsOf_eq_entries] using pairwise_pairs hw hv hs.sorted)
        (fun kv hkv => by simp at hkv) (fun kv hkv => by simp at hkv)
        (fun kv hkv => hk kv hkv)
    simp only [plug] at hr' hids
    -- the tree with the new leaf
    have hold : ∀ j ∈ L' ++ R', j ≠ t.heap.length := fun j hj => by
      have := rep_lt hv.linked j (hids ▸ hj); omega
    have hdist : s'.ids.Nodup := by
      have hd := hv.distinct
      rw [hids] at hd
      rw [hids']
      have hnm : t.heap.length ∉ L' ++ R' := fun hm => hold _ hm rfl
      rw [List.nodup_append] at hd ⊢
      simp only [List.mem_append, not_or] at hnm
      refine ⟨hd.1, List.nodup_cons.2 ⟨hnm.2, hd.2.1⟩, fun x hx1 hx2 => ?_⟩
      rcases List.mem_cons.1 hx2 with e | hx2
      · exact hnm.1 (e ▸ hx1)
      · exact hd.2.2 hx1 hx2
    have hentry : ∀ l : List Nat, (∀ j ∈ l, j ∈ L' ++ R') →
        l.filterMap (entryAt h') = l.filterMap (entryAt t.heap) := fun l hl =>
      List.filterMap_congr (fun j hj => entryAt_of_content (hcont j (hold j (hl j hj))))
    have hentryNew : entryAt h' t.heap.length = some (k, v) := by
      unfold entryAt
      cases h3 : h'[t.heap.length]? with
      | none => simp [h3] at hnew
      | some n' =>
        simp only [h3, Option.map_some', Option.some.injEq, Node.content, Node.new] at hnew
        have e1 : n'.key = k := by simpa using congrArg Node.key hnew
        have e2 : n'.value = v := by simpa using congrArg Node.value hnew
        simp [e1, e2]
    have hpairs' : pairsOf h' s' =
        L'.filterMap (entryAt t.heap) ++ (k, v) :: R'.filterMap (entryAt t.heap) := by
      rw [pairsOf_eq_entries, hids', List.filterMap_append, List.filterMap_cons, hentryNew,
        hentry L' (fun j hj => List.mem_append_left _ hj),
        hentry R' (fun j hj => List.mem_append_right _ hj)]
    have hpairs : pairsOf t.heap (.node a y b) =
        L'.filterMap (entryAt t.heap) ++ R'.filterMap (entryAt t.heap) := by
      rw [pairsOf_eq_entries, hids, List.filterMap_append]
    have hpw := pairwise_pairs hw hv hs.sorted
    rw [hpairs, List.map_append, List.pairwise_append] at hpw
    have hpw' : ((pairsOf h' s').map Prod.fst).Pairwise (fun x z => t.less x z = true) := by
      rw [hpairs', List.map_append, List.map_cons, List.pairwise_append, List.pairwise_cons]
      refine ⟨hpw.1, ⟨fun x hx => ?_, hpw.2.1⟩, fun x hx z hz => ?_⟩
      · obtain ⟨kv, hkv, rfl⟩ := List.mem_map.1 hx
        exact hR kv hkv
      · rcases List.mem_cons.1 hz with rfl | hz
        · obtain ⟨kv, hkv, rfl⟩ := List.mem_map.1 hx
          exact hL kv hkv
        · exact hpw.2.2 x hx z hz
    have hv1 : Valid ((t.grown k v).withHeap h') s' := ⟨by rw [hr']; exact hroot, hrep, hdist⟩
    have ho1 : ordered ((t.grown k v).withHeap h').less ((t.grown k v).withHeap h').heap s'
        = true := ordered_of_pairwise hrep hpw'
    have hw1 : StrictWeak ((t.grown k v).withHeap h').less := hw
    -- the new node is found and splayed
    obtain ⟨p, n, hf1, hp, hn, -⟩ : ∃ p n, findNode ((t.grown k v).withHeap h') k = .ok (some p) ∧
        p ∈ s'.ids ∧ ((t.grown k v).withHeap h').heap[p]? = some n ∧
        equiv ((t.grown k v).withHeap h').less n.key k = true := by
      rcases findNode_spec hw1 hv1 ho1 k with ⟨-, hnone⟩ | h
      · have := hnone (k, v) (by rw [withHeap_heap, hpairs']; simp)
        rw [equiv_self hw1] at this; exact Bool.noConfusion this
      · exact h
    obtain ⟨h2, a', b', g2, hv2, i2, c2⟩ := splay_spec hv1 hp
    simp only [withHeap_heap, withHeap_withHeap] at g2 hv2 c2
    have hl2 : h2.length = t.heap.length + 1 := by rw [length_of_content c2, hlen]
    have hpw2 : (keysOf h2 (.node a' p b')).Pairwise (fun x z => t.less x z = true) := by
      unfold keysOf
      rw [pairsOf_congr i2 c2]
      exact hpw'
    refine ⟨((t.grown k v).withHeap h2).withRoot (some p), .node a' p b', ?_,
      ⟨hv2, ordered_of_pairwise hv2.linked hpw2, hw, ?_, ?_, fun h0 => Nat.mod_lt _ h0⟩, rfl, hl2⟩
    · rw [insert, hroot]
      simp only [hfind, Res.ok_bind, Res.pure_eq, Bool.false_eq_true, if_false, e, hf1, g2]
    · have hc : t.currentSize_ = (Shape.node a y b).ids.length := hs.counted
      rw [i2, hids']
      rw [hids] at hc
      simp only [size, Tree.withRoot, Tree.withHeap, Tree.grown, hc, List.length_append,
        List.length_cons]
      omega
    · have := hs.slots
      simpa [Tree.withRoot, Tree.withHeap, Tree.grown] using this


theorem stringLess_irrefl (x : List Nat) : stringLess x x = false := by
  induction x with
  | nil => rfl
  | cons a as ih => simp [stringLess, ih]

theorem stringLess_trans (x y z : List Nat) (h1 : stringLess x y = true)
    (h2 : stringLess y z = true) : stringLess x z = true := by
  induction x generalizing y z with
  | nil =>
    cases y with
    | nil => simp [stringLess] at h1
    | cons b bs =>
      cases z with
      | nil => simp [stringLess] at h2
      | cons c cs => rfl
  | cons a as ih =>
    cases y with
    | nil => simp [stringLess] at h1
    | cons b bs =>
      cases z with
      | nil => simp [stringLess] at h2
      | cons c cs =>
        simp only [stringLess] at h1 h2 ⊢
        by_cases hab : a < b
        · by_cases hbc : b < c
          · rw [if_pos (by omega)]
          · rw [if_neg hbc] at h2
            by_cases hcb : c < b
            · rw [if_pos hcb] at h2; exact Bool.noConfusion h2
            · rw [if_pos (by omega)]
        · rw [if_neg hab] at h1
          by_cases hba : b < a
          · rw [if_pos hba] at h1; exact Bool.noConfusion h1
          · rw [if_neg hba] at h1
            have hab' : a = b := by omega
            subst hab'
            by_cases hbc : a < c
            · rw [if_pos hbc]
            · rw [if_neg hbc] at h2 ⊢
              by_cases hcb : c < a
              · rw [if_pos hcb] at h2; exact Bool.noConfusion h2
              · rw [if_neg hcb] at h2 ⊢
                exact ih bs cs h1 h2

theorem stringLess_total (x y : List Nat) :
    stringLess x y = true ∨ x = y ∨ stringLess y x = true := by
  induction x generalizing y with
  | nil =>
    cases y with
    | nil => exact .inr (.inl rfl)
    | cons b bs => exact .inl rfl
  | cons a as ih =>
    cases y with
    | nil => exact .inr (.inr rfl)
    | cons b bs =>
      simp only [stringLess]
      by_cases hab : a < b
      · exact .inl (by rw [if_pos hab])
      · by_cases hba : b < a
        · exact .inr (.inr (by rw [if_pos hba]))
        · have e : a = b := by omega
          subst e
          simp only [if_neg hab]
          rcases ih bs with h | h | h
          · exact .inl h
          · exact .inr (.inl (by rw [h]))
          · exact .inr (.inr h)

/-- A comparison of keys by the lexicographic order of strings derived from
them is a strict weak order. -/
theorem strictWeak_stringLess (f : Int → List Nat) :
    StrictWeak (fun a b => stringLess (f a) (f b)) := by
  refine ⟨fun a => stringLess_irrefl _, fun a b c => stringLess_trans _ _ _, fun a b c h => ?_⟩
  rcases stringLess_total (f a) (f c) with h1 | h1 | h1
  · exact .inl h1
  · exact .inr (by show stringLess (f c) (f b) = true; rw [← h1]; exact h)
  · exact .inr (stringLess_trans _ _ _ h1 h)

/-- The comparator of a new tree is a strict weak order in each sort mode. -/
theorem strictWeak_new (C : Nat) (mode : SortMode) : StrictWeak (Tree.new C mode).less := by
  cases mode with
  | LEXICOGRAPHIC => exact strictWeak_stringLess printed
  | NUMERIC => exact strictWeak_lt
  | SEMANTIC => exact strictWeak_lt

/-- The empty tree is sound. -/
theorem sound_new (C : Nat) (mode : SortMode) : Sound (Tree.new C mode) .nil :=
  ⟨⟨rfl, rfl, by simp [Shape.ids]⟩, rfl, strictWeak_new C mode, rfl, by simp [Tree.new],
    fun h => h⟩


/-- One call of the public interface on a sound tree, with room for the node
that an `insert` may allocate: the call returns and leaves a sound tree. -/
theorem applyOp_sound {t : Tree} {s : Shape} (hs : Sound t s) (op : Op)
    (hcap : t.bufferSize_ < sizeModulus)
    (hroom : t.heap.length + (if op.isInsert then 1 else 0) ≤ t.bufferSize_) :
    ∃ t' s', applyOp t op = .ok t' ∧ Sound t' s' ∧ t'.config = t.config ∧
      t'.heap.length ≤ t.heap.length + (if op.isInsert then 1 else 0) := by
  cases op with
  | insert k v =>
    simp only [Op.isInsert, if_true] at hroom ⊢
    by_cases hk : ∃ kv ∈ pairsOf t.heap s, equiv t.less kv.1 k = true
    · obtain ⟨t', s', e, hs', hl⟩ := insert_present_sound hs k v hk
      refine ⟨t', s', by simp only [applyOp, e, Res.ok_bind, Res.pure_eq], hs',
        config_of_layout hl, ?_⟩
      simp only [Tree.layout, Prod.mk.injEq] at hl
      omega
    · obtain ⟨t', s', e, hs', hc, hl⟩ := insert_new_sound hs k v (fun kv hkv => by
        by_contra hne
        exact hk ⟨kv, hkv, by simpa using hne⟩) (by omega)
      exact ⟨t', s', by simp only [applyOp, e, Res.ok_bind, Res.pure_eq], hs', hc, by omega⟩
  | remove k =>
    have hlt : size t < sizeModulus := by
      have := size_le_heap hs
      simp only [size]
      omega
    obtain ⟨r, t', s', e, hs', hl⟩ := remove_sound hs hlt k
    refine ⟨t', s', by simp only [applyOp, e, Res.ok_bind, Res.pure_eq], hs',
      config_of_layout hl, ?_⟩
    simp only [Tree.layout, Prod.mk.injEq] at hl
    omega
  | search k =>
    obtain ⟨r, t', s', e, hs', hl⟩ := search_sound hs k
    refine ⟨t', s', by simp only [applyOp, e, Res.ok_bind, Res.pure_eq], hs',
      config_of_layout hl, ?_⟩
    simp only [Tree.layout, Prod.mk.injEq] at hl
    omega

/-- A sequence of calls on a sound tree that holds at most as many inserts as
there is room for new nodes: every call returns and the final tree is
sound. -/
theorem run_sound (ops : List Op) {t : Tree} {s : Shape} (hs : Sound t s)
    (hcap : t.bufferSize_ < sizeModulus)
    (hroom : t.heap.length + (ops.filter Op.isInsert).length ≤ t.bufferSize_) :
    ∃ t' s', run t ops = .ok t' ∧ Sound t' s' ∧ t'.config = t.config := by
  induction ops generalizing t s with
  | nil => exact ⟨t, s, rfl, hs, rfl⟩
  | cons op ops ih =>
    have hcount : ((op :: ops).filter Op.isInsert).length =
        (if op.isInsert then 1 else 0) + (ops.filter Op.isInsert).length := by
      cases h : op.isInsert <;> simp [List.filter_cons, h]; omega
    rw [hcount] at hroom
    obtain ⟨t1, s1, e1, hs1, hc1, hl1⟩ := applyOp_sound hs op hcap (by omega)
    have hb : t1.bufferSize_ = t.bufferSize_ := by
      simp only [Tree.config, Prod.mk.injEq] at hc1
      exact hc1.1
    obtain ⟨t', s', e2, hs', hc2⟩ := ih hs1 (by rw [hb]; exact hcap) (by rw [hb]; omega)
    exact ⟨t', s', by simp only [run, e1, Res.ok_bind, e2], hs', hc2.trans hc1⟩

end CBST

theorem Res.All_ok {α : Type} (P : α → Prop) (a : α) : (Res.ok a).All P ↔ P a := Iff.rfl

theorem Res.All_bind {α β : Type} {x : Res α} {f : α → Res β} {Q : α → Prop} {P : β → Prop}
    (hx : x.All Q) (hf : ∀ a, Q a → (f a).All P) : (x >>= f).All P := by
  cases x with
  | ok a => exact hf a hx
  | fault => trivial
  | outOfFuel => trivial

theorem Res.All_of_ok {α : Type} {P : α → Prop} {x : Res α} {a : α} (hx : x.All P)
    (h : x = .ok a) : P a := by
  subst h; exact hx

theorem Res.All_mono {α : Type} {P Q : α → Prop} {x : Res α} (hx : x.All P)
    (h : ∀ a, P a → Q a) : x.All Q := by
  cases x with
  | ok a => exact h a hx
  | fault => trivial
  | outOfFuel => trivial

theorem Res.All_trivial {α : Type} (x : Res α) : x.All (fun _ => True) := by
  cases x <;> trivial

theorem Res.ok_of_bind {α β : Type} {x : Res α} {f : α → Res β} {b : β}
    (h : (x >>= f) = .ok b) : ∃ a, x = .ok a ∧ f a = .ok b := by
  cases x with
  | ok a => exact ⟨a, rfl, h⟩
  | fault => exact Res.noConfusion h
  | outOfFuel => exact Res.noConfusion h

namespace CBST

/-- The call `update` keeps the number of nodes in the store. -/
theorem update_len (t : Tree) (p : Nat) (f : Node → Node) (N : Nat) (h : t.heap.length = N) :
    (t.update p f).All (fun t' => t'.heap.length = N) := by
  rw [update_eq]
  cases t.heap[p]? with
  | none => trivial
  | some n => simpa [Res.All, Tree.withHeap] using h

theorem updateSubtreeSize_len (fuel : Nat) (t : Tree) (p : Nat) (N : Nat)
    (h : t.heap.length = N) :
    (updateSubtreeSize fuel t p).All (fun t' => t'.heap.length = N) := by
  induction fuel generalizing t p with
  | zero => trivial
  | succ fuel ih =>
    unfold updateSubtreeSize
    repeat (first
      | exact (Res.All_ok _ _).2 (by assumption)
      | exact update_len _ _ _ N (by assumption)
      | exact ih _ _ (by assumption)
      | refine Res.All_bind (Q := fun t' : Tree => t'.heap.length = N) ?_ (fun _ _ => ?_)
      | refine Res.All_bind (Res.All_trivial _) (fun _ _ => ?_)
      | split)

theorem zig_len (t : Tree) (p : Nat) (N : Nat) (h : t.heap.length = N) :
    (zig t p).All (fun t' => t'.heap.length = N) := by
  unfold zig
  repeat (first
    | exact (Res.All_ok _ _).2 (by assumption)
    | exact update_len _ _ _ N (by assumption)
    | exact updateSubtreeSize_len _ _ _ N (by assumption)
    | refine Res.All_bind (Q := fun t' : Tree => t'.heap.length = N) ?_ (fun _ _ => ?_)
    | refine Res.All_bind (Res.All_trivial _) (fun _ _ => ?_)
    | split)

theorem zag_len (t : Tree) (p : Nat) (N : Nat) (h : t.heap.length = N) :
    (zag t p).All (fun t' => t'.heap.length = N) := by
  unfold zag
  repeat (first
    | exact (Res.All_ok _ _).2 (by assumption)
    | exact update_len _ _ _ N (by assumption)
    | exact updateSubtreeSize_len _ _ _ N (by assumption)
    | refine Res.All_bind (Q := fun t' : Tree => t'.heap.length = N) ?_ (fun _ _ => ?_)
    | refine Res.All_bind (Res.All_trivial _) (fun _ _ => ?_)
    | split)


theorem zigZig_len (t : Tree) (p : Nat) (N : Nat) (h : t.heap.length = N) :
    (zigZig t p).All (fun t' => t'.heap.length = N) := by
  unfold zigZig
  repeat (first
    | exact zig_len _ _ N (by assumption)
    | refine Res.All_bind (Q := fun t' : Tree => t'.heap.length = N) ?_ (fun _ _ => ?_)
    | refine Res.All_bind (Res.All_trivial _) (fun _ _ => ?_))

theorem zagZag_len (t : Tree) (p : Nat) (N : Nat) (h : t.heap.length = N) :
    (zagZag t p).All (fun t' => t'.heap.length = N) := by
  unfold zagZag
  repeat (first
    | exact zag_len _ _ N (by assumption)
    | refine Res.All_bind (Q := fun t' : Tree => t'.heap.length = N) ?_ (fun _ _ => ?_)
    | refine Res.All_bind (Res.All_trivial _) (fun _ _ => ?_))

theorem zigZag_len (t : Tree) (p : Nat) (N : Nat) (h : t.heap.length = N) :
    (zigZag t p).All (fun t' => t'.heap.length = N) := by
  unfold zigZag
  exact Res.All_bind (zig_len _ _ N h) (fun _ h1 => zag_len _ _ N h1)

theorem zagZig_len (t : Tree) (p : Nat) (N : Nat) (h : t.heap.length = N) :
    (zagZig t p).All (fun t' => t'.heap.length = N) := by
  unfold zagZig
  exact Res.All_bind (zag_len _ _ N h) (fun _ h1 => zig_len _ _ N h1)

theorem splayLoop_len (fuel : Nat) (t : Tree) (p : Nat) (N : Nat) (h : t.heap.length = N) :
    (splayLoop fuel t p).All (fun t' => t'.heap.length = N) := by
  induction fuel generalizing t with
  | zero => trivial
  | succ fuel ih =>
    unfold splayLoop
    dsimp only
    refine Res.All_bind (Res.All_trivial _) (fun n _ => ?_)
    split
    · exact h
    · refine Res.All_bind (Res.All_trivial _) (fun pn _ => ?_)
      split
      · split
        · exact Res.All_bind (zig_len _ _ N h) (fun _ h1 => ih _ h1)
        · exact Res.All_bind (zag_len _ _ N h) (fun _ h1 => ih _ h1)
      · refine Res.All_bind (Res.All_trivial _) (fun gn _ => ?_)
        split
        · exact Res.All_bind (zigZig_len _ _ N h) (fun _ h1 => ih _ h1)
        · split
          · exact Res.All_bind (zagZag_len _ _ N h) (fun _ h1 => ih _ h1)
          · split
            · exact Res.All_bind (zigZag_len _ _ N h) (fun _ h1 => ih _ h1)
            · exact Res.All_bind (zagZig_len _ _ N h) (fun _ h1 => ih _ h1)

theorem splay_len (t : Tree) (p : Ptr) (N : Nat) (h : t.heap.length = N) :
    (splay t p).All (fun t' => t'.heap.length = N) := by
  unfold splay
  split
  · exact h
  · split
    · exact h
    · exact Res.All_bind (splayLoop_len _ _ _ N h) (fun _ h1 => h1)

theorem deallocateNode_len (t : Tree) (p : Nat) (N : Nat) (h : t.heap.length = N) :
    (deallocateNode t p).All (fun t' => t'.heap.length = N) := by
  unfold deallocateNode
  dsimp only
  repeat (first
    | exact (Res.All_ok _ _).2 (by assumption)
    | exact update_len _ _ _ N (by assumption)
    | refine Res.All_bind (Q := fun t' : Tree => t'.heap.length = N) ?_ (fun _ _ => ?_)
    | refine Res.All_bind (Res.All_trivial _) (fun _ _ => ?_)
    | split)

theorem allocateNode_len (t : Tree) (k v : Int) (N : Nat) (h : t.heap.length = N) :
    (allocateNode t k v).All (fun r => r.2.heap.length = N + 1) := by
  unfold allocateNode
  dsimp only
  have hfin : ∀ t1 : Tree, t1.heap.length = N →
      (t1.heap ++ [Node.new k v t1.nextIndex_]).length = N + 1 := fun t1 h1 => by simp [h1]
  repeat (first
    | exact (Res.All_ok _ _).2 (hfin _ (by assumption))
    | exact deallocateNode_len _ _ N (by assumption)
    | trivial
    | refine Res.All_bind (Q := fun t' : Tree => t'.heap.length = N) ?_ (fun _ _ => ?_)
    | refine Res.All_bind (Res.All_trivial _) (fun _ _ => ?_)
    | split)

theorem insertNode_len (fuel : Nat) (t : Tree) (p : Nat) (k v : Int) (N : Nat)
    (h : t.heap.length = N) :
    (insertNode fuel t p k v).All (fun t' => t'.heap.length = N + 1) := by
  induction fuel generalizing p with
  | zero => trivial
  | succ fuel ih =>
    unfold insertNode
    dsimp only
    refine Res.All_bind (Res.All_trivial _) (fun n _ => ?_)
    split
    · split
      · refine Res.All_bind (allocateNode_len t k v N h) (fun r hr => ?_)
        obtain ⟨newNode, t1⟩ := r
        refine Res.All_bind (update_len _ _ _ (N + 1) hr) (fun _ h2 => ?_)
        refine Res.All_bind (update_len _ _ _ (N + 1) h2) (fun _ h3 => ?_)
        exact updateSubtreeSize_len _ _ _ (N + 1) h3
      · exact ih _
    · split
      · refine Res.All_bind (allocateNode_len t k v N h) (fun r hr => ?_)
        obtain ⟨newNode, t1⟩ := r
        refine Res.All_bind (update_len _ _ _ (N + 1) hr) (fun _ h2 => ?_)
        refine Res.All_bind (update_len _ _ _ (N + 1) h2) (fun _ h3 => ?_)
        exact updateSubtreeSize_len _ _ _ (N + 1) h3
      · exact ih _


/-- The call `insert` adds one node to the store when it returns true and none
when it returns false. -/
theorem insert_len (t : Tree) (k v : Int) (N : Nat) (h : t.heap.length = N) :
    (insert t k v).All (fun r => r.2.heap.length = N + (if r.1 then 1 else 0)) := by
  unfold insert
  dsimp only
  split
  · refine Res.All_bind (allocateNode_len t k v N h) (fun r hr => ?_)
    obtain ⟨a, t1⟩ := r
    exact hr
  · repeat (first
      | exact (Res.All_ok _ _).2 (by show _ = N + 0; assumption)
      | exact (Res.All_ok _ _).2 (by show _ = N + 1; assumption)
      | refine Res.All_bind (insertNode_len _ _ _ _ _ N (by assumption)) (fun _ _ => ?_)
      | refine Res.All_bind (splay_len _ _ (N + 1) (by assumption)) (fun _ _ => ?_)
      | refine Res.All_bind (splay_len _ _ N (by assumption)) (fun _ _ => ?_)
      | refine Res.All_bind (update_len _ _ _ N (by assumption)) (fun _ _ => ?_)
      | refine Res.All_bind (Res.All_trivial _) (fun _ _ => ?_)
      | split)

theorem search_len (t : Tree) (k : Int) (N : Nat) (h : t.heap.length = N) :
    (search t k).All (fun r => r.2.heap.length = N) := by
  unfold search
  repeat (first
    | exact (Res.All_ok _ _).2 (by assumption)
    | refine Res.All_bind (splay_len _ _ N (by assumption)) (fun _ _ => ?_)
    | refine Res.All_bind (update_len _ _ _ N (by assumption)) (fun _ _ => ?_)
    | refine Res.All_bind (Res.All_trivial _) (fun _ _ => ?_)
    | split)

theorem replaceBy_len (t : Tree) (p : Nat) (c : Ptr) (N : Nat) (h : t.heap.length = N) :
    (replaceBy t p c).All (fun t' => t'.heap.length = N) := by
  unfold replaceBy
  dsimp only
  repeat (first
    | exact (Res.All_ok _ _).2 (by assumption)
    | exact deallocateNode_len _ _ N (by assumption)
    | exact update_len _ _ _ N (by assumption)
    | exact updateSubtreeSize_len _ _ _ N (by assumption)
    | refine Res.All_bind (Q := fun t' : Tree => t'.heap.length = N) ?_ (fun _ _ => ?_)
    | refine Res.All_bind (Res.All_trivial _) (fun _ _ => ?_)
    | split)

theorem removeNode_len (fuel : Nat) (t : Tree) (p : Nat) (N : Nat) (h : t.heap.length = N) :
    (removeNode fuel t p).All (fun t' => t'.heap.length = N) := by
  induction fuel generalizing t p with
  | zero => trivial
  | succ fuel ih =>
    unfold removeNode
    refine Res.All_bind (Res.All_trivial _) (fun n _ => ?_)
    split
    · exact replaceBy_len _ _ _ N h
    · exact replaceBy_len _ _ _ N h
    · exact replaceBy_len _ _ _ N h
    · refine Res.All_bind (Res.All_trivial _) (fun _ _ => ?_)
      refine Res.All_bind (Res.All_trivial _) (fun _ _ => ?_)
      exact Res.All_bind (update_len _ _ _ N h) (fun _ h1 => ih _ _ h1)

theorem remove_len (t : Tree) (k : Int) (N : Nat) (h : t.heap.length = N) :
    (remove t k).All (fun r => r.2.heap.length = N) := by
  unfold remove
  repeat (first
    | exact (Res.All_ok _ _).2 (by assumption)
    | refine Res.All_bind (splay_len _ _ N (by assumption)) (fun _ _ => ?_)
    | refine Res.All_bind (removeNode_len _ _ _ N (by assumption)) (fun _ _ => ?_)
    | refine Res.All_bind (Res.All_trivial _) (fun _ _ => ?_)
    | split)

/-- No call of the public interface removes a node from the store. -/
theorem applyOp_len (t : Tree) (op : Op) :
    (applyOp t op).All (fun t' => t.heap.length ≤ t'.heap.length) := by
  cases op with
  | insert k v =>
    refine Res.All_bind (insert_len t k v _ rfl) (fun r hr => ?_)
    obtain ⟨b, t1⟩ := r
    show t.heap.length ≤ t1.heap.length
    have : t1.heap.length = t.heap.length + (if b then 1 else 0) := hr
    omega
  | remove k =>
    refine Res.All_bind (remove_len t k _ rfl) (fun r hr => ?_)
    obtain ⟨b, t1⟩ := r
    exact Nat.le_of_eq (Eq.symm hr)
  | search k =>
    refine Res.All_bind (search_len t k _ rfl) (fun r hr => ?_)
    obtain ⟨b, t1⟩ := r
    exact Nat.le_of_eq (Eq.symm hr)

theorem run_len (ops : List Op) (t : Tree) :
    (run t ops).All (fun t' => t.heap.length ≤ t'.heap.length) := by
  induction ops generalizing t with
  | nil => exact Nat.le_refl _
  | cons op ops ih =>
    unfold run
    exact Res.All_bind (applyOp_len t op) (fun t1 h1 => Res.All_mono (ih t1)
      (fun _ h2 => Nat.le_trans h1 h2))


/-- The call `insert` returns true when `findNode` does not find the key. -/
theorem insert_flag (t : Tree) (k v : Int) (hf : findNode t k = .ok none) :
    (insert t k v).All (fun r => r.1 = true) := by
  unfold insert
  split
  · refine Res.All_bind (Res.All_trivial _) (fun r _ => ?_)
    obtain ⟨a, t1⟩ := r
    rfl
  · simp only [hf, Res.ok_bind, Res.pure_eq, Bool.false_eq_true, if_false]
    refine Res.All_bind (Res.All_trivial _) (fun _ _ => ?_)
    refine Res.All_bind (Res.All_trivial _) (fun _ _ => ?_)
    refine Res.All_bind (Res.All_trivial _) (fun _ _ => ?_)
    rfl

/-- Every state reached from a sound tree while no more nodes have been
allocated than the capacity is sound. -/
theorem sound_of_run (ops : List Op) {t0 : Tree} {s0 : Shape} (hs : Sound t0 s0)
    (hcap : t0.bufferSize_ < sizeModulus) {t : Tree} (hrun : run t0 ops = .ok t)
    (hno : t.heap.length ≤ t0.bufferSize_) : ∃ s, Sound t s ∧ t.config = t0.config := by
  induction ops generalizing t0 s0 with
  | nil =>
    have e : t0 = t := by simpa [run] using hrun
    subst e
    exact ⟨s0, hs, rfl⟩
  | cons op ops ih =>
    rw [run] at hrun
    obtain ⟨t1, e1, e2⟩ := Res.ok_of_bind hrun
    have hlen1 : t1.heap.length ≤ t.heap.length := by
      have h := run_len ops t1; rw [e2] at h; exact h
    have hlen0 : t0.heap.length ≤ t1.heap.length := by
      have h := applyOp_len t0 op; rw [e1] at h; exact h
    -- the state after the first call is sound
    have hstep : ∃ s1, Sound t1 s1 ∧ t1.config = t0.config := by
      by_cases hroom : t0.heap.length + (if op.isInsert then 1 else 0) ≤ t0.bufferSize_
      · obtain ⟨t', s', e, hs', hc, -⟩ := applyOp_sound hs op hcap hroom
        rw [e1] at e
        cases e
        exact ⟨s', hs', hc⟩
      · cases op with
        | insert k v =>
          simp only [Op.isInsert, if_true] at hroom
          by_cases hk : ∃ kv ∈ pairsOf t0.heap s0, equiv t0.less kv.1 k = true
          · obtain ⟨t', s', e, hs', hl⟩ := insert_present_sound hs k v hk
            simp only [applyOp, e, Res.ok_bind, Res.pure_eq] at e1
            cases e1
            exact ⟨s', hs', config_of_layout hl⟩
          · -- a new key when the store is full: one node more than the capacity
            exfalso
            have hf : findNode t0 k = .ok none := by
              rcases findNode_spec hs.strict hs.valid hs.sorted k with ⟨hf, -⟩ | ⟨p, n, -, hp, hn, he⟩
              · exact hf
              · exact absurd ⟨_, mem_pairsOf hp hn, he⟩ hk
            simp only [applyOp] at e1
            obtain ⟨r, e3, e4⟩ := Res.ok_of_bind e1
            obtain ⟨b, t2⟩ := r
            have hb : b = true := by
              have h := insert_flag t0 k v hf; rw [e3] at h; exact h
            have hl : t2.heap.length = t0.heap.length + (if b then 1 else 0) := by
              have h := insert_len t0 k v _ rfl; rw [e3] at h; exact h
            have e5 : t2 = t1 := by simpa using e4
            subst e5 hb
            simp only [if_true] at hl
            omega
        | remove k => simp only [Op.isInsert, Bool.false_eq_true, if_false] at hroom; omega
        | search k => simp only [Op.isInsert, Bool.false_eq_true, if_false] at hroom; omega
    obtain ⟨s1, hs1, hc1⟩ := hstep
    have hb : t1.bufferSize_ = t0.bufferSize_ := by
      simp only [Tree.config, Prod.mk.injEq] at hc1
      exact hc1.1
    obtain ⟨s, hs', hc⟩ := ih hs1 (by rw [hb]; exact hcap) e2 (by rw [hb]; exact hno)
    exact ⟨s, hs', hc.trans hc1⟩

end CBST

namespace NST

/-- The descent of `findNodeRecursive` for key 5 in `afterFour` goes round the
cycle 2 → 0 → 1 → 2: no number of steps ends it. -/
theorem findNodeRecursive_cycle (n : Nat) :
    findNodeRecursive n afterFour (some 2) 5 = .outOfFuel ∧
      findNodeRecursive n afterFour (some 0) 5 = .outOfFuel ∧
      findNodeRecursive n afterFour (some 1) 5 = .outOfFuel := by
  induction n with
  | zero => exact ⟨rfl, rfl, rfl⟩
  | succ n ih =>
    refine ⟨?_, ?_, ?_⟩
    · exact (show findNodeRecursive (n + 1) afterFour (some 2) 5 =
        findNodeRecursive n afterFour (some 0) 5 from rfl).trans ih.2.1
    · exact (show findNodeRecursive (n + 1) afterFour (some 0) 5 =
        findNodeRecursive n afterFour (some 1) 5 from rfl).trans ih.2.2
    · exact (show findNodeRecursive (n + 1) afterFour (some 1) 5 =
        findNodeRecursive n afterFour (some 2) 5 from rfl).trans ih.1

/-- The successor walk of `removeNode` in `splayedTwo` goes round the cycle
0 → 1 → 0: no number of steps ends it. -/
theorem firstLeaf_cycle (n : Nat) :
    firstLeaf n splayedTwo 0 = .outOfFuel ∧ firstLeaf n splayedTwo 1 = .outOfFuel := by
  induction n with
  | zero => exact ⟨rfl, rfl⟩
  | succ n ih =>
    exact ⟨(show firstLeaf (n + 1) splayedTwo 0 = firstLeaf n splayedTwo 1 from rfl).trans ih.2,
      (show firstLeaf (n + 1) splayedTwo 1 = firstLeaf n splayedTwo 0 from rfl).trans ih.1⟩

end NST

namespace NST

/-- The descent of `findNodeRecursive` for key 5 in `blocksFour` goes round the
cycle 2 → 0 → 1 → 2: no number of steps ends it. -/
theorem findNodeRecursive_blocks_cycle (n : Nat) :
    findNodeRecursive n blocksFour (some 2) 5 = .outOfFuel ∧
      findNodeRecursive n blocksFour (some 0) 5 = .outOfFuel ∧
      findNodeRecursive n blocksFour (some 1) 5 = .outOfFuel := by
  induction n with
  | zero => exact ⟨rfl, rfl, rfl⟩
  | succ n ih =>
    refine ⟨?_, ?_, ?_⟩
    · exact (show findNodeRecursive (n + 1) blocksFour (some 2) 5 =
        findNodeRecursive n blocksFour (some 0) 5 from rfl).trans ih.2.1
    · exact (show findNodeRecursive (n + 1) blocksFour (some 0) 5 =
        findNodeRecursive n blocksFour (some 1) 5 from rfl).trans ih.2.2
    · exact (show findNodeRecursive (n + 1) blocksFour (some 1) 5 =
        findNodeRecursive n blocksFour (some 2) 5 from rfl).trans ih.1

end NST

namespace NST

variable {V : Type}

theorem nodeAt_eq (t : Tree V) (p : Nat) :
    t.node p = match t.heap[p]? with
      | some n => .ok n
      | none => .fault := by
  cases h : t.heap[p]? <;> simp [Tree.node, Vec.read, h]

theorem node_getElem? {t : Tree V} {p : Nat} {n : Node V} (h : t.node p = .ok n) :
    t.heap[p]? = some n := by
  rw [nodeAt_eq] at h
  cases hp : t.heap[p]? with
  | none => rw [hp] at h; exact Res.noConfusion h
  | some x => rw [hp] at h; exact congrArg some (Res.ok.inj h)

end NST

namespace NST

variable {V : Type}

end NST

namespace NST

variable {V : Type}

/-- The invariant without its list of keys. -/
theorem keeps_nil {ib mb : Int} {K : List Int} {t : Tree V} (h : t.Keeps ib mb K) :
    t.Keeps ib mb [] := ⟨h.1, h.2.1, h.2.2.1, List.nil_prefix⟩

end NST

namespace NST

variable {V : Type}

/-- The keys and children of the nodes of a store. -/
theorem core_getElem? (t : Tree V) (q : Nat) :
    (t.heap.map (fun n => (n.key, n.children)))[q]? =
      (t.heap[q]?).map (fun n => (n.key, n.children)) := List.getElem?_map _ _ _

end NST

namespace NST

variable {V : Type}

end NST

namespace NST

variable {V : Type}

end NST

namespace NST

variable {V : Type}

end NST

namespace NST

variable {V : Type}

end NST

namespace BT

end BT

namespace BT

mutual
theorem calculateHeight_shape : ∀ n : Node, calculateHeight (Node.shape n) = calculateHeight n
  | .mk ks vs cs l a => by
    simp only [Node.shape, calculateHeight, maxChildHeight_shape cs]
theorem maxChildHeight_shape :
    ∀ cs : List Node, maxChildHeight (Node.shapeList cs) = maxChildHeight cs
  | [] => rfl
  | c :: cs => by
    simp only [Node.shapeList, maxChildHeight, calculateHeight_shape c,
      maxChildHeight_shape cs]
end

theorem height_eq_of_shape {t t1 : BTree} (h : t1.root_.shape = t.root_.shape) :
    height t1 = height t := by
  unfold height
  rw [← calculateHeight_shape t1.root_, ← calculateHeight_shape t.root_, h]

end BT

namespace BT

mutual
theorem length_preorderInfos : ∀ (n : Node) (idx : Nat),
    (preorderInfos idx n).length = nodeCount n
  | .mk ks vs cs l a, idx => by
    simp only [preorderInfos, nodeCount, List.length_cons, length_preorderInfosList cs (idx + 1)]
    omega
theorem length_preorderInfosList : ∀ (cs : List Node) (start : Nat),
    (preorderInfosList start cs).length = nodeCountList cs
  | [], _ => rfl
  | c :: cs, start => by
    simp only [preorderInfosList, nodeCountList, List.length_append, length_preorderInfos c start,
      length_preorderInfosList cs (start + nodeCount c)]
end

mutual
theorem assignIndices_eq_raw : ∀ (n : Node) (idx : Nat), shaped n = true →
    assignIndices n = (preorderInfos idx n).map NodeInfo.raw
  | .mk ks vs cs l a, idx, hs => by
    simp only [shaped, Bool.and_eq_true, decide_eq_true_eq] at hs
    cases l with
    | true =>
      have hc : cs = [] := by simpa using hs.2
      subst hc
      simp [assignIndices, preorderInfos, preorderInfosList, NodeInfo.raw, childStarts]
    | false =>
      have hl : shapedList cs = true := by
        have h2 := hs.2
        simp only [Bool.false_eq_true, if_false, Bool.and_eq_true] at h2
        exact h2.2
      simp only [assignIndices, preorderInfos, List.map_cons, NodeInfo.raw,
        assignIndicesList_eq_raw cs (idx + 1) hl, Bool.false_eq_true, if_false]
theorem assignIndicesList_eq_raw : ∀ (cs : List Node) (start : Nat), shapedList cs = true →
    assignIndicesList cs = (preorderInfosList start cs).map NodeInfo.raw
  | [], _, _ => rfl
  | c :: cs, start, hs => by
    simp only [shapedList, Bool.and_eq_true] at hs
    simp only [assignIndicesList, preorderInfosList, List.map_append,
      assignIndices_eq_raw c start hs.1, assignIndicesList_eq_raw cs (start + nodeCount c) hs.2]
end

theorem length_assignIndices (n : Node) (hs : shaped n = true) :
    (assignIndices n).length = nodeCount n := by
  rw [assignIndices_eq_raw n 0 hs, List.length_map, length_preorderInfos]

mutual
theorem length_links : ∀ (n : Node) (idx : Nat), (links idx n).length + 1 = nodeCount n
  | .mk ks vs cs l a, idx => by
    simp only [links, nodeCount, length_linksList cs idx (idx + 1)]
    omega
theorem length_linksList : ∀ (cs : List Node) (owner start : Nat),
    (linksList owner start cs).length = nodeCountList cs
  | [], _, _ => rfl
  | c :: cs, owner, start => by
    have h1 := length_links c start
    simp only [linksList, nodeCountList, List.length_cons, List.length_append,
      length_linksList cs owner (start + nodeCount c)]
    omega
end

/-- The write of `pushChildIndex` into an entry of the part `A` of the nodes. -/
theorem pushChildIndex_spec (A X : List NodeInfo) (E : List (Nat × Nat)) (i c : Nat)
    (info : NodeInfo) (h : A[i]? = some info) :
    pushChildIndex { nodes := A ++ X, edges := E } i c =
      .ok { nodes := A.set i { info with childIndices := info.childIndices ++ [c] } ++ X,
            edges := E } := by
  have hlt : i < A.length := (List.getElem?_eq_some_iff.1 h).1
  have h1 : (A ++ X)[i]? = some info := by
    rw [List.getElem?_append_left hlt]; exact h
  simp only [pushChildIndex, Vec.read, h1, Res.ok_bind, Vec.set, List.length_append,
    Res.pure_eq]
  rw [if_pos (by omega), List.set_append_left _ _ hlt]
  rfl

end BT

namespace BT

theorem set_same {α : Type} (A : List α) (i : Nat) (x : α) (h : A[i]? = some x) :
    A.set i x = A := by
  apply List.ext_getElem?
  intro j
  rw [List.getElem?_set]
  by_cases e : i = j
  · subst e
    rw [if_pos rfl, if_pos (List.getElem?_eq_some_iff.1 h).1, h]
  · rw [if_neg e]

mutual
/-- The lambda `buildEdges` on a well-shaped subtree whose entries start at
`index`: it fills in the child indices of the entries of the subtree and
appends the pairs of the subtree to the edges. -/
theorem buildEdges_spec : ∀ (n : Node) (idx : Nat) (par : Option Nat) (A B : List NodeInfo)
    (E : List (Nat × Nat)), shaped n = true → A.length = idx →
    buildEdges idx par n
        { nodes := A ++ (preorderInfos idx n).map NodeInfo.raw ++ B, edges := E } =
      .ok { nodes := A ++ preorderInfos idx n ++ B,
            edges := E ++ par.toList.map (fun p => (p, idx)) ++ links idx n }
  | .mk ks vs cs l a, idx, par, A, B, E, hs, hA => by
    simp only [shaped, Bool.and_eq_true, decide_eq_true_eq] at hs
    have hE : ∀ E1 : List (Nat × Nat),
        (match par with
          | some p => ({ nodes := A ++ (preorderInfos idx (.mk ks vs cs l a)).map NodeInfo.raw ++ B,
                         edges := E1 } : TreeSnapshot).edges ++ [(p, idx)]
          | none => E1) = E1 ++ par.toList.map (fun p => (p, idx)) := by
      intro E1
      cases par <;> simp
    cases l with
    | true =>
      have hc : cs = [] := by simpa using hs.2
      subst hc
      cases par <;>
        simp [buildEdges, preorderInfos, preorderInfosList, NodeInfo.raw, childStarts, links,
          linksList]
    | false =>
      have hl : shapedList cs = true := by
        have h2 := hs.2
        simp only [Bool.false_eq_true, if_false, Bool.and_eq_true] at h2
        exact h2.2
      have hget : (A ++ [NodeInfo.mk ks vs [] false a])[idx]? =
          some (NodeInfo.mk ks vs [] false a) := by
        rw [List.getElem?_append_right (by omega)]
        simp [hA]
      have hmain := buildEdgesList_spec cs idx (idx + 1)
        (A ++ [NodeInfo.mk ks vs [] false a]) B (E ++ par.toList.map (fun p => (p, idx)))
        (NodeInfo.mk ks vs [] false a) hl (by simp [hA]) hget
      have hset : (A ++ [NodeInfo.mk ks vs [] false a]).set idx
            (NodeInfo.mk ks vs ([] ++ childStarts (idx + 1) cs) false a) =
          A ++ [NodeInfo.mk ks vs (childStarts (idx + 1) cs) false a] := by
        rw [List.set_append_right _ _ (by omega)]
        simp [hA]
      rw [hset] at hmain
      simp only [buildEdges, preorderInfos, List.map_cons, NodeInfo.raw, links,
        Bool.false_eq_true, if_false]
      cases par with
      | none =>
        simp only [Option.toList, List.map_nil, List.append_nil, List.append_assoc,
          List.singleton_append] at hmain ⊢
        exact hmain
      | some p =>
        simp only [Option.toList, List.map_cons, List.map_nil, List.append_assoc,
          List.singleton_append] at hmain ⊢
        exact hmain
/-- The `for` loop of `buildEdges` over well-shaped children whose entries start
at `start`: the entry of their parent receives their indices, in order. -/
theorem buildEdgesList_spec : ∀ (cs : List Node) (owner start : Nat) (A B : List NodeInfo)
    (E : List (Nat × Nat)) (info0 : NodeInfo), shapedList cs = true → A.length = start →
    A[owner]? = some info0 →
    buildEdgesList owner start cs
        { nodes := A ++ (preorderInfosList start cs).map NodeInfo.raw ++ B, edges := E } =
      .ok { nodes := A.set owner { info0 with
                childIndices := info0.childIndices ++ childStarts start cs } ++
              preorderInfosList start cs ++ B,
            edges := E ++ linksList owner start cs }
  | [], owner, start, A, B, E, info0, _, _, h0 => by
    simp only [buildEdgesList, preorderInfosList, List.map_nil, List.append_nil, childStarts,
      linksList, Res.pure_eq]
    rw [set_same A owner _ h0]
  | c :: cs, owner, start, A, B, E, info0, hs, hA, h0 => by
    simp only [shapedList, Bool.and_eq_true] at hs
    have hlt : owner < A.length := (List.getElem?_eq_some_iff.1 h0).1
    have hpush := pushChildIndex_spec A
      ((preorderInfos start c).map NodeInfo.raw ++
        ((preorderInfosList (start + nodeCount c) cs).map NodeInfo.raw ++ B)) E owner start
      info0 h0
    have hbe := buildEdges_spec c start (some owner)
      (A.set owner { info0 with childIndices := info0.childIndices ++ [start] })
      ((preorderInfosList (start + nodeCount c) cs).map NodeInfo.raw ++ B) E hs.1
      (by simp [hA])
    have hget : (A.set owner { info0 with childIndices := info0.childIndices ++ [start] } ++
        preorderInfos start c)[owner]? =
          some { info0 with childIndices := info0.childIndices ++ [start] } := by
      rw [List.getElem?_append_left (by simp; exact hlt), List.getElem?_set, if_pos rfl,
        if_pos hlt]
    have hbl := buildEdgesList_spec cs owner (start + nodeCount c)
      (A.set owner { info0 with childIndices := info0.childIndices ++ [start] } ++
        preorderInfos start c) B
      (E ++ [(owner, start)] ++ links start c)
      { info0 with childIndices := info0.childIndices ++ [start] } hs.2
      (by simp [hA, length_preorderInfos]) hget
    simp only [buildEdgesList, preorderInfosList, List.map_append, List.append_assoc,
      length_assignIndices c hs.1]
    simp only [List.append_assoc] at hpush hbe hbl
    rw [hpush]
    simp only [Res.ok_bind]
    simp only [Option.toList, List.map_cons, List.map_nil, List.singleton_append] at hbe
    rw [hbe]
    simp only [Res.ok_bind]
    simp only [List.singleton_append] at hbl
    rw [hbl]
    rw [List.set_append_left _ _ (by simp; exact hlt), List.set_set]
    simp [childStarts, linksList, List.append_assoc]
end

end BT

namespace BT

mutual
/-- The pairs of a subtree are the pairs (index of an entry, one of its child
indices) of the reference snapshot of the subtree. -/
theorem mem_links : ∀ (n : Node) (idx i c : Nat),
    (i, c) ∈ links idx n ↔
      idx ≤ i ∧ ∃ info, (preorderInfos idx n)[i - idx]? = some info ∧ c ∈ info.childIndices
  | .mk ks vs cs l a, idx, i, c => by
    rw [links, mem_linksList cs idx (idx + 1) i c (by omega), preorderInfos]
    constructor
    · rintro (⟨rfl, hc⟩ | ⟨hi, info, hinfo, hc⟩)
      · exact ⟨le_refl _, NodeInfo.mk ks vs (childStarts (i + 1) cs) l a, by simp, hc⟩
      · refine ⟨by omega, info, ?_, hc⟩
        have e : i - idx = (i - (idx + 1)) + 1 := by omega
        rw [e, List.getElem?_cons_succ]
        exact hinfo
    · rintro ⟨hi, info, hinfo, hc⟩
      by_cases e : i = idx
      · subst e
        simp only [Nat.sub_self, List.getElem?_cons_zero, Option.some.injEq] at hinfo
        subst hinfo
        exact .inl ⟨rfl, hc⟩
      · have e1 : i - idx = (i - (idx + 1)) + 1 := by omega
        rw [e1, List.getElem?_cons_succ] at hinfo
        exact .inr ⟨by omega, info, hinfo, hc⟩
theorem mem_linksList : ∀ (cs : List Node) (owner start i c : Nat), owner < start →
    ((i, c) ∈ linksList owner start cs ↔
      (i = owner ∧ c ∈ childStarts start cs) ∨
        (start ≤ i ∧ ∃ info, (preorderInfosList start cs)[i - start]? = some info ∧
          c ∈ info.childIndices))
  | [], owner, start, i, c, _ => by
    simp [linksList, childStarts, preorderInfosList]
  | c0 :: cs, owner, start, i, c, ho => by
    have hX := length_preorderInfos c0 start
    simp only [linksList, List.mem_cons, List.mem_append, Prod.mk.injEq, childStarts,
      preorderInfosList, mem_links c0 start i c,
      mem_linksList cs owner (start + nodeCount c0) i c (by omega)]
    constructor
    · rintro (⟨rfl, rfl⟩ | ⟨hi, info, hinfo, hc⟩ | ⟨rfl, hc⟩ | ⟨hi, info, hinfo, hc⟩)
      · exact .inl ⟨rfl, .inl rfl⟩
      · refine .inr ⟨hi, info, ?_, hc⟩
        have hlt : i - start < (preorderInfos start c0).length :=
          (List.getElem?_eq_some_iff.1 hinfo).1
        rw [List.getElem?_append_left hlt]
        exact hinfo
      · exact .inl ⟨rfl, .inr hc⟩
      · refine .inr ⟨by omega, info, ?_, hc⟩
        rw [List.getElem?_append_right (by omega), hX]
        have e : i - start - nodeCount c0 = i - (start + nodeCount c0) := by omega
        rw [e]
        exact hinfo
    · rintro (⟨rfl, rfl | hc⟩ | ⟨hi, info, hinfo, hc⟩)
      · exact .inl ⟨rfl, rfl⟩
      · exact .inr (.inr (.inl ⟨rfl, hc⟩))
      · by_cases hlt : i - start < (preorderInfos start c0).length
        · rw [List.getElem?_append_left hlt] at hinfo
          exact .inr (.inl ⟨hi, info, hinfo, hc⟩)
        · rw [List.getElem?_append_right (by omega), hX] at hinfo
          have e : i - start - nodeCount c0 = i - (start + nodeCount c0) := by omega
          rw [e] at hinfo
          exact .inr (.inr (.inr ⟨by omega, info, hinfo, hc⟩))
end

/-- The call `getSnapshot` on a well-shaped tree returns the reference snapshot
and the pairs of the tree. -/
theorem getSnapshot_eq (t : BTree) (hs : shaped t.root_ = true) :
    getSnapshot t = .ok { nodes := preorderInfos 0 t.root_, edges := links 0 t.root_ } := by
  have h := buildEdges_spec t.root_ 0 none [] [] [] hs rfl
  simp only [List.nil_append, List.append_nil, Option.toList, List.map_nil] at h
  rw [getSnapshot, assignIndices_eq_raw t.root_ 0 hs]
  exact h

end BT

namespace CBST

/-- A write that changes nothing but the subtree size of a node, followed by
further calls. -/
theorem All_update_links {β : Type} (t : Tree) (y : Nat) (f : Node → Node)
    (hf : ∀ m, (f m).links = m.links) (k : Tree → Res β) (P : β → Prop)
    (hk : ∀ h', h'.map Node.links = t.heap.map Node.links → (k (t.withHeap h')).All P) :
    (t.update y f >>= k).All P := by
  rw [update_eq]
  cases hy : t.heap[y]? with
  | none => trivial
  | some m => exact hk _ (map_set_eq_of hy (hf m))

/-- The call `updateSubtreeSize` changes nothing but subtree sizes. -/
theorem updateSubtreeSize_links (fuel : Nat) (t : Tree) (y : Nat) :
    (updateSubtreeSize fuel t y).All
      (fun t' => ∃ h', t' = t.withHeap h' ∧ h'.map Node.links = t.heap.map Node.links) := by
  induction fuel generalizing t y with
  | zero => trivial
  | succ fuel ih =>
    unfold updateSubtreeSize
    refine Res.All_bind (Res.All_trivial _) (fun n _ => ?_)
    have step : ∀ (par : Nat) (h' : List Node), h'.map Node.links = t.heap.map Node.links →
        (updateSubtreeSize fuel (t.withHeap h') par).All
          (fun t' => ∃ h', t' = t.withHeap h' ∧ h'.map Node.links = t.heap.map Node.links) := by
      intro par h' hl
      refine Res.All_mono (ih _ _) ?_
      rintro t' ⟨h2, rfl, hl2⟩
      exact ⟨h2, by rw [withHeap_withHeap], by rw [hl2, withHeap_heap, hl]⟩
    rcases n with ⟨key, value, left, right, parent, ac, ss, bi⟩
    cases left <;> cases right <;> cases parent <;> dsimp only <;>
    repeat (first
      | (refine All_update_links _ _ _ ?_ _ _ ?_
         · exact fun _ => rfl
         · intro h' hl
           first
             | exact step _ h' hl
             | exact ⟨h', rfl, hl⟩)
      | refine Res.All_bind (Res.All_trivial _) (fun _ _ => ?_))


theorem unlink_parent (x : Nat) (m : Node) : (m.unlink x).parent = m.parent := by
  unfold Node.unlink
  split
  · rfl
  · split <;> rfl

theorem unlink_content (x : Nat) (m : Node) : (m.unlink x).content = m.content := by
  unfold Node.unlink
  split
  · rfl
  · split <;> rfl

/-- What a call `deallocateNode` that returns leaves: the parent of the node, if
it has one, no longer points to it, the node is no longer the root, and nothing
else changes in the store. -/
theorem deallocateNode_ok {t t' : Tree} {old : Nat} (h : deallocateNode t old = .ok t') :
    ∃ n, t.heap[old]? = some n ∧
      t'.config = t.config ∧ t'.nextIndex_ = t.nextIndex_ ∧
      t'.circularBuffer_.length = t.circularBuffer_.length ∧
      t'.root_ = (if t.root_ = some old then none else t.root_) ∧
      ∀ j, t'.heap[j]? =
        (t.heap[j]?).map (fun m => if n.parent = some j then m.unlink old else m) := by
  cases hn : t.heap[old]? with
  | none =>
    rw [deallocateNode, node_eq, hn] at h
    exact Res.noConfusion h
  | some n =>
    refine ⟨n, rfl, ?_⟩
    rw [deallocateNode] at h
    simp only [node_ok hn, Res.ok_bind] at h
    rcases hp : n.parent with _ | q
    · rw [hp] at h
      simp only [Res.pure_eq, Res.ok_bind] at h
      by_cases hroot : t.root_ = some old <;>
        by_cases hb : n.bufferIndex < t.circularBuffer_.length <;>
        simp only [hroot, hb, if_true, if_false, Vec.set, Res.ok_bind, Res.pure_eq] at h <;>
        (have e := Res.ok.inj h; subst e; simp [Tree.config, hroot])
    · rw [hp] at h
      simp only [Res.pure_eq, Res.ok_bind] at h
      cases hq : t.heap[q]? with
      | none =>
        rw [node_eq, hq] at h
        exact Res.noConfusion h
      | some pn =>
        have hu : ∀ j, (t.heap[j]?).map (fun m => if some q = some j then m.unlink old else m) =
            (t.heap[j]?).map (fun m => if q = j then m.unlink old else m) := by
          intro j; simp
        simp only [node_ok hq, Res.ok_bind] at h
        by_cases h1 : pn.left = some old
        · simp only [h1, if_true, update_ok _ hq, Res.ok_bind] at h
          have hE : ∀ j, (t.heap.set q { pn with left := none })[j]? =
              (t.heap[j]?).map (fun m => if some q = some j then m.unlink old else m) := by
            intro j
            rw [hu, List.getElem?_set]
            by_cases e : q = j
            · subst e
              rw [if_pos rfl, if_pos (List.getElem?_eq_some_iff.1 hq).1, hq]
              simp [Node.unlink, h1]
            · rw [if_neg e]
              cases t.heap[j]? <;> simp [e]
          by_cases hroot : t.root_ = some old <;>
            by_cases hb : n.bufferIndex < t.circularBuffer_.length <;>
            simp only [hroot, hb, if_true, if_false, Vec.set, Res.ok_bind, Res.pure_eq,
              Tree.withHeap] at h <;>
            (have e := Res.ok.inj h; subst e
             exact ⟨by simp [Tree.config], by simp, by simp, by simp [hroot], hE⟩)
        · by_cases h2 : pn.right = some old
          · simp only [h1, h2, if_true, if_false, update_ok _ hq, Res.ok_bind] at h
            have hE : ∀ j, (t.heap.set q { pn with right := none })[j]? =
                (t.heap[j]?).map (fun m => if some q = some j then m.unlink old else m) := by
              intro j
              rw [hu, List.getElem?_set]
              by_cases e : q = j
              · subst e
                rw [if_pos rfl, if_pos (List.getElem?_eq_some_iff.1 hq).1, hq]
                simp [Node.unlink, h1, h2]
              · rw [if_neg e]
                cases t.heap[j]? <;> simp [e]
            by_cases hroot : t.root_ = some old <;>
              by_cases hb : n.bufferIndex < t.circularBuffer_.length <;>
              simp only [hroot, hb, if_true, if_false, Vec.set, Res.ok_bind, Res.pure_eq,
                Tree.withHeap] at h <;>
              (have e := Res.ok.inj h; subst e
               exact ⟨by simp [Tree.config], by simp, by simp, by simp [hroot], hE⟩)
          · simp only [h1, h2, if_false, Res.ok_bind, Res.pure_eq] at h
            have hE : ∀ j, t.heap[j]? =
                (t.heap[j]?).map (fun m => if some q = some j then m.unlink old else m) := by
              intro j
              rw [hu]
              by_cases e : q = j
              · subst e
                rw [hq]
                simp [Node.unlink, h1, h2]
              · cases t.heap[j]? <;> simp [e]
            by_cases hroot : t.root_ = some old <;>
              by_cases hb : n.bufferIndex < t.circularBuffer_.length <;>
              simp only [hroot, hb, if_true, if_false, Vec.set, Res.ok_bind, Res.pure_eq] at h <;>
              (have e := Res.ok.inj h; subst e
               exact ⟨by simp [Tree.config], by simp, by simp, by simp [hroot], hE⟩)


theorem allocate_tail {T t1 : Tree} {k v : Int} {new : Nat}
    (h : (do
      let b ← Vec.set T.circularBuffer_ T.nextIndex_ (some T.heap.length)
      if T.bufferSize_ = 0 then .fault
      else pure (T.heap.length,
        { T with heap := T.heap ++ [Node.new k v T.nextIndex_], circularBuffer_ := b,
                  nextIndex_ := (T.nextIndex_ + 1) % T.bufferSize_ })) = Res.ok (new, t1)) :
    new = T.heap.length ∧ t1.config = T.config ∧
      t1.heap = T.heap ++ [Node.new k v T.nextIndex_] ∧ t1.root_ = T.root_ := by
  obtain ⟨b, -, h⟩ := Res.ok_of_bind h
  by_cases h0 : T.bufferSize_ = 0
  · rw [if_pos h0] at h
    exact Res.noConfusion h
  · rw [if_neg h0] at h
    have e := Prod.mk.inj (Res.ok.inj h)
    obtain ⟨e1, e2⟩ := e
    subst e1 e2
    exact ⟨rfl, by simp [Tree.config], rfl, rfl⟩

/-- What a call `allocateNode` that returns leaves: the new node is appended to
the store, and before that either nothing has changed in the store and the
root, or one node has been given up by `deallocateNode`. -/
theorem allocateNode_ok {t t1 : Tree} {k v : Int} {new : Nat}
    (h : allocateNode t k v = .ok (new, t1)) :
    new = t.heap.length ∧ t1.config = t.config ∧
      ∃ hE rE, t1.heap = hE ++ [Node.new k v t.nextIndex_] ∧ t1.root_ = rE ∧
        ((hE = t.heap ∧ rE = t.root_) ∨
          ∃ old n, t.heap[old]? = some n ∧
            rE = (if t.root_ = some old then none else t.root_) ∧
            ∀ j, hE[j]? =
              (t.heap[j]?).map (fun m => if n.parent = some j then m.unlink old else m)) := by
  rw [allocateNode] at h
  by_cases hc : t.currentSize_ ≥ t.bufferSize_
  · rw [if_pos hc] at h
    obtain ⟨slot, -, h⟩ := Res.ok_of_bind h
    cases slot with
    | none =>
      simp only [Res.pure_eq, Res.ok_bind] at h
      obtain ⟨e1, e2, e3, e4⟩ := allocate_tail h
      exact ⟨e1, e2, _, _, e3, e4, .inl ⟨rfl, rfl⟩⟩
    | some old =>
      obtain ⟨tE, hE, h⟩ := Res.ok_of_bind h
      obtain ⟨e1, e2, e3, e4⟩ := allocate_tail (T := tE) h
      obtain ⟨n, hn, g1, g2, g3, g4, g5⟩ := deallocateNode_ok hE
      have hlen : tE.heap.length = t.heap.length := by
        apply Nat.le_antisymm
        · by_contra hlt
          have := g5 t.heap.length
          rw [List.getElem?_eq_none (le_refl _)] at this
          have h2 := (List.getElem?_eq_none_iff.1 this)
          omega
        · by_contra hlt
          have := g5 tE.heap.length
          rw [List.getElem?_eq_none (le_refl _)] at this
          cases hx : t.heap[tE.heap.length]? with
          | none => have := List.getElem?_eq_none_iff.1 hx; omega
          | some x => rw [hx] at this; exact Option.noConfusion this
      refine ⟨by rw [e1, hlen], by rw [e2, g1], tE.heap, tE.root_, by rw [e3, g2], e4,
        .inr ⟨old, n, hn, g4, g5⟩⟩
  · rw [if_neg hc] at h
    simp only [Res.pure_eq, Res.ok_bind] at h
    obtain ⟨e1, e2, e3, e4⟩ :=
      allocate_tail (T := { t with currentSize_ := t.currentSize_ + 1 }) h
    exact ⟨e1, e2, _, _, e3, e4, .inl ⟨rfl, rfl⟩⟩


theorem prune_node (x : Nat) (l r : Shape) (i : Nat) :
    Shape.prune x (.node l i r) =
      if i = x then .nil else .node (l.prune x) i (r.prune x) := rfl

theorem prune_root (x : Nat) (s : Shape) :
    (s.prune x).root = if s.root = some x then none else s.root := by
  cases s with
  | nil => rfl
  | node l i r =>
    rw [prune_node]
    by_cases e : i = x
    · rw [if_pos e]; simp [Shape.root, e]
    · rw [if_neg e]; simp [Shape.root, e]

theorem prune_ids_sublist (x : Nat) (s : Shape) : (s.prune x).ids.Sublist s.ids := by
  induction s with
  | nil => exact List.Sublist.refl _
  | node l i r ihl ihr =>
    rw [prune_node]
    by_cases e : i = x
    · rw [if_pos e]; exact List.nil_sublist _
    · rw [if_neg e]
      simp only [Shape.ids]
      exact ihl.append (ihr.cons₂ i)

/-- A store in which the pointers to `x` of the nodes of a tree have been reset
holds the tree without the nodes from `x` down. -/
theorem rep_prune {h h' : List Node} (x : Nat) (s : Shape) (par : Ptr)
    (hr : rep h par s = true)
    (hh : ∀ j ∈ s.ids, ∀ m, h[j]? = some m → ∃ m', h'[j]? = some m' ∧ m'.parent = m.parent ∧
      m'.left = (if m.left = some x then none else m.left) ∧
      m'.right = (if m.right = some x then none else m.right)) :
    rep h' par (s.prune x) = true := by
  induction s generalizing par with
  | nil => rfl
  | node l i r ihl ihr =>
    rw [prune_node]
    by_cases e : i = x
    · rw [if_pos e]; rfl
    · rw [if_neg e]
      obtain ⟨n, hn, hp, hl, hrr, hrl, hrright⟩ := (rep_node_iff ..).1 hr
      obtain ⟨m', hm', g1, g2, g3⟩ := hh i (by simp [Shape.ids]) n hn
      rw [rep_node_iff]
      refine ⟨m', hm', g1.trans hp, ?_, ?_, ?_, ?_⟩
      · rw [g2, hl, prune_root]
      · rw [g3, hrr, prune_root]
      · exact ihl _ hrl (fun j hj => hh j (by simp [Shape.ids, hj]))
      · exact ihr _ hrright (fun j hj => hh j (by simp [Shape.ids, hj]))

/-- The keys of the pruned tree are among the keys of the tree, in the same
order. -/
theorem keysOf_prune_sublist {h h' : List Node} (x : Nat) (s : Shape)
    (hc : ∀ j ∈ s.ids, entryAt h' j = entryAt h j) :
    (keysOf h' (s.prune x)).Sublist (keysOf h s) := by
  unfold keysOf
  rw [pairsOf_eq_entries, pairsOf_eq_entries]
  have e : (s.prune x).ids.filterMap (entryAt h') = (s.prune x).ids.filterMap (entryAt h) :=
    List.filterMap_congr (fun j hj => hc j ((prune_ids_sublist x s).subset hj))
  rw [e]
  exact ((prune_ids_sublist x s).filterMap _).map _


/-- A node that a node of a linked tree points to has that node as its
parent. -/
theorem child_parent {h : List Node} {s : Shape} {par : Ptr} (hr : rep h par s = true)
    {j c : Nat} {m : Node} (hj : j ∈ s.ids) (hm : h[j]? = some m)
    (hc : m.left = some c ∨ m.right = some c) : ∃ mc, h[c]? = some mc ∧ mc.parent = some j := by
  induction s generalizing par with
  | nil => simp [Shape.ids] at hj
  | node l i r ihl ihr =>
    obtain ⟨n, hn, hp, hl, hrr, hrl, hrright⟩ := (rep_node_iff ..).1 hr
    by_cases e : j = i
    · subst e
      have e2 : n = m := Option.some.inj (hn.symm.trans hm)
      subst e2
      rcases hc with hc | hc
      · exact rep_root hrl (hl.symm.trans hc)
      · exact rep_root hrright (hrr.symm.trans hc)
    · simp only [Shape.ids, List.mem_append, List.mem_cons] at hj
      rcases hj with hj | hj | hj
      · exact ihl hrl hj
      · exact absurd hj e
      · exact ihr hrright hj

/-- The two child pointers of a node of a linked tree without repeated nodes
do not point to the same node. -/
theorem children_apart {h : List Node} {s : Shape} {par : Ptr} (hr : rep h par s = true)
    (hd : s.ids.Nodup) {j c : Nat} {m : Node} (hj : j ∈ s.ids) (hm : h[j]? = some m)
    (hl : m.left = some c) : m.right ≠ some c := by
  induction s generalizing par with
  | nil => simp [Shape.ids] at hj
  | node l i r ihl ihr =>
    obtain ⟨n, hn, hp, hnl, hnr, hrl, hrright⟩ := (rep_node_iff ..).1 hr
    simp only [Shape.ids] at hd
    have hd' := List.nodup_append.1 hd
    by_cases e : j = i
    · subst e
      have e2 : n = m := Option.some.inj (hn.symm.trans hm)
      subst e2
      intro hrc
      have h1 : c ∈ l.ids := root_mem_ids (hnl.symm.trans hl)
      have h2 : c ∈ r.ids := root_mem_ids (hnr.symm.trans hrc)
      exact hd'.2.2 h1 (List.mem_cons_of_mem _ h2)
    · simp only [Shape.ids, List.mem_append, List.mem_cons] at hj
      rcases hj with hj | hj | hj
      · exact ihl hrl hd'.1 hj
      · exact absurd hj e
      · exact ihr hrright (List.nodup_cons.1 hd'.2.1).2 hj

theorem length_eq_of_getElem?_map {h hE : List Node} {g : Nat → Node → Node}
    (hp : ∀ j, hE[j]? = (h[j]?).map (g j)) : hE.length = h.length := by
  apply Nat.le_antisymm
  · by_contra hlt
    have := hp h.length
    rw [List.getElem?_eq_none (le_refl _)] at this
    have h2 := List.getElem?_eq_none_iff.1 this
    omega
  · by_contra hlt
    have := hp hE.length
    rw [List.getElem?_eq_none (le_refl _)] at this
    cases hx : h[hE.length]? with
    | none => have := List.getElem?_eq_none_iff.1 hx; omega
    | some x => rw [hx] at this; exact Option.noConfusion this

/-- The store with a new leaf linked below the node of a frame holds the tree
with the new leaf in the hole. -/
theorem rep_attach (h : List Node) (f : Frame) (ctx : List Frame) (N ny : Node)
    (hr : rep h none (plug (f :: ctx) .nil) = true)
    (hd : (plug (f :: ctx) .nil).ids.Nodup) (hny : h[f.id]? = some ny)
    (hNl : N.left = none) (hNr : N.right = none) :
    rep (((h ++ [N]).set h.length { N with parent := some f.id }).set f.id
      (f.attach (some h.length) ny)) none (plug (f :: ctx) (.node .nil h.length .nil)) = true := by
  obtain ⟨hctx, -⟩ := (rep_plug ..).1 hr
  obtain ⟨hsc, hcd, -⟩ := notMem_ctx_of_nodup hd
  have hlt : ∀ j ∈ ctxIds (f :: ctx), j < h.length := fun j hj =>
    rep_lt hr j ((plug_ids_perm _ _).mem_iff.2 (List.mem_append_right _ hj))
  have hlook := attach_lookup h N f ny (some f.id) hny
  generalize hh3 : ((h ++ [N]).set h.length { N with parent := some f.id }).set f.id
      (f.attach (some h.length) ny) = h3 at hlook
  have hsame : ∀ j ∈ ctxIds (f :: ctx), j ≠ f.id → h3[j]? = h[j]? := fun j hj hne => by
    rw [hlook, if_neg hne, if_neg (by have := hlt j hj; omega)]
  have hylt : f.id < h.length := (List.getElem?_eq_some_iff.1 hny).1
  rw [rep_plug]
  constructor
  · have hfy : h3[f.id]? = some (f.attach (some h.length) ny) := by
      rw [hlook, if_pos rfl]
    cases f with
    | left i c =>
      obtain ⟨⟨n, g1, g2, g3, g4⟩, g5, g6⟩ := hctx
      simp only [ctxIds, Frame.ids, List.cons_append, List.nodup_cons, List.mem_append,
        not_or, List.nodup_append] at hcd
      have hn : n = ny := by
        have := g1.symm.trans hny; simpa using this
      subst hn
      refine ⟨⟨_, hfy, g2, rfl, g4⟩, ?_, ?_⟩
      · rw [rep_congr c _ (fun j hj => hsame j (by simp [ctxIds, Frame.ids, hj])
          (fun e => hcd.1.1 (by have e' : j = i := e; exact e' ▸ hj)))]
        exact g5
      · exact repCtx_congr ctx _ (fun j hj => hsame j (by simp [ctxIds, hj])
          (fun e => hcd.1.2 (by have e' : j = i := e; exact e' ▸ hj))) g6
    | right i c =>
      obtain ⟨⟨n, g1, g2, g3, g4⟩, g5, g6⟩ := hctx
      simp only [ctxIds, Frame.ids, List.cons_append, List.nodup_cons, List.mem_append,
        not_or, List.nodup_append] at hcd
      have hn : n = ny := by
        have := g1.symm.trans hny; simpa using this
      subst hn
      refine ⟨⟨_, hfy, g2, g3, rfl⟩, ?_, ?_⟩
      · rw [rep_congr c _ (fun j hj => hsame j (by simp [ctxIds, Frame.ids, hj])
          (fun e => hcd.1.1 (by have e' : j = i := e; exact e' ▸ hj)))]
        exact g5
      · exact repCtx_congr ctx _ (fun j hj => hsame j (by simp [ctxIds, hj])
          (fun e => hcd.1.2 (by have e' : j = i := e; exact e' ▸ hj))) g6
  · rw [rep_node_iff]
    refine ⟨{ N with parent := some f.id }, ?_, rfl, hNl, hNr, rfl, rfl⟩
    rw [hlook, if_neg (by omega), if_pos rfl]


theorem unlink_left (x : Nat) (m : Node) :
    (m.unlink x).left = if m.left = some x then none else m.left := by
  unfold Node.unlink
  by_cases h1 : m.left = some x
  · rw [if_pos h1, if_pos h1]
  · rw [if_neg h1, if_neg h1]
    split <;> rfl

theorem unlink_right (x : Nat) (m : Node) (h1 : m.left ≠ some x) :
    (m.unlink x).right = if m.right = some x then none else m.right := by
  unfold Node.unlink
  rw [if_neg h1]
  by_cases h2 : m.right = some x
  · rw [if_pos h2, if_pos h2]
  · rw [if_neg h2, if_neg h2]

theorem unlink_right_of_left (x : Nat) (m : Node) (h1 : m.left = some x) :
    (m.unlink x).right = m.right := by
  unfold Node.unlink
  rw [if_pos h1]


/-- The ids of a tree with a new leaf in the hole are pairwise distinct. -/
theorem nodup_attach {h : List Node} {ctx : List Frame}
    (hr : rep h none (plug ctx .nil) = true) (hd : (plug ctx .nil).ids.Nodup) :
    (plug ctx (.node .nil h.length .nil)).ids.Nodup := by
  have hlt : ∀ j ∈ ctxIds ctx, j < h.length := fun j hj =>
    rep_lt hr j ((plug_ids_perm _ _).mem_iff.2 (List.mem_append_right _ hj))
  have h1 : (ctxIds ctx).Nodup := by
    have := (plug_ids_perm ctx .nil).nodup_iff.1 hd
    simpa [Shape.ids] using this
  refine (plug_ids_perm ctx _).nodup_iff.2 ?_
  simp only [Shape.ids, List.nil_append, List.cons_append, List.nodup_cons]
  exact ⟨fun hm => by have := hlt _ hm; omega, h1⟩

/-- The leaf block of `insertNode` after an eviction: the store holds the tree
with the new leaf, without the evicted node and the nodes below it. -/
theorem rep_attach_evicted (h hE : List Node) (f : Frame) (ctx : List Frame) (N ny : Node)
    (old : Nat) (n : Node)
    (hr : rep h none (plug (f :: ctx) .nil) = true)
    (hd : (plug (f :: ctx) .nil).ids.Nodup)
    (hny : h[f.id]? = some ny) (hNl : N.left = none) (hNr : N.right = none)
    (hn : h[old]? = some n)
    (hEp : ∀ j, hE[j]? =
      (h[j]?).map (fun m => if n.parent = some j then m.unlink old else m)) :
    ∃ nyE, hE[f.id]? = some nyE ∧ nyE.content = ny.content ∧
      rep (((hE ++ [N]).set hE.length { N with parent := some f.id }).set f.id
        (f.attach (some hE.length) nyE)) none
        ((plug (f :: ctx) (.node .nil h.length .nil)).prune old) = true := by
  have hlen : hE.length = h.length := length_eq_of_getElem?_map hEp
  have hnyE : hE[f.id]? = some (if n.parent = some f.id then ny.unlink old else ny) := by
    rw [hEp, hny]; rfl
  refine ⟨_, hnyE, by split <;> simp [unlink_content], ?_⟩
  have hrep3 := rep_attach h f ctx N ny hr hd hny hNl hNr
  have hdL := nodup_attach hr hd
  have holdlt : old < h.length := (List.getElem?_eq_some_iff.1 hn).1
  have hylt : f.id < h.length := (List.getElem?_eq_some_iff.1 hny).1
  obtain ⟨hctx, -⟩ := (rep_plug ..).1 hr
  obtain ⟨nq, hnq, hside⟩ := rep_frame_node hctx
  have enq : nq = ny := Option.some.inj (hnq.symm.trans hny)
  subst enq
  have hlook := attach_lookup h N f nq (some f.id) hny
  have hlookE := attach_lookup hE N f _ (some f.id) hnyE
  rw [hlen] at hlookE ⊢
  refine rep_prune old _ none hrep3 (fun j hj m hm => ?_)
  -- a node of the tree that points to the evicted node is its parent
  have hpp : (m.left = some old ∨ m.right = some old) → n.parent = some j := by
    intro hc
    obtain ⟨mc, hmc, hmp⟩ := child_parent hrep3 hj hm hc
    rw [hlook] at hmc
    by_cases e1 : old = f.id
    · rw [if_pos e1] at hmc
      have e2 : n = nq := Option.some.inj (hn.symm.trans (e1 ▸ hny))
      have e3 := Option.some.inj hmc
      rw [← e3] at hmp
      rw [e2]
      cases f <;> exact hmp
    · rw [if_neg e1, if_neg (by omega), hn] at hmc
      rw [← Option.some.inj hmc] at hmp
      exact hmp
  rw [hlook] at hm
  rw [hlookE]
  by_cases e1 : j = f.id
  · rw [if_pos e1] at hm ⊢
    have em := Option.some.inj hm
    subst em
    refine ⟨_, rfl, ?_⟩
    have hhole : (∃ i c, f = .left i c ∧ nq.left = none) ∨
        (∃ i c, f = .right i c ∧ nq.right = none) := by
      rcases hside with ⟨d, hf, hl, -⟩ | ⟨d, hf, -, hrr⟩
      · exact .inl ⟨_, _, hf, hl⟩
      · exact .inr ⟨_, _, hf, hrr⟩
    clear hside hlook hlookE hrep3 hdL hctx hr hd hj
    rcases hhole with ⟨i, c, rfl, hl⟩ | ⟨i, c, rfl, hrr⟩
    · -- the hole is on the left
      simp only [Frame.attach, Frame.id] at hpp e1 ⊢
      subst e1
      by_cases e2 : n.parent = some j
      · rw [if_pos e2]
        refine ⟨unlink_parent _ _, ?_, ?_⟩
        · rw [if_neg (by simp; omega)]
        · exact unlink_right _ _ (by rw [hl]; simp)
      · rw [if_neg e2]
        refine ⟨rfl, ?_, ?_⟩
        · rw [if_neg (by simp; omega)]
        · have : nq.right ≠ some old := fun hc => e2 (hpp (.inr hc))
          rw [if_neg this]
    · -- the hole is on the right
      simp only [Frame.attach, Frame.id] at hpp e1 ⊢
      subst e1
      by_cases e2 : n.parent = some j
      · rw [if_pos e2]
        refine ⟨unlink_parent _ _, ?_, ?_⟩
        · exact unlink_left _ _
        · rw [if_neg (by simp; omega)]
      · rw [if_neg e2]
        refine ⟨rfl, ?_, ?_⟩
        · have : nq.left ≠ some old := fun hc => e2 (hpp (.inl hc))
          rw [if_neg this]
        · rw [if_neg (by simp; omega)]
  · rw [if_neg e1] at hm ⊢
    by_cases e2 : j = h.length
    · rw [if_pos e2] at hm ⊢
      have em := Option.some.inj hm
      subst em
      exact ⟨_, rfl, rfl, by simp [hNl], by simp [hNr]⟩
    · rw [if_neg e2] at hm ⊢
      rw [hEp, hm]
      refine ⟨_, rfl, ?_⟩
      dsimp only
      by_cases e3 : n.parent = some j
      · rw [if_pos e3]
        refine ⟨unlink_parent _ _, unlink_left _ _, ?_⟩
        by_cases e4 : m.left = some old
        · have hm3 : (((h ++ [N]).set h.length { N with parent := some f.id }).set f.id
              (f.attach (some h.length) nq))[j]? = some m := by
            rw [hlook, if_neg e1, if_neg e2]; exact hm
          have := children_apart hrep3 hdL hj hm3 e4
          rw [unlink_right_of_left _ _ e4, if_neg this]
        · exact unlink_right _ _ e4
      · rw [if_neg e3]
        have h1 : m.left ≠ some old := fun hc => e3 (hpp (.inl hc))
        have h2 : m.right ≠ some old := fun hc => e3 (hpp (.inr hc))
        exact ⟨rfl, by rw [if_neg h1], by rw [if_neg h2]⟩


/-- The (key, value) pairs of the store after a new leaf has been linked: the
pair of the new node at the new id, the old pairs elsewhere. -/
theorem entryAt_attach {h hE : List Node} (f : Frame) (N nyE : Node) (k v : Int)
    (hc : ∀ j : Nat, (hE[j]?).map Node.content = (h[j]?).map Node.content)
    (hlen : hE.length = h.length) (hy : hE[f.id]? = some nyE)
    (hk : N.key = k) (hv : N.value = v) (j : Nat) :
    entryAt (((hE ++ [N]).set hE.length { N with parent := some f.id }).set f.id
        (f.attach (some hE.length) nyE)) j =
      if j = h.length then some (k, v) else entryAt h j := by
  have hylt := lt_of_getElem? hy
  have hlook := attach_lookup hE N f nyE (some f.id) hy j
  unfold entryAt
  rw [hlook]
  by_cases e1 : j = f.id
  · rw [if_pos e1, if_neg (by omega)]
    have := hc f.id
    rw [hy] at this
    rw [e1]
    cases hx : h[f.id]? with
    | none => rw [hx] at this; exact Option.noConfusion this
    | some x =>
      rw [hx] at this
      have e2 : nyE.content = x.content := Option.some.inj this
      have e3 : (f.attach (some hE.length) nyE).content = x.content := by
        rw [content_attach]; exact e2
      simp only [Option.map_some', Option.some.injEq, Prod.mk.injEq]
      exact ⟨by simpa [Node.content] using congrArg Node.key e3,
        by simpa [Node.content] using congrArg Node.value e3⟩
  · rw [if_neg e1]
    by_cases e2 : j = h.length
    · rw [if_pos (by omega), if_pos e2]
      simp [hk, hv]
    · rw [if_neg (by omega), if_neg e2]
      exact entryAt_of_content (hc j)

/-- The leaf block of `insertNode`, with or without an eviction: a call that
returns leaves a linked tree whose nodes are nodes of the tree with the new
leaf, in the same order, with the same keys and values. -/
theorem attach_block_ok (t tF : Tree) (f : Frame) (ctx : List Frame) (k v : Int)
    (hr : rep t.heap none (plug (f :: ctx) .nil) = true)
    (hd : (plug (f :: ctx) .nil).ids.Nodup)
    (hroot : t.root_ = (plug (f :: ctx) .nil).root)
    (hb : (do
        let (newNode, t1) ← allocateNode t k v
        let t2 ← t1.update newNode (fun x => { x with parent := some f.id })
        let t3 ← t2.update f.id (f.attach (some newNode))
        updateSubtreeSize t3.fuel t3 f.id) = .ok tF) :
    tF.config = t.config ∧
      ∃ sF, Valid tF sF ∧
        sF.ids.Sublist (plug (f :: ctx) (.node .nil t.heap.length .nil)).ids ∧
        ∀ j, entryAt tF.heap j = if j = t.heap.length then some (k, v) else entryAt t.heap j := by
  obtain ⟨⟨new, t1⟩, ha, hb⟩ := Res.ok_of_bind hb
  dsimp only at hb
  obtain ⟨e1, e2, hE, rE, e3, e4, hcase⟩ := allocateNode_ok ha
  subst e1
  obtain ⟨hctx, -⟩ := (rep_plug ..).1 hr
  obtain ⟨ny, hny, -⟩ := rep_frame_node hctx
  have hylt := lt_of_getElem? hny
  -- the store before the new node is appended
  have hEfacts : hE.length = t.heap.length ∧
      (∀ j : Nat, (hE[j]?).map Node.content = (t.heap[j]?).map Node.content) ∧
      ∃ nyE, hE[f.id]? = some nyE := by
    rcases hcase with ⟨rfl, -⟩ | ⟨old, n, hn, -, hEp⟩
    · exact ⟨rfl, fun _ => rfl, ny, hny⟩
    · refine ⟨length_eq_of_getElem?_map hEp, fun j => ?_, ?_⟩
      · rw [hEp]
        cases t.heap[j]? with
        | none => rfl
        | some m =>
          simp only [Option.map_some']
          split
          · rw [unlink_content]
          · rfl
      · rw [hEp, hny]; exact ⟨_, rfl⟩
  obtain ⟨hlen, hcont, nyE, hnyE⟩ := hEfacts
  have hN : t1.heap[t.heap.length]? = some (Node.new k v t.nextIndex_) := by
    rw [e3, ← hlen]; simp
  have hy1 : t1.heap[f.id]? = some nyE := by
    rw [e3, List.getElem?_append_left (by omega)]; exact hnyE
  rw [attach_steps t1 t.heap.length f.id _ nyE _ _ hN hy1 (by omega)] at hb
  obtain ⟨h', rfl, hl'⟩ := Res.All_of_ok (updateSubtreeSize_links _ _ _) hb
  simp only [withHeap_withHeap, withHeap_heap] at hl' ⊢
  rw [e3, ← hlen] at hl'
  have hentry : ∀ j, entryAt h' j =
      if j = t.heap.length then some (k, v) else entryAt t.heap j := by
    intro j
    rw [entryAt_of_content (content_getElem? (content_of_links hl') j)]
    exact entryAt_attach f _ nyE k v hcont hlen hnyE rfl rfl j
  have hrootL : (plug (f :: ctx) (.node .nil t.heap.length .nil)).root = t.root_ := by
    rw [hroot]
    exact plug_root_congr ctx (by rw [fill_root, fill_root])
  refine ⟨e2, ?_⟩
  rcases hcase with ⟨rfl, rfl⟩ | ⟨old, n, hn, hrE, hEp⟩
  · -- no node has been evicted
    have e5 : nyE = ny := Option.some.inj (hnyE.symm.trans hny)
    subst e5
    refine ⟨_, ⟨?_, ?_, nodup_attach hr hd⟩, List.Sublist.refl _, hentry⟩
    · show t1.root_ = _
      rw [e4, hrootL]
    · show rep h' none _ = true
      rw [rep_links hl']
      exact rep_attach t.heap f ctx _ _ hr hd hny rfl rfl
  · -- a node has been evicted
    obtain ⟨nyE', hnyE', -, hrep⟩ :=
      rep_attach_evicted t.heap hE f ctx (Node.new k v t.nextIndex_) ny old n hr hd hny rfl rfl
        hn hEp
    have e5 : nyE' = nyE := Option.some.inj (hnyE'.symm.trans hnyE)
    subst e5
    refine ⟨_, ⟨?_, ?_, (nodup_attach hr hd).sublist (prune_ids_sublist old _)⟩,
      prune_ids_sublist old _, hentry⟩
    · show t1.root_ = _
      rw [e4, hrE, prune_root, hrootL]
    · show rep h' none _ = true
      rw [rep_links hl']
      exact hrep


/-- The walk of `insertNode` for a key that the subtree below `y` does not
hold: it ends at a hole of the tree, between the keys less than the new key and
the keys greater than it, and goes on with the leaf block there. -/
theorem insertNode_descend (fuel : Nat) (t : Tree) (ctx : List Frame) (a b : Shape) (y : Nat)
    (k v : Int) (hw : StrictWeak t.less)
    (hr : rep t.heap none (plug ctx (.node a y b)) = true)
    (hf : (Shape.node a y b).ids.length ≤ fuel)
    (L R : List Nat) (hLR : ∀ s, (plug ctx s).ids = L ++ s.ids ++ R)
    (hpw : (((L ++ (Shape.node a y b).ids ++ R).filterMap (entryAt t.heap)).map
      Prod.fst).Pairwise (fun x z => t.less x z = true))
    (hL : ∀ kv ∈ L.filterMap (entryAt t.heap), t.less kv.1 k = true)
    (hR : ∀ kv ∈ R.filterMap (entryAt t.heap), t.less k kv.1 = true)
    (habs : ∀ kv ∈ (Shape.node a y b).ids.filterMap (entryAt t.heap),
      equiv t.less kv.1 k = false) :
    ∃ f ctx1 L1 R1, plug ctx (.node a y b) = plug (f :: ctx1) .nil ∧
      (∀ s, (plug (f :: ctx1) s).ids = L1 ++ s.ids ++ R1) ∧
      (∀ kv ∈ L1.filterMap (entryAt t.heap), t.less kv.1 k = true) ∧
      (∀ kv ∈ R1.filterMap (entryAt t.heap), t.less k kv.1 = true) ∧
      insertNode fuel t y k v = (do
        let (newNode, t1) ← allocateNode t k v
        let t2 ← t1.update newNode (fun x => { x with parent := some f.id })
        let t3 ← t2.update f.id (f.attach (some newNode))
        updateSubtreeSize t3.fuel t3 f.id) := by
  induction fuel generalizing ctx a b y L R with
  | zero => simp [Shape.ids] at hf
  | succ fuel ih =>
    obtain ⟨hctx, hsub⟩ := (rep_plug ..).1 hr
    obtain ⟨ny, hny, hyp, hyl, hyr, ha, hb⟩ := (rep_node_iff ..).1 hsub
    have hey := entryAt_of_getElem? hny
    simp only [Shape.ids, List.length_append, List.length_cons] at hf
    rw [insertNode]
    simp only [node_ok hny, Res.ok_bind]
    by_cases hlt : compareLess t k ny.key t.defaultSortMode_ = true
    · -- the key goes to the left of `y`
      have hRy : ∀ kv ∈ (y :: b.ids ++ R).filterMap (entryAt t.heap), t.less k kv.1 = true := by
        intro kv hkv
        rw [List.cons_append, List.filterMap_cons, hey, List.filterMap_append] at hkv
        rcases List.mem_cons.1 hkv with e | hkv
        · rw [e]; exact hlt
        · rcases List.mem_append.1 hkv with hkv | hkv
          · refine hw.trans _ _ _ hlt (keys_after hny hpw ?_ kv hkv)
            simp only [Shape.ids]
            exact List.sublist_append_of_sublist_left (List.sublist_append_of_sublist_right
              (List.sublist_append_right _ _))
          · exact hR kv hkv
      rw [if_pos hlt, hyl]
      cases a with
      | nil =>
        refine ⟨.left y b, ctx, L, y :: b.ids ++ R, rfl, ?_, hL, hRy, rfl⟩
        intro s
        simp [plug, Frame.fill, hLR, Shape.ids]
      | node al ai ar =>
        simp only [Shape.root]
        refine ih (.left y b :: ctx) al ar ai hr (by simp [Shape.ids] at hf ⊢; omega) L
          (y :: b.ids ++ R) (fun s => by simp [plug, Frame.fill, hLR, Shape.ids]) ?_ hL hRy
          (fun kv hkv => habs kv ?_)
        · simpa [Shape.ids, List.append_assoc] using hpw
        · simp only [Shape.ids, List.filterMap_append, List.mem_append] at hkv ⊢
          exact .inl hkv
    · -- the key goes to the right of `y`
      have hyk : t.less ny.key k = true :=
        less_of_not_equiv (habs (ny.key, ny.value)
          (List.mem_filterMap.2 ⟨y, by simp [Shape.ids], hey⟩)) hlt
      have hLy : ∀ kv ∈ (L ++ a.ids ++ [y]).filterMap (entryAt t.heap),
          t.less kv.1 k = true := by
        intro kv hkv
        rw [List.filterMap_append, List.filterMap_append, List.filterMap_cons, hey] at hkv
        rcases List.mem_append.1 hkv with hkv | hkv
        · rcases List.mem_append.1 hkv with hkv | hkv
          · exact hL kv hkv
          · refine hw.trans _ _ _ (keys_before hny hpw ?_ kv hkv) hyk
            simp only [Shape.ids]
            refine List.sublist_append_of_sublist_left (List.sublist_append_of_sublist_right
              ?_)
            exact (List.Sublist.refl _).append (List.Sublist.cons₂ _ (List.nil_sublist _))
        · have : kv = (ny.key, ny.value) := by simpa using hkv
          rw [this]; exact hyk
      rw [if_neg hlt, hyr]
      cases b with
      | nil =>
        refine ⟨.right y a, ctx, L ++ a.ids ++ [y], R, rfl, ?_, hLy, hR, rfl⟩
        intro s
        simp [plug, Frame.fill, hLR, Shape.ids]
      | node bl bi br =>
        simp only [Shape.root]
        refine ih (.right y a :: ctx) bl br bi hr (by simp [Shape.ids] at hf ⊢; omega)
          (L ++ a.ids ++ [y]) R (fun s => by simp [plug, Frame.fill, hLR, Shape.ids]) ?_ hLy hR
          (fun kv hkv => habs kv ?_)
        · simpa [Shape.ids, List.append_assoc] using hpw
        · obtain ⟨j, hj, e⟩ := List.mem_filterMap.1 hkv
          exact List.mem_filterMap.2 ⟨j, by simp [Shape.ids] at hj ⊢; tauto, e⟩


/-- The call `splay` of a node of a valid search tree: it returns a valid search
tree with the same configuration. -/
theorem splay_ordered {t : Tree} {s : Shape} (hw : StrictWeak t.less) (hv : Valid t s)
    (ho : ordered t.less t.heap s = true) {p : Nat} (hp : p ∈ s.ids) :
    ∃ t' s', splay t (some p) = .ok t' ∧ Valid t' s' ∧ ordered t'.less t'.heap s' = true ∧
      t'.config = t.config ∧ ∃ n2, t'.heap[p]? = some n2 := by
  obtain ⟨h2, a', b', g2, hv2, i2, c2⟩ := splay_spec hv hp
  have hpw := pairwise_of_ordered hw.trans hv.linked ho
  have hkeys : keysOf h2 (.node a' p b') = keysOf t.heap s := by
    unfold keysOf
    rw [pairsOf_congr i2 c2]
  rw [← hkeys] at hpw
  obtain ⟨n2, hn2, -⟩ := rep_root hv2.linked (c := p) rfl
  exact ⟨_, _, g2, hv2, ordered_of_pairwise hv2.linked hpw, rfl, n2, hn2⟩

/-- A node of a valid search tree is rewritten without a change of its key or
its links and then splayed. -/
theorem touch_ordered {t : Tree} {s : Shape} (hw : StrictWeak t.less) (hv : Valid t s)
    (ho : ordered t.less t.heap s = true) {p : Nat} {n : Node}
    (hp : p ∈ s.ids) (hn : t.heap[p]? = some n) (n' : Node) (e1 : n'.left = n.left)
    (e2 : n'.right = n.right) (e3 : n'.parent = n.parent) (ek : n'.key = n.key) :
    ∃ t' s', splay (t.withHeap (t.heap.set p n')) (some p) = .ok t' ∧ Valid t' s' ∧
      ordered t'.less t'.heap s' = true ∧ t'.config = t.config ∧
      ∃ n2, t'.heap[p]? = some n2 := by
  have hv1 := valid_set_same_ptrs hv hn n' e1 e2 e3
  have ho1 : ordered (t.withHeap (t.heap.set p n')).less (t.withHeap (t.heap.set p n')).heap s
      = true := by
    have hpw := pairwise_of_ordered hw.trans hv.linked ho
    rw [← keysOf_set_key hn n' ek] at hpw
    exact ordered_of_pairwise hv1.linked hpw
  exact splay_ordered (t := t.withHeap (t.heap.set p n')) hw hv1 ho1 hp

/-- The call `search` in a valid search tree: it returns a valid search tree. -/
theorem search_ordered {t : Tree} {s : Shape} (hw : StrictWeak t.less) (hv : Valid t s)
    (ho : ordered t.less t.heap s = true) (k : Int) :
    ∃ r t' s', search t k = .ok (r, t') ∧ Valid t' s' ∧ ordered t'.less t'.heap s' = true ∧
      t'.config = t.config := by
  rcases findNode_spec hw hv ho k with ⟨hf, -⟩ | ⟨p, n, hf, hp, hn, he⟩
  · exact ⟨none, t, s, search_missing hf, hv, ho, rfl⟩
  · obtain ⟨t', s', g2, hv2, ho2, hc2, n2, hn2⟩ :=
      touch_ordered hw hv ho hp hn { n with accessCount := n.accessCount + 1 } rfl rfl rfl rfl
    refine ⟨some n2.value, t', s', ?_, hv2, ho2, hc2⟩
    rw [search]
    simp only [hf, Res.ok_bind, node_ok hn, compareEqual_eq, he, if_true, update_ok _ hn, g2,
      node_ok hn2, Res.pure_eq]

/-- The call `insert` with a key that a valid search tree holds: it returns a
valid search tree. -/
theorem insert_present_ordered {t : Tree} {s : Shape} (hw : StrictWeak t.less)
    (hv : Valid t s) (ho : ordered t.less t.heap s = true) (k v : Int)
    (hk : ∃ kv ∈ pairsOf t.heap s, equiv t.less kv.1 k = true) :
    ∃ t' s', insert t k v = .ok (false, t') ∧ Valid t' s' ∧
      ordered t'.less t'.heap s' = true ∧ t'.config = t.config := by
  rcases findNode_spec hw hv ho k with ⟨-, hnone⟩ | ⟨p, n, hf, hp, hn, he⟩
  · obtain ⟨kv, hkv, he⟩ := hk
    rw [hnone kv hkv] at he; exact Bool.noConfusion he
  · obtain ⟨root, hroot⟩ : ∃ root, t.root_ = some root := by
      rw [hv.root]
      cases s with
      | nil => simp [Shape.ids] at hp
      | node l i r => exact ⟨i, rfl⟩
    obtain ⟨t', s', g2, hv2, ho2, hc2, -⟩ :=
      touch_ordered hw hv ho hp hn { n with value := v } rfl rfl rfl rfl
    refine ⟨t', s', ?_, hv2, ho2, hc2⟩
    rw [insert, hroot]
    simp only [hf, Res.ok_bind, node_ok hn, Res.pure_eq, compareEqual_eq, he, if_true, deref,
      update_ok _ hn, g2]

/-- The call `remove` in a valid search tree: it returns a valid search
tree. -/
theorem remove_ordered {t : Tree} {s : Shape} (hw : StrictWeak t.less) (hv : Valid t s)
    (ho : ordered t.less t.heap s = true) (k : Int) :
    ∃ r t' s', remove t k = .ok (r, t') ∧ Valid t' s' ∧ ordered t'.less t'.heap s' = true ∧
      t'.config = t.config := by
  rcases findNode_spec hw hv ho k with ⟨hf, hnone⟩ | ⟨p, n, hf, hp, hn, he⟩
  · refine ⟨false, t, s, ?_, hv, ho, rfl⟩
    rw [remove]
    simp only [hf, Res.ok_bind, Res.pure_eq]
  · obtain ⟨h1, a, b, e1, hv1, hids, hcont⟩ := splay_spec hv hp
    obtain ⟨t', s', e2, hv2, hpairs, -, -, hlay⟩ := removeNode_spec _ a b p hv1
    obtain ⟨n1, hn1, -⟩ := rep_root hv1.linked (c := p) rfl
    have hn1' : h1[p]? = some n1 := by simpa using hn1
    have hP : pairsOf t.heap s =
        pairsOf h1 a ++ (n1.key, n1.value) :: pairsOf h1 b := by
      rw [← pairsOf_congr hids hcont, pairsOf_node hn1']
    have hpw := pairwise_pairs hw hv ho
    rw [hP] at hpw
    have hpairs' : pairsOf t'.heap s' = pairsOf h1 a ++ pairsOf h1 b := by
      simpa using hpairs
    have hlay' : t'.layout = t.layout := by
      rw [hlay]
      simp only [Tree.layout, Tree.config, Tree.withRoot, Tree.withHeap, length_of_content hcont]
    have hless' : t'.less = t.less := less_of_layout hlay'
    have hpw' : ((pairsOf t'.heap s').map Prod.fst).Pairwise (fun a b => t.less a b = true) := by
      rw [hpairs']
      refine hpw.sublist ?_
      exact ((List.Sublist.refl _).append ((List.Sublist.refl _).cons _)).map _
    refine ⟨true, t', s', ?_, hv2, ?_, config_of_layout hlay'⟩
    · rw [remove]
      simp only [hf, Res.ok_bind, node_ok hn, compareEqual_eq, he, if_true, e1]
      rw [e2]; rfl
    · rw [hless']
      exact ordered_of_pairwise hv2.linked hpw'


/-- The call `insert` with a key that a valid search tree does not hold, with
or without an eviction: a call that returns leaves a valid search tree. -/
theorem insert_new_ordered {t t' : Tree} {s : Shape} {b : Bool} (hw : StrictWeak t.less)
    (hv : Valid t s) (ho : ordered t.less t.heap s = true) (k v : Int)
    (hk : ∀ kv ∈ pairsOf t.heap s, equiv t.less kv.1 k = false)
    (hi : insert t k v = .ok (b, t')) :
    ∃ s', Valid t' s' ∧ ordered t'.less t'.heap s' = true ∧ t'.config = t.config := by
  cases s with
  | nil =>
    -- the first node
    have hroot : t.root_ = none := hv.root
    rw [insert, hroot] at hi
    obtain ⟨⟨node, t1⟩, ha, hi⟩ := Res.ok_of_bind hi
    have e := (Prod.mk.inj (Res.ok.inj hi)).2
    subst e
    obtain ⟨e1, e2, hE, rE, e3, -, hcase⟩ := allocateNode_ok ha
    subst e1
    have hlen : hE.length = t.heap.length := by
      rcases hcase with ⟨rfl, -⟩ | ⟨old, n, -, -, hEp⟩
      · rfl
      · exact length_eq_of_getElem?_map hEp
    have hN : t1.heap[t.heap.length]? = some (Node.new k v t.nextIndex_) := by
      rw [e3, ← hlen]; simp
    refine ⟨.node .nil t.heap.length .nil, ⟨rfl, ?_, by simp [Shape.ids]⟩, ?_, e2⟩
    · show rep t1.heap none _ = true
      rw [rep_node_iff]
      exact ⟨_, hN, rfl, rfl, rfl, rfl, rfl⟩
    · show ordered _ t1.heap _ = true
      rw [ordered_node_iff hN]
      simp [keysOf, pairsOf, Shape.ids, ordered]
  | node a y b =>
    have hroot : t.root_ = some y := hv.root
    have hfind : findNode t k = .ok none := by
      rcases findNode_spec hw hv ho k with ⟨hf, -⟩ | ⟨p, n, -, hp, hn, he⟩
      · exact hf
      · rw [hk _ (mem_pairsOf hp hn)] at he; exact Bool.noConfusion he
    have hfuel := ids_length_lt_fuel hv
    rw [insert, hroot] at hi
    simp only [hfind, Res.ok_bind, Res.pure_eq, Bool.false_eq_true, if_false] at hi
    obtain ⟨t1, hin, hi⟩ := Res.ok_of_bind hi
    obtain ⟨newNode, hfn, hi⟩ := Res.ok_of_bind hi
    obtain ⟨t2, hsp, hi⟩ := Res.ok_of_bind hi
    have e := (Prod.mk.inj (Res.ok.inj hi)).2
    subst e
    -- the walk down to a hole and the leaf block
    obtain ⟨f, ctx1, L1, R1, hplug, hLR1, hL1, hR1, heq⟩ :=
      insertNode_descend t.fuel t [] a b y k v hw hv.linked (by omega) [] []
        (fun s => by simp [plug])
        (by simpa [pairsOf_eq_entries] using pairwise_pairs hw hv ho)
        (fun kv hkv => by simp at hkv) (fun kv hkv => by simp at hkv)
        (fun kv hkv => hk kv hkv)
    change Shape.node a y b = plug (f :: ctx1) .nil at hplug
    rw [heq] at hin
    have hr1 : rep t.heap none (plug (f :: ctx1) .nil) = true := by
      rw [← hplug]; exact hv.linked
    have hd1 : (plug (f :: ctx1) .nil).ids.Nodup := by
      rw [← hplug]; exact hv.distinct
    obtain ⟨hc1, sF, hvF, hsub, hentry⟩ :=
      attach_block_ok t t1 f ctx1 k v hr1 hd1 (by rw [← hplug]; exact hroot) hin
    have hw1 : StrictWeak t1.less := by rw [less_of_config hc1]; exact hw
    -- the keys of the new tree are in ascending order
    have hids0 : (Shape.node a y b).ids = L1 ++ R1 := by
      rw [hplug, hLR1]; simp [Shape.ids]
    have hidsL : (plug (f :: ctx1) (.node .nil t.heap.length .nil)).ids =
        L1 ++ t.heap.length :: R1 := by
      rw [hLR1]; simp [Shape.ids]
    have hold : ∀ j ∈ L1 ++ R1, j ≠ t.heap.length := fun j hj => by
      have := rep_lt hv.linked j (hids0 ▸ hj); omega
    have hE : ∀ l : List Nat, (∀ j ∈ l, j ∈ L1 ++ R1) →
        l.filterMap (entryAt t1.heap) = l.filterMap (entryAt t.heap) := fun l hl =>
      List.filterMap_congr (fun j hj => by rw [hentry, if_neg (hold j (hl j hj))])
    have hpw0 := pairwise_pairs hw hv ho
    rw [pairsOf_eq_entries, hids0, List.filterMap_append, List.map_append,
      List.pairwise_append] at hpw0
    have hpwL : (((plug (f :: ctx1) (.node .nil t.heap.length .nil)).ids.filterMap
        (entryAt t1.heap)).map Prod.fst).Pairwise (fun x z => t.less x z = true) := by
      rw [hidsL, List.filterMap_append, List.filterMap_cons, hentry, if_pos rfl,
        hE L1 (fun j hj => List.mem_append_left _ hj),
        hE R1 (fun j hj => List.mem_append_right _ hj), List.map_append, List.map_cons,
        List.pairwise_append, List.pairwise_cons]
      refine ⟨hpw0.1, ⟨fun x hx => ?_, hpw0.2.1⟩, fun x hx z hz => ?_⟩
      · obtain ⟨kv, hkv, rfl⟩ := List.mem_map.1 hx
        exact hR1 kv hkv
      · rcases List.mem_cons.1 hz with rfl | hz
        · obtain ⟨kv, hkv, rfl⟩ := List.mem_map.1 hx
          exact hL1 kv hkv
        · exact hpw0.2.2 x hx z hz
    have hpwF : (keysOf t1.heap sF).Pairwise (fun x z => t.less x z = true) :=
      hpwL.sublist ((hsub.filterMap _).map _)
    have hoF : ordered t1.less t1.heap sF = true := by
      rw [less_of_config hc1]
      exact ordered_of_pairwise hvF.linked hpwF
    -- the new node, if it is in the tree, is splayed
    rcases findNode_spec hw1 hvF hoF k with ⟨hf, -⟩ | ⟨p, n, hf, hp, -, -⟩
    · rw [hf] at hfn
      have e := Res.ok.inj hfn
      subst e
      have e2 : t1 = t2 := Res.ok.inj hsp
      subst e2
      exact ⟨sF, hvF, hoF, hc1⟩
    · rw [hf] at hfn
      have e := Res.ok.inj hfn
      subst e
      obtain ⟨t3, s3, g3, hv3, ho3, hc3, -⟩ := splay_ordered hw1 hvF hoF hp
      rw [g3] at hsp
      have e2 : t3 = t2 := Res.ok.inj hsp
      subst e2
      exact ⟨s3, hv3, ho3, hc3.trans hc1⟩


/-- A public call on a valid search tree: a call that returns leaves a valid
search tree with the same configuration. -/
theorem applyOp_ordered {t t' : Tree} {s : Shape} (hw : StrictWeak t.less) (hv : Valid t s)
    (ho : ordered t.less t.heap s = true) (op : Op) (h : applyOp t op = .ok t') :
    ∃ s', Valid t' s' ∧ ordered t'.less t'.heap s' = true ∧ t'.config = t.config := by
  cases op with
  | insert k v =>
    obtain ⟨⟨b, t1⟩, hi, h⟩ := Res.ok_of_bind h
    have e : t1 = t' := Res.ok.inj h
    subst e
    by_cases hk : ∃ kv ∈ pairsOf t.heap s, equiv t.less kv.1 k = true
    · obtain ⟨t2, s2, e2, hv2, ho2, hc2⟩ := insert_present_ordered hw hv ho k v hk
      rw [e2] at hi
      have e3 : t2 = t1 := (Prod.mk.inj (Res.ok.inj hi)).2
      subst e3
      exact ⟨s2, hv2, ho2, hc2⟩
    · refine insert_new_ordered hw hv ho k v (fun kv hkv => ?_) hi
      by_contra hne
      exact hk ⟨kv, hkv, by simpa using hne⟩
  | remove k =>
    obtain ⟨⟨b, t1⟩, hi, h⟩ := Res.ok_of_bind h
    have e : t1 = t' := Res.ok.inj h
    subst e
    obtain ⟨r, t2, s2, e2, hv2, ho2, hc2⟩ := remove_ordered hw hv ho k
    rw [e2] at hi
    have e3 : t2 = t1 := (Prod.mk.inj (Res.ok.inj hi)).2
    subst e3
    exact ⟨s2, hv2, ho2, hc2⟩
  | search k =>
    obtain ⟨⟨b, t1⟩, hi, h⟩ := Res.ok_of_bind h
    have e : t1 = t' := Res.ok.inj h
    subst e
    obtain ⟨r, t2, s2, e2, hv2, ho2, hc2⟩ := search_ordered hw hv ho k
    rw [e2] at hi
    have e3 : t2 = t1 := (Prod.mk.inj (Res.ok.inj hi)).2
    subst e3
    exact ⟨s2, hv2, ho2, hc2⟩

/-- A sequence of public calls on a valid search tree: if every call returns,
the final tree is a valid search tree. -/
theorem run_ordered (ops : List Op) {t t' : Tree} {s : Shape} (hw : StrictWeak t.less)
    (hv : Valid t s) (ho : ordered t.less t.heap s = true) (h : run t ops = .ok t') :
    ∃ s', Valid t' s' ∧ ordered t'.less t'.heap s' = true ∧ t'.config = t.config := by
  induction ops generalizing t s with
  | nil =>
    have e : t = t' := Res.ok.inj h
    subst e
    exact ⟨s, hv, ho, rfl⟩
  | cons op ops ih =>
    rw [run] at h
    obtain ⟨t1, h1, h⟩ := Res.ok_of_bind h
    obtain ⟨s1, hv1, ho1, hc1⟩ := applyOp_ordered hw hv ho op h1
    obtain ⟨s2, hv2, ho2, hc2⟩ :=
      ih (by rw [less_of_config hc1]; exact hw) hv1 ho1 h
    exact ⟨s2, hv2, ho2, hc2.trans hc1⟩

end CBST

/-! ## Claims -/

namespace BT

/-- C1 (BT round trip), evaluated at min degree 2 and the keys 1, 2, 3, 4: the
first three inserts fill the root leaf, and the fourth insert, which has to
split the full root, has no defined result, because `splitChild` reads
`child->keys[mid]` after `child->keys.resize(mid)`. -/
theorem insert_root_split_faults :
    ∃ t, run (BTree.new 2) [.insert 1 10, .insert 2 20, .insert 3 30] = .ok t ∧
      sort t = .ok [(1, 10), (2, 20), (3, 30)] ∧
      insert t 4 40 = .fault :=
  ⟨_, rfl, rfl, rfl⟩

/-- C2 (BT remove result), evaluated on a well-formed tree of min degree 2: key
15 is stored in the middle leaf and found by `search`, yet `remove(15)` returns
false: the descent merges the middle leaf into its left sibling and then
continues in the right sibling. -/
theorem remove_stored_key_returns_false :
    wellFormed threeLeaves = true ∧
      (search threeLeaves 15).toOption.map Prod.fst = some (some 150) ∧
      (remove threeLeaves 15).toOption.map Prod.fst = some false := by
  decide

/-- C3 (BT remove effect), evaluated on spec scenario 2: removing the root key
20 succeeds, but the successor key 30 is written over `keys[idx]` only, so 30
is afterwards paired with the value that belonged to 20. -/
theorem remove_internal_key_keeps_old_value :
    wellFormed successorScenario = true ∧
      sort successorScenario =
        .ok [(10, 100), (20, 200), (30, 300), (40, 400), (50, 500)] ∧
      ∃ t, remove successorScenario 20 = .ok (true, t) ∧
        sort t = .ok [(10, 100), (30, 200), (40, 400), (50, 500)] :=
  ⟨rfl, rfl, _, rfl, rfl⟩

/-- C5 as stated fails: on a well-formed tree of min degree 2, `remove(16)` of
a key that is not stored returns false after merging two leaves, so the keys
of the root and of its children are no longer those before the call. -/
theorem absent_key_removal_restructures :
    wellFormed threeLeaves = true ∧ 16 ∉ threeLeaves.root_.allKeys ∧
      ∃ t, remove threeLeaves 16 = .ok (false, t) ∧
        threeLeaves.root_.keys = [10, 20] ∧ t.root_.keys = [20] ∧
        t.root_.children.length = 2 :=
  ⟨rfl, by decide, _, rfl, rfl, rfl, rfl⟩

/-- C5 as amended: on a well-formed tree with min degree at least 2, `remove` of
a key that is not stored returns false and keeps what the tree stores: `sort()`
returns the same sequence of pairs before and after the call (nodes on the
descent path may have been rebalanced by a borrow or a merge). -/
theorem remove_missing_key (t : BTree) (key : Int) (ht : 2 ≤ t.minDegree_)
    (hwf : wellFormed t = true) (hk : key ∉ t.root_.allKeys) :
    ∃ t1 l, remove t key = .ok (false, t1) ∧ sort t = .ok l ∧ sort t1 = .ok l ∧
      t1.minDegree_ = t.minDegree_ ∧ t1.maxKeys_ = t.maxKeys_ := by
  simp only [wellFormed, Bool.and_eq_true, decide_eq_true_eq] at hwf
  obtain ⟨⟨⟨_, hsh⟩, _⟩, hrb⟩ := hwf
  have hk1 : key ∉ (pairs t.root_).map Prod.fst := by
    intro hin
    obtain ⟨kv, hkv, rfl⟩ := List.mem_map.1 hin
    exact hk (pairs_fst_mem_allKeys _ kv hkv)
  unfold remove
  by_cases hempty : t.root_.keys.length = 0
  · exact ⟨t, pairs t.root_, by simp [hempty], sort_eq_pairs t hsh, sort_eq_pairs t hsh, rfl, rfl⟩
  · simp only [hempty, if_false]
    obtain ⟨hlen, hkids⟩ := (shaped_iff t.root_).1 hsh
    have hroot : t.root_.isLeaf = true ∨
        (0 < t.root_.depth - 1 ∧
          ∀ c ∈ t.root_.children, balanced t.minDegree_ (t.root_.depth - 1 - 1) c = true) := by
      by_cases hleaf : t.root_.isLeaf = true
      · exact Or.inl hleaf
      · right
        simp only [rootBalanced, hleaf, if_false, Bool.false_eq_true, Bool.and_eq_true,
          decide_eq_true_eq, balancedList_iff] at hrb
        simp only [hleaf, if_false, Bool.false_eq_true] at hkids
        have hne : t.root_.children ≠ [] := by
          intro h0
          rw [h0] at hkids
          simp at hkids
        obtain ⟨c, hc⟩ := List.exists_mem_of_ne_nil _ hne
        have := depth_ge_two_of_child hc
        refine ⟨by omega, ?_⟩
        have h2 : t.root_.depth - 1 - 1 = t.root_.depth - 2 := by omega
        rw [h2]
        exact hrb.2.2
    obtain ⟨n1, hrun, hsh1, hp1⟩ := removeFromNode_missing t.minDegree_ key ht t.root_.depth
      (t.root_.depth - 1) t.root_ (by have := depth_pos t.root_; omega) hsh (by omega) hroot hk1
    simp only [hrun, Res.ok_bind]
    by_cases hcol : n1.keys.length = 0 ∧ n1.isLeaf = false
    · obtain ⟨hlen1, hkids1⟩ := (shaped_iff n1).1 hsh1
      simp only [hcol.2, Bool.false_eq_true, if_false, hcol.1] at hkids1
      obtain ⟨c, hc⟩ : ∃ c, n1.children = [c] := List.length_eq_one.1 (by simpa using hkids1.1)
      have hread : Vec.read n1.children 0 = .ok c := by simp [Vec.read, hc]
      have hpc : pairs n1 = pairs c := by
        rw [pairs_eq]
        have hz : n1.keys.zip n1.values = [] := by
          have : n1.keys = [] := List.length_eq_zero.1 hcol.1
          simp [this]
        simp [hcol.2, hc, hz, weave]
      have hsc : shaped c = true := hkids1.2 c (by simp [hc])
      refine ⟨{ t with root_ := c }, pairs t.root_, ?_, sort_eq_pairs t hsh, ?_, rfl, rfl⟩
      · simp only [hcol, and_self, if_true, hread, Res.ok_bind, Res.pure_eq]
      · rw [sort_eq_pairs _ hsc, ← hpc, hp1]
    · refine ⟨{ t with root_ := n1 }, pairs t.root_, ?_, sort_eq_pairs t hsh, ?_, rfl, rfl⟩
      · simp only [hcol, if_false, Res.pure_eq]
      · rw [sort_eq_pairs _ hsh1, hp1]

/-- Witness for C5 as amended: removing the absent key 16 from a well-formed
tree with three leaves. -/
theorem remove_missing_key_witness :
    (2 : Int) ≤ threeLeaves.minDegree_ ∧ wellFormed threeLeaves = true ∧
      (16 : Int) ∉ threeLeaves.root_.allKeys ∧
      ∃ t1 l, remove threeLeaves 16 = .ok (false, t1) ∧ sort threeLeaves = .ok l ∧
        sort t1 = .ok l ∧ t1.minDegree_ = threeLeaves.minDegree_ ∧
        t1.maxKeys_ = threeLeaves.maxKeys_ :=
  ⟨by decide, rfl, by decide, remove_missing_key threeLeaves 16 (by decide) rfl (by decide)⟩

end BT

namespace CBST

/-- C7 (CBST round trip), evaluated at capacity 2 and at capacity 1. Capacity
2, after inserting 1 and 3: `insert(2, 20)` evicts node 1, which is the parent
the new node is then linked under, so the new node is not reachable from the
root and the search that follows returns null. Capacity 1, after inserting 1:
`insert(2, 20)` evicts the root, and `root_` stays null. -/
theorem insert_then_search_misses :
    (∃ t t1, run (Tree.new 2 .NUMERIC) [.insert 1 10, .insert 3 30] = .ok t ∧
      insert t 2 20 = .ok (true, t1) ∧
      (search t1 2).toOption.map Prod.fst = some none) ∧
    (∃ t t1, run (Tree.new 1 .NUMERIC) [.insert 1 10] = .ok t ∧
      insert t 2 20 = .ok (true, t1) ∧
      t1.root_ = none ∧
      (search t1 2).toOption.map Prod.fst = some none) :=
  ⟨⟨_, _, rfl, rfl, rfl⟩, ⟨_, _, rfl, rfl, rfl, rfl⟩⟩

/-- C8 (CBST eviction), evaluated on spec scenario 4 (capacity 3, keys 1, 2, 3,
4): key 1 is evicted and the other keys are found, but `size()` is 2, not 3:
the eviction decrements `currentSize_` and the new node is not counted. -/
theorem eviction_scenario_size :
    ∃ t, run (Tree.new 3 .NUMERIC)
        [.insert 1 10, .insert 2 20, .insert 3 30, .insert 4 40] = .ok t ∧
      size t = 2 ∧
      sort t .ASCENDING .NUMERIC = .ok [(2, 20), (3, 30), (4, 40)] ∧
      (search t 1).toOption.map Prod.fst = some none ∧
      (search t 4).toOption.map Prod.fst = some (some 40) :=
  ⟨_, rfl, rfl, rfl, rfl, rfl⟩

/-- C9 (CBST capacity), evaluated at capacity 2: after inserting 1, 2, 3 the
count is 1 with two nodes in the tree; removing both wraps `currentSize_`
below zero, and `size()` reports `2 ^ 64 - 1`. -/
theorem size_exceeds_capacity :
    ∃ t, run (Tree.new 2 .NUMERIC)
        [.insert 1 10, .insert 2 20, .insert 3 30, .remove 2, .remove 3] = .ok t ∧
      getBufferSize t = 2 ∧ size t = 2 ^ 64 - 1 ∧ ¬ size t ≤ getBufferSize t :=
  ⟨_, rfl, rfl, rfl, by decide⟩

/-- C10 (CBST resident bound), evaluated at capacity 2: after insert 1, insert
2, remove 2, insert 3, insert 4 three nodes are reachable from the root. The
insert of 3 reuses slot 0 while node 1 still occupies it, and the insert of 4
finds slot 1 empty, so nothing is evicted. -/
theorem reachable_exceeds_capacity :
    ∃ t, run (Tree.new 2 .NUMERIC)
        [.insert 1 10, .insert 2 20, .remove 2, .insert 3 30, .insert 4 40] = .ok t ∧
      getBufferSize t = 2 ∧
      sort t .ASCENDING .NUMERIC = .ok [(1, 10), (3, 30), (4, 40)] :=
  ⟨_, rfl, rfl, rfl⟩

/-- C11 (CBST size), evaluated at capacity 2: after inserting 1, 2, 3 the
enumeration returns two pairs, and `size()` is 1. The eviction decrements the
count, and the node that takes the slot is not counted. -/
theorem size_differs_from_enumeration :
    ∃ t, run (Tree.new 2 .NUMERIC) [.insert 1 10, .insert 2 20, .insert 3 30] = .ok t ∧
      sort t .ASCENDING .NUMERIC = .ok [(2, 20), (3, 30)] ∧ size t = 1 :=
  ⟨_, rfl, rfl, rfl⟩

/-- C12 (CBST splay-root), evaluated at capacity 2: after inserting 1 and 3,
`insert(2, 20)` returns true and the root key is 3, not 2: the new node was
linked under the node evicted for it. In the scenario of the claim (capacity 8,
insert 5, 2, 8, 1, 9, search 1) the root key is 1. -/
theorem insert_leaves_other_root :
    (∃ t t1, run (Tree.new 2 .NUMERIC) [.insert 1 10, .insert 3 30] = .ok t ∧
      insert t 2 20 = .ok (true, t1) ∧ rootKey t1 = some 3) ∧
    (∃ t, run (Tree.new 8 .NUMERIC)
        [.insert 5 50, .insert 2 20, .insert 8 80, .insert 1 10, .insert 9 90, .search 1]
          = .ok t ∧ rootKey t = some 1) :=
  ⟨⟨_, _, rfl, rfl, rfl⟩, ⟨_, rfl, rfl⟩⟩

/-- C13 (CBST overwrite): in every tree that satisfies the representation
invariant, for every key that the lookup under the default sort mode finds,
`insert` returns false, creates no node and touches neither the buffer nor
the count; the enumeration has the same keys before and after, and `search`
then returns the new value. -/
theorem overwrite_keeps_tree (t : Tree) (s : Shape) (k v : Int) (hv : Valid t s)
    (hk : holds t k = true) :
    ∃ t' s', insert t k v = .ok (false, t') ∧ Valid t' s' ∧
      t'.heap.length = t.heap.length ∧ t'.circularBuffer_ = t.circularBuffer_ ∧
      t'.nextIndex_ = t.nextIndex_ ∧ size t' = size t ∧
      (∀ m, ∃ l l', sort t .ASCENDING m = .ok l ∧ sort t' .ASCENDING m = .ok l' ∧
        l'.map Prod.fst = l.map Prod.fst) ∧
      (search t' k).toOption.map Prod.fst = some (some v) := by
  obtain ⟨t', s', h1, h2, h3, h4, h5, h6, h7, h8⟩ := insert_overwrite_spec t s k v hv hk
  exact ⟨t', s', h1, h2, h3, h4, h5, h6,
    fun m => ⟨_, _, sort_asc hv m, sort_asc h2 m, h7⟩, h8⟩

/-- Witness for C13: overwriting key 5 in the tree of spec scenario 3. -/
theorem overwrite_keeps_tree_witness :
    run (Tree.new 8 .NUMERIC)
        [.insert 5 50, .insert 2 20, .insert 8 80, .insert 1 10, .insert 9 90, .search 1]
      = .ok scenario3 ∧
    Valid scenario3 scenario3Shape ∧ holds scenario3 5 = true ∧
    ∃ t' s', insert scenario3 5 55 = .ok (false, t') ∧ Valid t' s' ∧
      t'.heap.length = scenario3.heap.length ∧
      t'.circularBuffer_ = scenario3.circularBuffer_ ∧
      t'.nextIndex_ = scenario3.nextIndex_ ∧ size t' = size scenario3 ∧
      (∀ m, ∃ l l', sort scenario3 .ASCENDING m = .ok l ∧ sort t' .ASCENDING m = .ok l' ∧
        l'.map Prod.fst = l.map Prod.fst) ∧
      (search t' 5).toOption.map Prod.fst = some (some 55) :=
  ⟨rfl, ⟨rfl, rfl, by decide⟩, rfl,
    overwrite_keeps_tree scenario3 scenario3Shape 5 55 ⟨rfl, rfl, by decide⟩ rfl⟩

/-- C14 (CBST remove): for every tree reached from the empty tree of capacity
`C` by calls of `insert`, `remove` and `search` while at most `C` nodes have
been allocated (`heap` holds every node allocated so far), so that no node has
been evicted, and for every key `k`, with `l` the stored pairs as `sort`
enumerates them: `remove(k)` returns false and leaves the state unchanged when
no stored key equals `k`; when one does, it returns true, `size()` decreases by
exactly 1, `search(k)` returns null afterwards and every other stored key is
still found with its own value. -/
theorem remove_contract (C : Nat) (mode : SortMode) (ops : List Op) (t : Tree) (k : Int)
    (hcap : C < sizeModulus) (hrun : run (Tree.new C mode) ops = .ok t)
    (hno : t.heap.length ≤ C) :
    ∃ l, sort t .ASCENDING mode = .ok l ∧
      ((∀ kv ∈ l, compareEqual t kv.1 k t.defaultSortMode_ = false) →
        remove t k = .ok (false, t)) ∧
      ((∃ kv ∈ l, compareEqual t kv.1 k t.defaultSortMode_ = true) →
        ∃ t', remove t k = .ok (true, t') ∧ size t' + 1 = size t ∧
          search t' k = .ok (none, t') ∧
          ∀ kv ∈ l, compareEqual t kv.1 k t.defaultSortMode_ = false →
            ∃ t'', search t' kv.1 = .ok (some kv.2, t'')) := by
  obtain ⟨s, hs, -⟩ := sound_of_run ops (sound_new C mode) hcap hrun hno
  have hlt : size t < sizeModulus := by
    have := size_le_heap hs
    simp only [size]
    omega
  obtain ⟨h1, h2⟩ := remove_spec hs.strict hs.valid hs.sorted hs.counted hlt k
  refine ⟨pairsOf t.heap s, sort_asc hs.valid mode, h1, fun hex => ?_⟩
  obtain ⟨t', s', e, hv', hlay, ho', -, hdec, hgone, hkept⟩ := h2 hex
  have hless := less_of_layout hlay
  have hw' : StrictWeak t'.less := by rw [hless]; exact hs.strict
  refine ⟨t', e, hdec, ?_, fun kv hkv hne => ?_⟩
  · refine (search_spec hw' hv' ho' k).1 (fun kv hkv => ?_)
    rw [hless]; exact hgone kv hkv
  · exact (search_spec hw' hv' ho' kv.1).2 kv (hkept kv hkv hne) (equiv_self hw' kv.1)

/-- Witness for C14: removing the key 8, which has two children, from the tree
of spec scenario 3. -/
theorem remove_contract_witness :
    8 < sizeModulus ∧
    run (Tree.new 8 .NUMERIC)
        [.insert 5 50, .insert 2 20, .insert 8 80, .insert 1 10, .insert 9 90, .search 1]
      = .ok scenario3 ∧
    scenario3.heap.length ≤ 8 ∧
    sort scenario3 .ASCENDING .NUMERIC = .ok [(1, 10), (2, 20), (5, 50), (8, 80), (9, 90)] ∧
    ∃ l, sort scenario3 .ASCENDING .NUMERIC = .ok l ∧
      ((∀ kv ∈ l, compareEqual scenario3 kv.1 8 scenario3.defaultSortMode_ = false) →
        remove scenario3 8 = .ok (false, scenario3)) ∧
      ((∃ kv ∈ l, compareEqual scenario3 kv.1 8 scenario3.defaultSortMode_ = true) →
        ∃ t', remove scenario3 8 = .ok (true, t') ∧ size t' + 1 = size scenario3 ∧
          search t' 8 = .ok (none, t') ∧
          ∀ kv ∈ l, compareEqual scenario3 kv.1 8 scenario3.defaultSortMode_ = false →
            ∃ t'', search t' kv.1 = .ok (some kv.2, t'')) :=
  ⟨by decide, rfl, by decide, rfl,
    remove_contract 8 .NUMERIC
      [.insert 5 50, .insert 2 20, .insert 8 80, .insert 1 10, .insert 9 90, .search 1]
      scenario3 8 (by decide) rfl (by decide)⟩

end CBST

namespace NST

/-- C16 (NST round trip), evaluated with the default branching (2, 16): after
the inserts of the distinct keys 2, 1, 3, 4 have returned, the insert of the
fifth distinct key 5 does not return: its `findNode` descends from the root
round a cycle of child links, whatever the number of steps allowed, so no
`search` can follow it. -/
theorem fifth_insert_does_not_return :
    run 8 (Tree.new 2 16) [.insert 2 20, .insert 1 10, .insert 3 30, .insert 4 40]
      = .ok afterFour ∧
    (∀ n, findNodeRecursive n afterFour afterFour.root_ 5 = .outOfFuel) ∧
    ∀ fuel, insert fuel afterFour 5 50 = .outOfFuel := by
  refine ⟨rfl, fun n => ?_, fun _ => rfl⟩
  cases n with
  | zero => rfl
  | succ n =>
    exact (show findNodeRecursive (n + 1) afterFour (some 3) 5 =
      findNodeRecursive n afterFour (some 2) 5 from rfl).trans (findNodeRecursive_cycle n).1

/-- C17 (NST duplicate insert), evaluated with the default branching (2, 16):
after inserting 1, 2, 3, `insert(2, 99)` returns false and `search(2)` then
returns 99, but `size()` is 4 before the call and 6 after it. -/
theorem duplicate_insert_changes_size :
    ∃ t t1 : Tree Int, run 8 (Tree.new 2 16)
        [.insert 1 10, .insert 2 20, .insert 3 30] = .ok t ∧
      insert 8 t 2 99 = .ok (false, t1) ∧
      size t = .ok 4 ∧ size t1 = .ok 6 ∧
      (search 8 t1 2).toOption.map Prod.fst = some (some 99) :=
  ⟨_, _, rfl, rfl, rfl, rfl, rfl⟩

/-- C18 (NST size), evaluated with the default branching (2, 16): after
inserting the distinct keys 1, 2 `size()` is 2, and after inserting 3 it is 4,
not 3. -/
theorem three_inserts_size_four :
    ∃ t t1 : Tree Int, run 8 (Tree.new 2 16) [.insert 1 10, .insert 2 20] = .ok t ∧
      size t = .ok 2 ∧ insert 8 t 3 30 = .ok (true, t1) ∧ size t1 = .ok 4 :=
  ⟨_, _, rfl, rfl, rfl, rfl⟩

/-- C19 (NST enumeration), evaluated with the default branching (2, 16): after
inserting 1 and 2, `inOrderTraversal()` returns the pair of key 1 only; after
inserting 3 as well, it returns the pair of key 2 twice and that of key 1 not
at all. -/
theorem traversal_omits_and_repeats :
    (∃ t : Tree Int, run 8 (Tree.new 2 16) [.insert 1 10, .insert 2 20] = .ok t ∧
      inOrderTraversal t = .ok [(1, 10)]) ∧
    (∃ t : Tree Int, run 8 (Tree.new 2 16)
        [.insert 1 10, .insert 2 20, .insert 3 30] = .ok t ∧
      inOrderTraversal t = .ok [(2, 20), (3, 30), (2, 20)]) :=
  ⟨⟨_, rfl, rfl⟩, ⟨_, rfl, rfl⟩⟩

/-- C20 (NST remove), evaluated with the default branching (2, 16): after
inserting 1, 2, 3 the key 2 is stored (`search(2)` returns 20), and `remove(2)`
does not return: after the splay of its node, the successor walk of
`removeNode` goes round a cycle of child links, whatever the number of steps
allowed. -/
theorem remove_does_not_return :
    ∃ t : Tree Int, run 8 (Tree.new 2 16) [.insert 1 10, .insert 2 20, .insert 3 30] = .ok t ∧
      (search 8 t 2).toOption.map Prod.fst = some (some 20) ∧
      splay 8 t (some 1) = .ok splayedTwo ∧
      (∀ n, firstLeaf n splayedTwo 0 = .outOfFuel) ∧
      ∀ fuel, remove fuel t 2 = .outOfFuel := by
  refine ⟨_, rfl, rfl, rfl, fun n => (firstLeaf_cycle n).1, fun fuel => ?_⟩
  match fuel with
  | 0 => rfl
  | 1 => rfl
  | n + 2 => rfl

end NST

namespace NST

end NST

namespace NST

/-- C22 (NST block lookup), evaluated with the default branching (2, 16): after
`insertBlock` of four blocks with the distinct checksums (2, 0), (1, 0), (3, 0),
(4, 0) has returned, `findMatchingBlocks` with the checksum (5, 0), which no
block has, does not return the empty list: its `findNode` descends from the
root round a cycle of child links, whatever the number of steps allowed. A
block that was inserted is still found. -/
theorem block_lookup_does_not_return :
    (do let t1 ← insertBlock 8 (Tree.new 2 16) (sampleBlock 2 187 0)
        let t2 ← insertBlock 8 t1 (sampleBlock 1 170 1)
        let t3 ← insertBlock 8 t2 (sampleBlock 3 204 2)
        insertBlock 8 t3 (sampleBlock 4 221 3)) = .ok blocksFour ∧
    findMatchingBlocks blocksFour (RollingChecksum.new 1 0) 170 = .ok [sampleBlock 1 170 1] ∧
    (∀ n, findNodeRecursive n blocksFour blocksFour.root_ (RollingChecksum.new 5 0).key
      = .outOfFuel) ∧
    ∀ h, findMatchingBlocks blocksFour (RollingChecksum.new 5 0) h = .outOfFuel := by
  refine ⟨rfl, rfl, fun n => ?_, fun _ => rfl⟩
  cases n with
  | zero => rfl
  | succ n =>
    exact (show findNodeRecursive (n + 1) blocksFour (some 3) 5 =
      findNodeRecursive n blocksFour (some 2) 5 from rfl).trans
        (findNodeRecursive_blocks_cycle n).1

/-- C23 (rolling checksum): the constructor `RollingChecksum(a, b)` stores the
composite `(b << 16) | a` of its halves, for all `a` and `b`, but the
constructor `RollingChecksum()` stores the halves `a = 1`, `b = 0` and the
value 0, while the composite of these halves is 1. The comparison operators
read the stored value: the default checksum is less than `RollingChecksum(1, 0)`
and not equal to it, although both have the same halves and hence the same
composite, and it is equal to `RollingChecksum(0, 0)`, whose composite
differs. -/
theorem default_checksum_value_not_composite :
    (∀ a b, (RollingChecksum.new a b).value = (RollingChecksum.new a b).composite) ∧
    RollingChecksum.default.value = 0 ∧ RollingChecksum.default.composite = 1 ∧
    RollingChecksum.default.composite = (RollingChecksum.new 1 0).composite ∧
    RollingChecksum.eq RollingChecksum.default (RollingChecksum.new 1 0) = false ∧
    RollingChecksum.lt RollingChecksum.default (RollingChecksum.new 1 0) = true ∧
    RollingChecksum.default.composite ≠ (RollingChecksum.new 0 0).composite ∧
    RollingChecksum.eq RollingChecksum.default (RollingChecksum.new 0 0) = true :=
  ⟨fun _ _ => rfl, rfl, rfl, rfl, rfl, rfl, by decide, rfl⟩

/-- C28 (NST unique keys), evaluated with the default branching (2, 16): after
the inserts of the four distinct keys 1, 2, 3, 4 into an empty tree, ten nodes
are reachable from the root, not four: `splitNode` has made six copies, so the
key 2 is held by four reachable nodes and the key 4 by four, among them the
root and one of its children. (The sorts of this run meet equal keys among at
most five children.) -/
theorem four_inserts_ten_nodes :
    ∃ t : Tree Int, run 8 (Tree.new 2 16)
        [.insert 1 10, .insert 2 20, .insert 3 30, .insert 4 40] = .ok t ∧
      reachable t = [3, 0, 1, 4, 2, 8, 6, 5, 7, 9] ∧
      keysAt t (reachable t) = [4, 1, 2, 2, 3, 2, 2, 4, 4, 4] ∧
      rootKey t = some 4 ∧ keysAt t [9] = [4] ∧
      (t.heap[3]?).map (fun n => n.children) = some [0, 1, 4, 8, 9] :=
  ⟨_, rfl, rfl, rfl, rfl, rfl, rfl⟩

/-- C29 (NST children sorted), evaluated with branching 3 to 16: after the
inserts of 1, 2, 3 and `search(1)`, the children of the root (key 1) are the
node of key 2 twice and the node of key 3, so their keys 2, 2, 3 are not
strictly ascending. No sort of this run meets equal keys of two nodes. -/
theorem children_repeat_after_search :
    ∃ t : Tree Int, run 8 (Tree.new 3 16)
        [.insert 1 10, .insert 2 20, .insert 3 30, .search 1] = .ok t ∧
      t.root_ = some 0 ∧ (t.heap[0]?).map (fun n => n.children) = some [1, 1, 2] ∧
      keysAt t [1, 1, 2] = [2, 2, 3] ∧ strictlyAscending [2, 2, 3] = false :=
  ⟨_, rfl, rfl, rfl, rfl, rfl⟩

/-- C30 (NST fan-out), evaluated with branching 3 to 16: after the inserts of
1, 2, 3, 4, `remove(1)` and `insert(3, 30)`, the node 6 (key 2), a child of the
root, has four children and `maxChildren = 3`. (The sorts of this run meet
equal keys among at most six children.) -/
theorem fan_out_exceeds_max_children :
    ∃ t : Tree Int, run 8 (Tree.new 3 16)
        [.insert 1 10, .insert 2 20, .insert 3 30, .insert 4 40, .remove 1, .insert 3 30]
          = .ok t ∧
      t.root_ = some 4 ∧ (t.heap[4]?).map (fun n => n.children) = some [5, 7, 0, 6, 2, 3] ∧
      (t.heap[6]?).map (fun n => (n.children, n.maxChildren)) = some ([5, 7, 0, 2], 3) ∧
      reachable t = [4, 5, 7, 6, 0, 2, 3, 1] :=
  ⟨_, rfl, rfl, rfl, rfl, rfl⟩

end NST

namespace BT

end BT

namespace BT

/-- C31 (BT min-degree clamping): `setMinDegree(d)` leaves `getMinDegree()` at
`max(d, 2)` and the key capacity at `2 * max(d, 2) - 1` for every `d`, but the
constructor stores its argument as it is: a tree constructed with min degree 1
reports 1 and has capacity 1, and one constructed with 0 reports 0 and has
capacity -1. -/
theorem constructor_does_not_clamp :
    (∀ (t : BTree) (d : Int), getMinDegree (setMinDegree t d) = max d 2 ∧
      (setMinDegree t d).maxKeys_ = 2 * max d 2 - 1) ∧
    getMinDegree (BTree.new 1) = 1 ∧ (BTree.new 1).maxKeys_ = 1 ∧ max (1 : Int) 2 = 2 ∧
    getMinDegree (BTree.new 0) = 0 ∧ (BTree.new 0).maxKeys_ = -1 := by
  refine ⟨fun t d => ?_, rfl, rfl, rfl, rfl, rfl⟩
  simp only [getMinDegree, setMinDegree]
  by_cases h : d < 2
  · rw [if_pos h, max_eq_right (by omega)]
    exact ⟨rfl, rfl⟩
  · rw [if_neg h, max_eq_left (by omega)]
    exact ⟨rfl, rfl⟩

/-- C33 (BT split_child postcondition): `splitChild` has no result for any min
degree, parent and index, so it leaves no halves and lifts no median. In the
scenario of the claim (min degree 2, keys 10, 20, 30, 40) the first three
inserts fill the root leaf and the fourth, which calls `splitChild` on the
full root, has no result. -/
theorem split_child_has_no_result :
    (∀ (t : Int) (parent : Node) (i : Nat) (r : Node), splitChild t parent i ≠ .ok r) ∧
    ∃ T, run (BTree.new 2) [.insert 10 100, .insert 20 200, .insert 30 300] = .ok T ∧
      T.root_.keys = [10, 20, 30] ∧ T.root_.isLeaf = true ∧
      splitChild 2 (.mk [] [] [T.root_] false 0) 0 = .fault ∧
      insert T 40 400 = .fault := by
  refine ⟨fun t parent i r h => ?_, _, rfl, rfl, rfl, rfl, rfl⟩
  rw [splitChild_fault] at h
  exact Res.noConfusion h

/-- C34 (BT split_child bounds): after `resize(mid)` a vector has exactly `mid`
elements, so the read of element `mid` and the erase at position `mid` that
`splitChild` makes next are at an index equal to the size, not inside it. For
min degree 2 and a child with the keys 10, 20, 30: `mid` is 1, the keys are
cut to `[10]`, the read of `keys[1]` faults, and so does `splitChild`. -/
theorem split_child_reads_past_end :
    (∀ (keys : List Int) (mid : Nat), (Vec.resize keys mid 0).length = mid ∧
      Vec.read (Vec.resize keys mid 0) mid = .fault ∧
      Vec.erase (Vec.resize keys mid 0) mid = .fault) ∧
    Vec.resize [10, 20, 30] 1 (0 : Int) = [10] ∧ Vec.read [(10 : Int)] 1 = .fault ∧
    splitChild 2 (.mk [] [] [leaf [10, 20, 30] [100, 200, 300]] false 0) 0 = .fault := by
  refine ⟨fun keys mid => ⟨Vec.length_resize _ _ _,
    Vec.read_length_fault _ _ (Vec.length_resize _ _ _), ?_⟩, rfl, rfl, rfl⟩
  simp [Vec.erase, Vec.length_resize]

/-- C35 (BT search keeps the structure): on every tree whose nodes have as many
values as keys and, when internal, one child more than keys, `search` returns,
and the tree it leaves has the same keys, values, children and leaf flags in
every node (only access counters differ), so `sort()`, `size()` and
`height()` return what they returned before, and the parameters are kept. -/
theorem search_keeps_structure (t : BTree) (key : Int) (hs : shaped t.root_ = true) :
    ∃ r t1, search t key = .ok (r, t1) ∧ t1.root_.shape = t.root_.shape ∧
      sort t1 = sort t ∧ size t1 = size t ∧ height t1 = height t ∧
      t1.minDegree_ = t.minDegree_ ∧ t1.maxKeys_ = t.maxKeys_ := by
  obtain ⟨t1, hrun, hshape, hd, hm⟩ := search_eq_lookup t key hs
  exact ⟨_, t1, hrun, hshape, sort_eq_of_shape hshape, size_eq_of_shape hshape,
    height_eq_of_shape hshape, hd, hm⟩

/-- Witness for C35: the tree with root `[10, 20]` over three leaves and the
key 15. -/
theorem search_keeps_structure_witness :
    shaped threeLeaves.root_ = true ∧
      ∃ r t1, search threeLeaves 15 = .ok (r, t1) ∧ t1.root_.shape = threeLeaves.root_.shape ∧
        sort t1 = sort threeLeaves ∧ size t1 = size threeLeaves ∧
        height t1 = height threeLeaves ∧
        t1.minDegree_ = threeLeaves.minDegree_ ∧ t1.maxKeys_ = threeLeaves.maxKeys_ :=
  ⟨rfl, search_keeps_structure threeLeaves 15 rfl⟩

/-- C40 (mutex discipline): the public `insert` of the B-tree locks the tree
mutex and then calls the public `search`, which locks it again: with the mutex
free at the call, `insert` never gets past that second lock, whatever the tree,
key and value. A `search` on its own takes the lock once and releases it. The
public `averageDepth` of the n-ary splay tree calls the public `size` in the
same way. -/
theorem insert_locks_twice :
    (∀ (t : BTree) (key value : Int), lockedInsert ⟨false⟩ t key value = .fault) ∧
    (∀ (t : BTree) (key : Int), lockedSearch ⟨true⟩ t key = .fault) ∧
    (∃ r, lockedSearch ⟨false⟩ (BTree.new 2) 1 = .ok (r, ⟨false⟩)) ∧
    (∀ (fuel : Nat) (t : NST.Tree Int), NST.lockedAverageDepth fuel ⟨false⟩ t = .fault) :=
  ⟨fun _ _ _ => rfl, fun _ _ => rfl, ⟨_, rfl⟩, fun _ _ => rfl⟩

end BT

namespace CBST

/-- C36 (CBST subtree sizes), evaluated at capacity 3: after the inserts of 1,
2, 3, 4 the tree holds the keys 2, 3, 4 in three nodes linked root 4, left
child 3, left child 2, but the node of key 2 has no children and
`subtreeSize = 2`, the node of key 3 has 3 and the root has 4. (In the scenario
of the claim, without eviction, the root ends with subtree size 5.) -/
theorem subtree_size_stale_after_eviction :
    (∃ t, run (Tree.new 3 .NUMERIC)
        [.insert 1 10, .insert 2 20, .insert 3 30, .insert 4 40] = .ok t ∧
      sort t .ASCENDING .NUMERIC = .ok [(2, 20), (3, 30), (4, 40)] ∧ t.root_ = some 3 ∧
      (t.heap[3]?).map (fun n => (n.key, n.left, n.right, n.subtreeSize))
        = some (4, some 2, none, 4) ∧
      (t.heap[2]?).map (fun n => (n.key, n.left, n.right, n.subtreeSize))
        = some (3, some 1, none, 3) ∧
      (t.heap[1]?).map (fun n => (n.key, n.left, n.right, n.subtreeSize))
        = some (2, none, none, 2)) ∧
    ∃ t, run (Tree.new 8 .NUMERIC) [.insert 5 50, .insert 2 20, .insert 8 80, .insert 1 10,
        .insert 9 90, .search 1] = .ok t ∧ t.root_ = some 3 ∧
      (t.heap[3]?).map (fun n => (n.key, n.subtreeSize)) = some (1, 5) :=
  ⟨⟨_, rfl, rfl, rfl, rfl, rfl, rfl⟩, ⟨_, rfl, rfl, rfl⟩⟩

/-- C37 (CBST slot ownership), evaluated at capacity 2: after the inserts of 1,
2, 3, 4 the tree holds the keys 2, 3, 4 in the nodes 1, 2, 3, linked root 3,
left child 2, left child 1. The node 1 has `bufferIndex = 1`, but slot 1 of the
circular buffer holds the node 3, whose `bufferIndex` is 1 as well. -/
theorem reachable_node_without_slot :
    ∃ t, run (Tree.new 2 .NUMERIC)
        [.insert 1 10, .insert 2 20, .insert 3 30, .insert 4 40] = .ok t ∧
      sort t .ASCENDING .NUMERIC = .ok [(2, 20), (3, 30), (4, 40)] ∧ t.root_ = some 3 ∧
      t.circularBuffer_ = [some 2, some 3] ∧
      (t.heap[3]?).map (fun n => (n.key, n.left, n.bufferIndex)) = some (4, some 2, 1) ∧
      (t.heap[2]?).map (fun n => (n.key, n.left, n.bufferIndex)) = some (3, some 1, 0) ∧
      (t.heap[1]?).map (fun n => (n.key, n.left, n.bufferIndex)) = some (2, none, 1) :=
  ⟨_, rfl, rfl, rfl, rfl, rfl, rfl, rfl⟩

end CBST

namespace NST

/-- C39 (NST termination), evaluated with the default branching (2, 16). After
the inserts of 1, 2, 3, `remove(2)` does not terminate: once its node is
splayed, the successor walk of `removeNode` goes round a cycle of child links
and reaches no childless node, whatever the number of steps. After the inserts
of 2, 1, 3, 4, `search(5)` and `remove(5)` do not terminate: the descent of
`findNodeRecursive` goes round a cycle of child links. -/
theorem walks_do_not_terminate :
    (∃ t : Tree Int, run 8 (Tree.new 2 16) [.insert 1 10, .insert 2 20, .insert 3 30] = .ok t ∧
      splay 8 t (some 1) = .ok splayedTwo ∧
      (∀ n, firstLeaf n splayedTwo 0 = .outOfFuel ∧ firstLeaf n splayedTwo 1 = .outOfFuel) ∧
      ∀ fuel, remove fuel t 2 = .outOfFuel) ∧
    run 8 (Tree.new 2 16) [.insert 2 20, .insert 1 10, .insert 3 30, .insert 4 40]
      = .ok afterFour ∧
    (∀ n, findNodeRecursive n afterFour (some 2) 5 = .outOfFuel ∧
      findNodeRecursive n afterFour (some 0) 5 = .outOfFuel ∧
      findNodeRecursive n afterFour (some 1) 5 = .outOfFuel) ∧
    (∀ fuel, search fuel afterFour 5 = .outOfFuel) ∧
    ∀ fuel, remove fuel afterFour 5 = .outOfFuel := by
  refine ⟨⟨_, rfl, rfl, firstLeaf_cycle, fun fuel => ?_⟩, rfl, findNodeRecursive_cycle,
    fun _ => rfl, fun _ => rfl⟩
  match fuel with
  | 0 => rfl
  | 1 => rfl
  | n + 2 => rfl

end NST

namespace BT

/-- C32 (BT snapshot fidelity): on every tree whose nodes have as many values as
keys and, when internal, one child more than keys (leaves none),
`getSnapshot()` returns the nodes in depth-first preorder, root at index 0 and
children left to right, each entry with the keys and values of its node and
with the indices of the children of the node in their order; there is one edge
less than there are nodes, and the edges are exactly the pairs of an index and
one of the child indices of its entry. -/
theorem snapshot_fidelity (t : BTree) (hs : shaped t.root_ = true) :
    ∃ s, getSnapshot t = .ok s ∧ s.nodes = preorderInfos 0 t.root_ ∧
      s.nodes.length = nodeCount t.root_ ∧ s.edges.length + 1 = s.nodes.length ∧
      ∀ i c, (i, c) ∈ s.edges ↔ ∃ info, s.nodes[i]? = some info ∧ c ∈ info.childIndices := by
  refine ⟨_, getSnapshot_eq t hs, rfl, length_preorderInfos _ _, ?_, fun i c => ?_⟩
  · show (links 0 t.root_).length + 1 = (preorderInfos 0 t.root_).length
    rw [length_links, length_preorderInfos]
  · show (i, c) ∈ links 0 t.root_ ↔
      ∃ info, (preorderInfos 0 t.root_)[i]? = some info ∧ c ∈ info.childIndices
    rw [mem_links]
    simp

/-- Witness for C32: the tree with root `[10, 20]` over three leaves. -/
theorem snapshot_fidelity_witness :
    shaped threeLeaves.root_ = true ∧
      ∃ s, getSnapshot threeLeaves = .ok s ∧ s.nodes = preorderInfos 0 threeLeaves.root_ ∧
        s.nodes.length = nodeCount threeLeaves.root_ ∧ s.edges.length + 1 = s.nodes.length ∧
        ∀ i c, (i, c) ∈ s.edges ↔
          ∃ info, s.nodes[i]? = some info ∧ c ∈ info.childIndices :=
  ⟨rfl, snapshot_fidelity threeLeaves rfl⟩

end BT

namespace CBST

/-- C27 (CBST search-tree invariant): every tree reached from the empty tree of
any capacity and sort mode by a sequence of `insert`, `remove` and `search`
calls, evictions included, is a search tree under the default comparator: the
nodes linked under the root form a binary tree `s` with consistent links
(`Valid`), and at every node of it every key of the left subtree is less than
the key of the node and every key of the right subtree is greater
(`ordered`). -/
theorem search_tree_order_of_reachable (C : Nat) (mode : SortMode) (ops : List Op) (t : Tree)
    (hrun : run (Tree.new C mode) ops = .ok t) :
    ∃ s, Valid t s ∧ ordered t.less t.heap s = true := by
  obtain ⟨s, hv, ho, -⟩ := run_ordered ops (strictWeak_new C mode) (sound_new C mode).valid
    (sound_new C mode).sorted hrun
  exact ⟨s, hv, ho⟩

/-- Witness for C27: capacity 2 and the inserts of 1, 2, 3, 4, two of which
evict a node; the tree reached holds the keys 2, 3, 4. -/
theorem search_tree_order_of_reachable_witness :
    ∃ t, run (Tree.new 2 .NUMERIC)
        [.insert 1 10, .insert 2 20, .insert 3 30, .insert 4 40] = .ok t ∧
      sort t .ASCENDING .NUMERIC = .ok [(2, 20), (3, 30), (4, 40)] ∧
      ∃ s, Valid t s ∧ ordered t.less t.heap s = true :=
  ⟨_, rfl, rfl, search_tree_order_of_reachable 2 .NUMERIC
    [.insert 1 10, .insert 2 20, .insert 3 30, .insert 4 40] _ rfl⟩

end CBST
